import Mathlib

/-!
# Newton expression parser: dimensional analysis and constant folding

A shallow embedding of `newton/newton-parser-expression.c`.

* Numeric values (`double` in the source) are exact rationals.
* Prime products are unbounded naturals.
* The parser state `N` is the list of remaining tokens together with the
  running parameter counter; every parse function returns either an error or
  the produced node with the state after it.
* The mutually recursive descent and the `while` loops recurse on a fuel
  argument; `Err.outOfFuel` is produced only by the embedding, never by the
  program.
-/

namespace Newton

/-! ## Data model -/

/-- Node and token kinds (`kNewtonIrNodeType_*`), restricted to the ones the expression parser names. -/
inductive IrNodeType where
  | Tidentifier | Tnumber | TleftParen | TrightParen
  | Tplus | Tminus | Tmul | Tdiv | Texponent
  | Tcomma | Tdot | Tcross | Tintegral | Tderivative
  | Tlt | Tle | Tge | Tgt | Tproportionality | Tequivalent
  | PquantityExpression | PquantityTerm | PquantityFactor
  | PlowPrecedenceBinaryOp | PmidPrecedenceBinaryOp | PhighPrecedenceBinaryOp
  | PunaryOp | PvectorOp | PtimeOp | Pinteger
  | Zeof
  deriving DecidableEq, Repr

/-- A base dimension: an opaque key with its assigned prime number. -/
structure Dimension where
  name : String
  primeNumber : Nat
  deriving DecidableEq, Repr

/-- The `Physics` record attached to nodes that denote physical quantities. -/
structure Physics where
  numeratorDimensions : List Dimension
  denominatorDimensions : List Dimension
  numeratorPrimeProduct : Nat
  denominatorPrimeProduct : Nat
  numberOfNumerators : Nat
  numberOfDenominators : Nat
  isVector : Bool
  isConstant : Bool
  value : ℚ
  deriving DecidableEq

/-- A lexer token: its kind, the identifier text (identifiers only) and the literal value (numbers only). -/
structure Token where
  type : IrNodeType
  identifier : Option String
  value : ℚ
  deriving DecidableEq

/-- An AST node. `children` is the ordered list of attached child nodes. `value` is the
C `double` field, held as the rational number it denotes, and the arithmetic on it is
exact: it is the arithmetic of the code wherever the results are themselves doubles. -/
inductive IrNode where
  | mk (type : IrNodeType) (value : ℚ) (physics : Option Physics)
      (parameterNumber : Option Nat) (tokenString : Option String)
      (children : List IrNode)

namespace IrNode

/-- Kind tag of a node. -/
def type : IrNode → IrNodeType
  | mk t _ _ _ _ _ => t

/-- Evaluated numeric value of a node. -/
def value : IrNode → ℚ
  | mk _ v _ _ _ _ => v

/-- Attached physics of a node (`none` is the C null pointer). -/
def physics : IrNode → Option Physics
  | mk _ _ p _ _ _ => p

/-- Free-parameter index of a node, when one was assigned. -/
def parameterNumber : IrNode → Option Nat
  | mk _ _ _ n _ _ => n

/-- Identifier text of a node. -/
def tokenString : IrNode → Option String
  | mk _ _ _ _ s _ => s

/-- Ordered children of a node. -/
def children : IrNode → List IrNode
  | mk _ _ _ _ _ c => c

/-- Assignment `node->value = v`. -/
def setValue : IrNode → ℚ → IrNode
  | mk t _ p n s c, v => mk t v p n s c

/-- Assignment `node->physics = p`. -/
def setPhysics : IrNode → Option Physics → IrNode
  | mk t v _ n s c, p => mk t v p n s c

/-- Assignment `node->parameterNumber = k`. -/
def setParameterNumber : IrNode → Nat → IrNode
  | mk t v p _ s c, k => mk t v p (some k) s c

end IrNode

/-- Parser state `N`: remaining tokens and `currentParameterNumber`. -/
structure State where
  tokens : List Token
  currentParameterNumber : Nat

/-- A scope: the identifier-to-physics bindings and the dimension table. -/
structure Scope where
  physicsForIdentifier : String → Option Physics
  dimensionForIdentifier : String → Option Dimension

/-- What the parser reads besides the tokens: `currentScope`, `N->newtonIrTopScope`
and the C library function `pow`. -/
structure Env where
  currentScope : Scope
  newtonIrTopScope : Scope
  pow : ℚ → ℚ → ℚ

/-- Ways a parse ends without returning a node. `fatal` is the call of `fatal()`,
`assertionFailure` a failed `assert`, `nullDereference` a read through a null
pointer; `outOfFuel` belongs to the embedding only. -/
inductive Err where
  | fatal
  | assertionFailure
  | nullDereference
  | outOfFuel
  deriving DecidableEq, Repr

/-- Result of a parse function: an error, or the produced node with the state after it. -/
abbrev ParseResult := Except Err (IrNode × State)

/-! ## External collaborators -/

/-- Modelled from the spec: `genIrNode` allocates a zeroed node of the given kind, without children. -/
def genIrNode (t : IrNodeType) : IrNode :=
  IrNode.mk t 0 none none none []

/-- Modelled from the spec: `addLeaf` attaches a child at the end of the parent's ordered list of children. -/
def addLeaf (parent child : IrNode) : IrNode :=
  match parent with
  | IrNode.mk t v p n s c => IrNode.mk t v p n s (c ++ [child])

/-- Modelled from the spec: `addLeafWithChainingSeq` attaches a child at the end of the parent's ordered list of children. -/
def addLeafWithChainingSeq (parent child : IrNode) : IrNode :=
  addLeaf parent child

/-- Modelled from the spec: `gNewtonFirsts`, the first sets of the grammar
`Expression → Term ((+|-) Term)*`, `Term → [-] Factor ((*|/) Factor)*`,
`Factor → Identifier | Number | '(' Expression ')' ['**' Exponent]`. -/
def gNewtonFirsts : IrNodeType → List IrNodeType
  | .PquantityExpression => [.Tminus, .Tidentifier, .Tnumber, .TleftParen]
  | .PquantityTerm => [.Tminus, .Tidentifier, .Tnumber, .TleftParen]
  | .PquantityFactor => [.Tidentifier, .Tnumber, .TleftParen]
  | .PlowPrecedenceBinaryOp => [.Tplus, .Tminus]
  | .PmidPrecedenceBinaryOp => [.Tmul, .Tdiv]
  | .PhighPrecedenceBinaryOp => [.Texponent]
  | .PunaryOp => [.Tminus]
  | .PvectorOp => [.Tdot, .Tcross]
  | .PtimeOp => [.Tintegral, .Tderivative]
  | .Pinteger => [.Tminus, .Tnumber]
  | _ => []

/-- Modelled from the spec: `peekCheck(N, 1, t)`, the lookahead token has kind `t`. -/
def peekCheck (s : State) (t : IrNodeType) : Bool :=
  match s.tokens with
  | [] => false
  | tok :: _ => tok.type == t

/-- Modelled from the spec: `inFirst(N, production, gNewtonFirsts)`, the lookahead token is in the first set of the production. -/
def inFirst (s : State) (production : IrNodeType) : Bool :=
  match s.tokens with
  | [] => false
  | tok :: _ => (gNewtonFirsts production).contains tok.type

/-- Modelled from the spec: `consumeTerminal(expectedKind)`, which fails fatally on a
mismatch and otherwise returns a childless node of the token's kind carrying the
token's literal value and identifier text. -/
def newtonParseTerminal (expectedType : IrNodeType) (s : State) : ParseResult :=
  match s.tokens with
  | [] => .error .fatal
  | tok :: rest =>
    if tok.type = expectedType then
      .ok (IrNode.mk tok.type tok.value none none tok.identifier [],
           { s with tokens := rest })
    else .error .fatal

/-- Modelled from the spec: `deepCopy` yields a model with independent lists and the same contents. -/
def deepCopyPhysicsNode (p : Physics) : Physics :=
  { numeratorDimensions := p.numeratorDimensions
    denominatorDimensions := p.denominatorDimensions
    numeratorPrimeProduct := p.numeratorPrimeProduct
    denominatorPrimeProduct := p.denominatorPrimeProduct
    numberOfNumerators := p.numberOfNumerators
    numberOfDenominators := p.numberOfDenominators
    isVector := p.isVector
    isConstant := p.isConstant
    value := p.value }

/-- Modelled from the spec: `shallowCopy` copies the scalar fields (value, flags, counts)
without the dimension lists; the prime products of the empty lists are 1. -/
def shallowCopyPhysicsNode (p : Physics) : Physics :=
  { numeratorDimensions := []
    denominatorDimensions := []
    numeratorPrimeProduct := 1
    denominatorPrimeProduct := 1
    numberOfNumerators := p.numberOfNumerators
    numberOfDenominators := p.numberOfDenominators
    isVector := p.isVector
    isConstant := p.isConstant
    value := p.value }

/-- Product of the primes of a list of dimensions. -/
def primeProduct (ds : List Dimension) : Nat :=
  (ds.map Dimension.primeNumber).prod

/-- Modelled from the spec: `copyNumerator(dst, src)` appends src's numerator list to
dst's and multiplies dst's prime product by the primes appended. -/
def newtonPhysicsCopyNumeratorDimensions (dst src : Physics) : Physics :=
  { dst with
    numeratorDimensions := dst.numeratorDimensions ++ src.numeratorDimensions
    numeratorPrimeProduct := dst.numeratorPrimeProduct * primeProduct src.numeratorDimensions
    numberOfNumerators := dst.numberOfNumerators + src.numeratorDimensions.length }

/-- Modelled from the spec: `copyDenominator(dst, src)` appends src's denominator list
to dst's and multiplies dst's prime product by the primes appended. -/
def newtonPhysicsCopyDenominatorDimensions (dst src : Physics) : Physics :=
  { dst with
    denominatorDimensions := dst.denominatorDimensions ++ src.denominatorDimensions
    denominatorPrimeProduct := dst.denominatorPrimeProduct * primeProduct src.denominatorDimensions
    numberOfDenominators := dst.numberOfDenominators + src.denominatorDimensions.length }

/-- Modelled from the spec: `copyNumeratorToDenominator(dst, src)`, the same accumulation
with src's numerator list going to dst's denominator. -/
def newtonPhysicsCopyNumeratorToDenominatorDimensions (dst src : Physics) : Physics :=
  { dst with
    denominatorDimensions := dst.denominatorDimensions ++ src.numeratorDimensions
    denominatorPrimeProduct := dst.denominatorPrimeProduct * primeProduct src.numeratorDimensions
    numberOfDenominators := dst.numberOfDenominators + src.numeratorDimensions.length }

/-- Modelled from the spec: `copyDenominatorToNumerator(dst, src)`, the same accumulation
with src's denominator list going to dst's numerator. -/
def newtonPhysicsCopyDenominatorToNumeratorDimensions (dst src : Physics) : Physics :=
  { dst with
    numeratorDimensions := dst.numeratorDimensions ++ src.denominatorDimensions
    numeratorPrimeProduct := dst.numeratorPrimeProduct * primeProduct src.denominatorDimensions
    numberOfNumerators := dst.numberOfNumerators + src.denominatorDimensions.length }

/-- The zeroed `Physics` of `calloc` with both prime products then set to 1. -/
def callocPhysics : Physics :=
  { numeratorDimensions := []
    denominatorDimensions := []
    numeratorPrimeProduct := 1
    denominatorPrimeProduct := 1
    numberOfNumerators := 0
    numberOfDenominators := 0
    isVector := false
    isConstant := false
    value := 0 }

/-- Modelled from the spec: `newtonIsDimensionless`, no numerator and no denominator dimension. -/
def newtonIsDimensionless (p : Physics) : Bool :=
  p.numeratorDimensions.isEmpty && p.denominatorDimensions.isEmpty

/-- Modelled from the spec: `newtonParseIdentifierUsageTerminal` consumes an identifier
token and attaches a copy of the physics bound to it (`lookupIdentifierPhysics`),
together with its known value; an unbound identifier is a fatal error. -/
def newtonParseIdentifierUsageTerminal (env : Env) (s : State) : ParseResult :=
  match s.tokens with
  | [] => .error .fatal
  | tok :: rest =>
    if tok.type = IrNodeType.Tidentifier then
      match tok.identifier with
      | none => .error .fatal
      | some name =>
        match env.currentScope.physicsForIdentifier name with
        | none => .error .fatal
        | some p =>
          .ok (IrNode.mk tok.type p.value (some (deepCopyPhysicsNode p)) none (some name) [],
               { s with tokens := rest })
    else .error .fatal

/-- The C `assert`. -/
def assert (c : Prop) [Decidable c] : Except Err Unit :=
  if c then .ok () else .error .assertionFailure

/-- Truncation toward zero: the integer part of `x`. -/
def truncToInt (x : ℚ) : ℤ :=
  Int.tdiv x.num x.den

/-- The cast `(int) x` of a double to the 32-bit `int`: truncation toward zero when the
integer part lies between `INT_MIN` and `INT_MAX`. Beyond that range C leaves the
conversion undefined; the value taken is `INT_MIN`, which the conversion instruction of
x86 gives, so that the assertion `x == (int) x` fails there. -/
def castInt (x : ℚ) : ℤ :=
  if -2147483648 ≤ truncToInt x ∧ truncToInt x ≤ 2147483647 then truncToInt x
  else -2147483648

/-! ## Operator productions -/

/-- Source `newtonParseLowPrecedenceBinaryOp`: returns the null pointer (`none`) on any other token. -/
def newtonParseLowPrecedenceBinaryOp (s : State) : Except Err (Option IrNode × State) :=
  if peekCheck s .Tplus then
    (newtonParseTerminal .Tplus s).map (fun r => (some r.1, r.2))
  else if peekCheck s .Tminus then
    (newtonParseTerminal .Tminus s).map (fun r => (some r.1, r.2))
  else
    .ok (none, s)

/-- Source `newtonParseUnaryOp`. -/
def newtonParseUnaryOp (s : State) : ParseResult :=
  if peekCheck s .Tminus then
    newtonParseTerminal .Tminus s
  else
    .error .fatal

/-- Source `newtonParseHighPrecedenceBinaryOp`. -/
def newtonParseHighPrecedenceBinaryOp (s : State) : ParseResult :=
  let node := genIrNode .PhighPrecedenceBinaryOp
  if peekCheck s .Texponent then
    (newtonParseTerminal .Texponent s).map (fun r => (addLeaf node r.1, r.2))
  else
    .error .fatal

/-- Source `newtonParseMidPrecedenceBinaryOp`. -/
def newtonParseMidPrecedenceBinaryOp (s : State) : ParseResult :=
  if peekCheck s .Tmul then
    newtonParseTerminal .Tmul s
  else if peekCheck s .Tdiv then
    newtonParseTerminal .Tdiv s
  else
    .error .fatal

/-- Source `newtonParseInteger`. -/
def newtonParseInteger (s : State) : ParseResult := do
  let node := genIrNode .Pinteger
  let (node, s) ←
    (if inFirst s .PunaryOp then do
      let (u, s) ← newtonParseUnaryOp s
      pure ((addLeaf node u).setValue (-1), s)
    else pure (node, s))
  let (number, s) ← newtonParseTerminal .Tnumber s
  let node := addLeaf node number
  let node := node.setValue (if node.value = -1 then node.value * number.value else number.value)
  assert (node.value ≠ 0)
  pure (node, s)

/-! ## Numeric expressions -/

mutual

/-- Source `newtonParseNumericExpression`. -/
def newtonParseNumericExpression : Nat → Env → State → ParseResult
  | 0, _, _ => .error .outOfFuel
  | fuel + 1, env, s =>
    if inFirst s .PquantityTerm then do
      let (leftTerm, s) ← newtonParseNumericTerm fuel env s
      numericExpressionLoop fuel env leftTerm s
    else
      .error .fatal

/-- The `while` loop of `newtonParseNumericExpression`. -/
def numericExpressionLoop : Nat → Env → IrNode → State → ParseResult
  | 0, _, _, _ => .error .outOfFuel
  | fuel + 1, env, leftTerm, s =>
    if inFirst s .PlowPrecedenceBinaryOp then do
      let (binOp?, s) ← newtonParseLowPrecedenceBinaryOp s
      match binOp? with
      | none => .error .nullDereference
      | some binOp =>
        let leftTerm := addLeaf leftTerm binOp
        let (rightTerm, s) ← newtonParseNumericTerm fuel env s
        let leftTerm := addLeafWithChainingSeq leftTerm rightTerm
        let leftTerm :=
          if binOp.type = .Tplus then leftTerm.setValue (leftTerm.value + rightTerm.value)
          else if binOp.type = .Tminus then leftTerm.setValue (leftTerm.value - rightTerm.value)
          else leftTerm
        numericExpressionLoop fuel env leftTerm s
    else
      pure (leftTerm, s)

/-- Source `newtonParseNumericTerm`. -/
def newtonParseNumericTerm : Nat → Env → State → ParseResult
  | 0, _, _ => .error .outOfFuel
  | fuel + 1, env, s => do
    let intermediate := (genIrNode .PquantityTerm).setValue 1
    let (intermediate, s) ←
      (if inFirst s .PunaryOp then do
        let (u, s) ← newtonParseUnaryOp s
        let intermediate := addLeaf intermediate u
        pure (intermediate.setValue (intermediate.value * -1), s)
      else pure (intermediate, s))
    let (leftFactor, s) ← newtonParseNumericFactor fuel env s
    let intermediate := intermediate.setValue (intermediate.value * leftFactor.value)
    let intermediate := addLeafWithChainingSeq intermediate leftFactor
    numericTermLoop fuel env intermediate s

/-- The `while` loop of `newtonParseNumericTerm`. -/
def numericTermLoop : Nat → Env → IrNode → State → ParseResult
  | 0, _, _, _ => .error .outOfFuel
  | fuel + 1, env, intermediate, s =>
    if inFirst s .PmidPrecedenceBinaryOp then do
      let (binOp, s) ← newtonParseMidPrecedenceBinaryOp s
      let intermediate := addLeafWithChainingSeq intermediate binOp
      let (rightFactor, s) ← newtonParseNumericFactor fuel env s
      let intermediate := addLeafWithChainingSeq intermediate rightFactor
      let intermediate :=
        if binOp.type = .Tmul then intermediate.setValue (intermediate.value * rightFactor.value)
        else if binOp.type = .Tdiv then intermediate.setValue (intermediate.value / rightFactor.value)
        else intermediate
      numericTermLoop fuel env intermediate s
    else
      pure (intermediate, s)

/-- Source `newtonParseNumericFactor`. -/
def newtonParseNumericFactor : Nat → Env → State → ParseResult
  | 0, _, _ => .error .outOfFuel
  | fuel + 1, env, s => do
    let (node, s) ←
      (if peekCheck s .Tidentifier then do
        let (node, s) ← newtonParseIdentifierUsageTerminal env s
        match node.physics with
        | none => .error .nullDereference
        | some p =>
          assert (p.isConstant = true)
          pure (node, s)
      else if peekCheck s .Tnumber then do
        let (node, s) ← newtonParseTerminal .Tnumber s
        assert (node.value ≠ 0)
        pure (node, s)
      else if peekCheck s .TleftParen then do
        let (_, s) ← newtonParseTerminal .TleftParen s
        let (node, s) ← newtonParseNumericExpression fuel env s
        let (_, s) ← newtonParseTerminal .TrightParen s
        pure (node, s)
      else
        .error .fatal)
    if inFirst s .PhighPrecedenceBinaryOp then do
      let (op, s) ← newtonParseHighPrecedenceBinaryOp s
      let node := addLeaf node op
      let (exponentExpression, s) ←
        (if peekCheck s .TleftParen then newtonParseNumericExpression fuel env s
        else newtonParseInteger s)
      let node := addLeaf node exponentExpression
      assert (node.value ≠ 0 ∨ exponentExpression.value ≠ 0)
      pure (node.setValue (env.pow node.value exponentExpression.value), s)
    else
      pure (node, s)

end

/-! ## Quantity expressions -/

/-- The read `node->physics->...`: a null `physics` pointer ends the program. -/
def derefPhysics (node : IrNode) : Except Err Physics :=
  match node.physics with
  | none => .error .nullDereference
  | some p => .ok p

/-- The `for` loops of `newtonParseExponentialExpression`: each iteration applies one
copy step from `copy` into `newExponentBase` and then replaces `copy` by a deep copy
of itself. The loops are entered only after the assertion `value == (int) value`, so
`value` is an integer in the range of `int` and
`for (power = 0; power < value; power++)` and `for (power = 0; power > value; power--)`
both run `|value|` times; that count is the first argument. -/
def exponentLoop (step : Physics → Physics → Physics) : Nat → Physics → Physics → Physics × Physics
  | 0, newExponentBase, copy => (newExponentBase, copy)
  | n + 1, newExponentBase, copy =>
    exponentLoop step n (step newExponentBase copy) (deepCopyPhysicsNode copy)

/-- Source `newtonParseExponentialExpression`. The result is the exponent node paired
with `baseNode` after the assignment to `baseNode->physics`. -/
def newtonParseExponentialExpression (fuel : Nat) (env : Env) (baseNode : IrNode) (s : State) :
    Except Err ((IrNode × IrNode) × State) := do
  let (exponent, s) ←
    (if peekCheck s .TleftParen then newtonParseNumericExpression fuel env s
    else newtonParseInteger s)
  let basePhysics ← derefPhysics baseNode
  let newExponentBase := shallowCopyPhysicsNode basePhysics
  if exponent.value = 0 then
    let newExponentBase := { newExponentBase with value := 1 }
    pure ((exponent, baseNode.setPhysics (some newExponentBase)), s)
  else do
    let newExponentBase :=
      { newExponentBase with value := env.pow newExponentBase.value exponent.value }
    let copy := deepCopyPhysicsNode basePhysics
    let count := (truncToInt exponent.value).natAbs
    let (newExponentBase, copy) ←
      (if basePhysics.numberOfNumerators > 0 then do
        assert (exponent.value = ((castInt exponent.value : ℤ) : ℚ))
        if exponent.value < 0 then
          pure (exponentLoop newtonPhysicsCopyNumeratorToDenominatorDimensions count newExponentBase copy)
        else
          pure (exponentLoop newtonPhysicsCopyNumeratorDimensions count newExponentBase copy)
      else pure (newExponentBase, copy))
    let (newExponentBase, _) ←
      (if basePhysics.numberOfDenominators > 0 then do
        assert (exponent.value = ((castInt exponent.value : ℤ) : ℚ))
        if exponent.value < 0 then
          pure (exponentLoop newtonPhysicsCopyDenominatorToNumeratorDimensions count newExponentBase copy)
        else
          pure (exponentLoop newtonPhysicsCopyDenominatorDimensions count newExponentBase copy)
      else pure (newExponentBase, copy))
    pure ((exponent, baseNode.setPhysics (some newExponentBase)), s)

/-- The end of `newtonParseQuantityExpression`. `expression` holds `leftTerm` by
reference as its first child (`addLeaf(N, expression, leftTerm)`) while the loop
keeps attaching the right terms to `leftTerm`; the embedding therefore attaches the
final `leftTerm` in front of the operator children when the loop is left. -/
def attachLeftTerm (expression leftTerm : IrNode) : IrNode :=
  match expression with
  | IrNode.mk t v p n s c => IrNode.mk t v p n s (leftTerm :: c)

/-- Attaching the result of `newtonParseLowPrecedenceBinaryOp`, which may be the null pointer. -/
def addLeafWithChainingSeqOpt (parent : IrNode) (child : Option IrNode) : IrNode :=
  match child with
  | none => parent
  | some c => addLeafWithChainingSeq parent c

/-- The test `leftFactor->physics == NULL || leftFactor->physics->isConstant`. -/
def isNumberFactor (factor : IrNode) : Bool :=
  match factor.physics with
  | none => true
  | some p => p.isConstant

mutual

/-- Source `newtonParseQuantityExpression`. -/
def newtonParseQuantityExpression : Nat → Env → State → ParseResult
  | 0, _, _ => .error .outOfFuel
  | fuel + 1, env, s =>
    let expression := (genIrNode .PquantityExpression).setPhysics (some callocPhysics)
    let s : State := { s with currentParameterNumber := 0 }
    if inFirst s .PquantityTerm then do
      let (leftTerm, s) ← newtonParseQuantityTerm fuel env s
      let expression := expression.setValue leftTerm.value
      let expression := expression.setPhysics leftTerm.physics
      quantityExpressionLoop fuel env expression leftTerm s
    else
      .error .fatal

/-- The `while` loop of `newtonParseQuantityExpression`. -/
def quantityExpressionLoop : Nat → Env → IrNode → IrNode → State → ParseResult
  | 0, _, _, _, _ => .error .outOfFuel
  | fuel + 1, env, expression, leftTerm, s =>
    if inFirst s .PlowPrecedenceBinaryOp then do
      let (binOp?, s) ← newtonParseLowPrecedenceBinaryOp s
      let expression := addLeafWithChainingSeqOpt expression binOp?
      let (rightTerm, s) ← newtonParseQuantityTerm fuel env s
      let leftTerm := addLeafWithChainingSeq leftTerm rightTerm
      let expression := expression.setValue (expression.value + rightTerm.value)
      let leftPhysics ← derefPhysics leftTerm
      let rightPhysics ← derefPhysics rightTerm
      assert (leftPhysics.numeratorPrimeProduct = rightPhysics.numeratorPrimeProduct)
      assert (leftPhysics.denominatorPrimeProduct = rightPhysics.denominatorPrimeProduct)
      quantityExpressionLoop fuel env expression leftTerm s
    else
      pure (attachLeftTerm expression leftTerm, s)

/-- Source `newtonParseQuantityTerm`. The local `physics` is the object
`intermediate->physics` points to; it is stored into the node on return. -/
def newtonParseQuantityTerm : Nat → Env → State → ParseResult
  | 0, _, _ => .error .outOfFuel
  | fuel + 1, env, s => do
    let intermediate := (genIrNode .PquantityTerm).setValue 1
    let physics := callocPhysics
    let (intermediate, isUnary, s) ←
      (if inFirst s .PunaryOp then do
        let (u, s) ← newtonParseUnaryOp s
        pure (addLeaf intermediate u, true, s)
      else pure (intermediate, false, s))
    let hasNumberInTerm := false
    let isPhysics := peekCheck s .Tidentifier
    let (leftFactor, s) ← newtonParseQuantityFactor fuel env s
    let intermediate := addLeafWithChainingSeq intermediate leftFactor
    let hasNumberInTerm := hasNumberInTerm || isNumberFactor leftFactor
    let intermediate :=
      if hasNumberInTerm then
        intermediate.setValue (if isUnary then leftFactor.value * -1 else leftFactor.value)
      else intermediate
    let numVectorsInTerm := 0
    let (physics, numVectorsInTerm) ←
      (if isPhysics then do
        let leftPhysics ← derefPhysics leftFactor
        let physics :=
          if leftPhysics.numeratorDimensions ≠ [] then
            newtonPhysicsCopyNumeratorDimensions physics leftPhysics
          else physics
        let physics :=
          if leftPhysics.denominatorDimensions ≠ [] then
            newtonPhysicsCopyDenominatorDimensions physics leftPhysics
          else physics
        if leftPhysics.isVector then
          pure ({ physics with isVector := true }, numVectorsInTerm + 1)
        else pure (physics, numVectorsInTerm)
      else pure (physics, numVectorsInTerm))
    quantityTermLoop fuel env leftFactor intermediate physics hasNumberInTerm numVectorsInTerm s

/-- The `while` loop of `newtonParseQuantityTerm`. -/
def quantityTermLoop : Nat → Env → IrNode → IrNode → Physics → Bool → Nat → State → ParseResult
  | 0, _, _, _, _, _, _, _ => .error .outOfFuel
  | fuel + 1, env, leftFactor, intermediate, physics, hasNumberInTerm, numVectorsInTerm, s =>
    if inFirst s .PmidPrecedenceBinaryOp then do
      let (binOp, s) ← newtonParseMidPrecedenceBinaryOp s
      let intermediate := addLeafWithChainingSeq intermediate binOp
      let isPhysics := peekCheck s .Tidentifier
      let (rightFactor, s) ← newtonParseQuantityFactor fuel env s
      let intermediate := addLeafWithChainingSeq intermediate rightFactor
      let hasNumberInTerm := hasNumberInTerm || isNumberFactor leftFactor
      let intermediate :=
        if hasNumberInTerm then
          if binOp.type = .Tmul then
            intermediate.setValue
              (if rightFactor.value = 0 then intermediate.value
               else intermediate.value * rightFactor.value)
          else if binOp.type = .Tdiv then
            intermediate.setValue
              (if rightFactor.value = 0 then intermediate.value
               else intermediate.value / rightFactor.value)
          else intermediate
        else intermediate
      let (physics, numVectorsInTerm) ←
        (if isPhysics then do
          let rightPhysics ← derefPhysics rightFactor
          if rightPhysics.isVector then do
            assert (numVectorsInTerm + 1 < 2)
            pure ({ physics with isVector := true }, numVectorsInTerm + 1)
          else pure (physics, numVectorsInTerm)
        else pure (physics, numVectorsInTerm))
      let physics ←
        (if isPhysics ∧ binOp.type = .Tmul then do
          let rightPhysics ← derefPhysics rightFactor
          let physics :=
            if rightPhysics.numeratorDimensions ≠ [] then
              newtonPhysicsCopyNumeratorDimensions physics rightPhysics
            else physics
          let physics :=
            if rightPhysics.denominatorDimensions ≠ [] then
              newtonPhysicsCopyDenominatorDimensions physics rightPhysics
            else physics
          pure physics
        else if isPhysics ∧ binOp.type = .Tdiv then do
          let rightPhysics ← derefPhysics rightFactor
          let physics :=
            if rightPhysics.numeratorDimensions ≠ [] then
              newtonPhysicsCopyNumeratorToDenominatorDimensions physics rightPhysics
            else physics
          let physics :=
            if rightPhysics.denominatorDimensions ≠ [] then
              newtonPhysicsCopyDenominatorToNumeratorDimensions physics rightPhysics
            else physics
          pure physics
        else pure physics)
      quantityTermLoop fuel env leftFactor intermediate physics hasNumberInTerm numVectorsInTerm s
    else
      let intermediate := if ¬ hasNumberInTerm then intermediate.setValue 0 else intermediate
      pure (intermediate.setPhysics (some physics), s)

/-- Source `newtonParseQuantityFactor`. -/
def newtonParseQuantityFactor : Nat → Env → State → ParseResult
  | 0, _, _ => .error .outOfFuel
  | fuel + 1, env, s => do
    let (factor, s) ←
      (if peekCheck s .Tidentifier then do
        let (factor, s) ← newtonParseIdentifierUsageTerminal env s
        let physics ← derefPhysics factor
        let physics := deepCopyPhysicsNode physics
        let factor := factor.setPhysics (some physics)
        let factor := factor.setValue physics.value
        match factor.tokenString with
        | none => .error .assertionFailure
        | some name =>
          if ¬ newtonIsDimensionless physics ∧ ¬ physics.isConstant
              ∧ env.newtonIrTopScope.dimensionForIdentifier name = none then
            pure (factor.setParameterNumber s.currentParameterNumber,
                  { s with currentParameterNumber := s.currentParameterNumber + 1 })
          else pure (factor, s)
      else if peekCheck s .Tnumber then
        newtonParseTerminal .Tnumber s
      else if peekCheck s .TleftParen then do
        let (_, s) ← newtonParseTerminal .TleftParen s
        let (factor, s) ← newtonParseQuantityExpression fuel env s
        let (_, s) ← newtonParseTerminal .TrightParen s
        pure (factor, s)
      else
        .error .fatal)
    if inFirst s .PhighPrecedenceBinaryOp then do
      let (op, s) ← newtonParseHighPrecedenceBinaryOp s
      let factor := addLeaf factor op
      let ((exponentialExpression, factor), s) ← newtonParseExponentialExpression fuel env factor s
      let factor := addLeafWithChainingSeq factor exponentialExpression
      let factor :=
        if factor.value ≠ 0 then
          factor.setValue (env.pow factor.value exponentialExpression.value)
        else factor
      pure (factor, s)
    else
      pure (factor, s)

end

/-! ## Observing results -/

/-- A numeric literal token. -/
def Token.number (v : ℚ) : Token := { type := .Tnumber, identifier := none, value := v }

/-- An identifier token. -/
def Token.ident (name : String) : Token := { type := .Tidentifier, identifier := some name, value := 0 }

/-- A punctuation or operator token. -/
def Token.op (t : IrNodeType) : Token := { type := t, identifier := none, value := 0 }

/-- The error a parse ended in, if it did. -/
def resultError {α : Type} : Except Err α → Option Err
  | .error e => some e
  | .ok _ => none

/-- The value of the returned node. -/
def resultValue : ParseResult → Option ℚ
  | .ok (node, _) => some node.value
  | .error _ => none

/-- The physics of the returned node. -/
def resultPhysics : ParseResult → Option Physics
  | .ok (node, _) => node.physics
  | .error _ => none

/-- The tokens left after the parse. -/
def resultTokens : ParseResult → Option (List Token)
  | .ok (_, s) => some s.tokens
  | .error _ => none

instance decidableEqError {α : Type} (r : Except Err α) (e : Err) : Decidable (r = .error e) :=
  match r with
  | .error e' =>
    if h : e' = e then isTrue (by rw [h]) else isFalse (fun h' => h (by cases h'; rfl))
  | .ok _ => isFalse (fun h' => by cases h')

/-- The lookahead token of `rest` (if there is one) has none of the kinds in `kinds`. -/
def LookaheadNotIn (rest : List Token) (kinds : List IrNodeType) : Prop :=
  ∀ tok ∈ rest.head?, tok.type ∉ kinds

instance decidableLookaheadNotIn (rest : List Token) (kinds : List IrNodeType) :
    Decidable (LookaheadNotIn rest kinds) := by
  unfold LookaheadNotIn
  infer_instance

/-- The data-model invariants of a `Physics`: each prime product is the product of
the primes of the dimensions in its list, and each count covers its list. -/
structure WellFormed (p : Physics) : Prop where
  numeratorSync : p.numeratorPrimeProduct = primeProduct p.numeratorDimensions
  denominatorSync : p.denominatorPrimeProduct = primeProduct p.denominatorDimensions
  numeratorCount : p.numeratorDimensions.length ≤ p.numberOfNumerators
  denominatorCount : p.denominatorDimensions.length ≤ p.numberOfDenominators

/-! ## Chains of quantity terms -/

/-- `TermChain fuel env s ts s'`: from state `s` the tokens continue with `(+|-) term`
as many times as `ts` is long, `ts` being the term nodes `newtonParseQuantityTerm`
returns for them in order, and end in state `s'` whose lookahead is neither `+` nor `-`. -/
inductive TermChain (fuel : Nat) (env : Env) : State → List IrNode → State → Prop where
  | done (s : State) (h : inFirst s .PlowPrecedenceBinaryOp = false) : TermChain fuel env s [] s
  | step (tok : Token) (rest : List Token) (n : Nat) (t : IrNode) (s2 s3 : State)
      (ts : List IrNode)
      (hop : tok.type = .Tplus ∨ tok.type = .Tminus)
      (hterm : newtonParseQuantityTerm fuel env ⟨rest, n⟩ = .ok (t, s2))
      (htail : TermChain fuel env s2 ts s3) :
      TermChain fuel env ⟨tok :: rest, n⟩ (t :: ts) s3

/-- Numerator prime product of a node's physics. -/
def IrNode.numeratorPrimeProduct (node : IrNode) : Option Nat :=
  node.physics.map Physics.numeratorPrimeProduct

/-- Denominator prime product of a node's physics. -/
def IrNode.denominatorPrimeProduct (node : IrNode) : Option Nat :=
  node.physics.map Physics.denominatorPrimeProduct

/-- The two nodes agree on both prime products. -/
def SameDimensions (a b : IrNode) : Prop :=
  a.numeratorPrimeProduct = b.numeratorPrimeProduct ∧
  a.denominatorPrimeProduct = b.denominatorPrimeProduct

instance decidableSameDimensions (a b : IrNode) : Decidable (SameDimensions a b) := by
  unfold SameDimensions
  infer_instance

/-! ## Numeric expressions as written -/

/-- A factor that is a bare identifier or a bare number. -/
inductive SimpleFactor where
  | identifier (name : String)
  | number (v : ℚ)

/-- The token of a simple factor. -/
def SimpleFactor.token : SimpleFactor → Token
  | .identifier name => Token.ident name
  | .number v => Token.number v

/-- The physics bound to a simple factor: an identifier's binding, none for a number. -/
def SimpleFactor.binding (env : Env) : SimpleFactor → Option Physics
  | .identifier name => env.currentScope.physicsForIdentifier name
  | .number _ => none

/-- The factor is a number, or an identifier with a binding in the current scope. -/
def SimpleFactor.Bound (env : Env) : SimpleFactor → Prop
  | .identifier name => ∃ p, env.currentScope.physicsForIdentifier name = some p
  | .number _ => True

/-- The factor is an identifier bound to a vector. -/
def SimpleFactor.isVector (env : Env) (f : SimpleFactor) : Bool :=
  match f.binding env with
  | some p => p.isVector
  | none => false

/-- The operators of a multiplicative chain. -/
inductive MidOp where
  | mul
  | div
  deriving DecidableEq

/-- The token of `*` or `/`. -/
def MidOp.token : MidOp → Token
  | .mul => Token.op .Tmul
  | .div => Token.op .Tdiv

/-- The tokens of `(op factor)*`. -/
def chainTokens : List (MidOp × SimpleFactor) → List Token
  | [] => []
  | (op, f) :: rest => op.token :: f.token :: chainTokens rest

/-- The tokens of the quantity term `[-] f1 (op f)*`. -/
def simpleTermTokens (neg : Bool) (f1 : SimpleFactor) (chain : List (MidOp × SimpleFactor)) :
    List Token :=
  (if neg then [Token.op .Tminus] else []) ++ f1.token :: chainTokens chain

/-- Number of vector factors in `f1 (op f)*`. -/
def vectorCount (env : Env) (f1 : SimpleFactor) (chain : List (MidOp × SimpleFactor)) : Nat :=
  ((f1 :: chain.map Prod.snd).filter (SimpleFactor.isVector env)).length

/-! ## An example scope -/

/-- A physics with the given numerator and denominator lists, in sync with its
prime products and counts. -/
def Physics.ofDimensions (numerator denominator : List Dimension) (isVector isConstant : Bool)
    (value : ℚ) : Physics :=
  { numeratorDimensions := numerator
    denominatorDimensions := denominator
    numeratorPrimeProduct := primeProduct numerator
    denominatorPrimeProduct := primeProduct denominator
    numberOfNumerators := numerator.length
    numberOfDenominators := denominator.length
    isVector := isVector
    isConstant := isConstant
    value := value }

/-- The base dimension of mass. -/
def kilogram : Dimension := { name := "kg", primeNumber := 2 }

/-- The base dimension of length. -/
def meter : Dimension := { name := "m", primeNumber := 3 }

/-- The base dimension of time. -/
def second : Dimension := { name := "s", primeNumber := 5 }

/-- Bindings used in the examples: `kg` and `mass` (kilogram), `m` (meter),
`velocity` (a vector, meter per second) and `ratio` (kilogram per kilogram). -/
def exampleScope : Scope :=
  { physicsForIdentifier := fun name =>
      if name = "kg" then some (Physics.ofDimensions [kilogram] [] false false 0)
      else if name = "mass" then some (Physics.ofDimensions [kilogram] [] false false 0)
      else if name = "m" then some (Physics.ofDimensions [meter] [] false false 0)
      else if name = "velocity" then some (Physics.ofDimensions [meter] [second] true false 0)
      else if name = "ratio" then some (Physics.ofDimensions [kilogram] [kilogram] false false 0)
      else none
    dimensionForIdentifier := fun _ => none }

/-- The example environment; its `pow` is exact on integer exponents. -/
def exampleEnv : Env :=
  { currentScope := exampleScope
    newtonIrTopScope := exampleScope
    pow := fun x y => if y.den = 1 then x ^ y.num else 0 }

/-! ## Vector and comparison operators -/

/-- Modelled from the spec: `newtonPhysicsAddDenominatorDimension` appends one dimension
to the denominator list and multiplies the denominator prime product by its prime. -/
def newtonPhysicsAddDenominatorDimension (dst : Physics) (d : Dimension) : Physics :=
  { dst with
    denominatorDimensions := dst.denominatorDimensions ++ [d]
    denominatorPrimeProduct := dst.denominatorPrimeProduct * d.primeNumber
    numberOfDenominators := dst.numberOfDenominators + 1 }

/-- Source `newtonParseCompareOp`. An exhausted token list counts as a token of no kind. -/
def newtonParseCompareOp (s : State) : ParseResult :=
  match s.tokens with
  | [] => .error .fatal
  | tok :: _ =>
    if tok.type = .Tlt ∨ tok.type = .Tle ∨ tok.type = .Tge ∨ tok.type = .Tgt
        ∨ tok.type = .Tproportionality ∨ tok.type = .Tequivalent then
      newtonParseTerminal tok.type s
    else
      .error .fatal

/-- Source `newtonParseVectorOp`. The local `physics` is the object
`intermediate->physics` points to; it is stored into the node on return. A missing
`rad` dimension is a null pointer handed to `newtonPhysicsAddDenominatorDimension`. -/
def newtonParseVectorOp (fuel : Nat) (env : Env) (s : State) : ParseResult := do
  let intermediate := genIrNode .PvectorOp
  let physics := callocPhysics
  let (intermediate, addAngleToDenominator, s) ←
    (if peekCheck s .Tdot then do
      let (t, s) ← newtonParseTerminal .Tdot s
      pure (addLeaf intermediate t, false, s)
    else if peekCheck s .Tcross then do
      let (t, s) ← newtonParseTerminal .Tcross s
      pure (addLeaf intermediate t, true, s)
    else
      .error .fatal)
  let (_, s) ← newtonParseTerminal .TleftParen s
  let (left, s) ← newtonParseQuantityExpression fuel env s
  let intermediate := addLeafWithChainingSeq intermediate left
  let leftPhysics ← derefPhysics left
  let physics := newtonPhysicsCopyNumeratorDimensions physics leftPhysics
  let physics := newtonPhysicsCopyDenominatorDimensions physics leftPhysics
  let (_, s) ← newtonParseTerminal .Tcomma s
  let (right, s) ← newtonParseQuantityExpression fuel env s
  let intermediate := addLeafWithChainingSeq intermediate right
  let rightPhysics ← derefPhysics right
  assert (leftPhysics.isVector = true ∧ rightPhysics.isVector = true)
  let physics := newtonPhysicsCopyNumeratorDimensions physics rightPhysics
  let physics := newtonPhysicsCopyDenominatorDimensions physics rightPhysics
  let physics ←
    (if addAngleToDenominator then
      match env.currentScope.dimensionForIdentifier "rad" with
      | none => .error .nullDereference
      | some angle => pure (newtonPhysicsAddDenominatorDimension physics angle)
    else pure physics)
  let (_, s) ← newtonParseTerminal .TrightParen s
  pure (intermediate.setPhysics (some physics), s)

mutual

/-- The free parameters of a tree, in pre-order: identifier text and parameter number
of every node that was given a parameter number. -/
def IrNode.parameters : IrNode → List (String × Nat)
  | .mk _ _ _ n s c =>
    (match s, n with
      | some name, some k => [(name, k)]
      | _, _ => []) ++ parametersOfChildren c

/-- The free parameters of a list of sibling trees, left to right. -/
def parametersOfChildren : List IrNode → List (String × Nat)
  | [] => []
  | x :: xs => x.parameters ++ parametersOfChildren xs

end

/-- The free parameters of the returned tree. -/
def resultParameters : ParseResult → Option (List (String × Nat))
  | .ok (node, _) => some node.parameters
  | .error _ => none

/-- The parameter counter after the parse. -/
def resultCounter : ParseResult → Option Nat
  | .ok (_, s) => some s.currentParameterNumber
  | .error _ => none

/-- The angular dimension. -/
def radian : Dimension := { name := "rad", primeNumber := 7 }

/-- The example scope with `rad` in its dimension table. -/
def vectorScope : Scope :=
  { physicsForIdentifier := exampleScope.physicsForIdentifier
    dimensionForIdentifier := fun name => if name = "rad" then some radian else none }

/-- The example environment over `vectorScope`. -/
def vectorEnv : Env :=
  { currentScope := vectorScope
    newtonIrTopScope := vectorScope
    pow := exampleEnv.pow }

/-! ## Noisy type signatures -/

/-- The part of a node `noisyTypeMakeTypeSignature` reads: the type tag and the left and
right child pointers, `null` being the null pointer. -/
inductive NoisyIrNode where
  | null
  | node (type : Nat) (irLeftChild irRightChild : NoisyIrNode)

/-- Source `noisyTypeMakeTypeSignature`, over the table `gNoisyTypeNodeSignatures`
(`signatures`), a string being the list of its characters. `calloc` is taken to succeed. -/
def noisyTypeMakeTypeSignature (signatures : Nat → Char) : NoisyIrNode → Except Err (List Char)
  | .null => .ok []
  | .node type irLeftChild irRightChild =>
    let s := signatures type
    if s = Char.ofNat 0 then
      .error .fatal
    else do
      let leftSignature ← noisyTypeMakeTypeSignature signatures irLeftChild
      let rightSignature ← noisyTypeMakeTypeSignature signatures irRightChild
      pure (leftSignature ++ rightSignature ++ [s])

/-- Number of nodes of a tree. -/
def NoisyIrNode.size : NoisyIrNode → Nat
  | .null => 0
  | .node _ l r => l.size + r.size + 1

/-- Post-order listing of the signature characters of a tree. -/
def NoisyIrNode.postOrder (signatures : Nat → Char) : NoisyIrNode → List Char
  | .null => []
  | .node t l r => l.postOrder signatures ++ r.postOrder signatures ++ [signatures t]

/-- Some node of the tree has signature character 0. -/
def NoisyIrNode.HasUnsigned (signatures : Nat → Char) : NoisyIrNode → Prop
  | .null => False
  | .node t l r =>
    signatures t = Char.ofNat 0 ∨ l.HasUnsigned signatures ∨ r.HasUnsigned signatures

/-- Each prime product of `p` is the product of the primes of the dimensions in its list. -/
def Physics.InSync (p : Physics) : Prop :=
  p.numeratorPrimeProduct = primeProduct p.numeratorDimensions ∧
  p.denominatorPrimeProduct = primeProduct p.denominatorDimensions

instance decidableInSync (p : Physics) : Decidable p.InSync := by
  unfold Physics.InSync
  infer_instance

/-- Every identifier bound in the current scope is bound to a physics in sync. -/
def BindingsInSync (env : Env) : Prop :=
  ∀ name p, env.currentScope.physicsForIdentifier name = some p → p.InSync

/-! ## The base of a factor -/

/-- The first part of `newtonParseNumericFactor`: the `if` chain that parses the base. -/
def numericFactorBase (fuel : Nat) (env : Env) (s : State) : ParseResult :=
  if peekCheck s .Tidentifier then do
    let (node, s) ← newtonParseIdentifierUsageTerminal env s
    match node.physics with
    | none => .error .nullDereference
    | some p =>
      assert (p.isConstant = true)
      pure (node, s)
  else if peekCheck s .Tnumber then do
    let (node, s) ← newtonParseTerminal .Tnumber s
    assert (node.value ≠ 0)
    pure (node, s)
  else if peekCheck s .TleftParen then do
    let (_, s) ← newtonParseTerminal .TleftParen s
    let (node, s) ← newtonParseNumericExpression fuel env s
    let (_, s) ← newtonParseTerminal .TrightParen s
    pure (node, s)
  else
    .error .fatal

/-- The first part of `newtonParseQuantityFactor`: the `if` chain that parses the base. -/
def quantityFactorBase (fuel : Nat) (env : Env) (s : State) : ParseResult :=
  if peekCheck s .Tidentifier then do
    let (factor, s) ← newtonParseIdentifierUsageTerminal env s
    let physics ← derefPhysics factor
    let physics := deepCopyPhysicsNode physics
    let factor := factor.setPhysics (some physics)
    let factor := factor.setValue physics.value
    match factor.tokenString with
    | none => .error .assertionFailure
    | some name =>
      if ¬ newtonIsDimensionless physics ∧ ¬ physics.isConstant
          ∧ env.newtonIrTopScope.dimensionForIdentifier name = none then
        pure (factor.setParameterNumber s.currentParameterNumber,
              { s with currentParameterNumber := s.currentParameterNumber + 1 })
      else pure (factor, s)
  else if peekCheck s .Tnumber then
    newtonParseTerminal .Tnumber s
  else if peekCheck s .TleftParen then do
    let (_, s) ← newtonParseTerminal .TleftParen s
    let (factor, s) ← newtonParseQuantityExpression fuel env s
    let (_, s) ← newtonParseTerminal .TrightParen s
    pure (factor, s)
  else
    .error .fatal

/-! ## The loop of a quantity term as a fold -/

/-- What one pass of the `while` loop of `newtonParseQuantityTerm` reads from the
tokens: the operator node, whether the factor starts with an identifier (`isPhysics`),
and the factor node. -/
structure TermItem where
  binOp : IrNode
  isPhysics : Bool
  rightFactor : IrNode

/-- The variables the loop of `newtonParseQuantityTerm` updates. -/
structure TermAcc where
  intermediate : IrNode
  physics : Physics
  hasNumberInTerm : Bool
  numVectorsInTerm : Nat

/-- The body of the `while` loop of `newtonParseQuantityTerm` once the operator and the
factor are parsed. -/
def termStep (leftFactor : IrNode) (acc : TermAcc) (item : TermItem) : Except Err TermAcc := do
  let intermediate := addLeafWithChainingSeq acc.intermediate item.binOp
  let intermediate := addLeafWithChainingSeq intermediate item.rightFactor
  let hasNumberInTerm := acc.hasNumberInTerm || isNumberFactor leftFactor
  let intermediate :=
    if hasNumberInTerm then
      if item.binOp.type = .Tmul then
        intermediate.setValue
          (if item.rightFactor.value = 0 then intermediate.value
           else intermediate.value * item.rightFactor.value)
      else if item.binOp.type = .Tdiv then
        intermediate.setValue
          (if item.rightFactor.value = 0 then intermediate.value
           else intermediate.value / item.rightFactor.value)
      else intermediate
    else intermediate
  let (physics, numVectorsInTerm) ←
    (if item.isPhysics then do
      let rightPhysics ← derefPhysics item.rightFactor
      if rightPhysics.isVector then do
        assert (acc.numVectorsInTerm + 1 < 2)
        pure ({ acc.physics with isVector := true }, acc.numVectorsInTerm + 1)
      else pure (acc.physics, acc.numVectorsInTerm)
    else pure (acc.physics, acc.numVectorsInTerm))
  let physics ←
    (if item.isPhysics ∧ item.binOp.type = .Tmul then do
      let rightPhysics ← derefPhysics item.rightFactor
      let physics :=
        if rightPhysics.numeratorDimensions ≠ [] then
          newtonPhysicsCopyNumeratorDimensions physics rightPhysics
        else physics
      let physics :=
        if rightPhysics.denominatorDimensions ≠ [] then
          newtonPhysicsCopyDenominatorDimensions physics rightPhysics
        else physics
      pure physics
    else if item.isPhysics ∧ item.binOp.type = .Tdiv then do
      let rightPhysics ← derefPhysics item.rightFactor
      let physics :=
        if rightPhysics.numeratorDimensions ≠ [] then
          newtonPhysicsCopyNumeratorToDenominatorDimensions physics rightPhysics
        else physics
      let physics :=
        if rightPhysics.denominatorDimensions ≠ [] then
          newtonPhysicsCopyDenominatorToNumeratorDimensions physics rightPhysics
        else physics
      pure physics
    else pure physics)
  pure
    { intermediate := intermediate
      physics := physics
      hasNumberInTerm := hasNumberInTerm
      numVectorsInTerm := numVectorsInTerm }

/-- The passes of the loop over the items read, in order. -/
def termFold (leftFactor : IrNode) : TermAcc → List TermItem → Except Err TermAcc
  | acc, [] => .ok acc
  | acc, item :: items => termStep leftFactor acc item >>= fun acc => termFold leftFactor acc items

/-- The exit of the loop of `newtonParseQuantityTerm`. -/
def termFinish (acc : TermAcc) : IrNode :=
  (if ¬ acc.hasNumberInTerm then acc.intermediate.setValue 0
    else acc.intermediate).setPhysics (some acc.physics)

/-- The part of `newtonParseQuantityTerm` between the parse of the first factor and the
loop; `unary` is the node of the leading minus, if there is one. -/
def termStart (unary : Option IrNode) (isPhysics : Bool) (leftFactor : IrNode) :
    Except Err TermAcc := do
  let intermediate := (genIrNode .PquantityTerm).setValue 1
  let physics := callocPhysics
  let intermediate :=
    match unary with
    | some u => addLeaf intermediate u
    | none => intermediate
  let isUnary := unary.isSome
  let hasNumberInTerm := false
  let intermediate := addLeafWithChainingSeq intermediate leftFactor
  let hasNumberInTerm := hasNumberInTerm || isNumberFactor leftFactor
  let intermediate :=
    if hasNumberInTerm then
      intermediate.setValue (if isUnary then leftFactor.value * -1 else leftFactor.value)
    else intermediate
  let numVectorsInTerm := 0
  let (physics, numVectorsInTerm) ←
    (if isPhysics then do
      let leftPhysics ← derefPhysics leftFactor
      let physics :=
        if leftPhysics.numeratorDimensions ≠ [] then
          newtonPhysicsCopyNumeratorDimensions physics leftPhysics
        else physics
      let physics :=
        if leftPhysics.denominatorDimensions ≠ [] then
          newtonPhysicsCopyDenominatorDimensions physics leftPhysics
        else physics
      if leftPhysics.isVector then
        pure ({ physics with isVector := true }, numVectorsInTerm + 1)
      else pure (physics, numVectorsInTerm)
    else pure (physics, numVectorsInTerm))
  pure
    { intermediate := intermediate
      physics := physics
      hasNumberInTerm := hasNumberInTerm
      numVectorsInTerm := numVectorsInTerm }

/-- `FactorChain fuel env s items s'`: from state `s` the tokens continue with
`(*|/) factor` as many times as `items` is long, `items` holding what the loop of
`newtonParseQuantityTerm` reads for them in order, and end in state `s'` whose lookahead
is neither `*` nor `/`. -/
inductive FactorChain (fuel : Nat) (env : Env) : State → List TermItem → State → Prop where
  | done (s : State) (h : inFirst s .PmidPrecedenceBinaryOp = false) :
      FactorChain fuel env s [] s
  | step (tok : Token) (rest : List Token) (n : Nat) (f : IrNode) (s2 s3 : State)
      (items : List TermItem)
      (hop : tok.type = .Tmul ∨ tok.type = .Tdiv)
      (hfactor : newtonParseQuantityFactor fuel env ⟨rest, n⟩ = .ok (f, s2))
      (htail : FactorChain fuel env s2 items s3) :
      FactorChain fuel env ⟨tok :: rest, n⟩
        ({ binOp := IrNode.mk tok.type tok.value none none tok.identifier []
           isPhysics := peekCheck ⟨rest, n⟩ .Tidentifier
           rightFactor := f } :: items) s3

/-- The factor counts as a vector of its term: it starts with an identifier and its
physics is a vector. -/
def factorIsVector (isPhysics : Bool) (factor : IrNode) : Bool :=
  isPhysics && (match factor.physics with
    | some p => p.isVector
    | none => false)

/-- The pass of the loop reads a vector. -/
def TermItem.isVector (item : TermItem) : Bool :=
  factorIsVector item.isPhysics item.rightFactor

/-- The value `v` folded over the further factors of a term: a factor joined by `*`
multiplies by its value, a factor joined by `/` divides by its value, and a factor of
value 0 leaves the value as it is. -/
def foldValue (v : ℚ) : List TermItem → ℚ
  | [] => v
  | item :: items =>
    foldValue
      (if item.rightFactor.value = 0 then v
       else if item.binOp.type = .Tmul then v * item.rightFactor.value
       else v / item.rightFactor.value) items

/-! ## Numbering of the free identifiers -/

/-- The identifier of a token that `newtonParseQuantityFactor` gives a parameter number:
an identifier token bound to a physics that is not dimensionless and not constant, and
absent from the dimension table of the top scope. -/
def freeName (env : Env) (tok : Token) : Option String :=
  if tok.type = .Tidentifier then
    match tok.identifier with
    | none => none
    | some name =>
      match env.currentScope.physicsForIdentifier name with
      | none => none
      | some p =>
        if ¬ newtonIsDimensionless p ∧ ¬ p.isConstant
            ∧ env.newtonIrTopScope.dimensionForIdentifier name = none then
          some name
        else none
  else none

/-- The free identifier occurrences among the tokens, left to right. -/
def freeNames (env : Env) (ts : List Token) : List String :=
  ts.filterMap (freeName env)

/-- The names paired with the consecutive numbers `k`, `k + 1`, ... -/
def numbered (k : Nat) (names : List String) : List (String × Nat) :=
  names.zip (List.range' k names.length)

/-- No token is a left parenthesis. -/
def NoParen (ts : List Token) : Prop :=
  ∀ tok ∈ ts, tok.type ≠ .TleftParen

instance decidableNoParen (ts : List Token) : Decidable (NoParen ts) := by
  unfold NoParen
  infer_instance

/-- `Numbers env s params s'`: the parse went from state `s` to state `s'` over a prefix
of the tokens of `s`, `params` pairs the free identifier occurrences of that prefix, left
to right, with the consecutive numbers from the counter of `s` upward, and the counter
of `s'` is the next number. -/
def Numbers (env : Env) (s : State) (params : List (String × Nat)) (s' : State) : Prop :=
  ∃ consumed, s.tokens = consumed ++ s'.tokens ∧
    params = numbered s.currentParameterNumber (freeNames env consumed) ∧
    s'.currentParameterNumber = s.currentParameterNumber + (freeNames env consumed).length

/-! ## The driver loop of `main` -/

/-- What the loop of `newtonParseQuantityTerm` does to the physics of the term for one
factor: nothing unless the factor starts with an identifier; otherwise the factor's
lists are appended, same side for `*`, crossed for `/`, and a vector factor sets the
vector flag. -/
def TermItem.copyInto (physics : Physics) (item : TermItem) : Physics :=
  match item.isPhysics, item.rightFactor.physics with
  | true, some rightPhysics =>
    let physics :=
      if item.binOp.type = .Tmul then
        newtonPhysicsCopyDenominatorDimensions
          (newtonPhysicsCopyNumeratorDimensions physics rightPhysics) rightPhysics
      else if item.binOp.type = .Tdiv then
        newtonPhysicsCopyDenominatorToNumeratorDimensions
          (newtonPhysicsCopyNumeratorToDenominatorDimensions physics rightPhysics) rightPhysics
      else physics
    if rightPhysics.isVector then { physics with isVector := true } else physics
  | _, _ => physics

/-- The first factor of a term as an item: it is copied like a factor joined by `*`. -/
def firstItem (isPhysics : Bool) (leftFactor : IrNode) : TermItem :=
  { binOp := genIrNode .Tmul, isPhysics := isPhysics, rightFactor := leftFactor }

/-- The dimensions a factor adds to the numerator of its term. -/
def TermItem.numerator (item : TermItem) : List Dimension :=
  match item.isPhysics, item.rightFactor.physics with
  | true, some rightPhysics =>
    if item.binOp.type = .Tmul then rightPhysics.numeratorDimensions
    else if item.binOp.type = .Tdiv then rightPhysics.denominatorDimensions
    else []
  | _, _ => []

/-- The dimensions a factor adds to the denominator of its term. -/
def TermItem.denominator (item : TermItem) : List Dimension :=
  match item.isPhysics, item.rightFactor.physics with
  | true, some rightPhysics =>
    if item.binOp.type = .Tmul then rightPhysics.denominatorDimensions
    else if item.binOp.type = .Tdiv then rightPhysics.numeratorDimensions
    else []
  | _, _ => []

/-- The nodes a pass of the loop attaches to the term. -/
def TermItem.nodes (item : TermItem) : List IrNode :=
  [item.binOp, item.rightFactor]

/-- The value `v` multiplied and divided, left to right, by the values of the further
factors of a term. -/
def plainProduct (v : ℚ) (items : List TermItem) : ℚ :=
  items.foldl (fun v item =>
    if item.binOp.type = .Tmul then v * item.rightFactor.value
    else v / item.rightFactor.value) v

/-! ## Dimensions of a term of identifiers and numbers -/

/-- The numerator dimensions bound to a simple factor; none for a number. -/
def SimpleFactor.numerator (env : Env) (f : SimpleFactor) : List Dimension :=
  match f.binding env with
  | some p => p.numeratorDimensions
  | none => []

/-- The denominator dimensions bound to a simple factor; none for a number. -/
def SimpleFactor.denominator (env : Env) (f : SimpleFactor) : List Dimension :=
  match f.binding env with
  | some p => p.denominatorDimensions
  | none => []

/-- The numerator prime product bound to a simple factor; 1 for a number. -/
def SimpleFactor.numeratorPrimeProduct (env : Env) (f : SimpleFactor) : Nat :=
  match f.binding env with
  | some p => p.numeratorPrimeProduct
  | none => 1

/-- The denominator prime product bound to a simple factor; 1 for a number. -/
def SimpleFactor.denominatorPrimeProduct (env : Env) (f : SimpleFactor) : Nat :=
  match f.binding env with
  | some p => p.denominatorPrimeProduct
  | none => 1

/-- The dimensions `(op factor)*` adds to the numerator: the numerator of a factor joined
by `*`, the denominator of a factor joined by `/`. -/
def chainNumerator (env : Env) : List (MidOp × SimpleFactor) → List Dimension
  | [] => []
  | (.mul, f) :: rest => f.numerator env ++ chainNumerator env rest
  | (.div, f) :: rest => f.denominator env ++ chainNumerator env rest

/-- The dimensions `(op factor)*` adds to the denominator: the denominator of a factor
joined by `*`, the numerator of a factor joined by `/`. -/
def chainDenominator (env : Env) : List (MidOp × SimpleFactor) → List Dimension
  | [] => []
  | (.mul, f) :: rest => f.denominator env ++ chainDenominator env rest
  | (.div, f) :: rest => f.numerator env ++ chainDenominator env rest

/-- The product of `num(f)` for every factor joined by `*` and of `den(f)` for every
factor joined by `/`. -/
def chainNumeratorProduct (env : Env) : List (MidOp × SimpleFactor) → Nat
  | [] => 1
  | (.mul, f) :: rest => f.numeratorPrimeProduct env * chainNumeratorProduct env rest
  | (.div, f) :: rest => f.denominatorPrimeProduct env * chainNumeratorProduct env rest

/-- The product of `den(f)` for every factor joined by `*` and of `num(f)` for every
factor joined by `/`. -/
def chainDenominatorProduct (env : Env) : List (MidOp × SimpleFactor) → Nat
  | [] => 1
  | (.mul, f) :: rest => f.denominatorPrimeProduct env * chainDenominatorProduct env rest
  | (.div, f) :: rest => f.numeratorPrimeProduct env * chainDenominatorProduct env rest

/-- The physics of the operator and factor nodes of `(op factor)*`, as bound. -/
def chainPhysics (env : Env) : List (MidOp × SimpleFactor) → List (Option Physics)
  | [] => []
  | (_, f) :: rest => none :: f.binding env :: chainPhysics env rest

/-- The item the loop reads for `op factor` carries the operator and the binding of the
factor. -/
def TermItem.Reads (env : Env) (item : TermItem) (x : MidOp × SimpleFactor) : Prop :=
  item.binOp.type = x.1.token.type ∧ item.binOp.physics = none ∧
    item.isPhysics = (x.2.binding env).isSome ∧ item.rightFactor.physics = x.2.binding env

/-! ## Integer powers of an identifier -/

/-- The tokens of the integer `n`, or of `-n`. -/
def integerTokens (neg : Bool) (n : ℕ) : List Token :=
  (if neg then [Token.op .Tminus] else []) ++ [Token.number n]

/-- The tokens of the factor `x ** n`, or of `x ** -n`. -/
def powerTokens (x : String) (neg : Bool) (n : ℕ) : List Token :=
  Token.ident x :: Token.op .Texponent :: integerTokens neg n

/-! ## Termination -/

/-- `Halts n r`: the run `r` did not stop for lack of fuel, and when it returned, fewer
than `n` tokens are left. -/
def Halts {α : Type} (n : Nat) (r : Except Err (α × State)) : Prop :=
  match r with
  | .ok (_, s) => s.tokens.length < n
  | .error e => e ≠ .outOfFuel

/-- The `for` loops of `newtonParseExponentialExpression` as written:
`for (power = 0; power < value; power++)`, or `for (power = 0; power > value; power--)`
when `down`, from the current `power`. Each pass applies one copy step and replaces
`copy` by a deep copy of itself; the number of passes made is returned with the result.
The range of `int` is not modelled. -/
def exponentForLoop (step : Physics → Physics → Physics) (value : ℚ) (down : Bool) :
    Nat → Int → Nat → Physics → Physics → Option (Nat × Physics × Physics)
  | 0, _, _, _, _ => none
  | fuel + 1, power, passes, newExponentBase, copy =>
    if (if down then (power : ℚ) > value else (power : ℚ) < value) then
      exponentForLoop step value down fuel (if down then power - 1 else power + 1)
        (passes + 1) (step newExponentBase copy) (deepCopyPhysicsNode copy)
    else some (passes, newExponentBase, copy)

/-! ## The parser over a store of physics models -/

/-
In C a node holds a pointer to its `Physics`, and so does the scope. The definitions
of this section embed the same source functions once more with the pointers explicit:
the `Physics` objects live in a store, a node and the scope hold addresses, `calloc`
and the copy functions allocate a new cell, and the functions that change a model
write to the cell of their destination. The store is the list of the cells allocated
so far; an address is a position in it.
-/

namespace Store

/-- An AST node whose `physics` field is a pointer: the address of a cell of the
store, `none` being the null pointer. -/
inductive Node where
  | mk (type : IrNodeType) (value : ℚ) (physics : Option Nat)
      (parameterNumber : Option Nat) (tokenString : Option String)
      (children : List Node)

namespace Node

/-- Kind tag of a node. -/
def type : Node → IrNodeType
  | mk t _ _ _ _ _ => t

/-- Evaluated numeric value of a node. -/
def value : Node → ℚ
  | mk _ v _ _ _ _ => v

/-- The pointer `node->physics`. -/
def physics : Node → Option Nat
  | mk _ _ p _ _ _ => p

/-- Free-parameter index of a node, when one was assigned. -/
def parameterNumber : Node → Option Nat
  | mk _ _ _ n _ _ => n

/-- Identifier text of a node. -/
def tokenString : Node → Option String
  | mk _ _ _ _ s _ => s

/-- Ordered children of a node. -/
def children : Node → List Node
  | mk _ _ _ _ _ c => c

/-- Assignment `node->value = v`. -/
def setValue : Node → ℚ → Node
  | mk t _ p n s c, v => mk t v p n s c

/-- Assignment `node->physics = p` of a pointer. -/
def setPhysics : Node → Option Nat → Node
  | mk t v _ n s c, p => mk t v p n s c

/-- Assignment `node->parameterNumber = k`. -/
def setParameterNumber : Node → Nat → Node
  | mk t v p _ s c, k => mk t v p (some k) s c

end Node

/-- Parser state `N` together with the store: the cells of all `Physics` objects
allocated so far, in the order of their allocation. -/
structure Machine extends State where
  heap : List Physics

/-- A scope holding pointers: an identifier is bound to the address of its `Physics`. -/
structure Scope where
  physicsForIdentifier : String → Option Nat
  dimensionForIdentifier : String → Option Dimension

/-- What the parser reads besides the tokens and the store: `currentScope`,
`N->newtonIrTopScope` and the C library function `pow`. -/
structure Env where
  currentScope : Scope
  newtonIrTopScope : Scope
  pow : ℚ → ℚ → ℚ

/-- Result of a parse function: an error, or the produced node with the state and
store after it. -/
abbrev ParseResult := Except Err (Node × Machine)

/-- Allocation of a new cell holding `p`: the address returned is the next free one. -/
def allocate (m : Machine) (p : Physics) : Nat × Machine :=
  (m.heap.length, { m with heap := m.heap ++ [p] })

/-- The read `*pointer`: the null pointer, and an address that was never allocated,
end the program. -/
def readPhysics (m : Machine) (pointer : Option Nat) : Except Err Physics :=
  match pointer with
  | none => .error .nullDereference
  | some a =>
    match m.heap[a]? with
    | none => .error .nullDereference
    | some p => .ok p

/-- The write `*a = p`. -/
def writePhysics (m : Machine) (a : Nat) (p : Physics) : Machine :=
  { m with heap := m.heap.set a p }

/-- Modelled from the spec: `genIrNode` allocates a zeroed node of the given kind, without children. -/
def genIrNode (t : IrNodeType) : Node :=
  Node.mk t 0 none none none []

/-- Modelled from the spec: `addLeaf` attaches a child at the end of the parent's ordered list of children. -/
def addLeaf (parent child : Node) : Node :=
  match parent with
  | Node.mk t v p n s c => Node.mk t v p n s (c ++ [child])

/-- Modelled from the spec: `addLeafWithChainingSeq` attaches a child at the end of the parent's ordered list of children. -/
def addLeafWithChainingSeq (parent child : Node) : Node :=
  addLeaf parent child

/-- Modelled from the spec: `consumeTerminal(expectedKind)`, which fails fatally on a
mismatch and otherwise returns a childless node of the token's kind carrying the
token's literal value and identifier text. -/
def newtonParseTerminal (expectedType : IrNodeType) (m : Machine) : ParseResult :=
  match m.tokens with
  | [] => .error .fatal
  | tok :: rest =>
    if tok.type = expectedType then
      .ok (Node.mk tok.type tok.value none none tok.identifier [],
           { m with tokens := rest })
    else .error .fatal

/-- Modelled from the spec: `deepCopy` allocates a new model with the contents of the
one at `source`; the source is only read. -/
def deepCopyPhysicsNode (m : Machine) (source : Option Nat) : Except Err (Nat × Machine) := do
  let p ← readPhysics m source
  pure (allocate m (Newton.deepCopyPhysicsNode p))

/-- Modelled from the spec: `shallowCopy` allocates a new model with the scalar fields
of the one at `source` and without its dimension lists; the source is only read. -/
def shallowCopyPhysicsNode (m : Machine) (source : Option Nat) : Except Err (Nat × Machine) := do
  let p ← readPhysics m source
  pure (allocate m (Newton.shallowCopyPhysicsNode p))

/-- Modelled from the spec: the four functions `copyNumerator(dst, src)`, ...,
`copyDenominatorToNumerator(dst, src)`. Each reads the models at `dst` and `src` and
writes the accumulated model `step dst src` to the cell at `dst`; `src` is not
written ("must not mutate `src`"). -/
def copyDimensions (step : Physics → Physics → Physics) (m : Machine) (dst src : Option Nat) :
    Except Err Machine := do
  let d ← readPhysics m dst
  let s ← readPhysics m src
  match dst with
  | none => .error .nullDereference
  | some a => pure (writePhysics m a (step d s))

/-- Modelled from the spec: `newtonParseIdentifierUsageTerminal` consumes an identifier
token and attaches the physics the scope holds for it (`lookupIdentifierPhysics`),
together with its known value; an unbound identifier is a fatal error. Whether the
function copies the model is not visible in the source; the embedding takes the case
in which it does not: the pointer attached is the one the scope holds, so that the node
shares the model with the binding until `newtonParseQuantityFactor` replaces the
pointer by the one of a deep copy. -/
def newtonParseIdentifierUsageTerminal (env : Env) (m : Machine) : ParseResult :=
  match m.tokens with
  | [] => .error .fatal
  | tok :: rest =>
    if tok.type = IrNodeType.Tidentifier then
      match tok.identifier with
      | none => .error .fatal
      | some name =>
        match env.currentScope.physicsForIdentifier name with
        | none => .error .fatal
        | some a =>
          match m.heap[a]? with
          | none => .error .nullDereference
          | some p =>
            .ok (Node.mk tok.type p.value (some a) none (some name) [],
                 { m with tokens := rest })
    else .error .fatal

/-- Source `newtonParseLowPrecedenceBinaryOp`: returns the null pointer (`none`) on any other token. -/
def newtonParseLowPrecedenceBinaryOp (m : Machine) : Except Err (Option Node × Machine) :=
  if peekCheck m.toState .Tplus then
    (newtonParseTerminal .Tplus m).map (fun r => (some r.1, r.2))
  else if peekCheck m.toState .Tminus then
    (newtonParseTerminal .Tminus m).map (fun r => (some r.1, r.2))
  else
    .ok (none, m)

/-- Source `newtonParseUnaryOp`. -/
def newtonParseUnaryOp (m : Machine) : ParseResult :=
  if peekCheck m.toState .Tminus then
    newtonParseTerminal .Tminus m
  else
    .error .fatal

/-- Source `newtonParseHighPrecedenceBinaryOp`. -/
def newtonParseHighPrecedenceBinaryOp (m : Machine) : ParseResult :=
  let node := genIrNode .PhighPrecedenceBinaryOp
  if peekCheck m.toState .Texponent then
    (newtonParseTerminal .Texponent m).map (fun r => (addLeaf node r.1, r.2))
  else
    .error .fatal

/-- Source `newtonParseMidPrecedenceBinaryOp`. -/
def newtonParseMidPrecedenceBinaryOp (m : Machine) : ParseResult :=
  if peekCheck m.toState .Tmul then
    newtonParseTerminal .Tmul m
  else if peekCheck m.toState .Tdiv then
    newtonParseTerminal .Tdiv m
  else
    .error .fatal

/-- Source `newtonParseInteger`. -/
def newtonParseInteger (m : Machine) : ParseResult := do
  let node := genIrNode .Pinteger
  let (node, m) ←
    (if inFirst m.toState .PunaryOp then do
      let (u, m) ← newtonParseUnaryOp m
      pure ((addLeaf node u).setValue (-1), m)
    else pure (node, m))
  let (number, m) ← newtonParseTerminal .Tnumber m
  let node := addLeaf node number
  let node := node.setValue (if node.value = -1 then node.value * number.value else number.value)
  assert (node.value ≠ 0)
  pure (node, m)

mutual

/-- Source `newtonParseNumericExpression`. -/
def newtonParseNumericExpression : Nat → Env → Machine → ParseResult
  | 0, _, _ => .error .outOfFuel
  | fuel + 1, env, m =>
    if inFirst m.toState .PquantityTerm then do
      let (leftTerm, m) ← newtonParseNumericTerm fuel env m
      numericExpressionLoop fuel env leftTerm m
    else
      .error .fatal

/-- The `while` loop of `newtonParseNumericExpression`. -/
def numericExpressionLoop : Nat → Env → Node → Machine → ParseResult
  | 0, _, _, _ => .error .outOfFuel
  | fuel + 1, env, leftTerm, m =>
    if inFirst m.toState .PlowPrecedenceBinaryOp then do
      let (binOp?, m) ← newtonParseLowPrecedenceBinaryOp m
      match binOp? with
      | none => .error .nullDereference
      | some binOp =>
        let leftTerm := addLeaf leftTerm binOp
        let (rightTerm, m) ← newtonParseNumericTerm fuel env m
        let leftTerm := addLeafWithChainingSeq leftTerm rightTerm
        let leftTerm :=
          if binOp.type = .Tplus then leftTerm.setValue (leftTerm.value + rightTerm.value)
          else if binOp.type = .Tminus then leftTerm.setValue (leftTerm.value - rightTerm.value)
          else leftTerm
        numericExpressionLoop fuel env leftTerm m
    else
      pure (leftTerm, m)

/-- Source `newtonParseNumericTerm`. -/
def newtonParseNumericTerm : Nat → Env → Machine → ParseResult
  | 0, _, _ => .error .outOfFuel
  | fuel + 1, env, m => do
    let intermediate := (genIrNode .PquantityTerm).setValue 1
    let (intermediate, m) ←
      (if inFirst m.toState .PunaryOp then do
        let (u, m) ← newtonParseUnaryOp m
        let intermediate := addLeaf intermediate u
        pure (intermediate.setValue (intermediate.value * -1), m)
      else pure (intermediate, m))
    let (leftFactor, m) ← newtonParseNumericFactor fuel env m
    let intermediate := intermediate.setValue (intermediate.value * leftFactor.value)
    let intermediate := addLeafWithChainingSeq intermediate leftFactor
    numericTermLoop fuel env intermediate m

/-- The `while` loop of `newtonParseNumericTerm`. -/
def numericTermLoop : Nat → Env → Node → Machine → ParseResult
  | 0, _, _, _ => .error .outOfFuel
  | fuel + 1, env, intermediate, m =>
    if inFirst m.toState .PmidPrecedenceBinaryOp then do
      let (binOp, m) ← newtonParseMidPrecedenceBinaryOp m
      let intermediate := addLeafWithChainingSeq intermediate binOp
      let (rightFactor, m) ← newtonParseNumericFactor fuel env m
      let intermediate := addLeafWithChainingSeq intermediate rightFactor
      let intermediate :=
        if binOp.type = .Tmul then intermediate.setValue (intermediate.value * rightFactor.value)
        else if binOp.type = .Tdiv then intermediate.setValue (intermediate.value / rightFactor.value)
        else intermediate
      numericTermLoop fuel env intermediate m
    else
      pure (intermediate, m)

/-- Source `newtonParseNumericFactor`. -/
def newtonParseNumericFactor : Nat → Env → Machine → ParseResult
  | 0, _, _ => .error .outOfFuel
  | fuel + 1, env, m => do
    let (node, m) ←
      (if peekCheck m.toState .Tidentifier then do
        let (node, m) ← newtonParseIdentifierUsageTerminal env m
        let p ← readPhysics m node.physics
        assert (p.isConstant = true)
        pure (node, m)
      else if peekCheck m.toState .Tnumber then do
        let (node, m) ← newtonParseTerminal .Tnumber m
        assert (node.value ≠ 0)
        pure (node, m)
      else if peekCheck m.toState .TleftParen then do
        let (_, m) ← newtonParseTerminal .TleftParen m
        let (node, m) ← newtonParseNumericExpression fuel env m
        let (_, m) ← newtonParseTerminal .TrightParen m
        pure (node, m)
      else
        .error .fatal)
    if inFirst m.toState .PhighPrecedenceBinaryOp then do
      let (op, m) ← newtonParseHighPrecedenceBinaryOp m
      let node := addLeaf node op
      let (exponentExpression, m) ←
        (if peekCheck m.toState .TleftParen then newtonParseNumericExpression fuel env m
        else newtonParseInteger m)
      let node := addLeaf node exponentExpression
      assert (node.value ≠ 0 ∨ exponentExpression.value ≠ 0)
      pure (node.setValue (env.pow node.value exponentExpression.value), m)
    else
      pure (node, m)

end

/-- The `for` loops of `newtonParseExponentialExpression`: each iteration applies one
copy step from the model at `copy` into the one at `newExponentBase` and then replaces
the pointer `copy` by the address of a deep copy of its model. The first argument is
the number of iterations, `|value|` for the integer `value` in the range of `int` that
the assertion before the loops leaves. The result is the store with the last `copy`. -/
def exponentLoop (step : Physics → Physics → Physics) :
    Nat → Machine → Nat → Nat → Except Err (Machine × Nat)
  | 0, m, _, copy => pure (m, copy)
  | n + 1, m, newExponentBase, copy => do
    let m ← copyDimensions step m (some newExponentBase) (some copy)
    let (copy, m) ← deepCopyPhysicsNode m (some copy)
    exponentLoop step n m newExponentBase copy

/-- Source `newtonParseExponentialExpression`. The result is the exponent node paired
with `baseNode` after the assignment to `baseNode->physics`. -/
def newtonParseExponentialExpression (fuel : Nat) (env : Env) (baseNode : Node) (m : Machine) :
    Except Err ((Node × Node) × Machine) := do
  let (exponent, m) ←
    (if peekCheck m.toState .TleftParen then newtonParseNumericExpression fuel env m
    else newtonParseInteger m)
  let (newExponentBase, m) ← shallowCopyPhysicsNode m baseNode.physics
  let newPhysics ← readPhysics m (some newExponentBase)
  if exponent.value = 0 then
    let m := writePhysics m newExponentBase { newPhysics with value := 1 }
    pure ((exponent, baseNode.setPhysics (some newExponentBase)), m)
  else do
    let m := writePhysics m newExponentBase
      { newPhysics with value := env.pow newPhysics.value exponent.value }
    let (copy, m) ← deepCopyPhysicsNode m baseNode.physics
    let count := (truncToInt exponent.value).natAbs
    let basePhysics ← readPhysics m baseNode.physics
    let (m, copy) ←
      (if basePhysics.numberOfNumerators > 0 then do
        assert (exponent.value = ((castInt exponent.value : ℤ) : ℚ))
        if exponent.value < 0 then
          exponentLoop newtonPhysicsCopyNumeratorToDenominatorDimensions count m newExponentBase copy
        else
          exponentLoop newtonPhysicsCopyNumeratorDimensions count m newExponentBase copy
      else pure (m, copy))
    let basePhysics ← readPhysics m baseNode.physics
    let (m, _) ←
      (if basePhysics.numberOfDenominators > 0 then do
        assert (exponent.value = ((castInt exponent.value : ℤ) : ℚ))
        if exponent.value < 0 then
          exponentLoop newtonPhysicsCopyDenominatorToNumeratorDimensions count m newExponentBase copy
        else
          exponentLoop newtonPhysicsCopyDenominatorDimensions count m newExponentBase copy
      else pure (m, copy))
    pure ((exponent, baseNode.setPhysics (some newExponentBase)), m)

/-- The end of `newtonParseQuantityExpression`. `expression` holds `leftTerm` by
reference as its first child (`addLeaf(N, expression, leftTerm)`) while the loop
keeps attaching the right terms to `leftTerm`; the embedding therefore attaches the
final `leftTerm` in front of the operator children when the loop is left. -/
def attachLeftTerm (expression leftTerm : Node) : Node :=
  match expression with
  | Node.mk t v p n s c => Node.mk t v p n s (leftTerm :: c)

/-- Attaching the result of `newtonParseLowPrecedenceBinaryOp`, which may be the null pointer. -/
def addLeafWithChainingSeqOpt (parent : Node) (child : Option Node) : Node :=
  match child with
  | none => parent
  | some c => addLeafWithChainingSeq parent c

/-- The test `leftFactor->physics == NULL || leftFactor->physics->isConstant`. -/
def isNumberFactor (m : Machine) (factor : Node) : Except Err Bool :=
  match factor.physics with
  | none => pure true
  | some a => do
    let p ← readPhysics m (some a)
    pure p.isConstant

/-- The two statements `if (factor->physics->numeratorDimensions) first(...)` and
`if (factor->physics->denominatorDimensions) second(...)` of `newtonParseQuantityTerm`,
which copy the dimensions of a factor into the model of the term. -/
def copyFactorDimensions (first second : Physics → Physics → Physics) (m : Machine)
    (intermediate factor : Node) : Except Err Machine := do
  let factorPhysics ← readPhysics m factor.physics
  let m ←
    (if factorPhysics.numeratorDimensions ≠ [] then
      copyDimensions first m intermediate.physics factor.physics
    else pure m)
  let factorPhysics ← readPhysics m factor.physics
  if factorPhysics.denominatorDimensions ≠ [] then
    copyDimensions second m intermediate.physics factor.physics
  else pure m

/-- The statement `intermediate->physics->isVector = true`. -/
def setVector (m : Machine) (intermediate : Node) : Except Err Machine := do
  let p ← readPhysics m intermediate.physics
  match intermediate.physics with
  | none => .error .nullDereference
  | some a => pure (writePhysics m a { p with isVector := true })

mutual

/-- Source `newtonParseQuantityExpression`. -/
def newtonParseQuantityExpression : Nat → Env → Machine → ParseResult
  | 0, _, _ => .error .outOfFuel
  | fuel + 1, env, m =>
    let (physics, m) := allocate m callocPhysics
    let expression := (genIrNode .PquantityExpression).setPhysics (some physics)
    let m : Machine := { m with currentParameterNumber := 0 }
    if inFirst m.toState .PquantityTerm then do
      let (leftTerm, m) ← newtonParseQuantityTerm fuel env m
      let expression := expression.setValue leftTerm.value
      let expression := expression.setPhysics leftTerm.physics
      quantityExpressionLoop fuel env expression leftTerm m
    else
      .error .fatal

/-- The `while` loop of `newtonParseQuantityExpression`. -/
def quantityExpressionLoop : Nat → Env → Node → Node → Machine → ParseResult
  | 0, _, _, _, _ => .error .outOfFuel
  | fuel + 1, env, expression, leftTerm, m =>
    if inFirst m.toState .PlowPrecedenceBinaryOp then do
      let (binOp?, m) ← newtonParseLowPrecedenceBinaryOp m
      let expression := addLeafWithChainingSeqOpt expression binOp?
      let (rightTerm, m) ← newtonParseQuantityTerm fuel env m
      let leftTerm := addLeafWithChainingSeq leftTerm rightTerm
      let expression := expression.setValue (expression.value + rightTerm.value)
      let leftPhysics ← readPhysics m leftTerm.physics
      let rightPhysics ← readPhysics m rightTerm.physics
      assert (leftPhysics.numeratorPrimeProduct = rightPhysics.numeratorPrimeProduct)
      assert (leftPhysics.denominatorPrimeProduct = rightPhysics.denominatorPrimeProduct)
      quantityExpressionLoop fuel env expression leftTerm m
    else
      pure (attachLeftTerm expression leftTerm, m)

/-- Source `newtonParseQuantityTerm`. -/
def newtonParseQuantityTerm : Nat → Env → Machine → ParseResult
  | 0, _, _ => .error .outOfFuel
  | fuel + 1, env, m => do
    let intermediate := genIrNode .PquantityTerm
    let (physics, m) := allocate m callocPhysics
    let intermediate := intermediate.setPhysics (some physics)
    let intermediate := intermediate.setValue 1
    let (intermediate, isUnary, m) ←
      (if inFirst m.toState .PunaryOp then do
        let (u, m) ← newtonParseUnaryOp m
        pure (addLeaf intermediate u, true, m)
      else pure (intermediate, false, m))
    let hasNumberInTerm := false
    let isPhysics := peekCheck m.toState .Tidentifier
    let (leftFactor, m) ← newtonParseQuantityFactor fuel env m
    let intermediate := addLeafWithChainingSeq intermediate leftFactor
    let isNumber ← isNumberFactor m leftFactor
    let hasNumberInTerm := hasNumberInTerm || isNumber
    let intermediate :=
      if hasNumberInTerm then
        intermediate.setValue (if isUnary then leftFactor.value * -1 else leftFactor.value)
      else intermediate
    let numVectorsInTerm := 0
    let (m, numVectorsInTerm) ←
      (if isPhysics then do
        let m ← copyFactorDimensions newtonPhysicsCopyNumeratorDimensions
          newtonPhysicsCopyDenominatorDimensions m intermediate leftFactor
        let leftPhysics ← readPhysics m leftFactor.physics
        if leftPhysics.isVector then do
          let m ← setVector m intermediate
          pure (m, numVectorsInTerm + 1)
        else pure (m, numVectorsInTerm)
      else pure (m, numVectorsInTerm))
    quantityTermLoop fuel env leftFactor intermediate hasNumberInTerm numVectorsInTerm m

/-- The `while` loop of `newtonParseQuantityTerm`. -/
def quantityTermLoop : Nat → Env → Node → Node → Bool → Nat → Machine → ParseResult
  | 0, _, _, _, _, _, _ => .error .outOfFuel
  | fuel + 1, env, leftFactor, intermediate, hasNumberInTerm, numVectorsInTerm, m =>
    if inFirst m.toState .PmidPrecedenceBinaryOp then do
      let (binOp, m) ← newtonParseMidPrecedenceBinaryOp m
      let intermediate := addLeafWithChainingSeq intermediate binOp
      let isPhysics := peekCheck m.toState .Tidentifier
      let (rightFactor, m) ← newtonParseQuantityFactor fuel env m
      let intermediate := addLeafWithChainingSeq intermediate rightFactor
      let isNumber ← (if hasNumberInTerm then pure true else isNumberFactor m leftFactor)
      let hasNumberInTerm := hasNumberInTerm || isNumber
      let intermediate :=
        if hasNumberInTerm then
          if binOp.type = .Tmul then
            intermediate.setValue
              (if rightFactor.value = 0 then intermediate.value
               else intermediate.value * rightFactor.value)
          else if binOp.type = .Tdiv then
            intermediate.setValue
              (if rightFactor.value = 0 then intermediate.value
               else intermediate.value / rightFactor.value)
          else intermediate
        else intermediate
      let (m, numVectorsInTerm) ←
        (if isPhysics then do
          let rightPhysics ← readPhysics m rightFactor.physics
          if rightPhysics.isVector then do
            let m ← setVector m intermediate
            assert (numVectorsInTerm + 1 < 2)
            pure (m, numVectorsInTerm + 1)
          else pure (m, numVectorsInTerm)
        else pure (m, numVectorsInTerm))
      let m ←
        (if isPhysics ∧ binOp.type = .Tmul then
          copyFactorDimensions newtonPhysicsCopyNumeratorDimensions
            newtonPhysicsCopyDenominatorDimensions m intermediate rightFactor
        else if isPhysics ∧ binOp.type = .Tdiv then
          copyFactorDimensions newtonPhysicsCopyNumeratorToDenominatorDimensions
            newtonPhysicsCopyDenominatorToNumeratorDimensions m intermediate rightFactor
        else pure m)
      quantityTermLoop fuel env leftFactor intermediate hasNumberInTerm numVectorsInTerm m
    else
      let intermediate := if ¬ hasNumberInTerm then intermediate.setValue 0 else intermediate
      pure (intermediate, m)

/-- Source `newtonParseQuantityFactor`. -/
def newtonParseQuantityFactor : Nat → Env → Machine → ParseResult
  | 0, _, _ => .error .outOfFuel
  | fuel + 1, env, m => do
    let (factor, m) ←
      (if peekCheck m.toState .Tidentifier then do
        let (factor, m) ← newtonParseIdentifierUsageTerminal env m
        let (physics, m) ← deepCopyPhysicsNode m factor.physics
        let factor := factor.setPhysics (some physics)
        let p ← readPhysics m factor.physics
        let factor := factor.setValue p.value
        match factor.tokenString with
        | none => .error .assertionFailure
        | some name =>
          if ¬ newtonIsDimensionless p ∧ ¬ p.isConstant
              ∧ env.newtonIrTopScope.dimensionForIdentifier name = none then
            pure (factor.setParameterNumber m.currentParameterNumber,
                  { m with currentParameterNumber := m.currentParameterNumber + 1 })
          else pure (factor, m)
      else if peekCheck m.toState .Tnumber then
        newtonParseTerminal .Tnumber m
      else if peekCheck m.toState .TleftParen then do
        let (_, m) ← newtonParseTerminal .TleftParen m
        let (factor, m) ← newtonParseQuantityExpression fuel env m
        let (_, m) ← newtonParseTerminal .TrightParen m
        pure (factor, m)
      else
        .error .fatal)
    if inFirst m.toState .PhighPrecedenceBinaryOp then do
      let (op, m) ← newtonParseHighPrecedenceBinaryOp m
      let factor := addLeaf factor op
      let ((exponentialExpression, factor), m) ← newtonParseExponentialExpression fuel env factor m
      let factor := addLeafWithChainingSeq factor exponentialExpression
      let factor :=
        if factor.value ≠ 0 then
          factor.setValue (env.pow factor.value exponentialExpression.value)
        else factor
      pure (factor, m)
    else
      pure (factor, m)

end

/-- The scope of `exampleScope` with pointers: `"mass"` is bound to address 0 and
`"velocity"` to address 1. -/
def exampleScope : Scope :=
  { physicsForIdentifier := fun name =>
      if name = "mass" then some 0 else if name = "velocity" then some 1 else none
    dimensionForIdentifier := fun _ => none }

/-- An environment over `exampleScope`. -/
def exampleEnv : Env :=
  { currentScope := exampleScope
    newtonIrTopScope := exampleScope
    pow := Newton.exampleEnv.pow }

end Store

/-! ## Fuel -/

/-- `FuelLe r r'`: `r` ran out of fuel or is already the result `r'`. -/
def FuelLe {α : Type} (r r' : Except Err α) : Prop :=
  r = .error .outOfFuel ∨ r = r'

theorem FuelLe.refl {α : Type} (r : Except Err α) : FuelLe r r := Or.inr rfl

theorem FuelLe.outOfFuel {α : Type} (r : Except Err α) : FuelLe (.error .outOfFuel) r :=
  Or.inl rfl

theorem FuelLe.trans {α : Type} {a b c : Except Err α} (h1 : FuelLe a b) (h2 : FuelLe b c) :
    FuelLe a c := by
  rcases h1 with h | h
  · exact Or.inl h
  · rw [h]; exact h2

theorem FuelLe.bind {α β : Type} {x x' : Except Err α} {k k' : α → Except Err β}
    (hx : FuelLe x x') (hk : ∀ a, FuelLe (k a) (k' a)) : FuelLe (x >>= k) (x' >>= k') := by
  rcases hx with h | h
  · left; subst h; rfl
  · subst h
    cases x with
    | error e => right; rfl
    | ok a => exact hk a

theorem FuelLe.ite {α : Type} {c : Prop} [Decidable c] {a a' b b' : Except Err α}
    (h1 : c → FuelLe a a') (h2 : ¬ c → FuelLe b b') :
    FuelLe (if c then a else b) (if c then a' else b') := by
  split
  · exact h1 ‹_›
  · exact h2 ‹_›

theorem FuelLe.eq_of_ne {α : Type} {r r' : Except Err α} (h : FuelLe r r')
    (hne : r ≠ .error .outOfFuel) : r' = r := by
  rcases h with h | h
  · exact absurd h hne
  · exact h.symm

theorem FuelLe.eq_ok {α : Type} {r r' : Except Err α} {a : α} (h : FuelLe r r')
    (hok : r = .ok a) : r' = .ok a := by
  rw [← hok]
  exact h.eq_of_ne (by rw [hok]; simp)

/-- A result that only improves from one fuel to the next improves along `≤`. -/
theorem FuelLe.of_step {α : Type} (P : Nat → Except Err α)
    (hstep : ∀ f, FuelLe (P f) (P (f + 1))) {f f' : Nat} (hle : f ≤ f') :
    FuelLe (P f) (P f') := by
  induction hle with
  | refl => exact FuelLe.refl _
  | step _ ih => exact ih.trans (hstep _)

/-- One more unit of fuel never changes a result of the numeric parse functions. -/
theorem numeric_fuel_step (fuel : Nat) :
    (∀ env s, FuelLe (newtonParseNumericExpression fuel env s)
      (newtonParseNumericExpression (fuel + 1) env s)) ∧
    (∀ env n s, FuelLe (numericExpressionLoop fuel env n s)
      (numericExpressionLoop (fuel + 1) env n s)) ∧
    (∀ env s, FuelLe (newtonParseNumericTerm fuel env s)
      (newtonParseNumericTerm (fuel + 1) env s)) ∧
    (∀ env n s, FuelLe (numericTermLoop fuel env n s)
      (numericTermLoop (fuel + 1) env n s)) ∧
    (∀ env s, FuelLe (newtonParseNumericFactor fuel env s)
      (newtonParseNumericFactor (fuel + 1) env s)) := by
  induction fuel with
  | zero =>
    refine ⟨?_, ?_, ?_, ?_, ?_⟩ <;> intros <;> exact FuelLe.outOfFuel _
  | succ f ih =>
    obtain ⟨ihE, ihEL, ihT, ihTL, ihF⟩ := ih
    refine ⟨?_, ?_, ?_, ?_, ?_⟩
    · intro env s
      rw [newtonParseNumericExpression, newtonParseNumericExpression]
      repeat' first
        | exact FuelLe.refl _
        | exact ihEL _ _ _
        | exact ihT _ _
        | apply FuelLe.bind
        | apply FuelLe.ite
        | rintro ⟨_, _⟩
        | intro _
    · intro env n s
      rw [numericExpressionLoop, numericExpressionLoop]
      repeat' first
        | exact FuelLe.refl _
        | exact ihEL _ _ _
        | exact ihT _ _
        | apply FuelLe.bind
        | apply FuelLe.ite
        | rintro ⟨_ | _, _⟩
        | intro _
    · intro env s
      rw [newtonParseNumericTerm, newtonParseNumericTerm]
      repeat' first
        | exact FuelLe.refl _
        | exact ihTL _ _ _
        | exact ihF _ _
        | apply FuelLe.bind
        | apply FuelLe.ite
        | rintro ⟨_, _⟩
    · intro env n s
      rw [numericTermLoop, numericTermLoop]
      repeat' first
        | exact FuelLe.refl _
        | exact ihTL _ _ _
        | exact ihF _ _
        | apply FuelLe.bind
        | apply FuelLe.ite
        | rintro ⟨_, _⟩
        | intro _
    · intro env s
      rw [newtonParseNumericFactor, newtonParseNumericFactor]
      repeat' first
        | exact FuelLe.refl _
        | exact ihE _ _
        | apply FuelLe.bind
        | apply FuelLe.ite
        | rintro ⟨_, _⟩
        | intro _

/-- One more unit of fuel never changes a result of `newtonParseExponentialExpression`. -/
theorem exponential_fuel_step (fuel : Nat) (env : Env) (b : IrNode) (s : State) :
    FuelLe (newtonParseExponentialExpression fuel env b s)
      (newtonParseExponentialExpression (fuel + 1) env b s) := by
  unfold newtonParseExponentialExpression
  repeat' first
    | exact FuelLe.refl _
    | exact (numeric_fuel_step _).1 _ _
    | apply FuelLe.bind
    | apply FuelLe.ite
    | rintro ⟨_, _⟩
    | intro _

/-- One more unit of fuel never changes a result of the quantity parse functions. -/
theorem quantity_fuel_step (fuel : Nat) :
    (∀ env s, FuelLe (newtonParseQuantityExpression fuel env s)
      (newtonParseQuantityExpression (fuel + 1) env s)) ∧
    (∀ env e l s, FuelLe (quantityExpressionLoop fuel env e l s)
      (quantityExpressionLoop (fuel + 1) env e l s)) ∧
    (∀ env s, FuelLe (newtonParseQuantityTerm fuel env s)
      (newtonParseQuantityTerm (fuel + 1) env s)) ∧
    (∀ env l i p h n s, FuelLe (quantityTermLoop fuel env l i p h n s)
      (quantityTermLoop (fuel + 1) env l i p h n s)) ∧
    (∀ env s, FuelLe (newtonParseQuantityFactor fuel env s)
      (newtonParseQuantityFactor (fuel + 1) env s)) := by
  induction fuel with
  | zero =>
    refine ⟨?_, ?_, ?_, ?_, ?_⟩ <;> intros <;> exact FuelLe.outOfFuel _
  | succ f ih =>
    obtain ⟨ihE, ihEL, ihT, ihTL, ihF⟩ := ih
    refine ⟨?_, ?_, ?_, ?_, ?_⟩
    · intro env s
      rw [newtonParseQuantityExpression, newtonParseQuantityExpression]
      repeat' first
        | exact FuelLe.refl _
        | exact ihEL _ _ _ _
        | exact ihT _ _
        | apply FuelLe.bind
        | apply FuelLe.ite
        | rintro ⟨_, _⟩
        | intro _
    · intro env e l s
      rw [quantityExpressionLoop, quantityExpressionLoop]
      repeat' first
        | exact FuelLe.refl _
        | exact ihEL _ _ _ _
        | exact ihT _ _
        | apply FuelLe.bind
        | apply FuelLe.ite
        | rintro ⟨_, _⟩
        | intro _
    · intro env s
      rw [newtonParseQuantityTerm, newtonParseQuantityTerm]
      repeat' first
        | exact FuelLe.refl _
        | exact ihTL _ _ _ _ _ _ _
        | exact ihF _ _
        | apply FuelLe.bind
        | apply FuelLe.ite
        | rintro ⟨_, _⟩
    · intro env l i p h n s
      rw [quantityTermLoop, quantityTermLoop]
      repeat' first
        | exact FuelLe.refl _
        | exact ihTL _ _ _ _ _ _ _
        | exact ihF _ _
        | apply FuelLe.bind
        | apply FuelLe.ite
        | rintro ⟨_, _⟩
        | intro _
    · intro env s
      rw [newtonParseQuantityFactor, newtonParseQuantityFactor]
      repeat' first
        | exact FuelLe.refl _
        | exact ihE _ _
        | exact exponential_fuel_step _ _ _ _
        | apply FuelLe.bind
        | apply FuelLe.ite
        | rintro ⟨_, _⟩
        | intro _

theorem numericExpression_fuel_le {f f' : Nat} (h : f ≤ f') (env : Env) (s : State) :
    FuelLe (newtonParseNumericExpression f env s) (newtonParseNumericExpression f' env s) :=
  FuelLe.of_step (fun k => newtonParseNumericExpression k env s)
    (fun k => (numeric_fuel_step k).1 env s) h

theorem numericTerm_fuel_le {f f' : Nat} (h : f ≤ f') (env : Env) (s : State) :
    FuelLe (newtonParseNumericTerm f env s) (newtonParseNumericTerm f' env s) :=
  FuelLe.of_step (fun k => newtonParseNumericTerm k env s)
    (fun k => (numeric_fuel_step k).2.2.1 env s) h

theorem numericFactor_fuel_le {f f' : Nat} (h : f ≤ f') (env : Env) (s : State) :
    FuelLe (newtonParseNumericFactor f env s) (newtonParseNumericFactor f' env s) :=
  FuelLe.of_step (fun k => newtonParseNumericFactor k env s)
    (fun k => (numeric_fuel_step k).2.2.2.2 env s) h

theorem exponential_fuel_le {f f' : Nat} (h : f ≤ f') (env : Env) (b : IrNode) (s : State) :
    FuelLe (newtonParseExponentialExpression f env b s)
      (newtonParseExponentialExpression f' env b s) :=
  FuelLe.of_step (fun k => newtonParseExponentialExpression k env b s)
    (fun k => exponential_fuel_step k env b s) h

theorem quantityExpression_fuel_le {f f' : Nat} (h : f ≤ f') (env : Env) (s : State) :
    FuelLe (newtonParseQuantityExpression f env s) (newtonParseQuantityExpression f' env s) :=
  FuelLe.of_step (fun k => newtonParseQuantityExpression k env s)
    (fun k => (quantity_fuel_step k).1 env s) h

theorem quantityExpressionLoop_fuel_le {f f' : Nat} (h : f ≤ f') (env : Env)
    (e l : IrNode) (s : State) :
    FuelLe (quantityExpressionLoop f env e l s) (quantityExpressionLoop f' env e l s) :=
  FuelLe.of_step (fun k => quantityExpressionLoop k env e l s)
    (fun k => (quantity_fuel_step k).2.1 env e l s) h

theorem quantityTerm_fuel_le {f f' : Nat} (h : f ≤ f') (env : Env) (s : State) :
    FuelLe (newtonParseQuantityTerm f env s) (newtonParseQuantityTerm f' env s) :=
  FuelLe.of_step (fun k => newtonParseQuantityTerm k env s)
    (fun k => (quantity_fuel_step k).2.2.1 env s) h

theorem quantityTermLoop_fuel_le {f f' : Nat} (h : f ≤ f') (env : Env) (l i : IrNode)
    (p : Physics) (b : Bool) (n : Nat) (s : State) :
    FuelLe (quantityTermLoop f env l i p b n s) (quantityTermLoop f' env l i p b n s) :=
  FuelLe.of_step (fun k => quantityTermLoop k env l i p b n s)
    (fun k => (quantity_fuel_step k).2.2.2.1 env l i p b n s) h

theorem quantityFactor_fuel_le {f f' : Nat} (h : f ≤ f') (env : Env) (s : State) :
    FuelLe (newtonParseQuantityFactor f env s) (newtonParseQuantityFactor f' env s) :=
  FuelLe.of_step (fun k => newtonParseQuantityFactor k env s)
    (fun k => (quantity_fuel_step k).2.2.2.2 env s) h

/-! ## Basic rewriting facts -/

@[simp] theorem bind_ok {α β : Type} (a : α) (k : α → Except Err β) :
    (Except.ok a >>= k) = k a := rfl

@[simp] theorem bind_error {α β : Type} (e : Err) (k : α → Except Err β) :
    ((Except.error e : Except Err α) >>= k) = .error e := rfl

@[simp] theorem pure_eq_ok {α : Type} (a : α) : (pure a : Except Err α) = .ok a := rfl

theorem ite_bind {α β : Type} (c : Prop) [Decidable c] (x y : Except Err α)
    (k : α → Except Err β) :
    ((if c then x else y) >>= k) = if c then x >>= k else y >>= k := by
  split <;> rfl

@[simp] theorem deepCopyPhysicsNode_eq (p : Physics) : deepCopyPhysicsNode p = p := by
  cases p; rfl

@[simp] theorem IrNode.type_mk (t v p n s c) : (IrNode.mk t v p n s c).type = t := rfl

@[simp] theorem IrNode.value_mk (t v p n s c) : (IrNode.mk t v p n s c).value = v := rfl

@[simp] theorem IrNode.physics_mk (t v p n s c) : (IrNode.mk t v p n s c).physics = p := rfl

@[simp] theorem IrNode.tokenString_mk (t v p n s c) :
    (IrNode.mk t v p n s c).tokenString = s := rfl

@[simp] theorem addLeaf_physics (a b : IrNode) : (addLeaf a b).physics = a.physics := by
  cases a; rfl

@[simp] theorem addLeaf_value (a b : IrNode) : (addLeaf a b).value = a.value := by
  cases a; rfl

@[simp] theorem addLeaf_tokenString (a b : IrNode) :
    (addLeaf a b).tokenString = a.tokenString := by
  cases a; rfl

@[simp] theorem addLeafWithChainingSeq_physics (a b : IrNode) :
    (addLeafWithChainingSeq a b).physics = a.physics := by
  cases a; rfl

@[simp] theorem addLeafWithChainingSeq_value (a b : IrNode) :
    (addLeafWithChainingSeq a b).value = a.value := by
  cases a; rfl

@[simp] theorem addLeafWithChainingSeqOpt_physics (a : IrNode) (b : Option IrNode) :
    (addLeafWithChainingSeqOpt a b).physics = a.physics := by
  cases b <;> simp [addLeafWithChainingSeqOpt]

@[simp] theorem addLeafWithChainingSeqOpt_value (a : IrNode) (b : Option IrNode) :
    (addLeafWithChainingSeqOpt a b).value = a.value := by
  cases b <;> simp [addLeafWithChainingSeqOpt]

@[simp] theorem attachLeftTerm_physics (a b : IrNode) :
    (attachLeftTerm a b).physics = a.physics := by
  cases a; rfl

@[simp] theorem attachLeftTerm_value (a b : IrNode) :
    (attachLeftTerm a b).value = a.value := by
  cases a; rfl

@[simp] theorem setValue_physics (a : IrNode) (v : ℚ) : (a.setValue v).physics = a.physics := by
  cases a; rfl

@[simp] theorem setValue_value (a : IrNode) (v : ℚ) : (a.setValue v).value = v := by
  cases a; rfl

@[simp] theorem setValue_tokenString (a : IrNode) (v : ℚ) :
    (a.setValue v).tokenString = a.tokenString := by
  cases a; rfl

@[simp] theorem setPhysics_physics (a : IrNode) (p : Option Physics) :
    (a.setPhysics p).physics = p := by
  cases a; rfl

@[simp] theorem setPhysics_value (a : IrNode) (p : Option Physics) :
    (a.setPhysics p).value = a.value := by
  cases a; rfl

@[simp] theorem setPhysics_tokenString (a : IrNode) (p : Option Physics) :
    (a.setPhysics p).tokenString = a.tokenString := by
  cases a; rfl

@[simp] theorem setParameterNumber_physics (a : IrNode) (k : Nat) :
    (a.setParameterNumber k).physics = a.physics := by
  cases a; rfl

@[simp] theorem setParameterNumber_value (a : IrNode) (k : Nat) :
    (a.setParameterNumber k).value = a.value := by
  cases a; rfl

@[simp] theorem genIrNode_value (t : IrNodeType) : (genIrNode t).value = 0 := rfl

@[simp] theorem genIrNode_physics (t : IrNodeType) : (genIrNode t).physics = none := rfl

theorem resultValue_eq_some {r : ParseResult} {v : ℚ} (h : resultValue r = some v) :
    ∃ node s, r = .ok (node, s) ∧ node.value = v := by
  match r, h with
  | .ok (node, s), h => exact ⟨node, s, rfl, by simpa [resultValue] using h⟩

theorem resultPhysics_eq_some {r : ParseResult} {p : Physics} (h : resultPhysics r = some p) :
    ∃ node s, r = .ok (node, s) ∧ node.physics = some p := by
  match r, h with
  | .ok (node, s), h => exact ⟨node, s, rfl, by simpa [resultPhysics] using h⟩

/-! ## The integer cast -/

theorem truncToInt_intCast (z : ℤ) : truncToInt (z : ℚ) = z := by
  simp [truncToInt]

theorem truncToInt_natCast (n : ℕ) : truncToInt (n : ℚ) = n := by
  simpa using truncToInt_intCast n

theorem truncToInt_neg_natCast (n : ℕ) : truncToInt (-(n : ℚ)) = -(n : ℤ) := by
  simpa using truncToInt_intCast (-(n : ℤ))

theorem castInt_natCast (n : ℕ) (h : n < 2147483648) : castInt (n : ℚ) = n := by
  unfold castInt
  rw [truncToInt_natCast, if_pos]
  omega

theorem castInt_neg_natCast (n : ℕ) (h : n ≤ 2147483648) : castInt (-(n : ℚ)) = -(n : ℤ) := by
  unfold castInt
  rw [truncToInt_neg_natCast, if_pos]
  omega

/-- An integer beyond the range of `int` differs from its cast. -/
theorem castInt_out_of_range (z : ℤ) (h : z < -2147483648 ∨ 2147483647 < z) :
    (z : ℚ) ≠ ((castInt (z : ℚ) : ℤ) : ℚ) := by
  unfold castInt
  rw [truncToInt_intCast, if_neg (by omega)]
  intro heq
  have : z = -2147483648 := by exact_mod_cast heq
  omega

/-! ## The exponent loops -/

theorem exponentLoop_eq (step : Physics → Physics → Physics) (n : Nat) (b c : Physics) :
    exponentLoop step n b c = ((fun b => step b c)^[n] b, c) := by
  induction n generalizing b with
  | zero => rfl
  | succ n ih => simp [exponentLoop, ih]

theorem iterate_copyNumerator (c : Physics) (n : Nat) (b : Physics) :
    (fun b => newtonPhysicsCopyNumeratorDimensions b c)^[n] b =
      { b with
        numeratorDimensions :=
          b.numeratorDimensions ++ (List.replicate n c.numeratorDimensions).flatten
        numeratorPrimeProduct :=
          b.numeratorPrimeProduct * primeProduct c.numeratorDimensions ^ n
        numberOfNumerators := b.numberOfNumerators + n * c.numeratorDimensions.length } := by
  induction n generalizing b with
  | zero => simp
  | succ n ih =>
    rw [Function.iterate_succ_apply, ih]
    simp [newtonPhysicsCopyNumeratorDimensions, List.replicate_succ, pow_succ, Nat.succ_mul]
    refine ⟨by ring, by ring⟩

theorem iterate_copyDenominator (c : Physics) (n : Nat) (b : Physics) :
    (fun b => newtonPhysicsCopyDenominatorDimensions b c)^[n] b =
      { b with
        denominatorDimensions :=
          b.denominatorDimensions ++ (List.replicate n c.denominatorDimensions).flatten
        denominatorPrimeProduct :=
          b.denominatorPrimeProduct * primeProduct c.denominatorDimensions ^ n
        numberOfDenominators :=
          b.numberOfDenominators + n * c.denominatorDimensions.length } := by
  induction n generalizing b with
  | zero => simp
  | succ n ih =>
    rw [Function.iterate_succ_apply, ih]
    simp [newtonPhysicsCopyDenominatorDimensions, List.replicate_succ, pow_succ, Nat.succ_mul]
    refine ⟨by ring, by ring⟩

theorem iterate_copyNumeratorToDenominator (c : Physics) (n : Nat) (b : Physics) :
    (fun b => newtonPhysicsCopyNumeratorToDenominatorDimensions b c)^[n] b =
      { b with
        denominatorDimensions :=
          b.denominatorDimensions ++ (List.replicate n c.numeratorDimensions).flatten
        denominatorPrimeProduct :=
          b.denominatorPrimeProduct * primeProduct c.numeratorDimensions ^ n
        numberOfDenominators :=
          b.numberOfDenominators + n * c.numeratorDimensions.length } := by
  induction n generalizing b with
  | zero => simp
  | succ n ih =>
    rw [Function.iterate_succ_apply, ih]
    simp [newtonPhysicsCopyNumeratorToDenominatorDimensions, List.replicate_succ, pow_succ,
      Nat.succ_mul]
    refine ⟨by ring, by ring⟩

theorem iterate_copyDenominatorToNumerator (c : Physics) (n : Nat) (b : Physics) :
    (fun b => newtonPhysicsCopyDenominatorToNumeratorDimensions b c)^[n] b =
      { b with
        numeratorDimensions :=
          b.numeratorDimensions ++ (List.replicate n c.denominatorDimensions).flatten
        numeratorPrimeProduct :=
          b.numeratorPrimeProduct * primeProduct c.denominatorDimensions ^ n
        numberOfNumerators := b.numberOfNumerators + n * c.denominatorDimensions.length } := by
  induction n generalizing b with
  | zero => simp
  | succ n ih =>
    rw [Function.iterate_succ_apply, ih]
    simp [newtonPhysicsCopyDenominatorToNumeratorDimensions, List.replicate_succ, pow_succ,
      Nat.succ_mul]
    refine ⟨by ring, by ring⟩

/-! ## The exponent production -/

theorem exponentialExpression_of_value_zero (fuel : Nat) (env : Env) (baseNode : IrNode) (p : Physics) (s s' : State)
    (exponent : IrNode)
    (hbase : baseNode.physics = some p)
    (hexp : (if peekCheck s .TleftParen then newtonParseNumericExpression fuel env s
      else newtonParseInteger s) = .ok (exponent, s'))
    (hv : exponent.value = 0) :
    newtonParseExponentialExpression fuel env baseNode s =
      .ok ((exponent, baseNode.setPhysics (some { shallowCopyPhysicsNode p with value := 1 })), s') := by
  unfold newtonParseExponentialExpression
  rw [hexp]
  simp [derefPhysics, hbase, hv]

theorem exponentialExpression_of_positive (fuel : Nat) (env : Env)
    (p : Physics) (s s' : State) (exponent : IrNode) (n : ℕ)
    (hexp : (if peekCheck s .TleftParen then newtonParseNumericExpression fuel env s
      else newtonParseInteger s) = .ok (exponent, s'))
    (hv : exponent.value = n) (hn : 1 ≤ n) (hrange : n < 2147483648) :
    ∃ q, (∀ baseNode : IrNode, baseNode.physics = some p →
        newtonParseExponentialExpression fuel env baseNode s =
          .ok ((exponent, baseNode.setPhysics (some q)), s')) ∧
      q.numeratorDimensions = (if 0 < p.numberOfNumerators then (List.replicate n p.numeratorDimensions).flatten else []) ∧
      q.denominatorDimensions = (if 0 < p.numberOfDenominators then (List.replicate n p.denominatorDimensions).flatten else []) ∧
      q.numeratorPrimeProduct = (if 0 < p.numberOfNumerators then primeProduct p.numeratorDimensions ^ n else 1) ∧
      q.denominatorPrimeProduct = (if 0 < p.numberOfDenominators then primeProduct p.denominatorDimensions ^ n else 1) ∧
      q.isVector = p.isVector ∧ q.isConstant = p.isConstant := by
  have hn0 : (n : ℚ) ≠ 0 := by
    have : (0 : ℚ) < n := by exact_mod_cast hn
    exact ne_of_gt this
  have hn1 : ¬ ((n : ℚ) < 0) := by
    have : (0 : ℚ) ≤ n := by exact_mod_cast Nat.zero_le n
    exact not_lt.mpr this
  refine ⟨((if 0 < p.numberOfDenominators then
      exponentLoop newtonPhysicsCopyDenominatorDimensions n
        (if 0 < p.numberOfNumerators then
          exponentLoop newtonPhysicsCopyNumeratorDimensions n
            { shallowCopyPhysicsNode p with value := env.pow p.value n } p
        else ({ shallowCopyPhysicsNode p with value := env.pow p.value n }, p)).1 p
      else
        (if 0 < p.numberOfNumerators then
          exponentLoop newtonPhysicsCopyNumeratorDimensions n
            { shallowCopyPhysicsNode p with value := env.pow p.value n } p
        else ({ shallowCopyPhysicsNode p with value := env.pow p.value n }, p))).1), ?_, ?_⟩
  · intro baseNode hbase
    unfold newtonParseExponentialExpression
    rw [hexp]
    simp only [bind_ok, derefPhysics, hbase, hv, hn0, if_false, Newton.assert,
      truncToInt_natCast, castInt_natCast n hrange, hn1, pure_eq_ok, deepCopyPhysicsNode_eq,
      Int.natAbs_ofNat,
      Int.cast_natCast, if_true]
    by_cases h1 : 0 < p.numberOfNumerators <;> by_cases h2 : 0 < p.numberOfDenominators <;>
      simp [h1, h2, shallowCopyPhysicsNode, exponentLoop_eq]
  · by_cases h1 : 0 < p.numberOfNumerators <;> by_cases h2 : 0 < p.numberOfDenominators <;>
      simp [h1, h2, shallowCopyPhysicsNode, exponentLoop_eq, iterate_copyNumerator,
        iterate_copyDenominator]

theorem exponentialExpression_of_negative (fuel : Nat) (env : Env)
    (p : Physics) (s s' : State) (exponent : IrNode) (n : ℕ)
    (hexp : (if peekCheck s .TleftParen then newtonParseNumericExpression fuel env s
      else newtonParseInteger s) = .ok (exponent, s'))
    (hv : exponent.value = -(n : ℚ)) (hn : 1 ≤ n) (hrange : n ≤ 2147483648) :
    ∃ q, (∀ baseNode : IrNode, baseNode.physics = some p →
        newtonParseExponentialExpression fuel env baseNode s =
          .ok ((exponent, baseNode.setPhysics (some q)), s')) ∧
      q.denominatorDimensions = (if 0 < p.numberOfNumerators then (List.replicate n p.numeratorDimensions).flatten else []) ∧
      q.numeratorDimensions = (if 0 < p.numberOfDenominators then (List.replicate n p.denominatorDimensions).flatten else []) ∧
      q.denominatorPrimeProduct = (if 0 < p.numberOfNumerators then primeProduct p.numeratorDimensions ^ n else 1) ∧
      q.numeratorPrimeProduct = (if 0 < p.numberOfDenominators then primeProduct p.denominatorDimensions ^ n else 1) ∧
      q.isVector = p.isVector ∧ q.isConstant = p.isConstant := by
  have hpos : (0 : ℚ) < n := by exact_mod_cast hn
  have hn0 : -(n : ℚ) ≠ 0 := by
    intro h; rw [neg_eq_zero] at h; exact (ne_of_gt hpos) h
  have hn1 : -(n : ℚ) < 0 := by simpa using hpos
  refine ⟨((if 0 < p.numberOfDenominators then
      exponentLoop newtonPhysicsCopyDenominatorToNumeratorDimensions n
        (if 0 < p.numberOfNumerators then
          exponentLoop newtonPhysicsCopyNumeratorToDenominatorDimensions n
            { shallowCopyPhysicsNode p with value := env.pow p.value (-(n : ℚ)) } p
        else ({ shallowCopyPhysicsNode p with value := env.pow p.value (-(n : ℚ)) }, p)).1 p
      else
        (if 0 < p.numberOfNumerators then
          exponentLoop newtonPhysicsCopyNumeratorToDenominatorDimensions n
            { shallowCopyPhysicsNode p with value := env.pow p.value (-(n : ℚ)) } p
        else ({ shallowCopyPhysicsNode p with value := env.pow p.value (-(n : ℚ)) }, p))).1),
    ?_, ?_⟩
  · intro baseNode hbase
    unfold newtonParseExponentialExpression
    rw [hexp]
    simp only [bind_ok, derefPhysics, hbase, hv, hn0, if_false, Newton.assert,
      truncToInt_neg_natCast, castInt_neg_natCast n hrange, hn1, pure_eq_ok,
      deepCopyPhysicsNode_eq, Int.natAbs_neg,
      Int.natAbs_ofNat, Int.cast_neg, Int.cast_natCast, if_true]
    by_cases h1 : 0 < p.numberOfNumerators <;> by_cases h2 : 0 < p.numberOfDenominators <;>
      simp [h1, h2, shallowCopyPhysicsNode, exponentLoop_eq]
  · by_cases h1 : 0 < p.numberOfNumerators <;> by_cases h2 : 0 < p.numberOfDenominators <;>
      simp [h1, h2, shallowCopyPhysicsNode, exponentLoop_eq, iterate_copyNumeratorToDenominator,
        iterate_copyDenominatorToNumerator]

theorem exponentialExpression_not_integer (fuel : Nat) (env : Env) (baseNode : IrNode)
    (p : Physics) (s s' : State) (exponent : IrNode)
    (hbase : baseNode.physics = some p)
    (hcount : 0 < p.numberOfNumerators ∨ 0 < p.numberOfDenominators)
    (hexp : (if peekCheck s .TleftParen then newtonParseNumericExpression fuel env s
      else newtonParseInteger s) = .ok (exponent, s'))
    (hne : exponent.value ≠ 0) (hint : ∀ z : ℤ, exponent.value ≠ z) :
    newtonParseExponentialExpression fuel env baseNode s = .error .assertionFailure := by
  have h := hint (castInt exponent.value)
  unfold newtonParseExponentialExpression
  rw [hexp]
  simp only [bind_ok, derefPhysics, hbase, hne, if_false, Newton.assert, h]
  by_cases h1 : 0 < p.numberOfNumerators
  · simp [h1]
  · have h2 : 0 < p.numberOfDenominators := by tauto
    simp [h1, h2]

/-- On a base with a dimension, an exponent value that differs from its cast to `int`
ends in the assertion failure. -/
theorem exponentialExpression_cast_fails (fuel : Nat) (env : Env) (baseNode : IrNode)
    (p : Physics) (s s' : State) (exponent : IrNode)
    (hbase : baseNode.physics = some p)
    (hcount : 0 < p.numberOfNumerators ∨ 0 < p.numberOfDenominators)
    (hexp : (if peekCheck s .TleftParen then newtonParseNumericExpression fuel env s
      else newtonParseInteger s) = .ok (exponent, s'))
    (hne : exponent.value ≠ 0)
    (hcast : exponent.value ≠ ((castInt exponent.value : ℤ) : ℚ)) :
    newtonParseExponentialExpression fuel env baseNode s = .error .assertionFailure := by
  unfold newtonParseExponentialExpression
  rw [hexp]
  simp only [bind_ok, derefPhysics, hbase, hne, if_false, Newton.assert, hcast]
  by_cases h1 : 0 < p.numberOfNumerators
  · simp [h1]
  · have h2 : 0 < p.numberOfDenominators := by tauto
    simp [h1, h2]

theorem newtonParseInteger_number (q : ℚ) (rest : List Token) (pn : Nat) (hq : q ≠ 0) :
    ∃ node, newtonParseInteger ⟨Token.number q :: rest, pn⟩ = .ok (node, ⟨rest, pn⟩) ∧
      node.value = q := by
  simp [newtonParseInteger, inFirst, gNewtonFirsts, Token.number, newtonParseTerminal, Newton.assert, hq, genIrNode]

theorem newtonParseInteger_minus_number (q : ℚ) (rest : List Token) (pn : Nat) (hq : q ≠ 0) :
    ∃ node, newtonParseInteger ⟨Token.op .Tminus :: Token.number q :: rest, pn⟩
        = .ok (node, ⟨rest, pn⟩) ∧ node.value = -q := by
  simp [newtonParseInteger, inFirst, gNewtonFirsts, Token.number, Token.op, newtonParseTerminal, Newton.assert, hq, genIrNode, newtonParseUnaryOp, peekCheck]

/-- The atom and operator of `x ** ...`: the factor is the identifier's node, handed to `newtonParseExponentialExpression`. -/
theorem quantityFactor_identifier_exponent (fuel : Nat) (env : Env) (x : String) (p : Physics)
    (toks : List Token) (pn : Nat)
    (hx : env.currentScope.physicsForIdentifier x = some p) :
    ∃ base pn', base.physics = some p ∧ base.value = p.value ∧
      newtonParseQuantityFactor (fuel + 1) env
          ⟨Token.ident x :: Token.op .Texponent :: toks, pn⟩ =
        (newtonParseExponentialExpression fuel env base ⟨toks, pn'⟩ >>= fun r =>
          .ok (if (addLeafWithChainingSeq r.1.2 r.1.1).value ≠ 0 then
              (addLeafWithChainingSeq r.1.2 r.1.1).setValue
                (env.pow (addLeafWithChainingSeq r.1.2 r.1.1).value r.1.1.value)
            else addLeafWithChainingSeq r.1.2 r.1.1, r.2)) := by
  rw [newtonParseQuantityFactor]
  simp only [peekCheck, Token.ident, Token.op, newtonParseIdentifierUsageTerminal, hx, derefPhysics, beq_self_eq_true, if_true, bind_ok,
    IrNode.physics_mk, deepCopyPhysicsNode_eq, IrNode.tokenString_mk, setValue_tokenString, setPhysics_tokenString, pure_eq_ok]
  split <;>
    simp only [bind_ok, inFirst, gNewtonFirsts, List.contains_cons, beq_self_eq_true,
      Bool.true_or, if_true, newtonParseHighPrecedenceBinaryOp, peekCheck,
      newtonParseTerminal, Except.map]
  · exact ⟨_, pn + 1, by simp, by simp, rfl⟩
  · exact ⟨_, pn, by simp, by simp, rfl⟩

/-! ## Additive chains -/

theorem bind_eq_ok {α β : Type} {x : Except Err α} {k : α → Except Err β} {b : β}
    (h : (x >>= k) = .ok b) : ∃ a, x = .ok a ∧ k a = .ok b := by
  cases x with
  | error e => cases h
  | ok a => exact ⟨a, rfl, h⟩

/-- The node `quantityTermLoop` returns carries a physics. -/
theorem quantityTermLoop_physics (fuel : Nat) :
    ∀ (env : Env) (l i : IrNode) (p : Physics) (b : Bool) (n : Nat) (s : State)
      (t : IrNode) (s' : State),
      quantityTermLoop fuel env l i p b n s = .ok (t, s') → ∃ q, t.physics = some q := by
  induction fuel with
  | zero =>
    intro env l i p b n s t s' h
    simp [quantityTermLoop] at h
  | succ f ih =>
    intro env l i p b n s t s' h
    rw [quantityTermLoop] at h
    split at h
    · obtain ⟨⟨binOp, s1⟩, -, h⟩ := bind_eq_ok h
      obtain ⟨⟨rf, s2⟩, -, h⟩ := bind_eq_ok h
      obtain ⟨⟨ph, nv⟩, -, h⟩ := bind_eq_ok h
      obtain ⟨ph', -, h⟩ := bind_eq_ok h
      exact ih _ _ _ _ _ _ _ _ _ h
    · simp only [pure_eq_ok, Except.ok.injEq, Prod.mk.injEq] at h
      obtain ⟨h1, -⟩ := h
      exact ⟨p, by rw [← h1]; simp⟩

/-- The node `newtonParseQuantityTerm` returns carries a physics. -/
theorem quantityTerm_physics (fuel : Nat) (env : Env) (s : State) (t : IrNode) (s' : State)
    (h : newtonParseQuantityTerm fuel env s = .ok (t, s')) : ∃ q, t.physics = some q := by
  cases fuel with
  | zero => simp [newtonParseQuantityTerm] at h
  | succ f =>
    rw [newtonParseQuantityTerm] at h
    obtain ⟨⟨i, u, s1⟩, -, h⟩ := bind_eq_ok h
    obtain ⟨⟨lf, s2⟩, -, h⟩ := bind_eq_ok h
    obtain ⟨⟨ph, nv⟩, -, h⟩ := bind_eq_ok h
    exact quantityTermLoop_physics f _ _ _ _ _ _ _ _ _ h

theorem sameDimensions_iff {a b : IrNode} {p q : Physics} (ha : a.physics = some p)
    (hb : b.physics = some q) :
    SameDimensions a b ↔ p.numeratorPrimeProduct = q.numeratorPrimeProduct ∧
      p.denominatorPrimeProduct = q.denominatorPrimeProduct := by
  simp [SameDimensions, IrNode.numeratorPrimeProduct, IrNode.denominatorPrimeProduct, ha, hb]

theorem inFirst_lowPrecedence (tok : Token) (rest : List Token) (n : Nat)
    (hop : tok.type = .Tplus ∨ tok.type = .Tminus) :
    inFirst ⟨tok :: rest, n⟩ .PlowPrecedenceBinaryOp = true := by
  rcases hop with h | h <;> simp [inFirst, gNewtonFirsts, h]

theorem lowPrecedenceBinaryOp_ok (tok : Token) (rest : List Token) (n : Nat)
    (hop : tok.type = .Tplus ∨ tok.type = .Tminus) :
    newtonParseLowPrecedenceBinaryOp ⟨tok :: rest, n⟩ =
      .ok (some (IrNode.mk tok.type tok.value none none tok.identifier []), ⟨rest, n⟩) := by
  rcases hop with h | h <;>
    simp [newtonParseLowPrecedenceBinaryOp, peekCheck, newtonParseTerminal, Except.map, h]

/-- One iteration of the loop of `newtonParseQuantityExpression` on `(+|-) term`: the
right term's value is added and the loop goes on when the prime products agree, and the
assertion fails otherwise. -/
theorem quantityExpressionLoop_step (fuel : Nat) (env : Env) (expression leftTerm : IrNode)
    (lp : Physics) (tok : Token) (rest : List Token) (n : Nat) (t : IrNode) (s2 : State)
    (hl : leftTerm.physics = some lp)
    (hop : tok.type = .Tplus ∨ tok.type = .Tminus)
    (hterm : newtonParseQuantityTerm fuel env ⟨rest, n⟩ = .ok (t, s2)) :
    quantityExpressionLoop (fuel + 1) env expression leftTerm ⟨tok :: rest, n⟩ =
      if SameDimensions leftTerm t then
        quantityExpressionLoop fuel env
          ((addLeafWithChainingSeqOpt expression
            (some (IrNode.mk tok.type tok.value none none tok.identifier []))).setValue
            (expression.value + t.value))
          (addLeafWithChainingSeq leftTerm t) s2
      else .error .assertionFailure := by
  obtain ⟨q, hq⟩ := quantityTerm_physics fuel env _ t s2 hterm
  rw [quantityExpressionLoop, if_pos (inFirst_lowPrecedence tok rest n hop),
    lowPrecedenceBinaryOp_ok tok rest n hop]
  simp only [bind_ok, hterm, derefPhysics, addLeafWithChainingSeq_physics, hl, hq,
    Newton.assert, addLeafWithChainingSeqOpt_value]
  by_cases hs : SameDimensions leftTerm t
  · obtain ⟨h1, h2⟩ := (sameDimensions_iff hl hq).mp hs
    simp [hs, h1, h2]
  · rw [if_neg hs]
    by_cases h1 : lp.numeratorPrimeProduct = q.numeratorPrimeProduct
    · have h2 : ¬ lp.denominatorPrimeProduct = q.denominatorPrimeProduct :=
        fun h2 => hs ((sameDimensions_iff hl hq).mpr ⟨h1, h2⟩)
      simp [h1, h2]
    · simp [h1]

theorem sameDimensions_addLeaf (a b t : IrNode) :
    SameDimensions (addLeafWithChainingSeq a b) t ↔ SameDimensions a t := by
  simp [SameDimensions, IrNode.numeratorPrimeProduct, IrNode.denominatorPrimeProduct]

/-- The loop of `newtonParseQuantityExpression` over a chain of terms that all agree
with the left term: it returns, with the sum of all values and the expression's physics. -/
theorem quantityExpressionLoop_chain_ok (fuel : Nat) (env : Env) (s s' : State)
    (ts : List IrNode) (hc : TermChain fuel env s ts s') :
    ∀ (expression leftTerm : IrNode) (lp : Physics) (F : Nat),
      leftTerm.physics = some lp → (∀ t ∈ ts, SameDimensions leftTerm t) →
      fuel + ts.length + 1 ≤ F →
      ∃ node, quantityExpressionLoop F env expression leftTerm s = .ok (node, s') ∧
        node.value = expression.value + (ts.map IrNode.value).sum ∧
        node.physics = expression.physics := by
  induction hc with
  | done s h =>
    intro expression leftTerm lp F _ _ hF
    obtain ⟨F', rfl⟩ : ∃ F', F = F' + 1 := ⟨F - 1, by omega⟩
    refine ⟨attachLeftTerm expression leftTerm, ?_, by simp, by simp⟩
    rw [quantityExpressionLoop]
    simp [h]
  | step tok rest n t s2 s3 ts hop hterm _ ih =>
    intro expression leftTerm lp F hl hall hF
    simp only [List.length_cons] at hF
    obtain ⟨F', rfl⟩ : ∃ F', F = F' + 1 := ⟨F - 1, by omega⟩
    have hterm' : newtonParseQuantityTerm F' env ⟨rest, n⟩ = .ok (t, s2) :=
      (quantityTerm_fuel_le (by omega) env _).eq_ok hterm
    have hsame : SameDimensions leftTerm t := hall t (List.mem_cons_self _ _)
    rw [quantityExpressionLoop_step F' env expression leftTerm lp tok rest n t s2 hl hop hterm',
      if_pos hsame]
    obtain ⟨node, h1, h2, h3⟩ := ih
      ((addLeafWithChainingSeqOpt expression
        (some (IrNode.mk tok.type tok.value none none tok.identifier []))).setValue
        (expression.value + t.value))
      (addLeafWithChainingSeq leftTerm t) lp F' (by simp [hl])
      (fun u hu => (sameDimensions_addLeaf leftTerm t u).mpr (hall u (List.mem_cons_of_mem _ hu)))
      (by omega)
    refine ⟨node, h1, ?_, ?_⟩
    · rw [h2]; simp [add_assoc]
    · rw [h3]; simp

/-- The loop of `newtonParseQuantityExpression` over a chain of terms one of which
disagrees with the left term: the assertion fails. -/
theorem quantityExpressionLoop_chain_assert (fuel : Nat) (env : Env) (s s' : State)
    (ts : List IrNode) (hc : TermChain fuel env s ts s') :
    ∀ (expression leftTerm : IrNode) (lp : Physics) (F : Nat),
      leftTerm.physics = some lp → (∃ t ∈ ts, ¬ SameDimensions leftTerm t) →
      fuel + ts.length + 1 ≤ F →
      quantityExpressionLoop F env expression leftTerm s = .error .assertionFailure := by
  induction hc with
  | done s h =>
    intro expression leftTerm lp F _ hex _
    obtain ⟨t, ht, -⟩ := hex
    cases ht
  | step tok rest n t s2 s3 ts hop hterm _ ih =>
    intro expression leftTerm lp F hl hex hF
    simp only [List.length_cons] at hF
    obtain ⟨F', rfl⟩ : ∃ F', F = F' + 1 := ⟨F - 1, by omega⟩
    have hterm' : newtonParseQuantityTerm F' env ⟨rest, n⟩ = .ok (t, s2) :=
      (quantityTerm_fuel_le (by omega) env _).eq_ok hterm
    rw [quantityExpressionLoop_step F' env expression leftTerm lp tok rest n t s2 hl hop hterm']
    by_cases hsame : SameDimensions leftTerm t
    · rw [if_pos hsame]
      apply ih _ (addLeafWithChainingSeq leftTerm t) lp F' (by simp [hl]) _ (by omega)
      obtain ⟨u, hu, hne⟩ := hex
      rcases List.mem_cons.mp hu with rfl | hmem
      · exact absurd hsame hne
      · exact ⟨u, hmem, fun h => hne ((sameDimensions_addLeaf leftTerm t u).mp h)⟩
    · rw [if_neg hsame]

/-- A quantity factor only parses from an identifier, a number or a left parenthesis. -/
theorem quantityFactor_peek (fuel : Nat) (env : Env) (s : State) (t : IrNode) (s' : State)
    (h : newtonParseQuantityFactor fuel env s = .ok (t, s')) :
    peekCheck s .Tidentifier = true ∨ peekCheck s .Tnumber = true
      ∨ peekCheck s .TleftParen = true := by
  cases fuel with
  | zero => simp [newtonParseQuantityFactor] at h
  | succ f =>
    rw [newtonParseQuantityFactor] at h
    obtain ⟨⟨fac, s3⟩, ha, -⟩ := bind_eq_ok h
    by_cases h1 : peekCheck s .Tidentifier = true
    · exact Or.inl h1
    · by_cases h2 : peekCheck s .Tnumber = true
      · exact Or.inr (Or.inl h2)
      · by_cases h3 : peekCheck s .TleftParen = true
        · exact Or.inr (Or.inr h3)
        · rw [if_neg h1, if_neg h2, if_neg h3] at ha
          cases ha

theorem inFirst_term_of_factor {s : State}
    (h : peekCheck s .Tidentifier = true ∨ peekCheck s .Tnumber = true
      ∨ peekCheck s .TleftParen = true) :
    inFirst s .PquantityTerm = true := by
  cases hs : s.tokens with
  | nil => simp [peekCheck, hs] at h
  | cons tok rest =>
    simp only [peekCheck, hs, beq_iff_eq] at h
    rcases h with h | h | h <;> simp [inFirst, hs, gNewtonFirsts, h]

/-- A quantity term only parses from a token of its first set. -/
theorem quantityTerm_inFirst (fuel : Nat) (env : Env) (s : State) (t : IrNode) (s' : State)
    (h : newtonParseQuantityTerm fuel env s = .ok (t, s')) :
    inFirst s .PquantityTerm = true := by
  cases fuel with
  | zero => simp [newtonParseQuantityTerm] at h
  | succ f =>
    rw [newtonParseQuantityTerm] at h
    obtain ⟨⟨i, u, s1⟩, hu, h⟩ := bind_eq_ok h
    by_cases hun : inFirst s .PunaryOp = true
    · cases hs : s.tokens with
      | nil => simp [inFirst, hs] at hun
      | cons tok rest =>
        simp only [inFirst, hs, gNewtonFirsts, List.contains_cons, List.contains_nil,
          Bool.or_false, beq_iff_eq] at hun
        simp [inFirst, hs, gNewtonFirsts, hun]
    · rw [if_neg hun] at hu
      simp only [pure_eq_ok, Except.ok.injEq, Prod.mk.injEq] at hu
      obtain ⟨-, -, rfl⟩ := hu
      obtain ⟨⟨lf, s2⟩, hf, -⟩ := bind_eq_ok h
      exact inFirst_term_of_factor (quantityFactor_peek f env s lf s2 hf)

/-- `newtonParseQuantityExpression` is its loop started on the first term. -/
theorem quantityExpression_unfold (F : Nat) (env : Env) (s : State) (t1 : IrNode)
    (s1 : State)
    (h1 : newtonParseQuantityTerm F env { s with currentParameterNumber := 0 } = .ok (t1, s1)) :
    newtonParseQuantityExpression (F + 1) env s =
      quantityExpressionLoop F env
        ((((genIrNode .PquantityExpression).setPhysics (some callocPhysics)).setValue
          t1.value).setPhysics t1.physics) t1 s1 := by
  have hfirst := quantityTerm_inFirst F env _ t1 s1 h1
  rw [newtonParseQuantityExpression]
  simp only [hfirst, if_true, h1, bind_ok]

/-- C1: let the first term parse to `t1` and the tokens after it be a chain of
`(+|-) term` whose terms parse to `ts`, ending before a token that is neither `+` nor `-`.
Then, with enough fuel, `newtonParseQuantityExpression` ends in the assertion failure
exactly when some term of `ts` has a numerator prime product or a denominator prime
product different from that of `t1`, and returns a node (with the state after the chain)
when all terms agree with `t1` on both. -/
theorem quantityExpression_chain (fuel : Nat) (env : Env) (s s1 s' : State) (t1 : IrNode)
    (ts : List IrNode) (F : Nat)
    (h1 : newtonParseQuantityTerm fuel env { s with currentParameterNumber := 0 }
      = .ok (t1, s1))
    (hc : TermChain fuel env s1 ts s')
    (hF : fuel + ts.length + 2 ≤ F) :
    (newtonParseQuantityExpression F env s = .error .assertionFailure ↔
      ∃ t ∈ ts, t.numeratorPrimeProduct ≠ t1.numeratorPrimeProduct ∨
        t.denominatorPrimeProduct ≠ t1.denominatorPrimeProduct) ∧
    ((∀ t ∈ ts, t.numeratorPrimeProduct = t1.numeratorPrimeProduct ∧
        t.denominatorPrimeProduct = t1.denominatorPrimeProduct) →
      ∃ node, newtonParseQuantityExpression F env s = .ok (node, s')) := by
  obtain ⟨F', rfl⟩ : ∃ F', F = F' + 1 := ⟨F - 1, by omega⟩
  obtain ⟨lp, hlp⟩ := quantityTerm_physics fuel env _ t1 s1 h1
  have h1' : newtonParseQuantityTerm F' env { s with currentParameterNumber := 0 }
      = .ok (t1, s1) :=
    (quantityTerm_fuel_le (by omega) env _).eq_ok h1
  rw [quantityExpression_unfold F' env s t1 s1 h1']
  have hok : (∀ t ∈ ts, SameDimensions t1 t) →
      ∃ node, quantityExpressionLoop F' env
        ((((genIrNode .PquantityExpression).setPhysics (some callocPhysics)).setValue
          t1.value).setPhysics t1.physics) t1 s1 = .ok (node, s') := by
    intro hall
    obtain ⟨node, h, -, -⟩ :=
      quantityExpressionLoop_chain_ok fuel env s1 s' ts hc _ t1 lp F' hlp hall (by omega)
    exact ⟨node, h⟩
  refine ⟨⟨?_, ?_⟩, ?_⟩
  · intro herr
    by_contra hcon
    have hall : ∀ t ∈ ts, SameDimensions t1 t := by
      intro t ht
      by_contra hns
      apply hcon
      refine ⟨t, ht, ?_⟩
      by_contra hboth
      apply hns
      rw [not_or, not_not, not_not] at hboth
      exact ⟨hboth.1.symm, hboth.2.symm⟩
    obtain ⟨node, h⟩ := hok hall
    rw [h] at herr
    cases herr
  · rintro ⟨t, ht, hne⟩
    apply quantityExpressionLoop_chain_assert fuel env s1 s' ts hc _ t1 lp F' hlp _ (by omega)
    refine ⟨t, ht, ?_⟩
    rintro ⟨hn, hd⟩
    rcases hne with h | h
    · exact h hn.symm
    · exact h hd.symm
  · intro hall
    exact hok (fun t ht => ⟨(hall t ht).1.symm, (hall t ht).2.symm⟩)

/-- C1 (witness): `3 * kg + 2 * m` ends in the assertion failure, the second term
having numerator prime product 3 against 2. -/
theorem quantityExpression_chain_witness :
    newtonParseQuantityExpression 7 exampleEnv
      ⟨[Token.number 3, Token.op .Tmul, Token.ident "kg", Token.op .Tplus,
        Token.number 2, Token.op .Tmul, Token.ident "m"], 0⟩ = .error .assertionFailure :=
  ((quantityExpression_chain 4 exampleEnv
      ⟨[Token.number 3, Token.op .Tmul, Token.ident "kg", Token.op .Tplus,
        Token.number 2, Token.op .Tmul, Token.ident "m"], 0⟩ _ _ _ _ 7 rfl
      (TermChain.step _ _ _ _ _ _ _ (Or.inl rfl) rfl (TermChain.done _ rfl))
      (by decide)).1).mpr ⟨_, List.mem_cons_self _ _, Or.inl (by decide)⟩

/-- C2: when the term `a`, a `+` token and the term `b` parse in sequence, the lookahead
after `b` being neither `+` nor `-`, and `a` and `b` agree on both prime products, then
with enough fuel `newtonParseQuantityExpression` returns a node whose value is
`value(a) + value(b)` and whose physics is that of `a`. -/
theorem quantityExpression_plus (fuel : Nat) (env : Env) (s s2 : State) (a b : IrNode)
    (tok : Token) (rest : List Token) (n F : Nat)
    (ha : newtonParseQuantityTerm fuel env { s with currentParameterNumber := 0 }
      = .ok (a, ⟨tok :: rest, n⟩))
    (hplus : tok.type = .Tplus)
    (hb : newtonParseQuantityTerm fuel env ⟨rest, n⟩ = .ok (b, s2))
    (hend : inFirst s2 .PlowPrecedenceBinaryOp = false)
    (hnum : a.numeratorPrimeProduct = b.numeratorPrimeProduct)
    (hden : a.denominatorPrimeProduct = b.denominatorPrimeProduct)
    (hF : fuel + 3 ≤ F) :
    ∃ node, newtonParseQuantityExpression F env s = .ok (node, s2) ∧
      node.value = a.value + b.value ∧ node.physics = a.physics ∧
      node.numeratorPrimeProduct = a.numeratorPrimeProduct ∧
      node.denominatorPrimeProduct = a.denominatorPrimeProduct := by
  obtain ⟨F', rfl⟩ : ∃ F', F = F' + 1 := ⟨F - 1, by omega⟩
  obtain ⟨lp, hlp⟩ := quantityTerm_physics fuel env _ a _ ha
  have ha' : newtonParseQuantityTerm F' env { s with currentParameterNumber := 0 }
      = .ok (a, ⟨tok :: rest, n⟩) :=
    (quantityTerm_fuel_le (by omega) env _).eq_ok ha
  rw [quantityExpression_unfold F' env s a _ ha']
  have hc : TermChain fuel env ⟨tok :: rest, n⟩ [b] s2 :=
    TermChain.step tok rest n b s2 s2 [] (Or.inl hplus) hb (TermChain.done s2 hend)
  obtain ⟨node, h, hv, hp⟩ :=
    quantityExpressionLoop_chain_ok fuel env _ s2 [b] hc
      ((((genIrNode .PquantityExpression).setPhysics (some callocPhysics)).setValue
          a.value).setPhysics a.physics) a lp F' hlp
      (by
        intro t ht
        rw [List.mem_singleton] at ht
        subst ht
        exact ⟨hnum, hden⟩)
      (by simp; omega)
  refine ⟨node, h, ?_, ?_, ?_, ?_⟩
  · rw [hv]; simp
  · rw [hp]; simp
  · simp [IrNode.numeratorPrimeProduct, hp]
  · simp [IrNode.denominatorPrimeProduct, hp]

/-- C2 (witness): `3 * kg + 2 * kg` has value 5 and numerator dimensions `[kilogram]`. -/
theorem quantityExpression_plus_witness :
    resultValue (newtonParseQuantityExpression 7 exampleEnv
      ⟨[Token.number 3, Token.op .Tmul, Token.ident "kg", Token.op .Tplus,
        Token.number 2, Token.op .Tmul, Token.ident "kg"], 0⟩) = some 5 ∧
    (resultPhysics (newtonParseQuantityExpression 7 exampleEnv
      ⟨[Token.number 3, Token.op .Tmul, Token.ident "kg", Token.op .Tplus,
        Token.number 2, Token.op .Tmul, Token.ident "kg"], 0⟩)).map
      Physics.numeratorDimensions = some [kilogram] := by
  obtain ⟨node, h, hv, hp, -⟩ := quantityExpression_plus 4 exampleEnv
    ⟨[Token.number 3, Token.op .Tmul, Token.ident "kg", Token.op .Tplus,
      Token.number 2, Token.op .Tmul, Token.ident "kg"], 0⟩ _ _ _ _ _ _ 7 rfl rfl rfl rfl
    (by decide) (by decide) (by decide)
  rw [h]
  simp only [resultValue, resultPhysics, hv, hp]
  decide!

/-! ## Subtraction in quantity expressions -/

/-- C3: the quantity expression `5 - 3` folds to 8, not to 2: the loop of
`newtonParseQuantityExpression` adds the value of every right-hand term, whatever
the operator, while `newtonParseNumericExpression` on the same tokens gives 2. -/
theorem quantityExpression_minus_adds :
    resultValue (newtonParseQuantityExpression 4 exampleEnv
      ⟨[Token.number 5, Token.op .Tminus, Token.number 3], 0⟩) = some 8 ∧
    resultValue (newtonParseNumericExpression 4 exampleEnv
      ⟨[Token.number 5, Token.op .Tminus, Token.number 3], 0⟩) = some 2 := by
  decide!

/-! ## Exponent zero -/

/-- C5: parsing the quantity factor `mass ** 0` ends in the assertion failure of
`newtonParseInteger`; the zero branch of `newtonParseExponentialExpression` is reached
by `mass ** (1 - 1)`, which leaves a physics without dimensions, with both prime
products 1 and value 1, on a node whose own value stays 0. -/
theorem quantityFactor_exponent_zero_asserts :
    newtonParseQuantityFactor 10 exampleEnv
      ⟨[Token.ident "mass", Token.op .Texponent, Token.number 0], 0⟩
      = .error .assertionFailure ∧
    (resultPhysics (newtonParseQuantityFactor 10 exampleEnv
      ⟨[Token.ident "mass", Token.op .Texponent, Token.op .TleftParen, Token.number 1,
        Token.op .Tminus, Token.number 1, Token.op .TrightParen], 0⟩)).map
      (fun p => (p.numeratorDimensions, p.denominatorDimensions, p.numeratorPrimeProduct,
        p.denominatorPrimeProduct, p.value)) = some ([], [], 1, 1, 1) ∧
    resultValue (newtonParseQuantityFactor 10 exampleEnv
      ⟨[Token.ident "mass", Token.op .Texponent, Token.op .TleftParen, Token.number 1,
        Token.op .Tminus, Token.number 1, Token.op .TrightParen], 0⟩) = some 0 := by
  decide!

/-- The factor `x ** e`: whatever `newtonParseExponentialExpression` stores into the
base node is the physics of the returned factor. -/
theorem quantityFactor_identifier_exponent_result (fuel : Nat) (env : Env) (x : String)
    (p : Physics) (toks rest : List Token) (pn : Nat) (P : Physics → Prop)
    (hx : env.currentScope.physicsForIdentifier x = some p)
    (hexp : ∀ pn', ∃ exponent q, (∀ base : IrNode, base.physics = some p →
      newtonParseExponentialExpression fuel env base ⟨toks, pn'⟩ =
        .ok ((exponent, base.setPhysics (some q)), ⟨rest, pn'⟩)) ∧ P q) :
    ∃ q, resultPhysics (newtonParseQuantityFactor (fuel + 1) env
        ⟨Token.ident x :: Token.op .Texponent :: toks, pn⟩) = some q ∧
      resultTokens (newtonParseQuantityFactor (fuel + 1) env
        ⟨Token.ident x :: Token.op .Texponent :: toks, pn⟩) = some rest ∧ P q := by
  obtain ⟨base, pn', hb, -, heq⟩ := quantityFactor_identifier_exponent fuel env x p toks pn hx
  obtain ⟨exponent, q, hq, hP⟩ := hexp pn'
  rw [heq, hq base hb]
  refine ⟨q, ?_, ?_, hP⟩
  · simp only [bind_ok, resultPhysics]
    split <;> simp
  · simp [resultTokens]


/-- The factor `x ** n` with `n` beyond `INT_MAX` (`x ** -n` with `-n` below `INT_MIN`),
for `x` bound to a physics that counts a dimension: the comparison of the exponent with
its cast to `int` fails, and the factor ends in the assertion failure. -/
theorem quantityFactor_exponent_out_of_range (fuel : Nat) (env : Env) (x : String)
    (p : Physics) (neg : Bool) (n : ℕ) (rest : List Token) (pn : Nat)
    (hx : env.currentScope.physicsForIdentifier x = some p)
    (hcount : 0 < p.numberOfNumerators ∨ 0 < p.numberOfDenominators)
    (hout : if neg then 2147483648 < n else 2147483648 ≤ n) :
    newtonParseQuantityFactor (fuel + 1) env ⟨powerTokens x neg n ++ rest, pn⟩
      = .error .assertionFailure := by
  obtain ⟨base, pn', hb, -, heq⟩ :=
    quantityFactor_identifier_exponent fuel env x p (integerTokens neg n ++ rest) pn hx
  cases neg with
  | false =>
    simp only [Bool.false_eq_true, if_false] at hout
    have hn0 : (n : ℚ) ≠ 0 := by
      have : (0 : ℚ) < n := by exact_mod_cast (by omega : 0 < n)
      exact ne_of_gt this
    obtain ⟨e, hint, hval⟩ := newtonParseInteger_number n rest pn' hn0
    have hexp : (if peekCheck ⟨Token.number n :: rest, pn'⟩ .TleftParen
        then newtonParseNumericExpression fuel env ⟨Token.number n :: rest, pn'⟩
        else newtonParseInteger ⟨Token.number n :: rest, pn'⟩)
        = .ok (e, ⟨rest, pn'⟩) := by
      rw [if_neg (by simp [peekCheck, Token.number])]
      exact hint
    have hcast : e.value ≠ ((castInt e.value : ℤ) : ℚ) := by
      rw [hval]
      have h := castInt_out_of_range (n : ℤ) (Or.inr (by omega))
      simpa using h
    have hres := heq
    simp only [integerTokens, Bool.false_eq_true, if_false, List.nil_append,
      List.cons_append] at hres
    rw [exponentialExpression_cast_fails fuel env base p _ _ e hb hcount hexp
      (by rw [hval]; exact hn0) hcast] at hres
    exact hres
  | true =>
    simp only [if_true] at hout
    have hn0 : (n : ℚ) ≠ 0 := by
      have : (0 : ℚ) < n := by exact_mod_cast (by omega : 0 < n)
      exact ne_of_gt this
    obtain ⟨e, hint, hval⟩ := newtonParseInteger_minus_number n rest pn' hn0
    have hexp : (if peekCheck ⟨Token.op .Tminus :: Token.number n :: rest, pn'⟩ .TleftParen
        then newtonParseNumericExpression fuel env
          ⟨Token.op .Tminus :: Token.number n :: rest, pn'⟩
        else newtonParseInteger ⟨Token.op .Tminus :: Token.number n :: rest, pn'⟩)
        = .ok (e, ⟨rest, pn'⟩) := by
      rw [if_neg (by simp [peekCheck, Token.op])]
      exact hint
    have hcast : e.value ≠ ((castInt e.value : ℤ) : ℚ) := by
      rw [hval]
      have h := castInt_out_of_range (-(n : ℤ)) (Or.inl (by omega))
      simpa using h
    have hres := heq
    simp only [integerTokens, if_true, List.cons_append, List.nil_append,
      List.singleton_append] at hres
    rw [exponentialExpression_cast_fails fuel env base p _ _ e hb hcount hexp
      (by rw [hval]; simpa using hn0) hcast] at hres
    exact hres

/-! ## Integer exponents on an identifier -/

/-- C6 (counterexample): `ratio` is bound to kilogram over kilogram; after `ratio ** -1`
the numerator of the base node's physics contains kilogram, a numerator dimension of
`ratio`. -/
theorem quantityFactor_negative_exponent_keeps_shared_dimension :
    exampleScope.physicsForIdentifier "ratio"
      = some (Physics.ofDimensions [kilogram] [kilogram] false false 0) ∧
    (resultPhysics (newtonParseQuantityFactor 2 exampleEnv
      ⟨[Token.ident "ratio", Token.op .Texponent, Token.op .Tminus, Token.number 1], 0⟩)).map
      Physics.numeratorDimensions = some [kilogram] := by
  decide!

/-- The factor `x ** -n` for `-n` in the range of `int`. -/
theorem quantityFactor_negative_exponent_in_range (env : Env) (x : String) (p : Physics) (n : ℕ)
    (rest : List Token) (pn fuel : Nat)
    (hx : env.currentScope.physicsForIdentifier x = some p)
    (hnum : p.numeratorDimensions ≠ [])
    (hcn : p.numeratorDimensions.length ≤ p.numberOfNumerators)
    (hcd : p.denominatorDimensions.length ≤ p.numberOfDenominators)
    (hn : 1 ≤ n) (hrange : n ≤ 2147483648) (hfuel : 1 ≤ fuel) :
    ∃ q,
      resultPhysics (newtonParseQuantityFactor fuel env
        ⟨Token.ident x :: Token.op .Texponent :: Token.op .Tminus :: Token.number n :: rest,
          pn⟩) = some q ∧
      resultTokens (newtonParseQuantityFactor fuel env
        ⟨Token.ident x :: Token.op .Texponent :: Token.op .Tminus :: Token.number n :: rest,
          pn⟩) = some rest ∧
      q.denominatorDimensions = (List.replicate n p.numeratorDimensions).flatten ∧
      q.numeratorDimensions = (List.replicate n p.denominatorDimensions).flatten ∧
      (∀ d, q.denominatorDimensions.count d = n * p.numeratorDimensions.count d) ∧
      (∀ d ∈ p.numeratorDimensions, d ∉ p.denominatorDimensions →
        d ∉ q.numeratorDimensions) := by
  obtain ⟨f, rfl⟩ : ∃ f, fuel = f + 1 := ⟨fuel - 1, by omega⟩
  have hn0 : (n : ℚ) ≠ 0 := by
    have : (0 : ℚ) < n := by exact_mod_cast hn
    exact ne_of_gt this
  have hnn : 0 < p.numberOfNumerators := by
    have : 0 < p.numeratorDimensions.length := List.length_pos.mpr hnum
    omega
  have hden : (if 0 < p.numberOfDenominators then
      (List.replicate n p.denominatorDimensions).flatten else [])
      = (List.replicate n p.denominatorDimensions).flatten := by
    split
    · rfl
    · have h0 : p.denominatorDimensions = [] := by
        apply List.eq_nil_of_length_eq_zero
        omega
      simp [h0]
  have key : ∀ pn', ∃ exponent q, (∀ base : IrNode, base.physics = some p →
      newtonParseExponentialExpression f env base
        ⟨Token.op .Tminus :: Token.number n :: rest, pn'⟩ =
        .ok ((exponent, base.setPhysics (some q)), ⟨rest, pn'⟩)) ∧
      q.denominatorDimensions = (List.replicate n p.numeratorDimensions).flatten ∧
      q.numeratorDimensions = (List.replicate n p.denominatorDimensions).flatten := by
    intro pn'
    obtain ⟨node, hint, hval⟩ := newtonParseInteger_minus_number n rest pn' hn0
    have hexp : (if peekCheck ⟨Token.op .Tminus :: Token.number n :: rest, pn'⟩ .TleftParen
        then newtonParseNumericExpression f env
          ⟨Token.op .Tminus :: Token.number n :: rest, pn'⟩
        else newtonParseInteger ⟨Token.op .Tminus :: Token.number n :: rest, pn'⟩)
        = .ok (node, ⟨rest, pn'⟩) := by
      rw [if_neg (by simp [peekCheck, Token.op])]
      exact hint
    obtain ⟨q, hq, h1, h2, -⟩ :=
      exponentialExpression_of_negative f env p _ _ node n hexp hval hn (by omega)
    exact ⟨node, q, hq, by rw [h1, if_pos hnn], by rw [h2, hden]⟩
  obtain ⟨q, hq1, hq2, hq3, hq4⟩ :=
    quantityFactor_identifier_exponent_result f env x p _ rest pn
      (fun q => q.denominatorDimensions = (List.replicate n p.numeratorDimensions).flatten ∧
        q.numeratorDimensions = (List.replicate n p.denominatorDimensions).flatten) hx key
  refine ⟨q, hq1, hq2, hq3, hq4, ?_, ?_⟩
  · intro d
    rw [hq3, List.count_flatten]
    simp
  · intro d _ hd
    rw [hq4]
    intro hmem
    rw [List.mem_flatten] at hmem
    obtain ⟨l, hl, hdl⟩ := hmem
    rw [List.eq_of_mem_replicate hl] at hdl
    exact hd hdl

/-- C6 (amended): for an identifier `x` bound to a physics `p` with a non-empty numerator
whose counts cover its lists, and `n ≥ 1` with `-n` in the range of `int` (`n ≤ 2^31`), the
factor `x ** -n` parses with any fuel `≥ 1` and leaves the base node with a physics whose
denominator list is `p`'s numerator list repeated `n` times and whose numerator list is
`p`'s denominator list repeated `n` times: every dimension occurs in the new denominator
`n` times as often as in `p`'s numerator, and a numerator dimension of `p` that is not in
`p`'s denominator is not in the new numerator. For `n > 2^31` the factor ends in the
assertion failure. -/
theorem quantityFactor_negative_exponent (env : Env) (x : String) (p : Physics) (n : ℕ)
    (rest : List Token) (pn fuel : Nat)
    (hx : env.currentScope.physicsForIdentifier x = some p)
    (hnum : p.numeratorDimensions ≠ [])
    (hcn : p.numeratorDimensions.length ≤ p.numberOfNumerators)
    (hcd : p.denominatorDimensions.length ≤ p.numberOfDenominators)
    (hn : 1 ≤ n) (hfuel : 1 ≤ fuel) :
    (n ≤ 2147483648 →
      ∃ q,
        resultPhysics (newtonParseQuantityFactor fuel env
          ⟨Token.ident x :: Token.op .Texponent :: Token.op .Tminus :: Token.number n :: rest,
            pn⟩) = some q ∧
        resultTokens (newtonParseQuantityFactor fuel env
          ⟨Token.ident x :: Token.op .Texponent :: Token.op .Tminus :: Token.number n :: rest,
            pn⟩) = some rest ∧
        q.denominatorDimensions = (List.replicate n p.numeratorDimensions).flatten ∧
        q.numeratorDimensions = (List.replicate n p.denominatorDimensions).flatten ∧
        (∀ d, q.denominatorDimensions.count d = n * p.numeratorDimensions.count d) ∧
        (∀ d ∈ p.numeratorDimensions, d ∉ p.denominatorDimensions →
          d ∉ q.numeratorDimensions)) ∧
    (2147483648 < n →
      newtonParseQuantityFactor fuel env
        ⟨Token.ident x :: Token.op .Texponent :: Token.op .Tminus :: Token.number n :: rest,
          pn⟩ = .error .assertionFailure) := by
  refine ⟨fun hrange => quantityFactor_negative_exponent_in_range env x p n rest pn fuel hx
    hnum hcn hcd hn hrange hfuel, fun hout => ?_⟩
  obtain ⟨f, rfl⟩ : ∃ f, fuel = f + 1 := ⟨fuel - 1, by omega⟩
  have hnn : 0 < p.numberOfNumerators := by
    have : 0 < p.numeratorDimensions.length := List.length_pos.mpr hnum
    omega
  have h := quantityFactor_exponent_out_of_range f env x p true n rest pn hx (Or.inl hnn)
    (by simpa using hout)
  simpa [powerTokens, integerTokens] using h

/-- C6 (witness): `mass ** -2` leaves kilogram twice in the denominator and an empty
numerator. -/
theorem quantityFactor_negative_exponent_witness :
    ∃ q,
      resultPhysics (newtonParseQuantityFactor 1 exampleEnv
        ⟨Token.ident "mass" :: Token.op .Texponent :: Token.op .Tminus ::
          Token.number (2 : ℕ) :: [], 0⟩) = some q ∧
      resultTokens (newtonParseQuantityFactor 1 exampleEnv
        ⟨Token.ident "mass" :: Token.op .Texponent :: Token.op .Tminus ::
          Token.number (2 : ℕ) :: [], 0⟩) = some [] ∧
      q.denominatorDimensions = (List.replicate 2 [kilogram]).flatten ∧
      q.numeratorDimensions = (List.replicate 2 []).flatten ∧
      (∀ d, q.denominatorDimensions.count d = 2 * [kilogram].count d) ∧
      (∀ d ∈ [kilogram], d ∉ ([] : List Dimension) → d ∉ q.numeratorDimensions) :=
  (quantityFactor_negative_exponent exampleEnv "mass"
    (Physics.ofDimensions [kilogram] [] false false 0) 2 [] 0 1 (by decide) (by decide)
    (by decide) (by decide) (by decide) (by decide)).1 (by decide)

/-- The factor `x ** n` for `n` in the range of `int`. -/
theorem quantityFactor_positive_exponent_in_range (env : Env) (x : String) (p : Physics) (n : ℕ)
    (rest : List Token) (pn fuel : Nat)
    (hx : env.currentScope.physicsForIdentifier x = some p)
    (hwf : WellFormed p) (hn : 1 ≤ n) (hrange : n < 2147483648) (hfuel : 1 ≤ fuel) :
    ∃ q,
      resultPhysics (newtonParseQuantityFactor fuel env
        ⟨Token.ident x :: Token.op .Texponent :: Token.number n :: rest, pn⟩) = some q ∧
      resultTokens (newtonParseQuantityFactor fuel env
        ⟨Token.ident x :: Token.op .Texponent :: Token.number n :: rest, pn⟩) = some rest ∧
      q.numeratorPrimeProduct = p.numeratorPrimeProduct ^ n ∧
      q.denominatorPrimeProduct = p.denominatorPrimeProduct ^ n := by
  obtain ⟨f, rfl⟩ : ∃ f, fuel = f + 1 := ⟨fuel - 1, by omega⟩
  have hn0 : (n : ℚ) ≠ 0 := by
    have : (0 : ℚ) < n := by exact_mod_cast hn
    exact ne_of_gt this
  have hnum : (if 0 < p.numberOfNumerators then primeProduct p.numeratorDimensions ^ n else 1)
      = p.numeratorPrimeProduct ^ n := by
    rw [hwf.numeratorSync]
    split
    · rfl
    · have h0 : p.numeratorDimensions = [] := by
        apply List.eq_nil_of_length_eq_zero
        have := hwf.numeratorCount
        omega
      simp [h0, primeProduct]
  have hden : (if 0 < p.numberOfDenominators then primeProduct p.denominatorDimensions ^ n
      else 1) = p.denominatorPrimeProduct ^ n := by
    rw [hwf.denominatorSync]
    split
    · rfl
    · have h0 : p.denominatorDimensions = [] := by
        apply List.eq_nil_of_length_eq_zero
        have := hwf.denominatorCount
        omega
      simp [h0, primeProduct]
  have key : ∀ pn', ∃ exponent q, (∀ base : IrNode, base.physics = some p →
      newtonParseExponentialExpression f env base ⟨Token.number n :: rest, pn'⟩ =
        .ok ((exponent, base.setPhysics (some q)), ⟨rest, pn'⟩)) ∧
      q.numeratorPrimeProduct = p.numeratorPrimeProduct ^ n ∧
      q.denominatorPrimeProduct = p.denominatorPrimeProduct ^ n := by
    intro pn'
    obtain ⟨node, hint, hval⟩ := newtonParseInteger_number n rest pn' hn0
    have hexp : (if peekCheck ⟨Token.number n :: rest, pn'⟩ .TleftParen
        then newtonParseNumericExpression f env ⟨Token.number n :: rest, pn'⟩
        else newtonParseInteger ⟨Token.number n :: rest, pn'⟩)
        = .ok (node, ⟨rest, pn'⟩) := by
      rw [if_neg (by simp [peekCheck, Token.number])]
      exact hint
    obtain ⟨q, hq, -, -, h3, h4, -⟩ :=
      exponentialExpression_of_positive f env p _ _ node n hexp hval hn hrange
    exact ⟨node, q, hq, by rw [h3, hnum], by rw [h4, hden]⟩
  exact quantityFactor_identifier_exponent_result f env x p _ rest pn
    (fun q => q.numeratorPrimeProduct = p.numeratorPrimeProduct ^ n ∧
      q.denominatorPrimeProduct = p.denominatorPrimeProduct ^ n) hx key

/-- C7 (counterexample): `mass` is bound to kilogram, with numerator prime product 2.
The factor `mass ** 2147483648` does not parse: the exponent is beyond `INT_MAX`, the
assertion `exponent->value == (int) exponent->value` fails. -/
theorem quantityFactor_exponent_beyond_int :
    exampleScope.physicsForIdentifier "mass"
      = some (Physics.ofDimensions [kilogram] [] false false 0) ∧
    newtonParseQuantityFactor 1 exampleEnv
      ⟨[Token.ident "mass", Token.op .Texponent, Token.number 2147483648], 0⟩
      = .error .assertionFailure ∧
    (resultPhysics (newtonParseQuantityFactor 1 exampleEnv
      ⟨[Token.ident "mass", Token.op .Texponent, Token.number 2], 0⟩)).map
      Physics.numeratorPrimeProduct = some (2 ^ 2) := by
  decide!

/-- C7 (amended): for an identifier `x` bound to a well-formed physics `p` and `n ≥ 1` in
the range of `int` (`n < 2^31`), the factor `x ** n` parses with any fuel `≥ 1` and leaves
the base node with a physics whose numerator prime product is `p`'s to the power `n` and
whose denominator prime product is `p`'s to the power `n`. For `n ≥ 2^31` and `p` with a
dimension the factor ends in the assertion failure. -/
theorem quantityFactor_positive_exponent (env : Env) (x : String) (p : Physics) (n : ℕ)
    (rest : List Token) (pn fuel : Nat)
    (hx : env.currentScope.physicsForIdentifier x = some p)
    (hwf : WellFormed p) (hn : 1 ≤ n) (hfuel : 1 ≤ fuel) :
    (n < 2147483648 →
      ∃ q,
        resultPhysics (newtonParseQuantityFactor fuel env
          ⟨Token.ident x :: Token.op .Texponent :: Token.number n :: rest, pn⟩) = some q ∧
        resultTokens (newtonParseQuantityFactor fuel env
          ⟨Token.ident x :: Token.op .Texponent :: Token.number n :: rest, pn⟩) = some rest ∧
        q.numeratorPrimeProduct = p.numeratorPrimeProduct ^ n ∧
        q.denominatorPrimeProduct = p.denominatorPrimeProduct ^ n) ∧
    (2147483648 ≤ n → p.numeratorDimensions ≠ [] ∨ p.denominatorDimensions ≠ [] →
      newtonParseQuantityFactor fuel env
        ⟨Token.ident x :: Token.op .Texponent :: Token.number n :: rest, pn⟩
        = .error .assertionFailure) := by
  refine ⟨fun hrange => quantityFactor_positive_exponent_in_range env x p n rest pn fuel hx
    hwf hn hrange hfuel, fun hout hdim => ?_⟩
  obtain ⟨f, rfl⟩ : ∃ f, fuel = f + 1 := ⟨fuel - 1, by omega⟩
  have hcount : 0 < p.numberOfNumerators ∨ 0 < p.numberOfDenominators := by
    rcases hdim with h | h
    · left
      have : 0 < p.numeratorDimensions.length := List.length_pos.mpr h
      have := hwf.numeratorCount
      omega
    · right
      have : 0 < p.denominatorDimensions.length := List.length_pos.mpr h
      have := hwf.denominatorCount
      omega
  have h := quantityFactor_exponent_out_of_range f env x p false n rest pn hx hcount
    (by simpa using hout)
  simpa [powerTokens, integerTokens] using h

/-- C7 as amended, at `velocity ** 3`, velocity being meter per second with prime products
3 and 5. -/
theorem quantityFactor_positive_exponent_witness :
    ∃ q,
      resultPhysics (newtonParseQuantityFactor 1 exampleEnv
        ⟨Token.ident "velocity" :: Token.op .Texponent :: Token.number (3 : ℕ) :: [], 0⟩)
        = some q ∧
      resultTokens (newtonParseQuantityFactor 1 exampleEnv
        ⟨Token.ident "velocity" :: Token.op .Texponent :: Token.number (3 : ℕ) :: [], 0⟩)
        = some [] ∧
      q.numeratorPrimeProduct = 3 ^ 3 ∧ q.denominatorPrimeProduct = 5 ^ 3 :=
  (quantityFactor_positive_exponent exampleEnv "velocity"
    (Physics.ofDimensions [meter] [second] true false 0) 3 [] 0 1 (by decide)
    ⟨by decide, by decide, by decide, by decide⟩ (by decide) (by decide)).1 (by decide)

/-! ## Non-integer exponents -/

/-- C8: when the base node's physics has a numerator or denominator dimension (its
counts covering its lists) and the exponent operand parses to a value that is neither
zero nor an integer, `newtonParseExponentialExpression` ends in the assertion failure. -/
theorem exponentialExpression_asserts_integer (fuel : Nat) (env : Env) (baseNode : IrNode)
    (p : Physics) (s : State) (v : ℚ)
    (hbase : baseNode.physics = some p)
    (hdim : p.numeratorDimensions ≠ [] ∨ p.denominatorDimensions ≠ [])
    (hcn : p.numeratorDimensions.length ≤ p.numberOfNumerators)
    (hcd : p.denominatorDimensions.length ≤ p.numberOfDenominators)
    (hexp : resultValue (if peekCheck s .TleftParen then newtonParseNumericExpression fuel env s
      else newtonParseInteger s) = some v)
    (hne : v ≠ 0) (hint : ∀ z : ℤ, v ≠ z) :
    newtonParseExponentialExpression fuel env baseNode s = .error .assertionFailure := by
  obtain ⟨exponent, s', hparse, hval⟩ := resultValue_eq_some hexp
  have hcount : 0 < p.numberOfNumerators ∨ 0 < p.numberOfDenominators := by
    rcases hdim with h | h
    · left
      have : 0 < p.numeratorDimensions.length := List.length_pos.mpr h
      omega
    · right
      have : 0 < p.denominatorDimensions.length := List.length_pos.mpr h
      omega
  exact exponentialExpression_not_integer fuel env baseNode p s s' exponent hbase hcount
    hparse (by rw [hval]; exact hne) (by rw [hval]; exact hint)

/-- C8 (witness): the exponent `(1 / 2)` on a base of dimension kilogram, and the factor
`mass ** (1 / 2)` as a whole. -/
theorem exponentialExpression_asserts_integer_witness :
    newtonParseExponentialExpression 8 exampleEnv
      ((genIrNode .Tidentifier).setPhysics
        (some (Physics.ofDimensions [kilogram] [] false false 0)))
      ⟨[Token.op .TleftParen, Token.number 1, Token.op .Tdiv, Token.number 2,
        Token.op .TrightParen], 0⟩ = .error .assertionFailure ∧
    newtonParseQuantityFactor 9 exampleEnv
      ⟨[Token.ident "mass", Token.op .Texponent, Token.op .TleftParen, Token.number 1,
        Token.op .Tdiv, Token.number 2, Token.op .TrightParen], 0⟩
      = .error .assertionFailure :=
  ⟨exponentialExpression_asserts_integer 8 exampleEnv _
      (Physics.ofDimensions [kilogram] [] false false 0) _ (1 / 2) rfl (by decide)
      (by decide) (by decide) (by decide!) (by norm_num)
      (by
        intro z h
        have h2 : (1 : ℚ) = 2 * z := by linarith
        have h3 : (1 : ℤ) = 2 * z := by exact_mod_cast h2
        omega),
    by decide!⟩

/-! ## Two vectors in one term -/

/-- C9: the quantity term `velocity * (velocity)` has two vector factors, the identifier
and the parenthesized expression (whose physics is flagged a vector), and
`newtonParseQuantityTerm` returns a term for it, consuming all five tokens; the same
two vectors written `velocity * velocity` end in the assertion failure. -/
theorem quantityTerm_parenthesized_vector_accepted :
    (resultPhysics (newtonParseQuantityFactor 8 exampleEnv
      ⟨[Token.ident "velocity"], 0⟩)).map Physics.isVector = some true ∧
    (resultPhysics (newtonParseQuantityFactor 8 exampleEnv
      ⟨[Token.op .TleftParen, Token.ident "velocity", Token.op .TrightParen], 0⟩)).map
      Physics.isVector = some true ∧
    resultTokens (newtonParseQuantityTerm 8 exampleEnv
      ⟨[Token.ident "velocity", Token.op .Tmul, Token.op .TleftParen,
        Token.ident "velocity", Token.op .TrightParen], 0⟩) = some [] ∧
    newtonParseQuantityTerm 8 exampleEnv
      ⟨[Token.ident "velocity", Token.op .Tmul, Token.ident "velocity"], 0⟩
      = .error .assertionFailure := by
  decide!

/-! ## Terms of identifiers and numbers -/

theorem inFirst_eq_false_of_lookahead (rest : List Token) (pn : Nat) (kinds : List IrNodeType)
    (production : IrNodeType) (h : LookaheadNotIn rest kinds)
    (hsub : ∀ k ∈ gNewtonFirsts production, k ∈ kinds) :
    inFirst ⟨rest, pn⟩ production = false := by
  cases rest with
  | nil => rfl
  | cons tok more =>
    have hk : tok.type ∉ kinds := h tok (by simp)
    simp only [inFirst]
    rw [Bool.eq_false_iff]
    intro hc
    exact hk (hsub _ (by simpa using hc))

theorem LookaheadNotIn.mono {rest : List Token} {kinds kinds' : List IrNodeType}
    (h : LookaheadNotIn rest kinds) (hsub : ∀ k ∈ kinds', k ∈ kinds) :
    LookaheadNotIn rest kinds' :=
  fun tok htok hk => h tok htok (hsub _ hk)

theorem lookahead_chainTokens (chain : List (MidOp × SimpleFactor)) (rest : List Token)
    (h : LookaheadNotIn rest [.Texponent]) :
    LookaheadNotIn (chainTokens chain ++ rest) [.Texponent] := by
  cases chain with
  | nil => simpa [chainTokens] using h
  | cons x more =>
    obtain ⟨op, f⟩ := x
    intro tok htok
    simp only [chainTokens, List.cons_append, List.head?_cons, Option.mem_def,
      Option.some.injEq] at htok
    subst htok
    cases op <;> simp [MidOp.token, Token.op]

/-- A bare identifier or number, not followed by `**`, parses to a factor carrying the
identifier's binding (no physics for a number). -/
theorem quantityFactor_simple (fuel : Nat) (env : Env) (f : SimpleFactor)
    (more : List Token) (pn : Nat) (hb : f.Bound env)
    (hmore : LookaheadNotIn more [.Texponent]) :
    ∃ node pn', newtonParseQuantityFactor (fuel + 1) env ⟨f.token :: more, pn⟩
        = .ok (node, ⟨more, pn'⟩) ∧ node.physics = f.binding env ∧
      peekCheck ⟨f.token :: more, pn⟩ .Tidentifier = (f.binding env).isSome := by
  have hhigh : ∀ k, inFirst ⟨more, k⟩ .PhighPrecedenceBinaryOp = false := fun k =>
    inFirst_eq_false_of_lookahead more k _ _ hmore (by simp [gNewtonFirsts])
  cases f with
  | identifier name =>
    obtain ⟨p, hp⟩ := hb
    rw [newtonParseQuantityFactor]
    simp only [SimpleFactor.token, SimpleFactor.binding, peekCheck, Token.ident,
      newtonParseIdentifierUsageTerminal, hp, derefPhysics, beq_self_eq_true, if_true,
      bind_ok, IrNode.physics_mk, deepCopyPhysicsNode_eq, IrNode.tokenString_mk,
      setValue_tokenString, setPhysics_tokenString, pure_eq_ok, Option.isSome_some]
    split <;> simp [hhigh]
  | number v =>
    rw [newtonParseQuantityFactor]
    simp [SimpleFactor.token, SimpleFactor.binding, peekCheck, Token.number,
      newtonParseTerminal, hhigh]

theorem inFirst_midOp (op : MidOp) (more : List Token) (pn : Nat) :
    inFirst ⟨op.token :: more, pn⟩ .PmidPrecedenceBinaryOp = true := by
  cases op <;> simp [inFirst, gNewtonFirsts, MidOp.token, Token.op]

theorem midPrecedenceBinaryOp_ok (op : MidOp) (more : List Token) (pn : Nat) :
    ∃ node, newtonParseMidPrecedenceBinaryOp ⟨op.token :: more, pn⟩ = .ok (node, ⟨more, pn⟩) ∧
      (node.type = .Tmul ∨ node.type = .Tdiv) := by
  cases op <;>
    simp [newtonParseMidPrecedenceBinaryOp, peekCheck, newtonParseTerminal, MidOp.token,
      Token.op]

@[simp] theorem copyNumerator_isVector (a b : Physics) :
    (newtonPhysicsCopyNumeratorDimensions a b).isVector = a.isVector := rfl

@[simp] theorem copyDenominator_isVector (a b : Physics) :
    (newtonPhysicsCopyDenominatorDimensions a b).isVector = a.isVector := rfl

@[simp] theorem copyNumeratorToDenominator_isVector (a b : Physics) :
    (newtonPhysicsCopyNumeratorToDenominatorDimensions a b).isVector = a.isVector := rfl

@[simp] theorem copyDenominatorToNumerator_isVector (a b : Physics) :
    (newtonPhysicsCopyDenominatorToNumeratorDimensions a b).isVector = a.isVector := rfl

/-- One iteration of the loop of `newtonParseQuantityTerm` on `(*|/) f` for a bare
identifier or number `f`: the assertion fails when `f` is a second vector, and otherwise
the loop goes on with the vector flag and count updated. -/
theorem quantityTermLoop_step_simple (fuel : Nat) (env : Env) (leftFactor intermediate : IrNode)
    (physics : Physics) (hasNumber : Bool) (numVectors : Nat) (op : MidOp)
    (f : SimpleFactor) (more : List Token) (pn : Nat) (hb : f.Bound env)
    (hmore : LookaheadNotIn more [.Texponent]) :
    ∃ intermediate' physics' hasNumber' pn',
      physics'.isVector = (physics.isVector || f.isVector env) ∧
      quantityTermLoop (fuel + 2) env leftFactor intermediate physics hasNumber numVectors
          ⟨op.token :: f.token :: more, pn⟩ =
        if f.isVector env = true ∧ ¬ numVectors + 1 < 2 then .error .assertionFailure
        else quantityTermLoop (fuel + 1) env leftFactor intermediate' physics' hasNumber'
          (if f.isVector env = true then numVectors + 1 else numVectors) ⟨more, pn'⟩ := by
  obtain ⟨binOp, hop, htype⟩ := midPrecedenceBinaryOp_ok op (f.token :: more) pn
  obtain ⟨node, pn', hfac, hphys, hpeek⟩ := quantityFactor_simple fuel env f more pn hb hmore
  rw [quantityTermLoop, if_pos (inFirst_midOp op _ pn), hop]
  simp only [bind_ok, hfac, hpeek]
  cases hbind : f.binding env with
  | none =>
    have hv : f.isVector env = false := by simp [SimpleFactor.isVector, hbind]
    simp only [hv, Option.isSome_none, Bool.false_eq_true, if_false, false_and, pure_eq_ok,
      bind_ok, Bool.or_false]
    exact ⟨_, _, _, _, rfl, rfl⟩
  | some p =>
    have hv : f.isVector env = p.isVector := by simp [SimpleFactor.isVector, hbind]
    rw [hbind] at hphys
    simp only [hv, Option.isSome_some, if_true, true_and, derefPhysics, hphys, bind_ok,
      Newton.assert]
    cases hpv : p.isVector with
    | false =>
      simp only [Bool.false_eq_true, if_false, pure_eq_ok, bind_ok, false_and, Bool.or_false]
      rcases htype with ht | ht
      · simp only [ht, if_true, bind_ok, pure_eq_ok]
        exact ⟨_, _, _, _, by split <;> split <;> simp, rfl⟩
      · simp only [ht, reduceCtorEq, if_false, if_true, bind_ok, pure_eq_ok]
        exact ⟨_, _, _, _, by split <;> split <;> simp, rfl⟩
    | true =>
      simp only [if_true, true_and, Bool.or_true]
      by_cases hnv : numVectors + 1 < 2
      · simp only [hnv, if_true, bind_ok, pure_eq_ok, not_true_eq_false, if_false]
        rcases htype with ht | ht
        · simp only [ht, if_true, bind_ok, pure_eq_ok]
          exact ⟨_, _, _, _, by split <;> split <;> simp, rfl⟩
        · simp only [ht, reduceCtorEq, if_false, if_true, bind_ok, pure_eq_ok]
          exact ⟨_, _, _, _, by split <;> split <;> simp, rfl⟩
      · simp only [hnv, if_false, bind_error, not_false_eq_true, if_true]
        exact ⟨intermediate, { physics with isVector := true }, hasNumber, pn, rfl, trivial⟩

/-- The loop of `newtonParseQuantityTerm` over a chain of bare identifiers and numbers
with at most one vector in all: it returns, and the flag is set exactly when a vector
was met. -/
theorem quantityTermLoop_chain_simple (env : Env) (rest : List Token)
    (hrest : LookaheadNotIn rest [.Tmul, .Tdiv, .Texponent])
    (chain : List (MidOp × SimpleFactor)) :
    ∀ (leftFactor intermediate : IrNode) (physics : Physics) (hasNumber : Bool)
      (numVectors pn F : Nat),
      (∀ x ∈ chain, x.2.Bound env) →
      numVectors + ((chain.map Prod.snd).filter (SimpleFactor.isVector env)).length ≤ 1 →
      chain.length + 1 ≤ F →
      ∃ q,
        resultPhysics (quantityTermLoop F env leftFactor intermediate physics hasNumber
          numVectors ⟨chainTokens chain ++ rest, pn⟩) = some q ∧
        resultTokens (quantityTermLoop F env leftFactor intermediate physics hasNumber
          numVectors ⟨chainTokens chain ++ rest, pn⟩) = some rest ∧
        q.isVector = (physics.isVector ||
          decide (0 < ((chain.map Prod.snd).filter (SimpleFactor.isVector env)).length)) := by
  induction chain with
  | nil =>
    intro leftFactor intermediate physics hasNumber numVectors pn F _ _ hF
    obtain ⟨F', rfl⟩ : ∃ F', F = F' + 1 := ⟨F - 1, by omega⟩
    have hmid : inFirst ⟨rest, pn⟩ .PmidPrecedenceBinaryOp = false :=
      inFirst_eq_false_of_lookahead rest pn _ _ hrest (by simp [gNewtonFirsts])
    refine ⟨physics, ?_, ?_, by simp⟩
    · rw [quantityTermLoop]
      simp only [chainTokens, List.nil_append, hmid, Bool.false_eq_true, if_false, pure_eq_ok,
        resultPhysics, setPhysics_physics]
    · rw [quantityTermLoop]
      simp only [chainTokens, List.nil_append, hmid, Bool.false_eq_true, if_false, pure_eq_ok,
        resultTokens]
  | cons x chain ih =>
    obtain ⟨op, f⟩ := x
    intro leftFactor intermediate physics hasNumber numVectors pn F hbound hcount hF
    simp only [List.length_cons] at hF
    obtain ⟨F', rfl⟩ : ∃ F', F = F' + 2 := ⟨F - 2, by omega⟩
    have hmore : LookaheadNotIn (chainTokens chain ++ rest) [.Texponent] :=
      lookahead_chainTokens chain rest (hrest.mono (by simp))
    obtain ⟨i', ph', hn', pn', hvec, hstep⟩ :=
      quantityTermLoop_step_simple F' env leftFactor intermediate physics hasNumber numVectors
        op f (chainTokens chain ++ rest) pn (hbound (op, f) (List.mem_cons_self _ _)) hmore
    simp only [List.map_cons, List.filter_cons] at hcount ⊢
    simp only [chainTokens, List.cons_append]
    rw [hstep]
    cases hv : f.isVector env with
    | false =>
      simp only [hv, Bool.false_eq_true, if_false, false_and] at hcount ⊢
      obtain ⟨q, h1, h2, h3⟩ := ih leftFactor i' ph' hn' numVectors pn' (F' + 1)
        (fun x hx => hbound x (List.mem_cons_of_mem _ hx)) hcount (by omega)
      exact ⟨q, h1, h2, by rw [h3, hvec, hv]; simp⟩
    | true =>
      simp only [hv, if_true, List.length_cons, true_and] at hcount ⊢
      have hnv : numVectors + 1 < 2 := by omega
      simp only [hnv, not_true_eq_false, if_false]
      obtain ⟨q, h1, h2, h3⟩ := ih leftFactor i' ph' hn' (numVectors + 1) pn' (F' + 1)
        (fun x hx => hbound x (List.mem_cons_of_mem _ hx)) (by omega) (by omega)
      exact ⟨q, h1, h2, by rw [h3, hvec, hv]; simp⟩

/-- `newtonParseQuantityTerm` on `[-] f1 ...` for a bare identifier or number `f1`: the
loop is entered with the vector flag and count of `f1`. -/
theorem quantityTerm_simple_first (fuel : Nat) (env : Env) (neg : Bool) (f1 : SimpleFactor)
    (more : List Token) (pn : Nat) (hb : f1.Bound env)
    (hmore : LookaheadNotIn more [.Texponent]) :
    ∃ leftFactor intermediate physics hasNumber pn',
      physics.isVector = f1.isVector env ∧
      newtonParseQuantityTerm (fuel + 2) env
          ⟨(if neg then [Token.op .Tminus] else []) ++ f1.token :: more, pn⟩ =
        quantityTermLoop (fuel + 1) env leftFactor intermediate physics hasNumber
          (if f1.isVector env = true then 1 else 0) ⟨more, pn'⟩ := by
  obtain ⟨node, pn', hfac, hphys, hpeek⟩ := quantityFactor_simple fuel env f1 more pn hb hmore
  have hun : inFirst ⟨f1.token :: more, pn⟩ .PunaryOp = false := by
    cases f1 <;> simp [inFirst, gNewtonFirsts, SimpleFactor.token, Token.ident, Token.number]
  have hfirst : ∃ i u, (if inFirst ⟨(if neg then [Token.op .Tminus] else []) ++ f1.token :: more,
      pn⟩ .PunaryOp then
        (newtonParseUnaryOp ⟨(if neg then [Token.op .Tminus] else []) ++ f1.token :: more, pn⟩
          >>= fun r => (pure (addLeaf ((genIrNode .PquantityTerm).setValue 1) r.1, true, r.2)
            : Except Err (IrNode × Bool × State)))
      else pure ((genIrNode .PquantityTerm).setValue 1, false,
        ⟨(if neg then [Token.op .Tminus] else []) ++ f1.token :: more, pn⟩))
      = .ok (i, u, ⟨f1.token :: more, pn⟩) := by
    cases neg with
    | false => exact ⟨(genIrNode .PquantityTerm).setValue 1, false, by simp [hun]⟩
    | true =>
      exact ⟨addLeaf ((genIrNode .PquantityTerm).setValue 1)
        (IrNode.mk .Tminus 0 none none none []), true, by
        simp [inFirst, gNewtonFirsts, Token.op, newtonParseUnaryOp, peekCheck,
          newtonParseTerminal]⟩
  obtain ⟨i, u, hfirst⟩ := hfirst
  rw [newtonParseQuantityTerm]
  erw [hfirst]
  simp only [bind_ok, hfac, hpeek]
  cases hbind : f1.binding env with
  | none =>
    have hv : f1.isVector env = false := by simp [SimpleFactor.isVector, hbind]
    simp only [hv, Option.isSome_none, Bool.false_eq_true, if_false, pure_eq_ok, bind_ok]
    exact ⟨_, _, _, _, _, rfl, rfl⟩
  | some p =>
    have hv : f1.isVector env = p.isVector := by simp [SimpleFactor.isVector, hbind]
    rw [hbind] at hphys
    simp only [hv, Option.isSome_some, if_true, derefPhysics, hphys, bind_ok]
    cases hpv : p.isVector with
    | false =>
      simp only [Bool.false_eq_true, if_false, pure_eq_ok, bind_ok]
      exact ⟨_, _, _, _, _, by split <;> split <;> rfl, rfl⟩
    | true =>
      simp only [if_true, pure_eq_ok, bind_ok, Nat.zero_add]
      exact ⟨_, _, _, _, _, rfl, rfl⟩

/-- C10: a quantity term `[-] f1 (op f)*` of bound identifiers and numbers, followed by a
token that is none of `*`, `/`, `**`, with at most one vector among its factors: with
enough fuel `newtonParseQuantityTerm` returns, consuming exactly the term, and the
returned physics has `isVector` set when there is exactly one vector factor and clear
when there is none. -/
theorem quantityTerm_vector_flag (env : Env) (neg : Bool) (f1 : SimpleFactor)
    (chain : List (MidOp × SimpleFactor)) (rest : List Token) (pn F : Nat)
    (hbound : ∀ f ∈ f1 :: chain.map Prod.snd, f.Bound env)
    (hrest : LookaheadNotIn rest [.Tmul, .Tdiv, .Texponent])
    (hcount : vectorCount env f1 chain ≤ 1)
    (hF : chain.length + 2 ≤ F) :
    ∃ q,
      resultPhysics (newtonParseQuantityTerm F env
        ⟨simpleTermTokens neg f1 chain ++ rest, pn⟩) = some q ∧
      resultTokens (newtonParseQuantityTerm F env
        ⟨simpleTermTokens neg f1 chain ++ rest, pn⟩) = some rest ∧
      q.isVector = decide (vectorCount env f1 chain = 1) := by
  obtain ⟨F', rfl⟩ : ∃ F', F = F' + 2 := ⟨F - 2, by omega⟩
  have hmore : LookaheadNotIn (chainTokens chain ++ rest) [.Texponent] :=
    lookahead_chainTokens chain rest (hrest.mono (by simp))
  obtain ⟨lf, i, ph, hn, pn', hvec, hterm⟩ :=
    quantityTerm_simple_first F' env neg f1 (chainTokens chain ++ rest) pn
      (hbound f1 (List.mem_cons_self _ _)) hmore
  have htoks : simpleTermTokens neg f1 chain ++ rest =
      (if neg then [Token.op .Tminus] else []) ++ f1.token :: (chainTokens chain ++ rest) := by
    simp [simpleTermTokens]
  rw [htoks, hterm]
  simp only [vectorCount, List.filter_cons] at hcount ⊢
  have hb' : ∀ x ∈ chain, x.2.Bound env := fun x hx =>
    hbound x.2 (List.mem_cons_of_mem _ (List.mem_map_of_mem _ hx))
  cases hv : f1.isVector env with
  | false =>
    simp only [hv, Bool.false_eq_true, if_false] at hcount ⊢
    obtain ⟨q, h1, h2, h3⟩ := quantityTermLoop_chain_simple env rest hrest chain lf i ph hn 0
      pn' (F' + 1) hb' (by omega) (by omega)
    refine ⟨q, h1, h2, ?_⟩
    rw [h3, hvec, hv]
    simp only [Bool.false_or, decide_eq_decide]
    omega
  | true =>
    simp only [hv, if_true, List.length_cons] at hcount ⊢
    obtain ⟨q, h1, h2, h3⟩ := quantityTermLoop_chain_simple env rest hrest chain lf i ph hn 1
      pn' (F' + 1) hb' (by omega) (by omega)
    refine ⟨q, h1, h2, ?_⟩
    rw [h3, hvec, hv]
    simp only [Bool.true_or, true_eq_decide_iff]
    omega

/-- C10 (witness): `velocity * 3` parses and the result is flagged a vector. -/
theorem quantityTerm_vector_flag_witness :
    (resultPhysics (newtonParseQuantityTerm 3 exampleEnv
      ⟨[Token.ident "velocity", Token.op .Tmul, Token.number 3], 0⟩)).map Physics.isVector
      = some true ∧
    resultTokens (newtonParseQuantityTerm 3 exampleEnv
      ⟨[Token.ident "velocity", Token.op .Tmul, Token.number 3], 0⟩) = some [] := by
  obtain ⟨q, h1, h2, h3⟩ := quantityTerm_vector_flag exampleEnv false
    (.identifier "velocity") [(.mul, .number 3)] [] 0 3
    (by
      intro f hf
      simp only [List.map_cons, List.map_nil, List.mem_cons, List.mem_singleton,
        List.not_mem_nil, or_false] at hf
      rcases hf with rfl | rfl
      · exact ⟨_, rfl⟩
      · trivial)
    (by decide) (by decide) (by decide)
  have hq : q.isVector = true := by rw [h3]; decide
  have htoks : [Token.ident "velocity", Token.op .Tmul, Token.number 3]
      = simpleTermTokens false (.identifier "velocity") [(.mul, .number 3)] ++ [] := rfl
  rw [htoks, h1, h2]
  simp [hq]

/-! ## Numeric expressions -/

theorem lookahead_cons (tok : Token) (more : List Token) (kinds : List IrNodeType)
    (h : tok.type ∉ kinds) : LookaheadNotIn (tok :: more) kinds := by
  intro t ht
  simp only [List.head?_cons, Option.mem_def, Option.some.injEq] at ht
  subst ht
  exact h

theorem inFirst_midPrecedence (tok : Token) (rest : List Token) (n : Nat)
    (hop : tok.type = .Tmul ∨ tok.type = .Tdiv) :
    inFirst ⟨tok :: rest, n⟩ .PmidPrecedenceBinaryOp = true := by
  rcases hop with h | h <;> simp [inFirst, gNewtonFirsts, h]

theorem midPrecedenceBinaryOp_ok_of_type (tok : Token) (rest : List Token) (n : Nat)
    (hop : tok.type = .Tmul ∨ tok.type = .Tdiv) :
    newtonParseMidPrecedenceBinaryOp ⟨tok :: rest, n⟩ =
      .ok (IrNode.mk tok.type tok.value none none tok.identifier [], ⟨rest, n⟩) := by
  rcases hop with h | h <;>
    simp [newtonParseMidPrecedenceBinaryOp, peekCheck, newtonParseTerminal, h]

/-- C12: the parse of a parenthesized sub-expression resets the parameter counter. In
`mass * (m)` the free identifiers `mass` and `m` both get parameter number 0 and the
counter ends at 1; in `mass * (m) * kg` the numbers are 0, 0, 1; without the
parentheses `mass * m * kg` gets 0, 1, 2. -/
theorem quantityExpression_parenthesis_resets_counter :
    resultParameters (newtonParseQuantityExpression 8 exampleEnv
      ⟨[Token.ident "mass", Token.op .Tmul, Token.op .TleftParen, Token.ident "m",
        Token.op .TrightParen], 0⟩) = some [("mass", 0), ("m", 0)] ∧
    resultCounter (newtonParseQuantityExpression 8 exampleEnv
      ⟨[Token.ident "mass", Token.op .Tmul, Token.op .TleftParen, Token.ident "m",
        Token.op .TrightParen], 0⟩) = some 1 ∧
    resultParameters (newtonParseQuantityExpression 8 exampleEnv
      ⟨[Token.ident "mass", Token.op .Tmul, Token.op .TleftParen, Token.ident "m",
        Token.op .TrightParen, Token.op .Tmul, Token.ident "kg"], 0⟩)
      = some [("mass", 0), ("m", 0), ("kg", 1)] ∧
    resultParameters (newtonParseQuantityExpression 8 exampleEnv
      ⟨[Token.ident "mass", Token.op .Tmul, Token.ident "m", Token.op .Tmul,
        Token.ident "kg"], 0⟩) = some [("mass", 0), ("m", 1), ("kg", 2)] := by
  decide!

/-! ## Unexpected tokens -/

/-- C17: on the unexpected token `)` the production `newtonParseLowPrecedenceBinaryOp`
returns the null pointer and leaves the token in place, where
`newtonParseMidPrecedenceBinaryOp`, `newtonParseHighPrecedenceBinaryOp`,
`newtonParseUnaryOp`, `newtonParseCompareOp`, `newtonParseVectorOp`,
`newtonParseQuantityFactor` and `newtonParseNumericFactor` end in the fatal error. -/
theorem lowPrecedenceBinaryOp_returns_null :
    (newtonParseLowPrecedenceBinaryOp ⟨[Token.op .TrightParen], 0⟩).toOption.map
      (fun r => (r.1.isNone, r.2.tokens.length)) = some (true, 1) ∧
    newtonParseMidPrecedenceBinaryOp ⟨[Token.op .TrightParen], 0⟩ = .error .fatal ∧
    newtonParseHighPrecedenceBinaryOp ⟨[Token.op .TrightParen], 0⟩ = .error .fatal ∧
    newtonParseUnaryOp ⟨[Token.op .TrightParen], 0⟩ = .error .fatal ∧
    newtonParseCompareOp ⟨[Token.op .TrightParen], 0⟩ = .error .fatal ∧
    newtonParseVectorOp 1 exampleEnv ⟨[Token.op .TrightParen], 0⟩ = .error .fatal ∧
    newtonParseQuantityFactor 1 exampleEnv ⟨[Token.op .TrightParen], 0⟩ = .error .fatal ∧
    newtonParseNumericFactor 1 exampleEnv ⟨[Token.op .TrightParen], 0⟩ = .error .fatal := by
  decide!

/-! ## Noisy type signatures -/

theorem noisySignature_of_signed (signatures : Nat → Char) (subtree : NoisyIrNode)
    (h : ¬ subtree.HasUnsigned signatures) :
    noisyTypeMakeTypeSignature signatures subtree = .ok (subtree.postOrder signatures) := by
  induction subtree with
  | null => rfl
  | node t l r ihl ihr =>
    simp only [NoisyIrNode.HasUnsigned, not_or] at h
    simp [noisyTypeMakeTypeSignature, NoisyIrNode.postOrder, h.1, ihl h.2.1, ihr h.2.2]

theorem noisySignature_of_unsigned (signatures : Nat → Char) (subtree : NoisyIrNode)
    (h : subtree.HasUnsigned signatures) :
    noisyTypeMakeTypeSignature signatures subtree = .error .fatal := by
  induction subtree with
  | null => exact absurd h (by simp [NoisyIrNode.HasUnsigned])
  | node t l r ihl ihr =>
    by_cases h0 : signatures t = Char.ofNat 0
    · simp [noisyTypeMakeTypeSignature, h0]
    · simp only [NoisyIrNode.HasUnsigned, h0, false_or] at h
      by_cases hl : l.HasUnsigned signatures
      · simp [noisyTypeMakeTypeSignature, h0, ihl hl]
      · have hr := ihr (h.resolve_left hl)
        simp [noisyTypeMakeTypeSignature, h0, noisySignature_of_signed signatures l hl, hr]

theorem noisyPostOrder_length (signatures : Nat → Char) (subtree : NoisyIrNode) :
    (subtree.postOrder signatures).length = subtree.size := by
  induction subtree with
  | null => rfl
  | node t l r ihl ihr =>
    simp [NoisyIrNode.postOrder, NoisyIrNode.size, ihl, ihr]
    omega

/-- C20: `noisyTypeMakeTypeSignature` returns the empty string for the null subtree; on a
tree none of whose nodes has signature character 0 it returns the post-order listing of
the signature characters, which for a node is the signature of the left child, then that
of the right child, then the node's own character, and whose length is the number of
nodes; on a tree with a node of signature character 0 it ends in the fatal error. -/
theorem noisyTypeMakeTypeSignature_postOrder (signatures : Nat → Char) (subtree : NoisyIrNode) :
    noisyTypeMakeTypeSignature signatures .null = .ok [] ∧
    (¬ subtree.HasUnsigned signatures →
      noisyTypeMakeTypeSignature signatures subtree = .ok (subtree.postOrder signatures) ∧
      (subtree.postOrder signatures).length = subtree.size ∧
      ∀ type left right, subtree = .node type left right →
        ∃ leftSignature rightSignature,
          noisyTypeMakeTypeSignature signatures left = .ok leftSignature ∧
          noisyTypeMakeTypeSignature signatures right = .ok rightSignature ∧
          noisyTypeMakeTypeSignature signatures subtree
            = .ok (leftSignature ++ rightSignature ++ [signatures type])) ∧
    (subtree.HasUnsigned signatures →
      noisyTypeMakeTypeSignature signatures subtree = .error .fatal) := by
  refine ⟨rfl, fun h => ⟨noisySignature_of_signed signatures subtree h,
    noisyPostOrder_length signatures subtree, ?_⟩, noisySignature_of_unsigned signatures subtree⟩
  rintro t l r rfl
  simp only [NoisyIrNode.HasUnsigned, not_or] at h
  refine ⟨_, _, noisySignature_of_signed signatures l h.2.1,
    noisySignature_of_signed signatures r h.2.2, ?_⟩
  rw [noisySignature_of_signed signatures _ (by simp [NoisyIrNode.HasUnsigned, h])]
  rfl

/-- C20 at the tree with root 1 and leaves 2 and 3, under the table mapping type 1 to `a`,
2 to `b`, 3 to `c` and every other type to the character 0; and at the same tree with the
right leaf of type 4. -/
theorem noisyTypeMakeTypeSignature_postOrder_witness :
    noisyTypeMakeTypeSignature (fun n => if n = 1 then 'a' else if n = 2 then 'b'
        else if n = 3 then 'c' else Char.ofNat 0)
      (.node 1 (.node 2 .null .null) (.node 3 .null .null)) = .ok ['b', 'c', 'a'] ∧
    noisyTypeMakeTypeSignature (fun n => if n = 1 then 'a' else if n = 2 then 'b'
        else if n = 3 then 'c' else Char.ofNat 0)
      (.node 1 (.node 2 .null .null) (.node 4 .null .null)) = .error .fatal :=
  ⟨((noisyTypeMakeTypeSignature_postOrder _
      (.node 1 (.node 2 .null .null) (.node 3 .null .null))).2.1
      (by simp [NoisyIrNode.HasUnsigned])).1,
   (noisyTypeMakeTypeSignature_postOrder _
      (.node 1 (.node 2 .null .null) (.node 4 .null .null))).2.2
      (by simp [NoisyIrNode.HasUnsigned])⟩

/-! ## Prime products in sync -/

theorem primeProduct_append (a b : List Dimension) :
    primeProduct (a ++ b) = primeProduct a * primeProduct b := by
  simp [primeProduct]

theorem Physics.InSync.calloc : callocPhysics.InSync := by
  simp [Physics.InSync, callocPhysics, primeProduct]

theorem Physics.InSync.shallowCopy (p : Physics) : (shallowCopyPhysicsNode p).InSync := by
  simp [Physics.InSync, shallowCopyPhysicsNode, primeProduct]

theorem Physics.InSync.copyNumerator {a : Physics} (h : a.InSync) (b : Physics) :
    (newtonPhysicsCopyNumeratorDimensions a b).InSync := by
  simp [Physics.InSync, newtonPhysicsCopyNumeratorDimensions, primeProduct_append, h.1, h.2]

theorem Physics.InSync.copyDenominator {a : Physics} (h : a.InSync) (b : Physics) :
    (newtonPhysicsCopyDenominatorDimensions a b).InSync := by
  simp [Physics.InSync, newtonPhysicsCopyDenominatorDimensions, primeProduct_append, h.1, h.2]

theorem Physics.InSync.copyNumeratorToDenominator {a : Physics} (h : a.InSync) (b : Physics) :
    (newtonPhysicsCopyNumeratorToDenominatorDimensions a b).InSync := by
  simp [Physics.InSync, newtonPhysicsCopyNumeratorToDenominatorDimensions, primeProduct_append,
    h.1, h.2]

theorem Physics.InSync.copyDenominatorToNumerator {a : Physics} (h : a.InSync) (b : Physics) :
    (newtonPhysicsCopyDenominatorToNumeratorDimensions a b).InSync := by
  simp [Physics.InSync, newtonPhysicsCopyDenominatorToNumeratorDimensions, primeProduct_append,
    h.1, h.2]

theorem Physics.InSync.addDenominatorDimension {a : Physics} (h : a.InSync) (d : Dimension) :
    (newtonPhysicsAddDenominatorDimension a d).InSync := by
  simp [Physics.InSync, newtonPhysicsAddDenominatorDimension, primeProduct_append, h.1, h.2,
    primeProduct]

theorem Physics.InSync.setIsVector {a : Physics} (h : a.InSync) (b : Bool) :
    ({ a with isVector := b } : Physics).InSync := h

theorem Physics.InSync.setValue {a : Physics} (h : a.InSync) (v : ℚ) :
    ({ a with value := v } : Physics).InSync := h

theorem Physics.InSync.branch {c : Prop} [Decidable c] {a b : Physics} (ha : a.InSync) (hb : b.InSync) :
    (if c then a else b).InSync := by
  split
  · exact ha
  · exact hb

theorem Physics.InSync.exponentLoop (step : Physics → Physics → Physics)
    (hstep : ∀ a b : Physics, a.InSync → (step a b).InSync) (n : Nat) :
    ∀ a c : Physics, a.InSync → (exponentLoop step n a c).1.InSync := by
  induction n with
  | zero => intro a c h; exact h
  | succ k ih => intro a c h; exact ih _ _ (hstep a c h)

/-- The physics `quantityTermLoop` attaches is in sync when the physics it starts from is. -/
theorem quantityTermLoop_inSync (fuel : Nat) :
    ∀ (env : Env) (l i : IrNode) (p : Physics) (b : Bool) (n : Nat) (s : State)
      (t : IrNode) (s' : State), p.InSync →
      quantityTermLoop fuel env l i p b n s = .ok (t, s') →
      ∃ q, t.physics = some q ∧ q.InSync := by
  induction fuel with
  | zero =>
    intro env l i p b n s t s' hp h
    simp [quantityTermLoop] at h
  | succ f ih =>
    intro env l i p b n s t s' hp h
    rw [quantityTermLoop] at h
    split at h
    · obtain ⟨⟨binOp, s1⟩, -, h⟩ := bind_eq_ok h
      obtain ⟨⟨rf, s2⟩, -, h⟩ := bind_eq_ok h
      obtain ⟨⟨ph, nv⟩, h1, h⟩ := bind_eq_ok h
      obtain ⟨ph', h2, h⟩ := bind_eq_ok h
      refine ih _ _ _ _ _ _ _ _ _ ?_ h
      have hph : ph.InSync := by
        split at h1
        · obtain ⟨rp, -, h1⟩ := bind_eq_ok h1
          split at h1
          · obtain ⟨_, -, h1⟩ := bind_eq_ok h1
            simp only [pure_eq_ok, Except.ok.injEq, Prod.mk.injEq] at h1
            rw [← h1.1]
            exact hp
          · simp only [pure_eq_ok, Except.ok.injEq, Prod.mk.injEq] at h1
            rw [← h1.1]
            exact hp
        · simp only [pure_eq_ok, Except.ok.injEq, Prod.mk.injEq] at h1
          rw [← h1.1]
          exact hp
      split at h2
      · obtain ⟨rp, -, h2⟩ := bind_eq_ok h2
        simp only [pure_eq_ok, Except.ok.injEq] at h2
        rw [← h2]
        exact Physics.InSync.branch (Physics.InSync.copyDenominator (Physics.InSync.branch (hph.copyNumerator _) hph) _)
          (Physics.InSync.branch (hph.copyNumerator _) hph)
      · split at h2
        · obtain ⟨rp, -, h2⟩ := bind_eq_ok h2
          simp only [pure_eq_ok, Except.ok.injEq] at h2
          rw [← h2]
          exact Physics.InSync.branch
            (Physics.InSync.copyDenominatorToNumerator
              (Physics.InSync.branch (hph.copyNumeratorToDenominator _) hph) _)
            (Physics.InSync.branch (hph.copyNumeratorToDenominator _) hph)
        · simp only [pure_eq_ok, Except.ok.injEq] at h2
          rw [← h2]
          exact hph
    · simp only [pure_eq_ok, Except.ok.injEq, Prod.mk.injEq] at h
      obtain ⟨h1, -⟩ := h
      exact ⟨p, by rw [← h1]; simp, hp⟩

/-- The physics `newtonParseQuantityTerm` attaches is in sync. -/
theorem quantityTerm_inSync (fuel : Nat) (env : Env) (s : State) (t : IrNode) (s' : State)
    (h : newtonParseQuantityTerm fuel env s = .ok (t, s')) :
    ∃ q, t.physics = some q ∧ q.InSync := by
  cases fuel with
  | zero => simp [newtonParseQuantityTerm] at h
  | succ f =>
    rw [newtonParseQuantityTerm] at h
    obtain ⟨⟨i, u, s1⟩, -, h⟩ := bind_eq_ok h
    obtain ⟨⟨lf, s2⟩, -, h⟩ := bind_eq_ok h
    obtain ⟨⟨ph, nv⟩, h1, h⟩ := bind_eq_ok h
    refine quantityTermLoop_inSync f _ _ _ _ _ _ _ _ _ ?_ h
    split at h1
    · obtain ⟨lp, -, h1⟩ := bind_eq_ok h1
      have hbase := Physics.InSync.branch (c := lp.denominatorDimensions ≠ [])
        (Physics.InSync.copyDenominator (Physics.InSync.branch (c := lp.numeratorDimensions ≠ [])
          (Physics.InSync.calloc.copyNumerator lp) Physics.InSync.calloc) lp)
        (Physics.InSync.branch (c := lp.numeratorDimensions ≠ [])
          (Physics.InSync.calloc.copyNumerator lp) Physics.InSync.calloc)
      by_cases hv : lp.isVector = true
      · rw [if_pos hv] at h1
        simp only [pure_eq_ok, Except.ok.injEq, Prod.mk.injEq] at h1
        rw [← h1.1]
        exact hbase
      · rw [if_neg hv] at h1
        simp only [pure_eq_ok, Except.ok.injEq, Prod.mk.injEq] at h1
        rw [← h1.1]
        exact hbase
    · simp only [pure_eq_ok, Except.ok.injEq, Prod.mk.injEq] at h1
      rw [← h1.1]
      exact Physics.InSync.calloc

/-- The node `quantityExpressionLoop` returns carries the physics of `expression`. -/
theorem quantityExpressionLoop_physics (fuel : Nat) :
    ∀ (env : Env) (expression leftTerm : IrNode) (s : State) (node : IrNode) (s' : State),
      quantityExpressionLoop fuel env expression leftTerm s = .ok (node, s') →
      node.physics = expression.physics := by
  induction fuel with
  | zero =>
    intro env e l s node s' h
    simp [quantityExpressionLoop] at h
  | succ f ih =>
    intro env e l s node s' h
    rw [quantityExpressionLoop] at h
    split at h
    · obtain ⟨⟨binOp, s1⟩, -, h⟩ := bind_eq_ok h
      obtain ⟨⟨rt, s2⟩, -, h⟩ := bind_eq_ok h
      obtain ⟨lp, -, h⟩ := bind_eq_ok h
      obtain ⟨rp, -, h⟩ := bind_eq_ok h
      obtain ⟨_, -, h⟩ := bind_eq_ok h
      obtain ⟨_, -, h⟩ := bind_eq_ok h
      rw [ih _ _ _ _ _ _ h]
      simp
    · simp only [pure_eq_ok, Except.ok.injEq, Prod.mk.injEq] at h
      rw [← h.1]
      simp

/-- The node `newtonParseQuantityExpression` returns carries the physics of its first term. -/
theorem quantityExpression_firstTerm (fuel : Nat) (env : Env) (s : State) (node : IrNode)
    (s' : State) (h : newtonParseQuantityExpression fuel env s = .ok (node, s')) :
    ∃ f leftTerm s1, fuel = f + 1 ∧
      newtonParseQuantityTerm f env { s with currentParameterNumber := 0 } = .ok (leftTerm, s1) ∧
      node.physics = leftTerm.physics := by
  cases fuel with
  | zero => simp [newtonParseQuantityExpression] at h
  | succ f =>
    rw [newtonParseQuantityExpression] at h
    split at h
    · obtain ⟨⟨lt, s1⟩, h1, h⟩ := bind_eq_ok h
      refine ⟨f, lt, s1, rfl, h1, ?_⟩
      rw [quantityExpressionLoop_physics f _ _ _ _ _ _ h]
      simp
    · cases h

/-- The physics `newtonParseQuantityExpression` attaches is in sync. -/
theorem quantityExpression_inSync (fuel : Nat) (env : Env) (s : State) (node : IrNode)
    (s' : State) (h : newtonParseQuantityExpression fuel env s = .ok (node, s')) :
    ∃ q, node.physics = some q ∧ q.InSync := by
  obtain ⟨f, lt, s1, -, h1, hp⟩ := quantityExpression_firstTerm fuel env s node s' h
  obtain ⟨q, hq, hs⟩ := quantityTerm_inSync f env _ lt s1 h1
  exact ⟨q, by rw [hp, hq], hs⟩

/-- The physics `newtonParseExponentialExpression` assigns to the base node is in sync. -/
theorem exponentialExpression_inSync (fuel : Nat) (env : Env) (baseNode : IrNode) (s : State)
    (exponent base : IrNode) (s' : State)
    (h : newtonParseExponentialExpression fuel env baseNode s = .ok ((exponent, base), s')) :
    ∃ q, base.physics = some q ∧ q.InSync := by
  unfold newtonParseExponentialExpression at h
  obtain ⟨⟨e, s1⟩, -, h⟩ := bind_eq_ok h
  obtain ⟨bp, -, h⟩ := bind_eq_ok h
  by_cases hz : e.value = 0
  · simp only [hz, if_true, pure_eq_ok, Except.ok.injEq, Prod.mk.injEq] at h
    refine ⟨{ shallowCopyPhysicsNode bp with value := 1 }, by rw [← h.1.2]; simp, ?_⟩
    exact (Physics.InSync.shallowCopy bp).setValue 1
  · simp only [hz, if_false] at h
    obtain ⟨⟨b1, c1⟩, h1, h⟩ := bind_eq_ok h
    obtain ⟨⟨b2, c2⟩, h2, h⟩ := bind_eq_ok h
    simp only [pure_eq_ok, Except.ok.injEq, Prod.mk.injEq] at h
    refine ⟨b2, by rw [← h.1.2]; simp, ?_⟩
    have hb0 : ({ shallowCopyPhysicsNode bp with
        value := env.pow (shallowCopyPhysicsNode bp).value e.value } : Physics).InSync :=
      (Physics.InSync.shallowCopy bp).setValue _
    have hb1 : b1.InSync := by
      by_cases hn : bp.numberOfNumerators > 0
      · rw [if_pos hn] at h1
        obtain ⟨_, -, h1⟩ := bind_eq_ok h1
        by_cases hneg : e.value < 0
        · rw [if_pos hneg] at h1
          simp only [pure_eq_ok, Except.ok.injEq] at h1
          have := Physics.InSync.exponentLoop newtonPhysicsCopyNumeratorToDenominatorDimensions
            (fun a b ha => ha.copyNumeratorToDenominator b) (truncToInt e.value).natAbs _
            (deepCopyPhysicsNode bp) hb0
          rw [h1] at this
          exact this
        · rw [if_neg hneg] at h1
          simp only [pure_eq_ok, Except.ok.injEq] at h1
          have := Physics.InSync.exponentLoop newtonPhysicsCopyNumeratorDimensions
            (fun a b ha => ha.copyNumerator b) (truncToInt e.value).natAbs _
            (deepCopyPhysicsNode bp) hb0
          rw [h1] at this
          exact this
      · rw [if_neg hn] at h1
        simp only [pure_eq_ok, Except.ok.injEq, Prod.mk.injEq] at h1
        rw [← h1.1]
        exact hb0
    by_cases hd : bp.numberOfDenominators > 0
    · rw [if_pos hd] at h2
      obtain ⟨_, -, h2⟩ := bind_eq_ok h2
      by_cases hneg : e.value < 0
      · rw [if_pos hneg] at h2
        simp only [pure_eq_ok, Except.ok.injEq] at h2
        have := Physics.InSync.exponentLoop newtonPhysicsCopyDenominatorToNumeratorDimensions
          (fun a b ha => ha.copyDenominatorToNumerator b) (truncToInt e.value).natAbs b1 c1 hb1
        rw [h2] at this
        exact this
      · rw [if_neg hneg] at h2
        simp only [pure_eq_ok, Except.ok.injEq] at h2
        have := Physics.InSync.exponentLoop newtonPhysicsCopyDenominatorDimensions
          (fun a b ha => ha.copyDenominator b) (truncToInt e.value).natAbs b1 c1 hb1
        rw [h2] at this
        exact this
    · rw [if_neg hd] at h2
      simp only [pure_eq_ok, Except.ok.injEq, Prod.mk.injEq] at h2
      rw [← h2.1]
      exact hb1
theorem terminal_physics (t : IrNodeType) (s : State) (node : IrNode) (s' : State)
    (h : newtonParseTerminal t s = .ok (node, s')) : node.physics = none := by
  unfold newtonParseTerminal at h
  split at h
  · cases h
  · split at h
    · simp only [Except.ok.injEq, Prod.mk.injEq] at h
      rw [← h.1]
      rfl
    · cases h

theorem identifierUsage_physics (env : Env) (s : State) (node : IrNode) (s' : State)
    (h : newtonParseIdentifierUsageTerminal env s = .ok (node, s')) :
    ∃ name p, env.currentScope.physicsForIdentifier name = some p ∧ node.physics = some p := by
  unfold newtonParseIdentifierUsageTerminal at h
  split at h
  · cases h
  · split at h
    · split at h
      · cases h
      · rename_i name hname
        split at h
        · cases h
        · rename_i p hp
          simp only [Except.ok.injEq, Prod.mk.injEq] at h
          refine ⟨name, p, hp, ?_⟩
          rw [← h.1]
          simp
    · cases h

/-- The physics `newtonParseQuantityFactor` attaches is in sync when the bindings are. -/
theorem quantityFactor_inSync (fuel : Nat) (env : Env) (s : State) (factor : IrNode)
    (s' : State) (hb : BindingsInSync env)
    (h : newtonParseQuantityFactor fuel env s = .ok (factor, s')) :
    ∀ q, factor.physics = some q → q.InSync := by
  cases fuel with
  | zero => simp [newtonParseQuantityFactor] at h
  | succ f =>
    rw [newtonParseQuantityFactor] at h
    obtain ⟨⟨fac, s1⟩, hbase, h⟩ := bind_eq_ok h
    have hfac : ∀ q, fac.physics = some q → q.InSync := by
      by_cases h1 : peekCheck s .Tidentifier = true
      · rw [if_pos h1] at hbase
        obtain ⟨⟨n0, s0⟩, hid, hbase⟩ := bind_eq_ok hbase
        obtain ⟨name, p, hp, hn0⟩ := identifierUsage_physics env s n0 s0 hid
        obtain ⟨ph, hph, hbase⟩ := bind_eq_ok hbase
        have hphp : ph = p := by
          simp only [derefPhysics, hn0, Except.ok.injEq] at hph
          exact hph.symm
        subst hphp
        have hfp : fac.physics = some ph := by
          simp only [setValue_tokenString, setPhysics_tokenString, deepCopyPhysicsNode_eq]
            at hbase
          cases hts : n0.tokenString with
          | none =>
            rw [hts] at hbase
            cases hbase
          | some nm =>
            rw [hts] at hbase
            simp only [] at hbase
            split at hbase
            · simp only [pure_eq_ok, Except.ok.injEq, Prod.mk.injEq] at hbase
              rw [← hbase.1]
              simp
            · simp only [pure_eq_ok, Except.ok.injEq, Prod.mk.injEq] at hbase
              rw [← hbase.1]
              simp
        intro q hq
        rw [hfp] at hq
        cases hq
        exact hb name _ hp
      · rw [if_neg h1] at hbase
        by_cases h2 : peekCheck s .Tnumber = true
        · rw [if_pos h2] at hbase
          intro q hq
          rw [terminal_physics _ _ _ _ hbase] at hq
          cases hq
        · rw [if_neg h2] at hbase
          by_cases h3 : peekCheck s .TleftParen = true
          · rw [if_pos h3] at hbase
            obtain ⟨⟨_, sa⟩, -, hbase⟩ := bind_eq_ok hbase
            obtain ⟨⟨e, sb⟩, he, hbase⟩ := bind_eq_ok hbase
            obtain ⟨⟨_, sc⟩, -, hbase⟩ := bind_eq_ok hbase
            simp only [pure_eq_ok, Except.ok.injEq, Prod.mk.injEq] at hbase
            obtain ⟨q', hq', hs⟩ := quantityExpression_inSync f env _ e sb he
            intro q hq
            rw [← hbase.1, hq'] at hq
            cases hq
            exact hs
          · rw [if_neg h3] at hbase
            cases hbase
    by_cases hx : inFirst s1 .PhighPrecedenceBinaryOp = true
    · dsimp only at h
      rw [if_pos hx] at h
      obtain ⟨⟨op, s2⟩, -, h⟩ := bind_eq_ok h
      obtain ⟨⟨⟨ex, base⟩, s3⟩, hexp, h⟩ := bind_eq_ok h
      simp only [pure_eq_ok, Except.ok.injEq, Prod.mk.injEq] at h
      obtain ⟨q', hq', hs⟩ := exponentialExpression_inSync f env _ _ ex base s3 hexp
      intro q hq
      have : factor.physics = base.physics := by
        rw [← h.1]
        split <;> simp
      rw [this, hq'] at hq
      cases hq
      exact hs
    · dsimp only at h
      rw [if_neg hx] at h
      simp only [pure_eq_ok, Except.ok.injEq, Prod.mk.injEq] at h
      rw [← h.1]
      exact hfac

/-- The physics of `dot(l, r)` and of `cross(l, r)` before the angle is added. -/
theorem vectorOp_unfold (fuel : Nat) (env : Env) (op lp comma : Token)
    (ts ts2 : List Token) (pn n1 : Nat) (left right : IrNode) (s2 : State) (l r : Physics)
    (hop : op.type = .Tdot ∨ op.type = .Tcross) (hlp : lp.type = .TleftParen)
    (hcomma : comma.type = .Tcomma)
    (hleft : newtonParseQuantityExpression fuel env ⟨ts, pn⟩ = .ok (left, ⟨comma :: ts2, n1⟩))
    (hright : newtonParseQuantityExpression fuel env ⟨ts2, n1⟩ = .ok (right, s2))
    (hl : left.physics = some l) (hr : right.physics = some r) :
    ∃ intermediate : IrNode,
      newtonParseVectorOp fuel env ⟨op :: lp :: ts, pn⟩ =
        if l.isVector = true ∧ r.isVector = true then
          (if op.type = .Tcross then
              match env.currentScope.dimensionForIdentifier "rad" with
              | none => .error .nullDereference
              | some angle =>
                pure (newtonPhysicsAddDenominatorDimension
                  (newtonPhysicsCopyDenominatorDimensions (newtonPhysicsCopyNumeratorDimensions
                    (newtonPhysicsCopyDenominatorDimensions
                      (newtonPhysicsCopyNumeratorDimensions callocPhysics l) l) r) r) angle)
            else
              pure (newtonPhysicsCopyDenominatorDimensions (newtonPhysicsCopyNumeratorDimensions
                (newtonPhysicsCopyDenominatorDimensions
                  (newtonPhysicsCopyNumeratorDimensions callocPhysics l) l) r) r)) >>=
            fun physics => newtonParseTerminal .TrightParen s2 >>=
              fun x => pure (intermediate.setPhysics (some physics), x.2)
        else .error .assertionFailure := by
  refine ⟨addLeafWithChainingSeq (addLeafWithChainingSeq (addLeaf (genIrNode .PvectorOp)
    (IrNode.mk op.type op.value none none op.identifier [])) left) right, ?_⟩
  unfold newtonParseVectorOp
  have hcd : (IrNodeType.Tcross == IrNodeType.Tdot) = false := by decide
  by_cases hv : l.isVector = true ∧ r.isVector = true
  · rcases hop with hop | hop
    · simp [peekCheck, hop, newtonParseTerminal, hlp, hcomma, hleft, hright, derefPhysics, hl,
        hr, assert, hv]
    · simp [peekCheck, hop, hcd, newtonParseTerminal, hlp, hcomma, hleft, hright, derefPhysics,
        hl, hr, assert, hv]
  · rcases hop with hop | hop
    · simp [peekCheck, hop, newtonParseTerminal, hlp, hcomma, hleft, hright, derefPhysics, hl,
        hr, assert, hv]
    · simp [peekCheck, hop, hcd, newtonParseTerminal, hlp, hcomma, hleft, hright, derefPhysics,
        hl, hr, assert, hv]

/-- The physics `newtonParseVectorOp` attaches is in sync. -/
theorem vectorOp_inSync (fuel : Nat) (env : Env) (s : State) (node : IrNode) (s' : State)
    (h : newtonParseVectorOp fuel env s = .ok (node, s')) :
    ∃ q, node.physics = some q ∧ q.InSync := by
  unfold newtonParseVectorOp at h
  obtain ⟨⟨i, a, s1⟩, -, h⟩ := bind_eq_ok h
  obtain ⟨⟨_, s2⟩, -, h⟩ := bind_eq_ok h
  obtain ⟨⟨left, s3⟩, -, h⟩ := bind_eq_ok h
  obtain ⟨lp, -, h⟩ := bind_eq_ok h
  obtain ⟨⟨_, s4⟩, -, h⟩ := bind_eq_ok h
  obtain ⟨⟨right, s5⟩, -, h⟩ := bind_eq_ok h
  obtain ⟨rp, -, h⟩ := bind_eq_ok h
  obtain ⟨_, -, h⟩ := bind_eq_ok h
  obtain ⟨ph, hph, h⟩ := bind_eq_ok h
  obtain ⟨⟨_, s6⟩, -, h⟩ := bind_eq_ok h
  simp only [pure_eq_ok, Except.ok.injEq, Prod.mk.injEq] at h
  refine ⟨ph, by rw [← h.1]; simp, ?_⟩
  have hbase : (newtonPhysicsCopyDenominatorDimensions (newtonPhysicsCopyNumeratorDimensions
      (newtonPhysicsCopyDenominatorDimensions
        (newtonPhysicsCopyNumeratorDimensions callocPhysics lp) lp) rp) rp).InSync :=
    (((Physics.InSync.calloc.copyNumerator lp).copyDenominator lp).copyNumerator rp).copyDenominator
      rp
  by_cases ha : a = true
  · rw [if_pos ha] at hph
    cases hrad : env.currentScope.dimensionForIdentifier "rad" with
    | none =>
      rw [hrad] at hph
      cases hph
    | some angle =>
      rw [hrad] at hph
      simp only [pure_eq_ok, Except.ok.injEq] at hph
      rw [← hph]
      exact hbase.addDenominatorDimension angle
  · rw [if_neg ha] at hph
    simp only [pure_eq_ok, Except.ok.injEq] at hph
    rw [← hph]
    exact hbase

/-! ## Vector operators -/

/-- C13: on `dot(l, r)` and on `cross(l, r)`, where the operand expressions `l` and `r`
parse to nodes with physics, `newtonParseVectorOp` ends in the assertion failure whenever
the physics of `l` or the physics of `r` is not a vector, and it returns a node only when
both are vectors. -/
theorem vectorOp_requires_vectors (fuel : Nat) (env : Env) (op lp comma : Token)
    (ts ts2 : List Token) (pn n1 : Nat) (left right : IrNode) (s2 : State) (l r : Physics)
    (hop : op.type = .Tdot ∨ op.type = .Tcross) (hlp : lp.type = .TleftParen)
    (hcomma : comma.type = .Tcomma)
    (hleft : newtonParseQuantityExpression fuel env ⟨ts, pn⟩ = .ok (left, ⟨comma :: ts2, n1⟩))
    (hright : newtonParseQuantityExpression fuel env ⟨ts2, n1⟩ = .ok (right, s2))
    (hl : left.physics = some l) (hr : right.physics = some r) :
    (¬ (l.isVector = true ∧ r.isVector = true) →
      newtonParseVectorOp fuel env ⟨op :: lp :: ts, pn⟩ = .error .assertionFailure) ∧
    (∀ node s', newtonParseVectorOp fuel env ⟨op :: lp :: ts, pn⟩ = .ok (node, s') →
      l.isVector = true ∧ r.isVector = true) := by
  obtain ⟨i, hi⟩ := vectorOp_unfold fuel env op lp comma ts ts2 pn n1 left right s2 l r hop hlp
    hcomma hleft hright hl hr
  constructor
  · intro hv
    rw [hi, if_neg hv]
  · intro node s' h
    by_contra hv
    rw [hi, if_neg hv] at h
    cases h

/-- C13 at `dot(velocity, mass)`, where `mass` is not a vector. -/
theorem vectorOp_requires_vectors_witness :
    newtonParseVectorOp 4 exampleEnv
      ⟨[Token.op .Tdot, Token.op .TleftParen, Token.ident "velocity", Token.op .Tcomma,
        Token.ident "mass", Token.op .TrightParen], 0⟩ = .error .assertionFailure :=
  (vectorOp_requires_vectors 4 exampleEnv (Token.op .Tdot) (Token.op .TleftParen)
    (Token.op .Tcomma)
    [Token.ident "velocity", Token.op .Tcomma, Token.ident "mass", Token.op .TrightParen]
    [Token.ident "mass", Token.op .TrightParen] 0 _ _ _ _ _ _
    (Or.inl rfl) rfl rfl rfl rfl rfl rfl).1 (by decide)

/-- C14: on `dot(l, r)` and on `cross(l, r)` with both operand expressions vectors,
`newtonParseVectorOp` returns a node whose physics has numerator prime product
`num(l) * num(r)` and denominator prime product `den(l) * den(r)`, times the prime of the
dimension `rad` for `cross`; its numerator list is that of `l` followed by that of `r`,
its denominator list is that of `l` followed by that of `r`, followed for `cross`, and
only for `cross`, by one occurrence of `rad`. -/
theorem vectorOp_prime_products (fuel : Nat) (env : Env) (op lp comma rp : Token)
    (ts ts2 rest : List Token) (pn n1 n2 : Nat) (left right : IrNode) (l r : Physics)
    (angle : Dimension)
    (hop : op.type = .Tdot ∨ op.type = .Tcross) (hlp : lp.type = .TleftParen)
    (hcomma : comma.type = .Tcomma) (hrp : rp.type = .TrightParen)
    (hleft : newtonParseQuantityExpression fuel env ⟨ts, pn⟩ = .ok (left, ⟨comma :: ts2, n1⟩))
    (hright : newtonParseQuantityExpression fuel env ⟨ts2, n1⟩
      = .ok (right, ⟨rp :: rest, n2⟩))
    (hl : left.physics = some l) (hr : right.physics = some r)
    (hvec : l.isVector = true ∧ r.isVector = true)
    (hrad : op.type = .Tcross → env.currentScope.dimensionForIdentifier "rad" = some angle) :
    ∃ node q, newtonParseVectorOp fuel env ⟨op :: lp :: ts, pn⟩ = .ok (node, ⟨rest, n2⟩) ∧
      node.physics = some q ∧
      q.numeratorPrimeProduct = l.numeratorPrimeProduct * r.numeratorPrimeProduct ∧
      q.denominatorPrimeProduct =
        (if op.type = .Tcross then
          l.denominatorPrimeProduct * r.denominatorPrimeProduct * angle.primeNumber
        else l.denominatorPrimeProduct * r.denominatorPrimeProduct) ∧
      q.numeratorDimensions = l.numeratorDimensions ++ r.numeratorDimensions ∧
      q.denominatorDimensions = l.denominatorDimensions ++ r.denominatorDimensions ++
        (if op.type = .Tcross then [angle] else []) := by
  obtain ⟨i, hi⟩ := vectorOp_unfold fuel env op lp comma ts ts2 pn n1 left right _ l r hop hlp
    hcomma hleft hright hl hr
  obtain ⟨l', hl', hls⟩ := quantityExpression_inSync fuel env _ left _ hleft
  obtain ⟨r', hr', hrs⟩ := quantityExpression_inSync fuel env _ right _ hright
  rw [hl] at hl'
  rw [hr] at hr'
  cases hl'
  cases hr'
  rw [if_pos hvec] at hi
  by_cases hc : op.type = .Tcross
  · rw [if_pos hc, hrad hc] at hi
    refine ⟨i.setPhysics (some (newtonPhysicsAddDenominatorDimension
      (newtonPhysicsCopyDenominatorDimensions (newtonPhysicsCopyNumeratorDimensions
        (newtonPhysicsCopyDenominatorDimensions
          (newtonPhysicsCopyNumeratorDimensions callocPhysics l) l) r) r) angle)), _, ?_,
      setPhysics_physics _ _, ?_⟩
    · rw [hi]
      simp [newtonParseTerminal, hrp]
    · simp [hc, newtonPhysicsAddDenominatorDimension, newtonPhysicsCopyDenominatorDimensions,
        newtonPhysicsCopyNumeratorDimensions, callocPhysics, hls.1, hls.2, hrs.1, hrs.2]
  · rw [if_neg hc] at hi
    refine ⟨i.setPhysics (some
      (newtonPhysicsCopyDenominatorDimensions (newtonPhysicsCopyNumeratorDimensions
        (newtonPhysicsCopyDenominatorDimensions
          (newtonPhysicsCopyNumeratorDimensions callocPhysics l) l) r) r)), _, ?_,
      setPhysics_physics _ _, ?_⟩
    · rw [hi]
      simp [newtonParseTerminal, hrp]
    · simp [hc, newtonPhysicsCopyDenominatorDimensions,
        newtonPhysicsCopyNumeratorDimensions, callocPhysics, hls.1, hls.2, hrs.1, hrs.2]

/-- C14 at `cross(velocity, velocity)`, `velocity` being meter (3) per second (5) and
`rad` having the prime 7. -/
theorem vectorOp_prime_products_witness :
    ∃ node q, newtonParseVectorOp 4 vectorEnv
        ⟨[Token.op .Tcross, Token.op .TleftParen, Token.ident "velocity", Token.op .Tcomma,
          Token.ident "velocity", Token.op .TrightParen], 0⟩ = .ok (node, ⟨[], 1⟩) ∧
      node.physics = some q ∧
      q.numeratorPrimeProduct = 3 * 3 ∧
      q.denominatorPrimeProduct = (if IrNodeType.Tcross = .Tcross then 5 * 5 * 7 else 5 * 5) ∧
      q.numeratorDimensions = [meter] ++ [meter] ∧
      q.denominatorDimensions = [second] ++ [second] ++
        (if IrNodeType.Tcross = .Tcross then [radian] else []) :=
  vectorOp_prime_products 4 vectorEnv (Token.op .Tcross) (Token.op .TleftParen)
    (Token.op .Tcomma) (Token.op .TrightParen)
    [Token.ident "velocity", Token.op .Tcomma, Token.ident "velocity", Token.op .TrightParen]
    [Token.ident "velocity", Token.op .TrightParen] [] 0 _ _ _ _ _ _ radian
    (Or.inr rfl) rfl rfl rfl rfl rfl rfl rfl ⟨rfl, rfl⟩ (fun _ => rfl)

/-! ## The prime-product invariant -/

theorem exampleEnv_bindingsInSync : BindingsInSync exampleEnv := by
  intro name p h
  simp only [exampleEnv, exampleScope] at h
  split_ifs at h <;> cases h <;> decide

/-- C19: let every identifier of the current scope be bound to a physics whose prime
products are the products of the primes of its dimension lists. Then the physics of the
node returned by `newtonParseQuantityTerm`, by `newtonParseQuantityFactor` (when it has
one), by `newtonParseQuantityExpression` and by `newtonParseVectorOp`, and the physics
`newtonParseExponentialExpression` assigns to its base node, all satisfy the same two
equalities. -/
theorem parser_keeps_prime_products_in_sync (fuel : Nat) (env : Env) (s : State)
    (node : IrNode) (s' : State) (hb : BindingsInSync env) :
    (newtonParseQuantityTerm fuel env s = .ok (node, s') →
      ∃ q, node.physics = some q ∧ q.InSync) ∧
    (newtonParseQuantityFactor fuel env s = .ok (node, s') →
      ∀ q, node.physics = some q → q.InSync) ∧
    (∀ baseNode exponent,
      newtonParseExponentialExpression fuel env baseNode s = .ok ((exponent, node), s') →
      ∃ q, node.physics = some q ∧ q.InSync) ∧
    (newtonParseQuantityExpression fuel env s = .ok (node, s') →
      ∃ q, node.physics = some q ∧ q.InSync) ∧
    (newtonParseVectorOp fuel env s = .ok (node, s') →
      ∃ q, node.physics = some q ∧ q.InSync) :=
  ⟨quantityTerm_inSync fuel env s node s',
   quantityFactor_inSync fuel env s node s' hb,
   fun baseNode exponent => exponentialExpression_inSync fuel env baseNode s exponent node s',
   quantityExpression_inSync fuel env s node s',
   vectorOp_inSync fuel env s node s'⟩

/-- C19 at the term `velocity / mass` in the example scope. -/
theorem parser_keeps_prime_products_in_sync_witness :
    ∃ q, resultPhysics (newtonParseQuantityTerm 3 exampleEnv
        ⟨[Token.ident "velocity", Token.op .Tdiv, Token.ident "mass"], 0⟩) = some q ∧
      q.InSync :=
  (parser_keeps_prime_products_in_sync 3 exampleEnv
    ⟨[Token.ident "velocity", Token.op .Tdiv, Token.ident "mass"], 0⟩ _ _
    exampleEnv_bindingsInSync).1 rfl

/-! ## Zero to the power zero -/

/-- `newtonParseNumericFactor` is its base followed by the optional exponent. -/
theorem numericFactor_eq_base (fuel : Nat) (env : Env) (s : State) :
    newtonParseNumericFactor (fuel + 1) env s =
      numericFactorBase fuel env s >>= fun x =>
        if inFirst x.2 .PhighPrecedenceBinaryOp then do
          let (op, s) ← newtonParseHighPrecedenceBinaryOp x.2
          let node := addLeaf x.1 op
          let (exponentExpression, s) ←
            (if peekCheck s .TleftParen then newtonParseNumericExpression fuel env s
            else newtonParseInteger s)
          let node := addLeaf node exponentExpression
          assert (node.value ≠ 0 ∨ exponentExpression.value ≠ 0)
          pure (node.setValue (env.pow node.value exponentExpression.value), s)
        else
          pure (x.1, x.2) := by
  rw [newtonParseNumericFactor]
  rfl

/-- `newtonParseQuantityFactor` is its base followed by the optional exponent. -/
theorem quantityFactor_eq_base (fuel : Nat) (env : Env) (s : State) :
    newtonParseQuantityFactor (fuel + 1) env s =
      quantityFactorBase fuel env s >>= fun x =>
        if inFirst x.2 .PhighPrecedenceBinaryOp then do
          let (op, s) ← newtonParseHighPrecedenceBinaryOp x.2
          let factor := addLeaf x.1 op
          let ((exponentialExpression, factor), s) ←
            newtonParseExponentialExpression fuel env factor s
          let factor := addLeafWithChainingSeq factor exponentialExpression
          let factor :=
            if factor.value ≠ 0 then
              factor.setValue (env.pow factor.value exponentialExpression.value)
            else factor
          pure (factor, s)
        else
          pure (x.1, x.2) := by
  rw [newtonParseQuantityFactor]
  rfl

theorem inFirst_highPrecedence (tok : Token) (rest : List Token) (n : Nat)
    (h : tok.type = .Texponent) :
    inFirst ⟨tok :: rest, n⟩ .PhighPrecedenceBinaryOp = true := by
  simp [inFirst, gNewtonFirsts, h]

theorem highPrecedenceBinaryOp_ok (tok : Token) (rest : List Token) (n : Nat)
    (h : tok.type = .Texponent) :
    newtonParseHighPrecedenceBinaryOp ⟨tok :: rest, n⟩ =
      .ok (addLeaf (genIrNode .PhighPrecedenceBinaryOp)
        (IrNode.mk tok.type tok.value none none tok.identifier []), ⟨rest, n⟩) := by
  simp [newtonParseHighPrecedenceBinaryOp, peekCheck, h, newtonParseTerminal, Except.map]

/-- C18, the claim as stated fails for `newtonParseQuantityFactor`: `mass` has value 0,
the exponent `(1 - 1)` parses to value 0, and `mass ** (1 - 1)` is parsed to a node
without any error. -/
theorem quantityFactor_zero_to_zero_returns :
    (exampleScope.physicsForIdentifier "mass").map Physics.value = some 0 ∧
    resultValue (newtonParseNumericExpression 9 exampleEnv
      ⟨[Token.op .TleftParen, Token.number 1, Token.op .Tminus, Token.number 1,
        Token.op .TrightParen], 1⟩) = some 0 ∧
    resultError (newtonParseQuantityFactor 10 exampleEnv
      ⟨[Token.ident "mass", Token.op .Texponent, Token.op .TleftParen, Token.number 1,
        Token.op .Tminus, Token.number 1, Token.op .TrightParen], 0⟩) = none := by
  decide!

/-- C18 as amended: let the base of a factor be parsed to a node of value 0, be followed
by `**`, and let the exponent be parsed to a node of value 0. Then
`newtonParseNumericFactor` ends in the assertion failure, whereas
`newtonParseQuantityFactor`, for a base with a physics, returns the factor with value 0
and with a physics without dimensions whose value is 1. -/
theorem zero_to_zero (fuel : Nat) (env : Env) (s : State) (base : IrNode) (tok : Token)
    (rest : List Token) (n : Nat) (exponent : IrNode) (s3 : State)
    (htok : tok.type = .Texponent)
    (hexp : (if peekCheck ⟨rest, n⟩ .TleftParen then
        newtonParseNumericExpression fuel env ⟨rest, n⟩
      else newtonParseInteger ⟨rest, n⟩) = .ok (exponent, s3))
    (hb : base.value = 0) (he : exponent.value = 0) :
    (numericFactorBase fuel env s = .ok (base, ⟨tok :: rest, n⟩) →
      newtonParseNumericFactor (fuel + 1) env s = .error .assertionFailure) ∧
    (∀ p, quantityFactorBase fuel env s = .ok (base, ⟨tok :: rest, n⟩) →
      base.physics = some p →
      ∃ node q, newtonParseQuantityFactor (fuel + 1) env s = .ok (node, s3) ∧
        node.value = 0 ∧ node.physics = some q ∧
        q.numeratorDimensions = [] ∧ q.denominatorDimensions = [] ∧
        q.numeratorPrimeProduct = 1 ∧ q.denominatorPrimeProduct = 1 ∧ q.value = 1) := by
  constructor
  · intro hbase
    rw [numericFactor_eq_base, hbase]
    simp only [bind_ok, inFirst_highPrecedence tok rest n htok, if_true,
      highPrecedenceBinaryOp_ok tok rest n htok, hexp, addLeaf_value, hb, he, Newton.assert]
    simp
  · intro p hbase hp
    have hx := exponentialExpression_of_value_zero fuel env
      (addLeaf base (addLeaf (genIrNode .PhighPrecedenceBinaryOp)
        (IrNode.mk tok.type tok.value none none tok.identifier []))) p ⟨rest, n⟩ s3 exponent
      (by simp [hp]) hexp he
    refine ⟨addLeafWithChainingSeq ((addLeaf base (addLeaf (genIrNode .PhighPrecedenceBinaryOp)
        (IrNode.mk tok.type tok.value none none tok.identifier []))).setPhysics
        (some { shallowCopyPhysicsNode p with value := 1 })) exponent,
      { shallowCopyPhysicsNode p with value := 1 }, ?_, ?_, ?_, rfl, rfl, rfl, rfl, rfl⟩
    · rw [quantityFactor_eq_base, hbase]
      simp only [bind_ok, inFirst_highPrecedence tok rest n htok, if_true,
        highPrecedenceBinaryOp_ok tok rest n htok, hx]
      simp [hb]
    · simp [hb]
    · simp

/-- C18 as amended, at `(1 - 1) ** (1 - 1)` and at `mass ** (1 - 1)`. -/
theorem zero_to_zero_witness :
    newtonParseNumericFactor 10 exampleEnv
      ⟨[Token.op .TleftParen, Token.number 1, Token.op .Tminus, Token.number 1,
        Token.op .TrightParen, Token.op .Texponent, Token.op .TleftParen, Token.number 1,
        Token.op .Tminus, Token.number 1, Token.op .TrightParen], 0⟩
      = .error .assertionFailure ∧
    ∃ node q, newtonParseQuantityFactor 10 exampleEnv
        ⟨[Token.ident "mass", Token.op .Texponent, Token.op .TleftParen, Token.number 1,
          Token.op .Tminus, Token.number 1, Token.op .TrightParen], 0⟩ = .ok (node, ⟨[], 1⟩) ∧
      node.value = 0 ∧ node.physics = some q ∧
      q.numeratorDimensions = [] ∧ q.denominatorDimensions = [] ∧
      q.numeratorPrimeProduct = 1 ∧ q.denominatorPrimeProduct = 1 ∧ q.value = 1 :=
  ⟨(zero_to_zero 9 exampleEnv
      ⟨[Token.op .TleftParen, Token.number 1, Token.op .Tminus, Token.number 1,
        Token.op .TrightParen, Token.op .Texponent, Token.op .TleftParen, Token.number 1,
        Token.op .Tminus, Token.number 1, Token.op .TrightParen], 0⟩ _ (Token.op .Texponent)
      [Token.op .TleftParen, Token.number 1, Token.op .Tminus, Token.number 1,
        Token.op .TrightParen] 0 _ ⟨[], 0⟩ rfl rfl (by decide!) (by decide!)).1 rfl,
   (zero_to_zero 9 exampleEnv
      ⟨[Token.ident "mass", Token.op .Texponent, Token.op .TleftParen, Token.number 1,
        Token.op .Tminus, Token.number 1, Token.op .TrightParen], 0⟩ _ (Token.op .Texponent)
      [Token.op .TleftParen, Token.number 1, Token.op .Tminus, Token.number 1,
        Token.op .TrightParen] 1 _ ⟨[], 1⟩ rfl rfl (by decide!) (by decide!)).2 _ rfl rfl⟩

/-! ## The loop of a quantity term as a fold -/

/-- One pass of the loop of `newtonParseQuantityTerm` is `termStep`. -/
theorem quantityTermLoop_step_item (fuel : Nat) (env : Env) (leftFactor : IrNode)
    (acc : TermAcc) (tok : Token) (rest : List Token) (n : Nat) (f : IrNode) (s2 : State)
    (hop : tok.type = .Tmul ∨ tok.type = .Tdiv)
    (hfactor : newtonParseQuantityFactor fuel env ⟨rest, n⟩ = .ok (f, s2)) :
    quantityTermLoop (fuel + 1) env leftFactor acc.intermediate acc.physics
        acc.hasNumberInTerm acc.numVectorsInTerm ⟨tok :: rest, n⟩ =
      termStep leftFactor acc
          { binOp := IrNode.mk tok.type tok.value none none tok.identifier []
            isPhysics := peekCheck ⟨rest, n⟩ .Tidentifier
            rightFactor := f } >>= fun a =>
        quantityTermLoop fuel env leftFactor a.intermediate a.physics a.hasNumberInTerm
          a.numVectorsInTerm s2 := by
  rw [quantityTermLoop, if_pos (inFirst_midPrecedence tok rest n hop),
    midPrecedenceBinaryOp_ok_of_type tok rest n hop]
  simp only [bind_ok, hfactor, termStep, bind_assoc, pure_bind]

/-- The loop of `newtonParseQuantityTerm` over a chain of factors is `termFold` followed
by the exit of the loop. -/
theorem quantityTermLoop_fold (fuel : Nat) (env : Env) (s s' : State) (items : List TermItem)
    (hc : FactorChain fuel env s items s') :
    ∀ (leftFactor : IrNode) (acc : TermAcc) (F : Nat), fuel + items.length + 1 ≤ F →
      quantityTermLoop F env leftFactor acc.intermediate acc.physics acc.hasNumberInTerm
          acc.numVectorsInTerm s =
        termFold leftFactor acc items >>= fun a => .ok (termFinish a, s') := by
  induction hc with
  | done s h =>
    intro leftFactor acc F hF
    obtain ⟨F', rfl⟩ : ∃ F', F = F' + 1 := ⟨F - 1, by omega⟩
    rw [quantityTermLoop]
    simp [h, termFold, termFinish]
  | step tok rest n f s2 s3 items hop hfactor _ ih =>
    intro leftFactor acc F hF
    simp only [List.length_cons] at hF
    obtain ⟨F', rfl⟩ : ∃ F', F = F' + 1 := ⟨F - 1, by omega⟩
    have hfactor' : newtonParseQuantityFactor F' env ⟨rest, n⟩ = .ok (f, s2) :=
      (quantityFactor_fuel_le (by omega) env _).eq_ok hfactor
    rw [quantityTermLoop_step_item F' env leftFactor acc tok rest n f s2 hop hfactor']
    simp only [termFold, bind_assoc]
    congr 1
    funext a
    exact ih leftFactor a F' (by omega)

/-- `newtonParseQuantityTerm` without a leading minus is `termStart` on the first factor
followed by the loop. -/
theorem quantityTerm_start (fuel : Nat) (env : Env) (s s1 : State) (leftFactor : IrNode)
    (hfactor : newtonParseQuantityFactor fuel env s = .ok (leftFactor, s1)) :
    newtonParseQuantityTerm (fuel + 1) env s =
      termStart none (peekCheck s .Tidentifier) leftFactor >>= fun a =>
        quantityTermLoop fuel env leftFactor a.intermediate a.physics a.hasNumberInTerm
          a.numVectorsInTerm s1 := by
  have hun : inFirst s .PunaryOp = false := by
    have hp := quantityFactor_peek fuel env s leftFactor s1 hfactor
    cases hs : s.tokens with
    | nil => simp [peekCheck, hs] at hp
    | cons tok rest =>
      simp only [peekCheck, hs, beq_iff_eq] at hp
      rcases hp with h | h | h <;> simp [inFirst, hs, gNewtonFirsts, h]
  rw [newtonParseQuantityTerm]
  simp only [hun, Bool.false_eq_true, if_false, pure_eq_ok, bind_ok, hfactor, termStart,
    bind_assoc, pure_bind, Option.isSome_none]

/-- `newtonParseQuantityTerm` with a leading minus is `termStart` on the first factor
followed by the loop. -/
theorem quantityTerm_start_minus (fuel : Nat) (env : Env) (tok : Token) (rest : List Token)
    (n : Nat) (s1 : State) (leftFactor : IrNode) (htok : tok.type = .Tminus)
    (hfactor : newtonParseQuantityFactor fuel env ⟨rest, n⟩ = .ok (leftFactor, s1)) :
    newtonParseQuantityTerm (fuel + 1) env ⟨tok :: rest, n⟩ =
      termStart (some (IrNode.mk tok.type tok.value none none tok.identifier []))
          (peekCheck ⟨rest, n⟩ .Tidentifier) leftFactor >>= fun a =>
        quantityTermLoop fuel env leftFactor a.intermediate a.physics a.hasNumberInTerm
          a.numVectorsInTerm s1 := by
  have hun : inFirst ⟨tok :: rest, n⟩ .PunaryOp = true := by
    simp [inFirst, gNewtonFirsts, htok]
  rw [newtonParseQuantityTerm]
  simp only [hun, if_true, newtonParseUnaryOp, peekCheck, htok, beq_self_eq_true,
    newtonParseTerminal, pure_eq_ok, bind_ok, hfactor, termStart, bind_assoc, pure_bind,
    Option.isSome_some]

/-! ## The folded value of a term -/

/-- The base of a factor that starts with an identifier carries a physics. -/
theorem quantityFactorBase_identifier (fuel : Nat) (env : Env) (s : State) (fac : IrNode)
    (s1 : State) (hid : peekCheck s .Tidentifier = true)
    (h : quantityFactorBase fuel env s = .ok (fac, s1)) : ∃ p, fac.physics = some p := by
  rw [quantityFactorBase, if_pos hid] at h
  obtain ⟨⟨n0, s0⟩, -, h⟩ := bind_eq_ok h
  obtain ⟨ph, -, h⟩ := bind_eq_ok h
  simp only [setValue_tokenString, setPhysics_tokenString, deepCopyPhysicsNode_eq] at h
  cases hts : n0.tokenString with
  | none =>
    rw [hts] at h
    cases h
  | some nm =>
    rw [hts] at h
    simp only [] at h
    split at h
    · simp only [pure_eq_ok, Except.ok.injEq, Prod.mk.injEq] at h
      exact ⟨ph, by rw [← h.1]; simp⟩
    · simp only [pure_eq_ok, Except.ok.injEq, Prod.mk.injEq] at h
      exact ⟨ph, by rw [← h.1]; simp⟩

/-- A factor that starts with an identifier carries a physics. -/
theorem quantityFactor_identifier_physics (fuel : Nat) (env : Env) (s : State) (f : IrNode)
    (s' : State) (hid : peekCheck s .Tidentifier = true)
    (h : newtonParseQuantityFactor fuel env s = .ok (f, s')) : ∃ p, f.physics = some p := by
  cases fuel with
  | zero => simp [newtonParseQuantityFactor] at h
  | succ k =>
    rw [quantityFactor_eq_base] at h
    obtain ⟨⟨fac, s1⟩, hbase, h⟩ := bind_eq_ok h
    obtain ⟨p, hp⟩ := quantityFactorBase_identifier k env s fac s1 hid hbase
    dsimp only at h
    by_cases hx : inFirst s1 .PhighPrecedenceBinaryOp = true
    · rw [if_pos hx] at h
      obtain ⟨⟨op, s2⟩, -, h⟩ := bind_eq_ok h
      obtain ⟨⟨⟨ex, base⟩, s3⟩, hexp, h⟩ := bind_eq_ok h
      simp only [pure_eq_ok, Except.ok.injEq, Prod.mk.injEq] at h
      obtain ⟨q, hq, -⟩ := exponentialExpression_inSync k env _ _ ex base s3 hexp
      refine ⟨q, ?_⟩
      rw [← h.1, ← hq]
      split <;> simp
    · rw [if_neg hx] at h
      simp only [pure_eq_ok, Except.ok.injEq, Prod.mk.injEq] at h
      exact ⟨p, by rw [← h.1]; exact hp⟩

/-- What a chain of factors guarantees of each item read. -/
theorem FactorChain.items_ok {fuel : Nat} {env : Env} {s s' : State} {items : List TermItem}
    (hc : FactorChain fuel env s items s') :
    ∀ item ∈ items, (item.binOp.type = .Tmul ∨ item.binOp.type = .Tdiv) ∧
      (item.isPhysics = true → ∃ q, item.rightFactor.physics = some q) := by
  induction hc with
  | done s h =>
    intro item hmem
    cases hmem
  | step tok rest n f s2 s3 items hop hfactor _ ih =>
    intro item hmem
    rcases List.mem_cons.mp hmem with rfl | hmem
    · exact ⟨by simpa using hop,
        fun hid => quantityFactor_identifier_physics fuel env _ f s2 hid hfactor⟩
    · exact ih item hmem

/-- One pass of the loop over a term that has a number: the value is folded, a vector
is counted, and the pass fails only on a second vector. -/
theorem termStep_value (leftFactor : IrNode) (acc : TermAcc) (item : TermItem)
    (hnum : acc.hasNumberInTerm = true)
    (hop : item.binOp.type = .Tmul ∨ item.binOp.type = .Tdiv)
    (hphys : item.isPhysics = true → ∃ q, item.rightFactor.physics = some q)
    (hvec : acc.numVectorsInTerm + (if item.isVector then 1 else 0) ≤ 1) :
    ∃ a, termStep leftFactor acc item = .ok a ∧ a.hasNumberInTerm = true ∧
      a.numVectorsInTerm = acc.numVectorsInTerm + (if item.isVector then 1 else 0) ∧
      a.intermediate.value = foldValue acc.intermediate.value [item] := by
  have hne : ∀ h : item.binOp.type = .Tdiv, ¬ item.binOp.type = .Tmul := by
    intro h h'
    rw [h] at h'
    cases h'
  by_cases hid : item.isPhysics = true
  · obtain ⟨q, hq⟩ := hphys hid
    by_cases hv : q.isVector = true
    · have hiv : item.isVector = true := by simp [TermItem.isVector, factorIsVector, hid, hq, hv]
      simp only [hiv, if_true] at hvec
      have h0 : acc.numVectorsInTerm = 0 := by omega
      rcases hop with h | h
      · refine ⟨_, by simp [termStep, hnum, hid, derefPhysics, hq, hv, h0, h, Newton.assert]; rfl,
          ?_, ?_, ?_⟩ <;> simp [hiv, h0, foldValue, h]
      · refine ⟨_, by simp [termStep, hnum, hid, derefPhysics, hq, hv, h0, h, hne h,
          Newton.assert]; rfl, ?_, ?_, ?_⟩ <;> simp [hiv, h0, foldValue, h, hne h]
    · have hiv : item.isVector = false := by simp [TermItem.isVector, factorIsVector, hid, hq, hv]
      rcases hop with h | h
      · refine ⟨_, by simp [termStep, hnum, hid, derefPhysics, hq, hv, h]; rfl,
          ?_, ?_, ?_⟩ <;> simp [hiv, foldValue, h]
      · refine ⟨_, by simp [termStep, hnum, hid, derefPhysics, hq, hv, h, hne h]; rfl,
          ?_, ?_, ?_⟩ <;> simp [hiv, foldValue, h, hne h]
  · have hiv : item.isVector = false := by simp [TermItem.isVector, factorIsVector, hid]
    rcases hop with h | h
    · refine ⟨_, by simp [termStep, hnum, hid, h]; rfl, ?_, ?_, ?_⟩ <;>
        simp [hiv, foldValue, h]
    · refine ⟨_, by simp [termStep, hnum, hid, h, hne h]; rfl, ?_, ?_, ?_⟩ <;>
        simp [hiv, foldValue, h, hne h]

theorem foldValue_append (v : ℚ) (xs ys : List TermItem) :
    foldValue v (xs ++ ys) = foldValue (foldValue v xs) ys := by
  induction xs generalizing v with
  | nil => rfl
  | cons x xs ih => simp [foldValue, ih]

/-- The passes of the loop over a term that has a number fold the value, as long as
at most one vector is read. -/
theorem termFold_value (leftFactor : IrNode) :
    ∀ (items : List TermItem) (acc : TermAcc), acc.hasNumberInTerm = true →
      (∀ item ∈ items, (item.binOp.type = .Tmul ∨ item.binOp.type = .Tdiv) ∧
        (item.isPhysics = true → ∃ q, item.rightFactor.physics = some q)) →
      acc.numVectorsInTerm + (items.filter TermItem.isVector).length ≤ 1 →
      ∃ a, termFold leftFactor acc items = .ok a ∧ a.hasNumberInTerm = true ∧
        a.intermediate.value = foldValue acc.intermediate.value items := by
  intro items
  induction items with
  | nil =>
    intro acc hnum _ _
    exact ⟨acc, rfl, hnum, rfl⟩
  | cons item items ih =>
    intro acc hnum hok hvec
    have hcount : (if item.isVector then 1 else 0) + (items.filter TermItem.isVector).length
        = ((item :: items).filter TermItem.isVector).length := by
      by_cases hiv : item.isVector = true <;> simp [List.filter_cons, hiv, Nat.add_comm]
    obtain ⟨a, ha, hnum', hnv, hval⟩ := termStep_value leftFactor acc item hnum
      (hok item (List.mem_cons_self _ _)).1 (hok item (List.mem_cons_self _ _)).2 (by omega)
    obtain ⟨b, hb, hnum'', hval'⟩ := ih a hnum'
      (fun x hx => hok x (List.mem_cons_of_mem _ hx)) (by omega)
    refine ⟨b, by simp [termFold, ha, hb], hnum'', ?_⟩
    rw [hval', hval]
    exact (foldValue_append _ [item] items).symm

/-- The start of a term whose first factor is a number or a constant. -/
theorem termStart_number (unary : Option IrNode) (isPhysics : Bool) (leftFactor : IrNode)
    (hnum : isNumberFactor leftFactor = true)
    (hphys : isPhysics = true → ∃ q, leftFactor.physics = some q) :
    ∃ a, termStart unary isPhysics leftFactor = .ok a ∧ a.hasNumberInTerm = true ∧
      a.numVectorsInTerm = (if factorIsVector isPhysics leftFactor then 1 else 0) ∧
      a.intermediate.value =
        (if unary.isSome then leftFactor.value * -1 else leftFactor.value) := by
  by_cases hid : isPhysics = true
  · obtain ⟨q, hq⟩ := hphys hid
    by_cases hv : q.isVector = true
    · refine ⟨_, by simp [termStart, hnum, hid, derefPhysics, hq, hv]; rfl, ?_, ?_, ?_⟩ <;>
        simp [factorIsVector, hid, hq, hv]
    · refine ⟨_, by simp [termStart, hnum, hid, derefPhysics, hq, hv]; rfl, ?_, ?_, ?_⟩ <;>
        simp [factorIsVector, hid, hq, hv]
  · refine ⟨_, by simp [termStart, hnum, hid]; rfl, ?_, ?_, ?_⟩ <;>
      simp [factorIsVector, hid]

/-- C16: let the first factor of a quantity term, after the optional leading minus, be
a number or a constant, and let the term read at most one vector. Then
`newtonParseQuantityTerm` returns the term, and its value is the value of the first
factor (negated under a leading minus) folded over the further factors: multiplied by
the value of a factor joined by `*`, divided by the value of a factor joined by `/`, and
left unchanged by a factor of value 0 under either operator, so that no division by 0
takes place. -/
theorem quantityTerm_value_fold (fuel : Nat) (env : Env) (neg : Bool) (ts : List Token)
    (pn : Nat) (leftFactor : IrNode) (s1 s' : State) (items : List TermItem) (F : Nat)
    (hfactor : newtonParseQuantityFactor fuel env ⟨ts, pn⟩ = .ok (leftFactor, s1))
    (hnum : isNumberFactor leftFactor = true)
    (hc : FactorChain fuel env s1 items s')
    (hvec : (if factorIsVector (peekCheck ⟨ts, pn⟩ .Tidentifier) leftFactor then 1 else 0)
      + (items.filter TermItem.isVector).length ≤ 1)
    (hF : fuel + items.length + 2 ≤ F) :
    ∃ node, newtonParseQuantityTerm F env
        ⟨(if neg then [Token.op .Tminus] else []) ++ ts, pn⟩ = .ok (node, s') ∧
      node.value = foldValue (if neg then leftFactor.value * -1 else leftFactor.value) items ∧
      ∀ v : ℚ, ∀ item : TermItem, item.rightFactor.value = 0 → foldValue v [item] = v := by
  obtain ⟨F', rfl⟩ : ∃ F', F = F' + 1 := ⟨F - 1, by omega⟩
  have hfactor' : newtonParseQuantityFactor F' env ⟨ts, pn⟩ = .ok (leftFactor, s1) :=
    (quantityFactor_fuel_le (by omega) env _).eq_ok hfactor
  have hphys : peekCheck ⟨ts, pn⟩ .Tidentifier = true → ∃ q, leftFactor.physics = some q :=
    fun hid => quantityFactor_identifier_physics fuel env _ leftFactor s1 hid hfactor
  have hfinish : ∀ a : TermAcc, a.hasNumberInTerm = true →
      (termFinish a).value = a.intermediate.value := by
    intro a ha
    simp [termFinish, ha]
  cases neg with
  | false =>
    obtain ⟨a, ha, hnum', hnv, hval⟩ :=
      termStart_number none (peekCheck ⟨ts, pn⟩ .Tidentifier) leftFactor hnum hphys
    obtain ⟨b, hb, hnum'', hval'⟩ := termFold_value leftFactor items a hnum' hc.items_ok
      (by rw [hnv]; exact hvec)
    refine ⟨termFinish b, ?_, ?_, fun v item h => by simp [foldValue, h]⟩
    · simp only [Bool.false_eq_true, if_false, List.nil_append]
      rw [quantityTerm_start F' env _ s1 leftFactor hfactor', ha, bind_ok,
        quantityTermLoop_fold fuel env s1 s' items hc leftFactor a F' (by omega), hb, bind_ok]
    · rw [hfinish b hnum'', hval', hval]
      simp
  | true =>
    obtain ⟨a, ha, hnum', hnv, hval⟩ :=
      termStart_number (some (IrNode.mk (Token.op .Tminus).type (Token.op .Tminus).value none
        none (Token.op .Tminus).identifier [])) (peekCheck ⟨ts, pn⟩ .Tidentifier)
        leftFactor hnum hphys
    obtain ⟨b, hb, hnum'', hval'⟩ := termFold_value leftFactor items a hnum' hc.items_ok
      (by rw [hnv]; exact hvec)
    refine ⟨termFinish b, ?_, ?_, fun v item h => by simp [foldValue, h]⟩
    · simp only [if_true, List.singleton_append]
      rw [quantityTerm_start_minus F' env _ ts pn s1 leftFactor rfl hfactor', ha, bind_ok,
        quantityTermLoop_fold fuel env s1 s' items hc leftFactor a F' (by omega), hb, bind_ok]
    · rw [hfinish b hnum'', hval', hval]
      simp

/-- C16 at the quantity terms `3 * 0` and `3 / 0`: both fold to 3. -/
theorem quantityTerm_value_fold_witness :
    resultValue (newtonParseQuantityTerm 4 exampleEnv
      ⟨[Token.number 3, Token.op .Tmul, Token.number 0], 0⟩) = some 3 ∧
    resultValue (newtonParseQuantityTerm 4 exampleEnv
      ⟨[Token.number 3, Token.op .Tdiv, Token.number 0], 0⟩) = some 3 := by
  obtain ⟨node, h, hv, -⟩ := quantityTerm_value_fold 1 exampleEnv false
    [Token.number 3, Token.op .Tmul, Token.number 0] 0 _ _ _ _ 4 rfl rfl
    (FactorChain.step (Token.op .Tmul) [Token.number 0] 0 _ _ _ _ (Or.inl rfl) rfl
      (FactorChain.done _ rfl)) (by decide) (by decide)
  obtain ⟨node', h', hv', -⟩ := quantityTerm_value_fold 1 exampleEnv false
    [Token.number 3, Token.op .Tdiv, Token.number 0] 0 _ _ _ _ 4 rfl rfl
    (FactorChain.step (Token.op .Tdiv) [Token.number 0] 0 _ _ _ _ (Or.inr rfl) rfl
      (FactorChain.done _ rfl)) (by decide) (by decide)
  have e : ∀ a : List Token, ([] : List Token) ++ a = a := fun a => rfl
  simp only [Bool.false_eq_true, if_false, e] at h h'
  rw [h, h']
  simp only [resultValue, hv, hv']
  simp [foldValue, Token.number]

/-! ## Order of the dimensions -/

theorem primeProduct_perm {a b : List Dimension} (h : a.Perm b) :
    primeProduct a = primeProduct b := by
  unfold primeProduct
  exact (h.map _).prod_eq

/-- Two physics in sync whose dimension lists are rearrangements of each other have the
same prime products. -/
theorem inSync_perm {p q : Physics} (hp : p.InSync) (hq : q.InSync)
    (hnum : p.numeratorDimensions.Perm q.numeratorDimensions)
    (hden : p.denominatorDimensions.Perm q.denominatorDimensions) :
    p.numeratorPrimeProduct = q.numeratorPrimeProduct ∧
      p.denominatorPrimeProduct = q.denominatorPrimeProduct := by
  rw [hp.1, hp.2, hq.1, hq.2]
  exact ⟨primeProduct_perm hnum, primeProduct_perm hden⟩

/-- The additive check accepts a second term whose dimension lists are rearrangements of
those of the first term. -/
theorem quantityExpression_accepts_perm (fuel : Nat) (env : Env) (s s2 : State)
    (a b : IrNode) (tok : Token) (rest : List Token) (n F : Nat) (p q : Physics)
    (ha : newtonParseQuantityTerm fuel env { s with currentParameterNumber := 0 }
      = .ok (a, ⟨tok :: rest, n⟩))
    (hop : tok.type = .Tplus ∨ tok.type = .Tminus)
    (hb : newtonParseQuantityTerm fuel env ⟨rest, n⟩ = .ok (b, s2))
    (hend : inFirst s2 .PlowPrecedenceBinaryOp = false)
    (hp : a.physics = some p) (hq : b.physics = some q)
    (hnum : p.numeratorDimensions.Perm q.numeratorDimensions)
    (hden : p.denominatorDimensions.Perm q.denominatorDimensions)
    (hF : fuel + 3 ≤ F) :
    ∃ node, newtonParseQuantityExpression F env s = .ok (node, s2) := by
  obtain ⟨F', rfl⟩ : ∃ F', F = F' + 1 := ⟨F - 1, by omega⟩
  have ha' : newtonParseQuantityTerm F' env { s with currentParameterNumber := 0 }
      = .ok (a, ⟨tok :: rest, n⟩) := (quantityTerm_fuel_le (by omega) env _).eq_ok ha
  obtain ⟨p', hp', hps⟩ := quantityTerm_inSync fuel env _ a _ ha
  obtain ⟨q', hq', hqs⟩ := quantityTerm_inSync fuel env _ b _ hb
  rw [hp] at hp'
  rw [hq] at hq'
  cases hp'
  cases hq'
  have hsame : SameDimensions a b := (sameDimensions_iff hp hq).mpr (inSync_perm hps hqs hnum hden)
  rw [quantityExpression_unfold F' env s a _ ha']
  obtain ⟨node, h, -⟩ := quantityExpressionLoop_chain_ok fuel env ⟨tok :: rest, n⟩ s2 [b]
    (TermChain.step tok rest n b s2 s2 [] hop hb (TermChain.done s2 hend)) _ a p F' hp
    (by
      intro t ht
      rw [List.mem_singleton] at ht
      rw [ht]
      exact hsame)
    (by simp only [List.length_singleton]; omega)
  exact ⟨node, h⟩

theorem ite_copyNumerator (dst src : Physics) :
    (if src.numeratorDimensions = [] then dst
      else newtonPhysicsCopyNumeratorDimensions dst src) = newtonPhysicsCopyNumeratorDimensions dst src := by
  by_cases h : src.numeratorDimensions = []
  · cases dst
    simp [h, newtonPhysicsCopyNumeratorDimensions, primeProduct]
  · simp [h]

theorem ite_copyDenominator (dst src : Physics) :
    (if src.denominatorDimensions = [] then dst
      else newtonPhysicsCopyDenominatorDimensions dst src) = newtonPhysicsCopyDenominatorDimensions dst src := by
  by_cases h : src.denominatorDimensions = []
  · cases dst
    simp [h, newtonPhysicsCopyDenominatorDimensions, primeProduct]
  · simp [h]

theorem ite_copyNumeratorToDenominator (dst src : Physics) :
    (if src.numeratorDimensions = [] then dst
      else newtonPhysicsCopyNumeratorToDenominatorDimensions dst src) = newtonPhysicsCopyNumeratorToDenominatorDimensions dst src := by
  by_cases h : src.numeratorDimensions = []
  · cases dst
    simp [h, newtonPhysicsCopyNumeratorToDenominatorDimensions, primeProduct]
  · simp [h]

theorem ite_copyDenominatorToNumerator (dst src : Physics) :
    (if src.denominatorDimensions = [] then dst
      else newtonPhysicsCopyDenominatorToNumeratorDimensions dst src) = newtonPhysicsCopyDenominatorToNumeratorDimensions dst src := by
  by_cases h : src.denominatorDimensions = []
  · cases dst
    simp [h, newtonPhysicsCopyDenominatorToNumeratorDimensions, primeProduct]
  · simp [h]

/-- The fold of the term `x * y` of two factors with physics: the lists of `x` followed
by the lists of `y`. -/
theorem termProduct_physics (nx ny binOp : IrNode) (px py : Physics)
    (hpx : nx.physics = some px) (hpy : ny.physics = some py) (hop : binOp.type = .Tmul)
    (hvec : ¬ (px.isVector = true ∧ py.isVector = true)) :
    ∃ a, (termStart none true nx >>= fun a =>
        termFold nx a [{ binOp := binOp, isPhysics := true, rightFactor := ny }]) = .ok a ∧
      a.physics.numeratorDimensions = px.numeratorDimensions ++ py.numeratorDimensions ∧
      a.physics.denominatorDimensions =
        px.denominatorDimensions ++ py.denominatorDimensions := by
  by_cases hvx : px.isVector = true
  · have hvy : ¬ py.isVector = true := fun h => hvec ⟨hvx, h⟩
    refine ⟨_, by simp [termStart, termFold, termStep, derefPhysics, hpx, hpy, hop, hvx, hvy,
      ite_copyNumerator, ite_copyDenominator]; rfl, ?_, ?_⟩ <;>
      simp [newtonPhysicsCopyNumeratorDimensions, newtonPhysicsCopyDenominatorDimensions,
        callocPhysics]
  · by_cases hvy : py.isVector = true
    · refine ⟨_, by simp [termStart, termFold, termStep, derefPhysics, hpx, hpy, hop, hvx, hvy,
        ite_copyNumerator, ite_copyDenominator, Newton.assert]; rfl, ?_, ?_⟩ <;>
        simp [newtonPhysicsCopyNumeratorDimensions, newtonPhysicsCopyDenominatorDimensions,
          callocPhysics]
    · refine ⟨_, by simp [termStart, termFold, termStep, derefPhysics, hpx, hpy, hop, hvx, hvy,
        ite_copyNumerator, ite_copyDenominator]; rfl, ?_, ?_⟩ <;>
        simp [newtonPhysicsCopyNumeratorDimensions, newtonPhysicsCopyDenominatorDimensions,
          callocPhysics]

/-- The quantity term `x * y` of two bound identifiers, not both vectors. -/
theorem quantityTerm_product (fuel : Nat) (env : Env) (x y : String) (px py : Physics)
    (more : List Token) (pn : Nat)
    (hx : env.currentScope.physicsForIdentifier x = some px)
    (hy : env.currentScope.physicsForIdentifier y = some py)
    (hvec : ¬ (px.isVector = true ∧ py.isVector = true))
    (hmore : LookaheadNotIn more [.Tmul, .Tdiv, .Texponent]) :
    ∃ node q pn', newtonParseQuantityTerm (fuel + 4) env
        ⟨Token.ident x :: Token.op .Tmul :: Token.ident y :: more, pn⟩
        = .ok (node, ⟨more, pn'⟩) ∧ node.physics = some q ∧
      q.numeratorDimensions = px.numeratorDimensions ++ py.numeratorDimensions ∧
      q.denominatorDimensions = px.denominatorDimensions ++ py.denominatorDimensions := by
  obtain ⟨nx, pn1, hfx, hpx, hidx⟩ := quantityFactor_simple (fuel + 2) env (.identifier x)
    (Token.op .Tmul :: Token.ident y :: more) pn ⟨px, hx⟩
    (lookahead_cons _ _ _ (by simp [Token.op]))
  obtain ⟨ny, pn2, hfy, hpy, hidy⟩ := quantityFactor_simple fuel env (.identifier y) more pn1
    ⟨py, hy⟩ (hmore.mono (by simp))
  simp only [SimpleFactor.token, SimpleFactor.binding, hx, hy, Option.isSome_some]
    at hfx hpx hidx hfy hpy hidy
  have hc : FactorChain (fuel + 1) env ⟨Token.op .Tmul :: Token.ident y :: more, pn1⟩ _
      ⟨more, pn2⟩ :=
    FactorChain.step (Token.op .Tmul) (Token.ident y :: more) pn1 ny ⟨more, pn2⟩ ⟨more, pn2⟩ []
      (Or.inl rfl) hfy (FactorChain.done _
        (inFirst_eq_false_of_lookahead more pn2 _ _ hmore (by simp [gNewtonFirsts])))
  obtain ⟨a, ha, hnum, hden⟩ := termProduct_physics nx ny
    (IrNode.mk (Token.op .Tmul).type (Token.op .Tmul).value none none
      (Token.op .Tmul).identifier []) px py hpx hpy rfl hvec
  obtain ⟨a0, ha0, ha1⟩ := bind_eq_ok ha
  refine ⟨termFinish a, a.physics, pn2, ?_, by simp [termFinish], hnum, hden⟩
  rw [quantityTerm_start (fuel + 3) env _ _ nx hfx, hidx, ha0, bind_ok,
    quantityTermLoop_fold (fuel + 1) env _ _ _ hc nx a0 (fuel + 3) (by simp), hidy, ha1,
    bind_ok]

/-- C15: two physics in sync whose numerator lists, and whose denominator lists, hold the
same dimensions in different orders have equal numerator and equal denominator prime
products; the additive check of `newtonParseQuantityExpression` accepts two terms with
such physics; and for two bound identifiers `x` and `y`, not both vectors, the expression
`x * y + y * x` is parsed to a node. -/
theorem dimension_check_order_independent (env : Env) :
    (∀ p q : Physics, p.InSync → q.InSync →
      p.numeratorDimensions.Perm q.numeratorDimensions →
      p.denominatorDimensions.Perm q.denominatorDimensions →
      p.numeratorPrimeProduct = q.numeratorPrimeProduct ∧
        p.denominatorPrimeProduct = q.denominatorPrimeProduct) ∧
    (∀ (fuel : Nat) (s s2 : State) (a b : IrNode) (tok : Token) (rest : List Token)
      (n F : Nat) (p q : Physics),
      newtonParseQuantityTerm fuel env { s with currentParameterNumber := 0 }
        = .ok (a, ⟨tok :: rest, n⟩) →
      (tok.type = .Tplus ∨ tok.type = .Tminus) →
      newtonParseQuantityTerm fuel env ⟨rest, n⟩ = .ok (b, s2) →
      inFirst s2 .PlowPrecedenceBinaryOp = false →
      a.physics = some p → b.physics = some q →
      p.numeratorDimensions.Perm q.numeratorDimensions →
      p.denominatorDimensions.Perm q.denominatorDimensions →
      fuel + 3 ≤ F →
      ∃ node, newtonParseQuantityExpression F env s = .ok (node, s2)) ∧
    (∀ (x y : String) (px py : Physics) (rest : List Token) (pn F : Nat),
      env.currentScope.physicsForIdentifier x = some px →
      env.currentScope.physicsForIdentifier y = some py →
      ¬ (px.isVector = true ∧ py.isVector = true) →
      LookaheadNotIn rest [.Tplus, .Tminus, .Tmul, .Tdiv, .Texponent] →
      7 ≤ F →
      ∃ node pn', newtonParseQuantityExpression F env
        ⟨Token.ident x :: Token.op .Tmul :: Token.ident y :: Token.op .Tplus ::
          Token.ident y :: Token.op .Tmul :: Token.ident x :: rest, pn⟩
        = .ok (node, ⟨rest, pn'⟩)) := by
  refine ⟨fun p q hp hq hn hd => inSync_perm hp hq hn hd, ?_, ?_⟩
  · intro fuel s s2 a b tok rest n F p q ha hop hb hend hp hq hn hd hF
    exact quantityExpression_accepts_perm fuel env s s2 a b tok rest n F p q ha hop hb hend hp
      hq hn hd hF
  · intro x y px py rest pn F hx hy hvec hrest hF
    obtain ⟨a, p, pn1, ha, hp, hpn, hpd⟩ := quantityTerm_product 0 env x y px py
      (Token.op .Tplus :: Token.ident y :: Token.op .Tmul :: Token.ident x :: rest) 0 hx hy hvec
      (lookahead_cons _ _ _ (by simp [Token.op]))
    obtain ⟨b, q, pn2, hb, hq, hqn, hqd⟩ := quantityTerm_product 0 env y x py px rest pn1 hy hx
      (fun h => hvec ⟨h.2, h.1⟩) (hrest.mono (by simp))
    obtain ⟨node, h⟩ := quantityExpression_accepts_perm 4 env
      ⟨Token.ident x :: Token.op .Tmul :: Token.ident y :: Token.op .Tplus ::
        Token.ident y :: Token.op .Tmul :: Token.ident x :: rest, pn⟩ ⟨rest, pn2⟩ a b
      (Token.op .Tplus) _ pn1 F p q ha (Or.inl rfl) hb
      (inFirst_eq_false_of_lookahead rest pn2 _ _ hrest (by simp [gNewtonFirsts])) hp hq
      (by rw [hpn, hqn]; exact List.perm_append_comm)
      (by rw [hpd, hqd]; exact List.perm_append_comm) hF
    exact ⟨node, pn2, h⟩

/-- C15 at `mass * velocity + velocity * mass` in the example scope. -/
theorem dimension_check_order_independent_witness :
    ∃ node pn', newtonParseQuantityExpression 7 exampleEnv
      ⟨[Token.ident "mass", Token.op .Tmul, Token.ident "velocity", Token.op .Tplus,
        Token.ident "velocity", Token.op .Tmul, Token.ident "mass"], 0⟩
      = .ok (node, ⟨[], pn'⟩) :=
  (dimension_check_order_independent exampleEnv).2.2 "mass" "velocity" _ _ [] 0 7 rfl rfl
    (by decide) (by decide) (by decide)

/-! ## Numbering of the free identifiers -/

@[simp] theorem parameters_mk (t : IrNodeType) (v : ℚ) (p : Option Physics) (n : Option Nat)
    (s : Option String) (c : List IrNode) :
    (IrNode.mk t v p n s c).parameters =
      (match s, n with
        | some name, some k => [(name, k)]
        | _, _ => []) ++ parametersOfChildren c := by
  cases s <;> cases n <;> simp [IrNode.parameters]

@[simp] theorem parametersOfChildren_nil : parametersOfChildren [] = [] := by
  rw [parametersOfChildren]

@[simp] theorem parametersOfChildren_cons (x : IrNode) (xs : List IrNode) :
    parametersOfChildren (x :: xs) = x.parameters ++ parametersOfChildren xs := by
  rw [parametersOfChildren]

@[simp] theorem parametersOfChildren_append (xs ys : List IrNode) :
    parametersOfChildren (xs ++ ys) = parametersOfChildren xs ++ parametersOfChildren ys := by
  induction xs with
  | nil => simp
  | cons x xs ih => simp [ih]

@[simp] theorem parameters_addLeaf (a b : IrNode) :
    (addLeaf a b).parameters = a.parameters ++ b.parameters := by
  cases a
  simp [addLeaf]

@[simp] theorem parameters_addLeafWithChainingSeq (a b : IrNode) :
    (addLeafWithChainingSeq a b).parameters = a.parameters ++ b.parameters := by
  simp [addLeafWithChainingSeq]

@[simp] theorem parameters_setValue (a : IrNode) (v : ℚ) :
    (a.setValue v).parameters = a.parameters := by
  cases a
  simp [IrNode.setValue]

@[simp] theorem parameters_setPhysics (a : IrNode) (p : Option Physics) :
    (a.setPhysics p).parameters = a.parameters := by
  cases a
  simp [IrNode.setPhysics]

@[simp] theorem parameters_genIrNode (t : IrNodeType) : (genIrNode t).parameters = [] := by
  simp [genIrNode]

theorem parameters_attachLeftTerm (e l : IrNode) (he : e.parameters = []) :
    (attachLeftTerm e l).parameters = l.parameters := by
  cases e with
  | mk t v p n s c =>
    simp only [parameters_mk, List.append_eq_nil] at he
    simp [attachLeftTerm, he.1, he.2]

theorem numbered_nil (k : Nat) : numbered k [] = [] := rfl

theorem numbered_append (k : Nat) (a b : List String) :
    numbered k (a ++ b) = numbered k a ++ numbered (k + a.length) b := by
  induction a generalizing k with
  | nil => simp [numbered]
  | cons x xs ih =>
    have h := ih (k + 1)
    simp only [numbered, List.cons_append, List.length_cons, List.range'_succ, List.zip_cons_cons,
      List.length_append] at h ⊢
    rw [h, show k + 1 + xs.length = k + (xs.length + 1) by omega]

theorem freeNames_append (env : Env) (a b : List Token) :
    freeNames env (a ++ b) = freeNames env a ++ freeNames env b := by
  simp [freeNames]

theorem Numbers.nil (env : Env) (s : State) : Numbers env s [] s :=
  ⟨[], by simp, by simp [freeNames, numbered], by simp [freeNames]⟩

theorem Numbers.append {env : Env} {s s1 s2 : State} {p1 p2 : List (String × Nat)}
    (h1 : Numbers env s p1 s1) (h2 : Numbers env s1 p2 s2) : Numbers env s (p1 ++ p2) s2 := by
  obtain ⟨c1, ht1, hp1, hn1⟩ := h1
  obtain ⟨c2, ht2, hp2, hn2⟩ := h2
  refine ⟨c1 ++ c2, by rw [ht1, ht2, List.append_assoc], ?_, ?_⟩
  · rw [freeNames_append, numbered_append, hp1, hp2, hn1]
  · rw [freeNames_append, List.length_append, hn2, hn1]
    omega

theorem Numbers.noParen {env : Env} {s s' : State} {p : List (String × Nat)}
    (h : Numbers env s p s') (hs : NoParen s.tokens) : NoParen s'.tokens := by
  obtain ⟨c, ht, -, -⟩ := h
  intro tok hmem
  exact hs tok (by rw [ht]; exact List.mem_append_right _ hmem)

/-- A terminal other than an identifier numbers nothing. -/
theorem terminal_numbers (env : Env) (t : IrNodeType) (s : State) (node : IrNode)
    (s' : State) (ht : t ≠ .Tidentifier)
    (h : newtonParseTerminal t s = .ok (node, s')) :
    Numbers env s [] s' ∧ node.parameters = [] := by
  unfold newtonParseTerminal at h
  split at h
  · cases h
  · rename_i tok rest hs
    split at h
    · rename_i htype
      simp only [Except.ok.injEq, Prod.mk.injEq] at h
      obtain ⟨hn, hs'⟩ := h
      have hfree : freeName env tok = none := by
        simp [freeName, htype, ht]
      refine ⟨⟨[tok], by rw [hs, ← hs']; rfl, by simp [freeNames, hfree, numbered],
        by simp [freeNames, hfree, ← hs']⟩, ?_⟩
      rw [← hn]
      cases tok.identifier <;> simp
    · cases h

theorem peekCheck_leftParen_of_noParen {s : State} (h : NoParen s.tokens) :
    peekCheck s .TleftParen = false := by
  cases hs : s.tokens with
  | nil => simp [peekCheck, hs]
  | cons tok rest =>
    have := h tok (by rw [hs]; exact List.mem_cons_self _ _)
    simp [peekCheck, hs, this]

theorem unaryOp_numbers (env : Env) (s : State) (node : IrNode) (s' : State)
    (h : newtonParseUnaryOp s = .ok (node, s')) :
    Numbers env s [] s' ∧ node.parameters = [] := by
  unfold newtonParseUnaryOp at h
  split at h
  · exact terminal_numbers env _ s node s' (by decide) h
  · cases h

theorem midPrecedenceBinaryOp_numbers (env : Env) (s : State) (node : IrNode) (s' : State)
    (h : newtonParseMidPrecedenceBinaryOp s = .ok (node, s')) :
    Numbers env s [] s' ∧ node.parameters = [] := by
  unfold newtonParseMidPrecedenceBinaryOp at h
  split at h
  · exact terminal_numbers env _ s node s' (by decide) h
  · split at h
    · exact terminal_numbers env _ s node s' (by decide) h
    · cases h

theorem highPrecedenceBinaryOp_numbers (env : Env) (s : State) (node : IrNode) (s' : State)
    (h : newtonParseHighPrecedenceBinaryOp s = .ok (node, s')) :
    Numbers env s [] s' ∧ node.parameters = [] := by
  unfold newtonParseHighPrecedenceBinaryOp at h
  dsimp only at h
  split at h
  · cases ht : newtonParseTerminal .Texponent s with
    | error e => simp [ht, Except.map] at h
    | ok r =>
      obtain ⟨n0, s0⟩ := r
      simp only [ht, Except.map, Except.ok.injEq, Prod.mk.injEq] at h
      obtain ⟨h1, h2⟩ := terminal_numbers env _ s n0 s0 (by decide) ht
      rw [← h.1, ← h.2]
      exact ⟨h1, by simp [h2]⟩
  · cases h

theorem lowPrecedenceBinaryOp_numbers (env : Env) (s : State) (node : Option IrNode)
    (s' : State) (e : IrNode)
    (h : newtonParseLowPrecedenceBinaryOp s = .ok (node, s')) :
    Numbers env s [] s' ∧ (addLeafWithChainingSeqOpt e node).parameters = e.parameters := by
  unfold newtonParseLowPrecedenceBinaryOp at h
  split at h
  · cases ht : newtonParseTerminal .Tplus s with
    | error e => simp [ht, Except.map] at h
    | ok r =>
      obtain ⟨n0, s0⟩ := r
      simp only [ht, Except.map, Except.ok.injEq, Prod.mk.injEq] at h
      obtain ⟨h1, h2⟩ := terminal_numbers env _ s n0 s0 (by decide) ht
      rw [← h.1, ← h.2]
      exact ⟨h1, by simp [addLeafWithChainingSeqOpt, h2]⟩
  · split at h
    · cases ht : newtonParseTerminal .Tminus s with
      | error e => simp [ht, Except.map] at h
      | ok r =>
        obtain ⟨n0, s0⟩ := r
        simp only [ht, Except.map, Except.ok.injEq, Prod.mk.injEq] at h
        obtain ⟨h1, h2⟩ := terminal_numbers env _ s n0 s0 (by decide) ht
        rw [← h.1, ← h.2]
        exact ⟨h1, by simp [addLeafWithChainingSeqOpt, h2]⟩
    · simp only [Except.ok.injEq, Prod.mk.injEq] at h
      rw [← h.1, ← h.2]
      exact ⟨Numbers.nil env s, by simp [addLeafWithChainingSeqOpt]⟩

theorem integer_numbers (env : Env) (s : State) (node : IrNode) (s' : State)
    (h : newtonParseInteger s = .ok (node, s')) :
    Numbers env s [] s' ∧ node.parameters = [] := by
  unfold newtonParseInteger at h
  obtain ⟨⟨n1, s1⟩, hu, h⟩ := bind_eq_ok h
  obtain ⟨⟨n2, s2⟩, hnum, h⟩ := bind_eq_ok h
  obtain ⟨_, -, h⟩ := bind_eq_ok h
  simp only [pure_eq_ok, Except.ok.injEq, Prod.mk.injEq] at h
  obtain ⟨hn2, hp2⟩ := terminal_numbers env _ s1 n2 s2 (by decide) hnum
  have h1 : Numbers env s [] s1 ∧ n1.parameters = [] := by
    split at hu
    · obtain ⟨⟨u, su⟩, hun, hu⟩ := bind_eq_ok hu
      simp only [pure_eq_ok, Except.ok.injEq, Prod.mk.injEq] at hu
      obtain ⟨a, b⟩ := unaryOp_numbers env s u su hun
      rw [← hu.1, ← hu.2]
      exact ⟨a, by simp [b]⟩
    · simp only [pure_eq_ok, Except.ok.injEq, Prod.mk.injEq] at hu
      rw [← hu.1, ← hu.2]
      exact ⟨Numbers.nil env s, by simp⟩
  rw [← h.1, ← h.2]
  exact ⟨by simpa using h1.1.append hn2, by simp [h1.2, hp2]⟩

theorem exponential_numbers (fuel : Nat) (env : Env) (baseNode : IrNode) (s : State)
    (exponent base : IrNode) (s' : State) (hs : NoParen s.tokens)
    (h : newtonParseExponentialExpression fuel env baseNode s = .ok ((exponent, base), s')) :
    Numbers env s [] s' ∧ exponent.parameters = [] ∧ base.parameters = baseNode.parameters := by
  unfold newtonParseExponentialExpression at h
  obtain ⟨⟨e, s1⟩, hexp, h⟩ := bind_eq_ok h
  rw [peekCheck_leftParen_of_noParen hs] at hexp
  simp only [Bool.false_eq_true, if_false] at hexp
  obtain ⟨hn, hp⟩ := integer_numbers env s e s1 hexp
  obtain ⟨bp, -, h⟩ := bind_eq_ok h
  by_cases hz : e.value = 0
  · simp only [hz, if_true, pure_eq_ok, Except.ok.injEq, Prod.mk.injEq] at h
    rw [← h.1.1, ← h.1.2, ← h.2]
    exact ⟨hn, hp, by simp⟩
  · simp only [hz, if_false] at h
    obtain ⟨⟨b1, c1⟩, -, h⟩ := bind_eq_ok h
    obtain ⟨⟨b2, c2⟩, -, h⟩ := bind_eq_ok h
    simp only [pure_eq_ok, Except.ok.injEq, Prod.mk.injEq] at h
    rw [← h.1.1, ← h.1.2, ← h.2]
    exact ⟨hn, hp, by simp⟩

theorem identifierUsage_shape (env : Env) (s : State) (node : IrNode) (s' : State)
    (h : newtonParseIdentifierUsageTerminal env s = .ok (node, s')) :
    ∃ tok rest name p, s.tokens = tok :: rest ∧ tok.type = .Tidentifier ∧
      tok.identifier = some name ∧ env.currentScope.physicsForIdentifier name = some p ∧
      node = IrNode.mk tok.type p.value (some (deepCopyPhysicsNode p)) none (some name) [] ∧
      s' = { s with tokens := rest } := by
  unfold newtonParseIdentifierUsageTerminal at h
  split at h
  · cases h
  · rename_i tok rest hs
    split at h
    · rename_i htype
      split at h
      · cases h
      · rename_i name hname
        split at h
        · cases h
        · rename_i p hp
          simp only [Except.ok.injEq, Prod.mk.injEq] at h
          exact ⟨tok, rest, name, p, hs, htype, hname, hp, h.1.symm, h.2.symm⟩
    · cases h

/-- The base of a factor written without parentheses numbers its identifier, if free. -/
theorem quantityFactorBase_numbers (fuel : Nat) (env : Env) (s : State) (fac : IrNode)
    (s1 : State) (hs : NoParen s.tokens)
    (h : quantityFactorBase fuel env s = .ok (fac, s1)) :
    Numbers env s fac.parameters s1 := by
  unfold quantityFactorBase at h
  by_cases h1 : peekCheck s .Tidentifier = true
  · rw [if_pos h1] at h
    obtain ⟨⟨n0, s0⟩, hid, h⟩ := bind_eq_ok h
    obtain ⟨tok, rest, name, p, htoks, htype, hname, hp, hn0, hs0⟩ :=
      identifierUsage_shape env s n0 s0 hid
    subst hn0
    simp only [derefPhysics, IrNode.physics_mk, bind_ok, deepCopyPhysicsNode_eq,
      setValue_tokenString, setPhysics_tokenString, IrNode.tokenString_mk] at h
    by_cases hfree : ¬ newtonIsDimensionless p ∧ ¬ p.isConstant
        ∧ env.newtonIrTopScope.dimensionForIdentifier name = none
    · rw [if_pos hfree] at h
      simp only [pure_eq_ok, Except.ok.injEq, Prod.mk.injEq] at h
      have hfn : freeName env tok = some name := by
        simp only [freeName, htype, if_true, hname, hp]
        rw [if_pos hfree]
      refine ⟨[tok], ?_, ?_, ?_⟩
      · rw [htoks, ← h.2, hs0]
        rfl
      · rw [← h.1]
        simp [freeNames, hfn, numbered, IrNode.setPhysics, IrNode.setValue,
          IrNode.setParameterNumber, hs0]
      · rw [← h.2]
        simp [freeNames, hfn, hs0]
    · rw [if_neg hfree] at h
      simp only [pure_eq_ok, Except.ok.injEq, Prod.mk.injEq] at h
      have hfn : freeName env tok = none := by
        simp only [freeName, htype, if_true, hname, hp]
        rw [if_neg hfree]
      refine ⟨[tok], ?_, ?_, ?_⟩
      · rw [htoks, ← h.2, hs0]
        rfl
      · rw [← h.1]
        simp [freeNames, hfn, numbered, IrNode.setPhysics, IrNode.setValue]
      · rw [← h.2]
        simp [freeNames, hfn, hs0]
  · rw [if_neg h1] at h
    by_cases h2 : peekCheck s .Tnumber = true
    · rw [if_pos h2] at h
      obtain ⟨a, b⟩ := terminal_numbers env _ s fac s1 (by decide) h
      rw [b]
      exact a
    · rw [if_neg h2, peekCheck_leftParen_of_noParen hs] at h
      cases h

/-- A factor written without parentheses numbers its identifier, if free. -/
theorem quantityFactor_numbers (fuel : Nat) (env : Env) (s : State) (f : IrNode)
    (s' : State) (hs : NoParen s.tokens)
    (h : newtonParseQuantityFactor fuel env s = .ok (f, s')) :
    Numbers env s f.parameters s' := by
  cases fuel with
  | zero => simp [newtonParseQuantityFactor] at h
  | succ k =>
    rw [quantityFactor_eq_base] at h
    obtain ⟨⟨fac, s1⟩, hbase, h⟩ := bind_eq_ok h
    have hb := quantityFactorBase_numbers k env s fac s1 hs hbase
    dsimp only at h
    by_cases hx : inFirst s1 .PhighPrecedenceBinaryOp = true
    · rw [if_pos hx] at h
      obtain ⟨⟨op, s2⟩, hop, h⟩ := bind_eq_ok h
      obtain ⟨⟨⟨ex, base⟩, s3⟩, hexp, h⟩ := bind_eq_ok h
      simp only [pure_eq_ok, Except.ok.injEq, Prod.mk.injEq] at h
      obtain ⟨ho1, ho2⟩ := highPrecedenceBinaryOp_numbers env s1 op s2 hop
      obtain ⟨he1, he2, he3⟩ := exponential_numbers k env _ s2 ex base s3
        (ho1.noParen (hb.noParen hs)) hexp
      have hpar : f.parameters = fac.parameters := by
        rw [← h.1]
        split <;> simp [he2, he3, ho2]
      rw [hpar, ← h.2]
      simpa using (hb.append ho1).append he1
    · rw [if_neg hx] at h
      simp only [pure_eq_ok, Except.ok.injEq, Prod.mk.injEq] at h
      rw [← h.1, ← h.2]
      exact hb

/-- The loop of a term written without parentheses numbers the free identifiers it
reads. -/
theorem quantityTermLoop_numbers (fuel : Nat) :
    ∀ (env : Env) (l i : IrNode) (p : Physics) (b : Bool) (n : Nat) (s : State)
      (t : IrNode) (s' : State), NoParen s.tokens →
      quantityTermLoop fuel env l i p b n s = .ok (t, s') →
      ∃ ps, Numbers env s ps s' ∧ t.parameters = i.parameters ++ ps := by
  induction fuel with
  | zero =>
    intro env l i p b n s t s' _ h
    simp [quantityTermLoop] at h
  | succ f ih =>
    intro env l i p b n s t s' hs h
    rw [quantityTermLoop] at h
    split at h
    · obtain ⟨⟨binOp, s1⟩, hop, h⟩ := bind_eq_ok h
      obtain ⟨⟨rf, s2⟩, hrf, h⟩ := bind_eq_ok h
      obtain ⟨⟨ph, nv⟩, -, h⟩ := bind_eq_ok h
      obtain ⟨ph', -, h⟩ := bind_eq_ok h
      obtain ⟨ho1, ho2⟩ := midPrecedenceBinaryOp_numbers env s binOp s1 hop
      have hf := quantityFactor_numbers f env s1 rf s2 (ho1.noParen hs) hrf
      obtain ⟨ps, hps, hpar⟩ := ih _ _ _ _ _ _ _ _ _ (hf.noParen (ho1.noParen hs)) h
      refine ⟨rf.parameters ++ ps, by simpa using (ho1.append hf).append hps, ?_⟩
      rw [hpar]
      have : ∀ x : IrNode, x.parameters = i.parameters ++ rf.parameters →
          x.parameters ++ ps = i.parameters ++ (rf.parameters ++ ps) := by
        intro x hx
        rw [hx, List.append_assoc]
      apply this
      split
      · split
        · simp [ho2]
        · split <;> simp [ho2]
      · simp [ho2]
    · simp only [pure_eq_ok, Except.ok.injEq, Prod.mk.injEq] at h
      refine ⟨[], by rw [← h.2]; exact Numbers.nil env s, ?_⟩
      rw [← h.1]
      split <;> simp

/-- A term written without parentheses numbers its free identifiers. -/
theorem quantityTerm_numbers (fuel : Nat) (env : Env) (s : State) (t : IrNode) (s' : State)
    (hs : NoParen s.tokens) (h : newtonParseQuantityTerm fuel env s = .ok (t, s')) :
    Numbers env s t.parameters s' := by
  cases fuel with
  | zero => simp [newtonParseQuantityTerm] at h
  | succ f =>
    rw [newtonParseQuantityTerm] at h
    obtain ⟨⟨i, u, s1⟩, hu, h⟩ := bind_eq_ok h
    obtain ⟨⟨lf, s2⟩, hlf, h⟩ := bind_eq_ok h
    obtain ⟨⟨ph, nv⟩, -, h⟩ := bind_eq_ok h
    have h1 : Numbers env s [] s1 ∧ i.parameters = [] := by
      split at hu
      · obtain ⟨⟨un, su⟩, hun, hu⟩ := bind_eq_ok hu
        simp only [pure_eq_ok, Except.ok.injEq, Prod.mk.injEq] at hu
        obtain ⟨a, b⟩ := unaryOp_numbers env s un su hun
        rw [← hu.1, ← hu.2.2]
        exact ⟨a, by simp [b]⟩
      · simp only [pure_eq_ok, Except.ok.injEq, Prod.mk.injEq] at hu
        rw [← hu.1, ← hu.2.2]
        exact ⟨Numbers.nil env s, by simp⟩
    have hf := quantityFactor_numbers f env s1 lf s2 (h1.1.noParen hs) hlf
    obtain ⟨ps, hps, hpar⟩ := quantityTermLoop_numbers f _ _ _ _ _ _ _ _ _
      (hf.noParen (h1.1.noParen hs)) h
    rw [hpar]
    have : ∀ x : IrNode, x.parameters = lf.parameters →
        Numbers env s (x.parameters ++ ps) s' := by
      intro x hx
      rw [hx]
      simpa using (h1.1.append hf).append hps
    apply this
    split <;> simp [h1.2]

/-- The loop of an expression written without parentheses numbers the free identifiers
of the terms it reads. -/
theorem quantityExpressionLoop_numbers (fuel : Nat) :
    ∀ (env : Env) (e l : IrNode) (s : State) (node : IrNode) (s' : State),
      NoParen s.tokens → e.parameters = [] →
      quantityExpressionLoop fuel env e l s = .ok (node, s') →
      ∃ ps, Numbers env s ps s' ∧ node.parameters = l.parameters ++ ps := by
  induction fuel with
  | zero =>
    intro env e l s node s' _ _ h
    simp [quantityExpressionLoop] at h
  | succ f ih =>
    intro env e l s node s' hs he h
    rw [quantityExpressionLoop] at h
    split at h
    · obtain ⟨⟨binOp, s1⟩, hop, h⟩ := bind_eq_ok h
      obtain ⟨⟨rt, s2⟩, hrt, h⟩ := bind_eq_ok h
      obtain ⟨lp, -, h⟩ := bind_eq_ok h
      obtain ⟨rp, -, h⟩ := bind_eq_ok h
      obtain ⟨_, -, h⟩ := bind_eq_ok h
      obtain ⟨_, -, h⟩ := bind_eq_ok h
      obtain ⟨ho1, ho2⟩ := lowPrecedenceBinaryOp_numbers env s binOp s1 e hop
      have ht := quantityTerm_numbers f env s1 rt s2 (ho1.noParen hs) hrt
      obtain ⟨ps, hps, hpar⟩ := ih env _ _ _ _ _ (ht.noParen (ho1.noParen hs))
        (by simp [ho2, he]) h
      refine ⟨rt.parameters ++ ps, by simpa using (ho1.append ht).append hps, ?_⟩
      rw [hpar]
      simp
    · simp only [pure_eq_ok, Except.ok.injEq, Prod.mk.injEq] at h
      refine ⟨[], by rw [← h.2]; exact Numbers.nil env s, ?_⟩
      rw [← h.1, parameters_attachLeftTerm e l he]
      simp

/-- An expression written without parentheses numbers its free identifiers from 0. -/
theorem quantityExpression_numbers (fuel : Nat) (env : Env) (s : State) (node : IrNode)
    (s' : State) (hs : NoParen s.tokens)
    (h : newtonParseQuantityExpression fuel env s = .ok (node, s')) :
    Numbers env { s with currentParameterNumber := 0 } node.parameters s' := by
  cases fuel with
  | zero => simp [newtonParseQuantityExpression] at h
  | succ f =>
    rw [newtonParseQuantityExpression] at h
    dsimp only at h
    split at h
    · obtain ⟨⟨lt, s1⟩, hlt, h⟩ := bind_eq_ok h
      have ht := quantityTerm_numbers f env { s with currentParameterNumber := 0 } lt s1 hs hlt
      obtain ⟨ps, hps, hpar⟩ := quantityExpressionLoop_numbers f env _ _ _ _ _
        (ht.noParen hs) (by simp) h
      rw [hpar]
      exact ht.append hps
    · cases h

/-- C11, the claim as stated fails where an identifier occurs twice: `mass * mass * m`
contains the two distinct free identifiers `mass` and `m`, and its three identifier
occurrences get the parameter numbers 0, 1 and 2, so `m` gets 2. -/
theorem quantityExpression_numbers_occurrences :
    resultParameters (newtonParseQuantityExpression 6 exampleEnv
      ⟨[Token.ident "mass", Token.op .Tmul, Token.ident "mass", Token.op .Tmul,
        Token.ident "m"], 0⟩) = some [("mass", 0), ("mass", 1), ("m", 2)] := by
  decide!

/-- C11 as amended: let a quantity expression be written without parentheses, let its
first term and the terms that follow parse, and let the terms agree on both prime
products. Then, whatever the parameter counter before the call,
`newtonParseQuantityExpression` returns a node whose free identifier occurrences carry,
left to right, the parameter numbers 0, 1, 2, ..., and leaves the counter at their number;
two free occurrences `x` then `y` get 0 and 1. -/
theorem quantityExpression_numbers_free_identifiers (fuel : Nat) (env : Env)
    (ts : List Token) (pn : Nat) (s1 s' : State) (t1 : IrNode) (terms : List IrNode) (F : Nat)
    (hts : NoParen ts)
    (h1 : newtonParseQuantityTerm fuel env ⟨ts, 0⟩ = .ok (t1, s1))
    (hc : TermChain fuel env s1 terms s')
    (hall : ∀ t ∈ terms, SameDimensions t1 t)
    (hF : fuel + terms.length + 2 ≤ F) :
    ∃ node consumed, newtonParseQuantityExpression F env ⟨ts, pn⟩ = .ok (node, s') ∧
      ts = consumed ++ s'.tokens ∧
      node.parameters = numbered 0 (freeNames env consumed) ∧
      s'.currentParameterNumber = (freeNames env consumed).length ∧
      ∀ x y, freeNames env consumed = [x, y] → node.parameters = [(x, 0), (y, 1)] := by
  obtain ⟨F', rfl⟩ : ∃ F', F = F' + 1 := ⟨F - 1, by omega⟩
  have h1' : newtonParseQuantityTerm F' env
      { (⟨ts, pn⟩ : State) with currentParameterNumber := 0 } = .ok (t1, s1) :=
    (quantityTerm_fuel_le (by omega) env _).eq_ok h1
  obtain ⟨lp, hlp⟩ := quantityTerm_physics fuel env _ t1 s1 h1
  obtain ⟨node, hnode, -⟩ := quantityExpressionLoop_chain_ok fuel env s1 s' terms hc
    ((((genIrNode .PquantityExpression).setPhysics (some callocPhysics)).setValue
      t1.value).setPhysics t1.physics) t1 lp F' hlp hall (by omega)
  have hexp : newtonParseQuantityExpression (F' + 1) env ⟨ts, pn⟩ = .ok (node, s') := by
    rw [quantityExpression_unfold F' env ⟨ts, pn⟩ t1 s1 h1']
    exact hnode
  obtain ⟨consumed, hcons, hpar, hcnt⟩ := quantityExpression_numbers (F' + 1) env ⟨ts, pn⟩
    node s' hts hexp
  simp only [Nat.zero_add] at hcnt
  refine ⟨node, consumed, hexp, hcons, hpar, hcnt, ?_⟩
  intro x y hxy
  rw [hpar, hxy]
  rfl

/-- C11 as amended, at `mass * m` parsed with the counter at 7 and parsed again with the
counter the first parse left. -/
theorem quantityExpression_numbers_free_identifiers_witness :
    resultParameters (newtonParseQuantityExpression 5 exampleEnv
      ⟨[Token.ident "mass", Token.op .Tmul, Token.ident "m"], 7⟩)
      = some [("mass", 0), ("m", 1)] ∧
    resultParameters (newtonParseQuantityExpression 5 exampleEnv
      ⟨[Token.ident "mass", Token.op .Tmul, Token.ident "m"], 2⟩)
      = some [("mass", 0), ("m", 1)] := by
  obtain ⟨node, consumed, h, hcons, -, hcnt, hxy⟩ :=
    quantityExpression_numbers_free_identifiers 3 exampleEnv
      [Token.ident "mass", Token.op .Tmul, Token.ident "m"] 7 _ _ _ [] 5 (by decide) rfl
      (TermChain.done _ rfl) (by simp) (by decide)
  obtain ⟨node', consumed', h', hcons', -, hcnt', hxy'⟩ :=
    quantityExpression_numbers_free_identifiers 3 exampleEnv
      [Token.ident "mass", Token.op .Tmul, Token.ident "m"] 2 _ _ _ [] 5 (by decide) rfl
      (TermChain.done _ rfl) (by simp) (by decide)
  simp only [List.append_nil] at hcons hcons'
  rw [h, h']
  simp only [resultParameters]
  rw [hxy "mass" "m" (by rw [← hcons]; decide), hxy' "mass" "m" (by rw [← hcons']; decide)]
  exact ⟨rfl, rfl⟩

/-! ## The driver loop of `main` -/

/-- C24: the numeric term `2 / (1 - 1)` is parsed to its end without any error, although
its right factor `(1 - 1)`, joined by `/`, has value 0: `newtonParseNumericTerm` divides
without testing the divisor, and `newtonParseNumericFactor` rejects only the literal 0
(`2 / 0` ends in the assertion failure). -/
theorem numericTerm_divides_by_zero :
    resultValue (newtonParseNumericFactor 10 exampleEnv
      ⟨[Token.op .TleftParen, Token.number 1, Token.op .Tminus, Token.number 1,
        Token.op .TrightParen], 0⟩) = some 0 ∧
    resultTokens (newtonParseNumericTerm 12 exampleEnv
      ⟨[Token.number 2, Token.op .Tdiv, Token.op .TleftParen, Token.number 1,
        Token.op .Tminus, Token.number 1, Token.op .TrightParen], 0⟩) = some [] ∧
    resultError (newtonParseNumericTerm 12 exampleEnv
      ⟨[Token.number 2, Token.op .Tdiv, Token.op .TleftParen, Token.number 1,
        Token.op .Tminus, Token.number 1, Token.op .TrightParen], 0⟩) = none ∧
    newtonParseNumericTerm 12 exampleEnv
      ⟨[Token.number 2, Token.op .Tdiv, Token.number 0], 0⟩ = .error .assertionFailure := by
  decide!

/-- C25: on a numeric literal of value `n`, `newtonParseInteger` returns a node of value
`n`, and on a minus followed by the literal a node of value `-n`, consuming these tokens,
when `n` is not 0; when `n` is 0, the resulting value is 0 and both end in the assertion
failure. -/
theorem newtonParseInteger_value (minus number : Token) (rest : List Token) (pn : Nat)
    (hminus : minus.type = .Tminus) (hnumber : number.type = .Tnumber) :
    (number.value ≠ 0 →
      (∃ node, newtonParseInteger ⟨number :: rest, pn⟩ = .ok (node, ⟨rest, pn⟩) ∧
        node.value = number.value) ∧
      (∃ node, newtonParseInteger ⟨minus :: number :: rest, pn⟩ = .ok (node, ⟨rest, pn⟩) ∧
        node.value = -number.value)) ∧
    (number.value = 0 →
      newtonParseInteger ⟨number :: rest, pn⟩ = .error .assertionFailure ∧
      newtonParseInteger ⟨minus :: number :: rest, pn⟩ = .error .assertionFailure) := by
  constructor
  · intro hn
    constructor
    · simp [newtonParseInteger, inFirst, gNewtonFirsts, hnumber, newtonParseTerminal,
        Newton.assert, hn, genIrNode]
    · simp [newtonParseInteger, inFirst, gNewtonFirsts, hminus, hnumber, newtonParseTerminal,
        Newton.assert, hn, genIrNode, newtonParseUnaryOp, peekCheck]
  · intro hn
    constructor
    · simp [newtonParseInteger, inFirst, gNewtonFirsts, hnumber, newtonParseTerminal,
        Newton.assert, hn, genIrNode]
    · simp [newtonParseInteger, inFirst, gNewtonFirsts, hminus, hnumber, newtonParseTerminal,
        Newton.assert, hn, genIrNode, newtonParseUnaryOp, peekCheck]

/-- C25 at the exponents `-2` and `0`. -/
theorem newtonParseInteger_value_witness :
    (∃ node, newtonParseInteger ⟨[Token.op .Tminus, Token.number 2], 0⟩ = .ok (node, ⟨[], 0⟩) ∧
      node.value = -(Token.number 2).value) ∧
    newtonParseInteger ⟨[Token.number 0], 0⟩ = .error .assertionFailure :=
  ⟨((newtonParseInteger_value (Token.op .Tminus) (Token.number 2) [] 0 rfl rfl).1
      (by simp [Token.number])).2,
   ((newtonParseInteger_value (Token.op .Tminus) (Token.number 0) [] 0 rfl rfl).2 rfl).1⟩

/-- C26: `newtonParseNumericFactor` ends in the assertion failure on an identifier bound
to a physics that is not flagged constant and on a numeric literal of value 0, whatever
follows. On an identifier bound to a constant and on a literal of non-zero value, not
followed by `**`, it returns the node of that atom. On a parenthesized numeric
expression, not followed by `**`, it returns the node of the expression. -/
theorem numericFactor_atoms (fuel : Nat) (env : Env) (tok : Token) (rest : List Token)
    (pn : Nat) :
    (∀ name p, tok.type = .Tidentifier → tok.identifier = some name →
      env.currentScope.physicsForIdentifier name = some p →
      (p.isConstant = false →
        newtonParseNumericFactor (fuel + 1) env ⟨tok :: rest, pn⟩ = .error .assertionFailure) ∧
      (p.isConstant = true → LookaheadNotIn rest [.Texponent] →
        ∃ node, newtonParseNumericFactor (fuel + 1) env ⟨tok :: rest, pn⟩
            = .ok (node, ⟨rest, pn⟩) ∧
          node.value = p.value ∧ node.physics = some p ∧ node.tokenString = some name)) ∧
    (tok.type = .Tnumber →
      (tok.value = 0 →
        newtonParseNumericFactor (fuel + 1) env ⟨tok :: rest, pn⟩ = .error .assertionFailure) ∧
      (tok.value ≠ 0 → LookaheadNotIn rest [.Texponent] →
        ∃ node, newtonParseNumericFactor (fuel + 1) env ⟨tok :: rest, pn⟩
            = .ok (node, ⟨rest, pn⟩) ∧
          node.value = tok.value ∧ node.type = .Tnumber)) ∧
    (tok.type = .TleftParen → ∀ (e : IrNode) (close : Token) (more : List Token) (n : Nat),
      newtonParseNumericExpression fuel env ⟨rest, pn⟩ = .ok (e, ⟨close :: more, n⟩) →
      close.type = .TrightParen → LookaheadNotIn more [.Texponent] →
      newtonParseNumericFactor (fuel + 1) env ⟨tok :: rest, pn⟩ = .ok (e, ⟨more, n⟩)) := by
  have hhigh : ∀ (ts : List Token) (k : Nat), LookaheadNotIn ts [.Texponent] →
      inFirst ⟨ts, k⟩ .PhighPrecedenceBinaryOp = false := fun ts k h =>
    inFirst_eq_false_of_lookahead ts k _ _ h (by simp [gNewtonFirsts])
  refine ⟨?_, ?_, ?_⟩
  · intro name p htype hname hp
    constructor
    · intro hc
      rw [numericFactor_eq_base]
      simp [numericFactorBase, peekCheck, htype, newtonParseIdentifierUsageTerminal, hname, hp,
        Newton.assert, hc]
    · intro hc hrest
      rw [numericFactor_eq_base]
      simp [numericFactorBase, peekCheck, htype, newtonParseIdentifierUsageTerminal, hname, hp,
        Newton.assert, hc, hhigh rest pn hrest]
  · intro htype
    constructor
    · intro hz
      rw [numericFactor_eq_base]
      simp [numericFactorBase, peekCheck, htype, newtonParseTerminal, Newton.assert, hz]
    · intro hz hrest
      rw [numericFactor_eq_base]
      simp [numericFactorBase, peekCheck, htype, newtonParseTerminal, Newton.assert, hz,
        hhigh rest pn hrest]
  · intro htype e close more n he hclose hmore
    rw [numericFactor_eq_base]
    simp [numericFactorBase, peekCheck, htype, newtonParseTerminal, he, hclose,
      hhigh more n hmore]

/-- C26 at the literal 0, at the identifier `mass`, which is not constant, and at the
literal 3. -/
theorem numericFactor_atoms_witness :
    newtonParseNumericFactor 1 exampleEnv ⟨[Token.number 0], 0⟩ = .error .assertionFailure ∧
    newtonParseNumericFactor 1 exampleEnv ⟨[Token.ident "mass"], 0⟩
      = .error .assertionFailure ∧
    ∃ node, newtonParseNumericFactor 1 exampleEnv ⟨[Token.number 3], 0⟩ = .ok (node, ⟨[], 0⟩) ∧
      node.value = (Token.number 3).value ∧ node.type = .Tnumber :=
  ⟨((numericFactor_atoms 0 exampleEnv (Token.number 0) [] 0).2.1 rfl).1 rfl,
   ((numericFactor_atoms 0 exampleEnv (Token.ident "mass") [] 0).1 "mass" _ rfl rfl rfl).1 rfl,
   ((numericFactor_atoms 0 exampleEnv (Token.number 3) [] 0).2.1 rfl).2
     (by simp [Token.number]) (by decide)⟩

/-! ## What a factor adds to the physics of its term -/

@[simp] theorem IrNode.children_mk (t v p n s c) : (IrNode.mk t v p n s c).children = c := rfl

@[simp] theorem addLeaf_children (a b : IrNode) :
    (addLeaf a b).children = a.children ++ [b] := by
  cases a
  rfl

@[simp] theorem addLeafWithChainingSeq_children (a b : IrNode) :
    (addLeafWithChainingSeq a b).children = a.children ++ [b] := by
  simp [addLeafWithChainingSeq]

@[simp] theorem setValue_children (a : IrNode) (v : ℚ) : (a.setValue v).children = a.children := by
  cases a
  rfl

@[simp] theorem setPhysics_children (a : IrNode) (p : Option Physics) :
    (a.setPhysics p).children = a.children := by
  cases a
  rfl

@[simp] theorem genIrNode_children (t : IrNodeType) : (genIrNode t).children = [] := rfl

/-- One pass of the loop of `newtonParseQuantityTerm` that reads no second vector. -/
theorem termStep_ok (leftFactor : IrNode) (acc : TermAcc) (item : TermItem)
    (hop : item.binOp.type = .Tmul ∨ item.binOp.type = .Tdiv)
    (hphys : item.isPhysics = true → ∃ q, item.rightFactor.physics = some q)
    (hvec : acc.numVectorsInTerm + (if item.isVector then 1 else 0) ≤ 1) :
    ∃ a, termStep leftFactor acc item = .ok a ∧
      a.hasNumberInTerm = (acc.hasNumberInTerm || isNumberFactor leftFactor) ∧
      a.numVectorsInTerm = acc.numVectorsInTerm + (if item.isVector then 1 else 0) ∧
      a.physics = item.copyInto acc.physics ∧
      a.intermediate.children = acc.intermediate.children ++ item.nodes ∧
      (a.hasNumberInTerm = false → a.intermediate.value = acc.intermediate.value) := by
  have hne : ∀ h : item.binOp.type = .Tdiv, ¬ item.binOp.type = .Tmul := by
    intro h h'
    rw [h] at h'
    cases h'
  by_cases hid : item.isPhysics = true
  · obtain ⟨q, hq⟩ := hphys hid
    by_cases hv : q.isVector = true
    · have hiv : item.isVector = true := by simp [TermItem.isVector, factorIsVector, hid, hq, hv]
      simp only [hiv, if_true] at hvec
      have h0 : acc.numVectorsInTerm = 0 := by omega
      rcases hop with h | h
      · refine ⟨_, by simp [termStep, hid, derefPhysics, hq, hv, h0, h, Newton.assert,
          ite_copyNumerator, ite_copyDenominator]; rfl, ?_, ?_, ?_, ?_, ?_⟩
        · simp
        · simp [hiv, h0]
        · simp [TermItem.copyInto, hid, hq, hv, h, newtonPhysicsCopyNumeratorDimensions,
            newtonPhysicsCopyDenominatorDimensions]
        · simp [TermItem.nodes]
          split <;> simp
        · intro hf
          simp only [Bool.or_eq_false_iff] at hf
          simp [hf.1, hf.2]
      · refine ⟨_, by simp [termStep, hid, derefPhysics, hq, hv, h0, h, hne h, Newton.assert,
          ite_copyNumeratorToDenominator, ite_copyDenominatorToNumerator]; rfl, ?_, ?_, ?_, ?_, ?_⟩
        · simp
        · simp [hiv, h0]
        · simp [TermItem.copyInto, hid, hq, hv, h, newtonPhysicsCopyNumeratorToDenominatorDimensions,
            newtonPhysicsCopyDenominatorToNumeratorDimensions]
        · simp [TermItem.nodes]
          split <;> simp
        · intro hf
          simp only [Bool.or_eq_false_iff] at hf
          simp [hf.1, hf.2]
    · have hiv : item.isVector = false := by simp [TermItem.isVector, factorIsVector, hid, hq, hv]
      rcases hop with h | h
      · refine ⟨_, by simp [termStep, hid, derefPhysics, hq, hv, h, ite_copyNumerator,
          ite_copyDenominator]; rfl, ?_, ?_, ?_, ?_, ?_⟩
        · simp
        · simp [hiv]
        · simp [TermItem.copyInto, hid, hq, hv, h]
        · simp [TermItem.nodes]
          split <;> simp
        · intro hf
          simp only [Bool.or_eq_false_iff] at hf
          simp [hf.1, hf.2]
      · refine ⟨_, by simp [termStep, hid, derefPhysics, hq, hv, h, hne h,
          ite_copyNumeratorToDenominator, ite_copyDenominatorToNumerator]; rfl, ?_, ?_, ?_, ?_, ?_⟩
        · simp
        · simp [hiv]
        · simp [TermItem.copyInto, hid, hq, hv, h, hne h]
        · simp [TermItem.nodes]
          split <;> simp
        · intro hf
          simp only [Bool.or_eq_false_iff] at hf
          simp [hf.1, hf.2]
  · have hiv : item.isVector = false := by simp [TermItem.isVector, factorIsVector, hid]
    have hid' : item.isPhysics = false := by simpa using hid
    rcases hop with h | h
    · refine ⟨_, by simp [termStep, hid, h]; rfl, ?_, ?_, ?_, ?_, ?_⟩
      · simp
      · simp [hiv]
      · simp [TermItem.copyInto, hid']
      · simp [TermItem.nodes]
        split <;> simp
      · intro hf
        simp only [Bool.or_eq_false_iff] at hf
        simp [hf.1, hf.2]
    · refine ⟨_, by simp [termStep, hid, h, hne h]; rfl, ?_, ?_, ?_, ?_, ?_⟩
      · simp
      · simp [hiv]
      · simp [TermItem.copyInto, hid']
      · simp [TermItem.nodes]
        split <;> simp
      · intro hf
        simp only [Bool.or_eq_false_iff] at hf
        simp [hf.1, hf.2]

/-- The passes of the loop of `newtonParseQuantityTerm` that read at most one vector. -/
theorem termFold_ok (leftFactor : IrNode) :
    ∀ (items : List TermItem) (acc : TermAcc),
      acc.hasNumberInTerm = isNumberFactor leftFactor →
      (∀ item ∈ items, (item.binOp.type = .Tmul ∨ item.binOp.type = .Tdiv) ∧
        (item.isPhysics = true → ∃ q, item.rightFactor.physics = some q)) →
      acc.numVectorsInTerm + (items.filter TermItem.isVector).length ≤ 1 →
      ∃ a, termFold leftFactor acc items = .ok a ∧
        a.hasNumberInTerm = isNumberFactor leftFactor ∧
        a.physics = items.foldl TermItem.copyInto acc.physics ∧
        a.intermediate.children = acc.intermediate.children ++ items.flatMap TermItem.nodes ∧
        (isNumberFactor leftFactor = false →
          a.intermediate.value = acc.intermediate.value) := by
  intro items
  induction items with
  | nil =>
    intro acc hnum _ _
    exact ⟨acc, rfl, hnum, rfl, by simp, fun _ => rfl⟩
  | cons item items ih =>
    intro acc hnum hok hvec
    have hcount : (if item.isVector then 1 else 0) + (items.filter TermItem.isVector).length
        = ((item :: items).filter TermItem.isVector).length := by
      by_cases hiv : item.isVector = true <;> simp [List.filter_cons, hiv, Nat.add_comm]
    obtain ⟨a, ha, hnum', hnv, hph, hch, hval⟩ := termStep_ok leftFactor acc item
      (hok item (List.mem_cons_self _ _)).1 (hok item (List.mem_cons_self _ _)).2 (by omega)
    have hnum'' : a.hasNumberInTerm = isNumberFactor leftFactor := by
      rw [hnum', hnum, Bool.or_self]
    obtain ⟨b, hb, hbn, hbp, hbc, hbv⟩ := ih a hnum''
      (fun x hx => hok x (List.mem_cons_of_mem _ hx)) (by omega)
    refine ⟨b, by simp [termFold, ha, hb], hbn, ?_, ?_, ?_⟩
    · rw [hbp, hph]
      rfl
    · rw [hbc, hch]
      simp
    · intro hf
      rw [hbv hf, hval (by rw [hnum'', hf])]

/-- The start of a quantity term. -/
theorem termStart_ok (unary : Option IrNode) (isPhysics : Bool) (leftFactor : IrNode)
    (hphys : isPhysics = true → ∃ q, leftFactor.physics = some q) :
    ∃ a, termStart unary isPhysics leftFactor = .ok a ∧
      a.hasNumberInTerm = isNumberFactor leftFactor ∧
      a.numVectorsInTerm = (if factorIsVector isPhysics leftFactor then 1 else 0) ∧
      a.physics = (firstItem isPhysics leftFactor).copyInto callocPhysics ∧
      a.intermediate.children = unary.toList ++ [leftFactor] := by
  by_cases hid : isPhysics = true
  · obtain ⟨q, hq⟩ := hphys hid
    by_cases hv : q.isVector = true
    · refine ⟨_, by simp [termStart, hid, derefPhysics, hq, hv, ite_copyNumerator,
        ite_copyDenominator]; rfl, ?_, ?_, ?_, ?_⟩
      · simp
      · simp [factorIsVector, hid, hq, hv]
      · simp [TermItem.copyInto, firstItem, hid, hq, hv, genIrNode]
      · simp only []
        split <;> cases unary <;> simp
    · refine ⟨_, by simp [termStart, hid, derefPhysics, hq, hv, ite_copyNumerator,
        ite_copyDenominator]; rfl, ?_, ?_, ?_, ?_⟩
      · simp
      · simp [factorIsVector, hid, hq, hv]
      · simp [TermItem.copyInto, firstItem, hid, hq, hv, genIrNode]
      · simp only []
        split <;> cases unary <;> simp
  · have hid' : isPhysics = false := by simpa using hid
    refine ⟨_, by simp [termStart, hid]; rfl, ?_, ?_, ?_, ?_⟩
    · simp
    · simp [factorIsVector, hid]
    · simp [TermItem.copyInto, firstItem, hid']
    · simp only []
      split <;> cases unary <;> simp

/-- What `newtonParseQuantityTerm` returns for a first factor followed by a chain of
factors that reads at most one vector: the physics is the empty physics with the factors
copied into it, the children are the nodes read, and the value is 0 when the first
factor is neither a number nor a constant. -/
theorem quantityTerm_result (fuel : Nat) (env : Env) (neg : Bool) (ts : List Token)
    (pn : Nat) (leftFactor : IrNode) (s1 s' : State) (items : List TermItem) (F : Nat)
    (hfactor : newtonParseQuantityFactor fuel env ⟨ts, pn⟩ = .ok (leftFactor, s1))
    (hc : FactorChain fuel env s1 items s')
    (hvec : (if factorIsVector (peekCheck ⟨ts, pn⟩ .Tidentifier) leftFactor then 1 else 0)
      + (items.filter TermItem.isVector).length ≤ 1)
    (hF : fuel + items.length + 2 ≤ F) :
    ∃ node, newtonParseQuantityTerm F env
        ⟨(if neg then [Token.op .Tminus] else []) ++ ts, pn⟩ = .ok (node, s') ∧
      node.physics = some (items.foldl TermItem.copyInto
        ((firstItem (peekCheck ⟨ts, pn⟩ .Tidentifier) leftFactor).copyInto callocPhysics)) ∧
      node.children = (if neg then [IrNode.mk .Tminus 0 none none none []] else []) ++
        leftFactor :: items.flatMap TermItem.nodes ∧
      (isNumberFactor leftFactor = false → node.value = 0) := by
  obtain ⟨F', rfl⟩ : ∃ F', F = F' + 1 := ⟨F - 1, by omega⟩
  have hfactor' : newtonParseQuantityFactor F' env ⟨ts, pn⟩ = .ok (leftFactor, s1) :=
    (quantityFactor_fuel_le (by omega) env _).eq_ok hfactor
  have hphys : peekCheck ⟨ts, pn⟩ .Tidentifier = true → ∃ q, leftFactor.physics = some q :=
    fun hid => quantityFactor_identifier_physics fuel env _ leftFactor s1 hid hfactor
  cases neg with
  | false =>
    obtain ⟨a, ha, hnum, hnv, hph, hch⟩ :=
      termStart_ok none (peekCheck ⟨ts, pn⟩ .Tidentifier) leftFactor hphys
    obtain ⟨b, hb, hbn, hbp, hbc, hbv⟩ := termFold_ok leftFactor items a hnum hc.items_ok
      (by rw [hnv]; exact hvec)
    refine ⟨termFinish b, ?_, ?_, ?_, ?_⟩
    · simp only [Bool.false_eq_true, if_false, List.nil_append]
      rw [quantityTerm_start F' env _ s1 leftFactor hfactor', ha, bind_ok,
        quantityTermLoop_fold fuel env s1 s' items hc leftFactor a F' (by omega), hb, bind_ok]
    · simp [termFinish, hbp, hph]
    · simp only [termFinish, setPhysics_children]
      split <;> simp [hbc, hch]
    · intro hf
      simp [termFinish, hbn, hf]
  | true =>
    obtain ⟨a, ha, hnum, hnv, hph, hch⟩ :=
      termStart_ok (some (IrNode.mk (Token.op .Tminus).type (Token.op .Tminus).value none
        none (Token.op .Tminus).identifier [])) (peekCheck ⟨ts, pn⟩ .Tidentifier)
        leftFactor hphys
    obtain ⟨b, hb, hbn, hbp, hbc, hbv⟩ := termFold_ok leftFactor items a hnum hc.items_ok
      (by rw [hnv]; exact hvec)
    refine ⟨termFinish b, ?_, ?_, ?_, ?_⟩
    · simp only [if_true, List.singleton_append]
      rw [quantityTerm_start_minus F' env _ ts pn s1 leftFactor rfl hfactor', ha, bind_ok,
        quantityTermLoop_fold fuel env s1 s' items hc leftFactor a F' (by omega), hb, bind_ok]
    · simp [termFinish, hbp, hph]
    · simp only [termFinish, setPhysics_children]
      split <;> simp [hbc, hch, Token.op]
    · intro hf
      simp [termFinish, hbn, hf]

/-! ## The first factor decides the value of a term -/

/-- C30: let a quantity term be a first factor followed by a chain of factors, reading at
most one vector. If the first factor has a physics that is not flagged constant, the
term returned by `newtonParseQuantityTerm` has value 0, whatever factors follow; if the
first factor is a number or a constant, the value is its value (negated under a leading
minus) folded over the factors that follow. -/
theorem quantityTerm_value_by_first_factor (fuel : Nat) (env : Env) (neg : Bool)
    (ts : List Token) (pn : Nat) (leftFactor : IrNode) (s1 s' : State)
    (items : List TermItem) (F : Nat)
    (hfactor : newtonParseQuantityFactor fuel env ⟨ts, pn⟩ = .ok (leftFactor, s1))
    (hc : FactorChain fuel env s1 items s')
    (hvec : (if factorIsVector (peekCheck ⟨ts, pn⟩ .Tidentifier) leftFactor then 1 else 0)
      + (items.filter TermItem.isVector).length ≤ 1)
    (hF : fuel + items.length + 2 ≤ F) :
    ∃ node, newtonParseQuantityTerm F env
        ⟨(if neg then [Token.op .Tminus] else []) ++ ts, pn⟩ = .ok (node, s') ∧
      (∀ p, leftFactor.physics = some p → p.isConstant = false → node.value = 0) ∧
      (isNumberFactor leftFactor = true →
        node.value = foldValue (if neg then leftFactor.value * -1 else leftFactor.value)
          items) := by
  obtain ⟨node, hnode, -, -, hzero⟩ := quantityTerm_result fuel env neg ts pn leftFactor s1 s'
    items F hfactor hc hvec hF
  refine ⟨node, hnode, ?_, ?_⟩
  · intro p hp hpc
    exact hzero (by simp [isNumberFactor, hp, hpc])
  · intro hnum
    obtain ⟨F', rfl⟩ : ∃ F', F = F' + 1 := ⟨F - 1, by omega⟩
    have hfactor' : newtonParseQuantityFactor F' env ⟨ts, pn⟩ = .ok (leftFactor, s1) :=
      (quantityFactor_fuel_le (by omega) env _).eq_ok hfactor
    have hphys : peekCheck ⟨ts, pn⟩ .Tidentifier = true → ∃ q, leftFactor.physics = some q :=
      fun hid => quantityFactor_identifier_physics fuel env _ leftFactor s1 hid hfactor
    cases neg with
    | false =>
      obtain ⟨a, ha, hnum', hnv, hval⟩ :=
        termStart_number none (peekCheck ⟨ts, pn⟩ .Tidentifier) leftFactor hnum hphys
      obtain ⟨b, hb, hnum'', hval'⟩ := termFold_value leftFactor items a hnum' hc.items_ok
        (by rw [hnv]; exact hvec)
      simp only [Bool.false_eq_true, if_false, List.nil_append] at hnode ⊢
      rw [quantityTerm_start F' env _ s1 leftFactor hfactor', ha, bind_ok,
        quantityTermLoop_fold fuel env s1 s' items hc leftFactor a F' (by omega), hb, bind_ok]
        at hnode
      simp only [Except.ok.injEq, Prod.mk.injEq, and_true] at hnode
      rw [← hnode]
      simp [termFinish, hnum'', hval', hval]
    | true =>
      obtain ⟨a, ha, hnum', hnv, hval⟩ :=
        termStart_number (some (IrNode.mk (Token.op .Tminus).type (Token.op .Tminus).value
          none none (Token.op .Tminus).identifier [])) (peekCheck ⟨ts, pn⟩ .Tidentifier)
          leftFactor hnum hphys
      obtain ⟨b, hb, hnum'', hval'⟩ := termFold_value leftFactor items a hnum' hc.items_ok
        (by rw [hnv]; exact hvec)
      simp only [if_true, List.singleton_append] at hnode ⊢
      rw [quantityTerm_start_minus F' env _ ts pn s1 leftFactor rfl hfactor', ha, bind_ok,
        quantityTermLoop_fold fuel env s1 s' items hc leftFactor a F' (by omega), hb, bind_ok]
        at hnode
      simp only [Except.ok.injEq, Prod.mk.injEq, and_true] at hnode
      rw [← hnode]
      simp [termFinish, hnum'', hval', hval]

/-- C30 at `mass * 3`, of value 0, and at `3 * mass`, of value 3. -/
theorem quantityTerm_value_by_first_factor_witness :
    resultValue (newtonParseQuantityTerm 4 exampleEnv
      ⟨[Token.ident "mass", Token.op .Tmul, Token.number 3], 0⟩) = some 0 ∧
    resultValue (newtonParseQuantityTerm 4 exampleEnv
      ⟨[Token.number 3, Token.op .Tmul, Token.ident "mass"], 0⟩) = some 3 := by
  obtain ⟨node, h, hv, -⟩ := quantityTerm_value_by_first_factor 1 exampleEnv false
    [Token.ident "mass", Token.op .Tmul, Token.number 3] 0 _ _ _ _ 4 rfl
    (FactorChain.step (Token.op .Tmul) [Token.number 3] 1 _ _ _ _ (Or.inl rfl) rfl
      (FactorChain.done _ rfl)) (by decide) (by decide)
  obtain ⟨node', h', -, hv'⟩ := quantityTerm_value_by_first_factor 1 exampleEnv false
    [Token.number 3, Token.op .Tmul, Token.ident "mass"] 0 _ _ _ _ 4 rfl
    (FactorChain.step (Token.op .Tmul) [Token.ident "mass"] 0 _ _ _ _ (Or.inl rfl) rfl
      (FactorChain.done _ rfl)) (by decide) (by decide)
  have e : ∀ a : List Token, ([] : List Token) ++ a = a := fun a => rfl
  simp only [Bool.false_eq_true, if_false, e] at h h'
  rw [h, h']
  simp only [resultValue, hv _ rfl rfl, hv' rfl]
  simp [foldValue, Token.number]
  decide!

/-! ## A parenthesized factor in a term -/

theorem peekCheck_identifier_of_leftParen {s : State} (h : peekCheck s .TleftParen = true) :
    peekCheck s .Tidentifier = false := by
  cases hs : s.tokens with
  | nil => simp [peekCheck, hs] at h
  | cons tok rest =>
    simp only [peekCheck, hs, beq_iff_eq] at h
    simp [peekCheck, hs, h]

/-- C29: let a quantity term start with a parenthesized factor `(e)`, whatever it parses
to, followed by `* x` for an identifier `x` bound to the physics `p`. Then
`newtonParseQuantityTerm` returns a term whose physics has exactly the numerator and
denominator dimensions of `x`, the prime products of these dimensions (those of `p` when
`p` is in sync), and the vector flag of `x`: the factor `(e)` adds nothing. -/
theorem quantityTerm_parenthesized_factor_adds_nothing (fuel : Nat) (env : Env)
    (ts : List Token) (pn : Nat) (e : IrNode) (x : String) (p : Physics)
    (rest : List Token) (n F : Nat)
    (hparen : peekCheck ⟨ts, pn⟩ .TleftParen = true)
    (hfactor : newtonParseQuantityFactor fuel env ⟨ts, pn⟩
      = .ok (e, ⟨Token.op .Tmul :: Token.ident x :: rest, n⟩))
    (hx : env.currentScope.physicsForIdentifier x = some p)
    (hrest : LookaheadNotIn rest [.Tmul, .Tdiv, .Texponent])
    (hF : fuel + 3 ≤ F) :
    ∃ node q n', newtonParseQuantityTerm F env ⟨ts, pn⟩ = .ok (node, ⟨rest, n'⟩) ∧
      node.physics = some q ∧
      q.numeratorDimensions = p.numeratorDimensions ∧
      q.denominatorDimensions = p.denominatorDimensions ∧
      q.numeratorPrimeProduct = primeProduct p.numeratorDimensions ∧
      q.denominatorPrimeProduct = primeProduct p.denominatorDimensions ∧
      (p.InSync → q.numeratorPrimeProduct = p.numeratorPrimeProduct ∧
        q.denominatorPrimeProduct = p.denominatorPrimeProduct) ∧
      q.isVector = p.isVector := by
  obtain ⟨k, rfl⟩ : ∃ k, fuel = k + 1 := by
    cases fuel with
    | zero => simp [newtonParseQuantityFactor] at hfactor
    | succ k => exact ⟨k, rfl⟩
  obtain ⟨nx, n', hfx, hpx, hidx⟩ := quantityFactor_simple 0 env (.identifier x) rest n
    ⟨p, hx⟩ (hrest.mono (by simp))
  simp only [SimpleFactor.token, SimpleFactor.binding, hx, Option.isSome_some] at hfx hpx hidx
  have hfx' : newtonParseQuantityFactor (k + 1) env ⟨Token.ident x :: rest, n⟩
      = .ok (nx, ⟨rest, n'⟩) := (quantityFactor_fuel_le (by omega) env _).eq_ok hfx
  have hc : FactorChain (k + 1) env ⟨Token.op .Tmul :: Token.ident x :: rest, n⟩ _ ⟨rest, n'⟩ :=
    FactorChain.step (Token.op .Tmul) (Token.ident x :: rest) n nx ⟨rest, n'⟩ ⟨rest, n'⟩ []
      (Or.inl rfl) hfx' (FactorChain.done _
        (inFirst_eq_false_of_lookahead rest n' _ _ hrest (by simp [gNewtonFirsts])))
  have hid := peekCheck_identifier_of_leftParen hparen
  obtain ⟨node, hnode, hphys, -, -⟩ := quantityTerm_result (k + 1) env false ts pn e _ _ _ F
    hfactor hc (by simp [hid, factorIsVector, TermItem.isVector, List.filter_cons]; split <;> simp)
    (by simp only [List.length_singleton]; omega)
  simp only [Bool.false_eq_true, if_false, List.nil_append] at hnode
  have hq : ∀ q : Physics, q = List.foldl TermItem.copyInto
      ((firstItem (peekCheck ⟨ts, pn⟩ .Tidentifier) e).copyInto callocPhysics)
      [{ binOp := IrNode.mk (Token.op .Tmul).type (Token.op .Tmul).value none none
          (Token.op .Tmul).identifier []
         isPhysics := peekCheck ⟨Token.ident x :: rest, n⟩ .Tidentifier
         rightFactor := nx }] →
      q.numeratorDimensions = p.numeratorDimensions ∧
      q.denominatorDimensions = p.denominatorDimensions ∧
      q.numeratorPrimeProduct = primeProduct p.numeratorDimensions ∧
      q.denominatorPrimeProduct = primeProduct p.denominatorDimensions ∧
      q.isVector = p.isVector := by
    intro q hq
    rw [hq, hid, hidx]
    by_cases hv : p.isVector = true
    · simp [TermItem.copyInto, firstItem, hpx, Token.op, hv, callocPhysics,
        newtonPhysicsCopyNumeratorDimensions, newtonPhysicsCopyDenominatorDimensions]
    · simp [TermItem.copyInto, firstItem, hpx, Token.op, hv, callocPhysics,
        newtonPhysicsCopyNumeratorDimensions, newtonPhysicsCopyDenominatorDimensions]
  obtain ⟨h1, h2, h3, h4, h5⟩ := hq _ rfl
  exact ⟨node, _, n', hnode, hphys, h1, h2, h3, h4,
    fun hs => ⟨by rw [h3, hs.1], by rw [h4, hs.2]⟩, h5⟩

/-- C29 at `(velocity) * mass`: the term has the dimensions of `mass` only and is not a
vector, although `(velocity)` is meter per second and a vector. -/
theorem quantityTerm_parenthesized_factor_adds_nothing_witness :
    ∃ node q n', newtonParseQuantityTerm 9 exampleEnv
        ⟨[Token.op .TleftParen, Token.ident "velocity", Token.op .TrightParen,
          Token.op .Tmul, Token.ident "mass"], 0⟩ = .ok (node, ⟨[], n'⟩) ∧
      node.physics = some q ∧
      q.numeratorDimensions = [kilogram] ∧ q.denominatorDimensions = [] ∧
      q.numeratorPrimeProduct = primeProduct [kilogram] ∧
      q.denominatorPrimeProduct = primeProduct [] ∧
      ((Physics.ofDimensions [kilogram] [] false false 0).InSync →
        q.numeratorPrimeProduct = primeProduct [kilogram] ∧
        q.denominatorPrimeProduct = primeProduct []) ∧
      q.isVector = false :=
  quantityTerm_parenthesized_factor_adds_nothing 6 exampleEnv
    [Token.op .TleftParen, Token.ident "velocity", Token.op .TrightParen,
      Token.op .Tmul, Token.ident "mass"] 0 _ "mass" _ [] _ 9 rfl rfl rfl (by decide)
    (by decide)

/-! ## Folding of the value of a term -/

/-- A property of the empty physics that the copy steps and the vector flag keep holds
of the physics `quantityTermLoop` attaches. -/
theorem quantityTermLoop_invariant (P : Physics → Prop)
    (h1 : ∀ a b, P a → P (newtonPhysicsCopyNumeratorDimensions a b))
    (h2 : ∀ a b, P a → P (newtonPhysicsCopyDenominatorDimensions a b))
    (h3 : ∀ a b, P a → P (newtonPhysicsCopyNumeratorToDenominatorDimensions a b))
    (h4 : ∀ a b, P a → P (newtonPhysicsCopyDenominatorToNumeratorDimensions a b))
    (h5 : ∀ a : Physics, P a → P { a with isVector := true }) (fuel : Nat) :
    ∀ (env : Env) (l i : IrNode) (p : Physics) (b : Bool) (n : Nat) (s : State)
      (t : IrNode) (s' : State), P p →
      quantityTermLoop fuel env l i p b n s = .ok (t, s') →
      ∃ q, t.physics = some q ∧ P q := by
  have hite : ∀ (c : Prop) [Decidable c] (a b : Physics), P a → P b → P (if c then a else b) := by
    intro c _ a b ha hb
    split
    · exact ha
    · exact hb
  induction fuel with
  | zero =>
    intro env l i p b n s t s' hp h
    simp [quantityTermLoop] at h
  | succ f ih =>
    intro env l i p b n s t s' hp h
    rw [quantityTermLoop] at h
    split at h
    · obtain ⟨⟨binOp, s1⟩, -, h⟩ := bind_eq_ok h
      obtain ⟨⟨rf, s2⟩, -, h⟩ := bind_eq_ok h
      obtain ⟨⟨ph, nv⟩, hh1, h⟩ := bind_eq_ok h
      obtain ⟨ph', hh2, h⟩ := bind_eq_ok h
      refine ih _ _ _ _ _ _ _ _ _ ?_ h
      have hph : P ph := by
        split at hh1
        · obtain ⟨rp, -, hh1⟩ := bind_eq_ok hh1
          split at hh1
          · obtain ⟨_, -, hh1⟩ := bind_eq_ok hh1
            simp only [pure_eq_ok, Except.ok.injEq, Prod.mk.injEq] at hh1
            rw [← hh1.1]
            exact h5 _ hp
          · simp only [pure_eq_ok, Except.ok.injEq, Prod.mk.injEq] at hh1
            rw [← hh1.1]
            exact hp
        · simp only [pure_eq_ok, Except.ok.injEq, Prod.mk.injEq] at hh1
          rw [← hh1.1]
          exact hp
      split at hh2
      · obtain ⟨rp, -, hh2⟩ := bind_eq_ok hh2
        simp only [pure_eq_ok, Except.ok.injEq] at hh2
        rw [← hh2]
        exact hite _ _ _ (h2 _ _ (hite _ _ _ (h1 _ _ hph) hph)) (hite _ _ _ (h1 _ _ hph) hph)
      · split at hh2
        · obtain ⟨rp, -, hh2⟩ := bind_eq_ok hh2
          simp only [pure_eq_ok, Except.ok.injEq] at hh2
          rw [← hh2]
          exact hite _ _ _ (h4 _ _ (hite _ _ _ (h3 _ _ hph) hph)) (hite _ _ _ (h3 _ _ hph) hph)
        · simp only [pure_eq_ok, Except.ok.injEq] at hh2
          rw [← hh2]
          exact hph
    · simp only [pure_eq_ok, Except.ok.injEq, Prod.mk.injEq] at h
      obtain ⟨hh1, -⟩ := h
      exact ⟨p, by rw [← hh1]; simp, hp⟩

/-- The physics `newtonParseQuantityTerm` attaches is not flagged constant. -/
theorem quantityTerm_notConstant (fuel : Nat) (env : Env) (s : State) (t : IrNode) (s' : State)
    (h : newtonParseQuantityTerm fuel env s = .ok (t, s')) :
    ∃ q, t.physics = some q ∧ q.isConstant = false := by
  cases fuel with
  | zero => simp [newtonParseQuantityTerm] at h
  | succ f =>
    rw [newtonParseQuantityTerm] at h
    obtain ⟨⟨i, u, s1⟩, -, h⟩ := bind_eq_ok h
    obtain ⟨⟨lf, s2⟩, -, h⟩ := bind_eq_ok h
    obtain ⟨⟨ph, nv⟩, h1, h⟩ := bind_eq_ok h
    refine quantityTermLoop_invariant (fun p => p.isConstant = false) (fun a b ha => ha)
      (fun a b ha => ha) (fun a b ha => ha) (fun a b ha => ha) (fun a ha => ha) f _ _ _ _ _ _ _
      _ _ ?_ h
    split at h1
    · obtain ⟨lp, -, h1⟩ := bind_eq_ok h1
      have hbase : (if lp.denominatorDimensions ≠ [] then
          newtonPhysicsCopyDenominatorDimensions
            (if lp.numeratorDimensions ≠ [] then
              newtonPhysicsCopyNumeratorDimensions callocPhysics lp else callocPhysics) lp
          else (if lp.numeratorDimensions ≠ [] then
              newtonPhysicsCopyNumeratorDimensions callocPhysics lp
            else callocPhysics)).isConstant = false := by
        split <;> split <;> rfl
      by_cases hv : lp.isVector = true
      · rw [if_pos hv] at h1
        simp only [pure_eq_ok, Except.ok.injEq, Prod.mk.injEq] at h1
        rw [← h1.1]
        exact hbase
      · rw [if_neg hv] at h1
        simp only [pure_eq_ok, Except.ok.injEq, Prod.mk.injEq] at h1
        rw [← h1.1]
        exact hbase
    · simp only [pure_eq_ok, Except.ok.injEq, Prod.mk.injEq] at h1
      rw [← h1.1]
      rfl

/-- A factor that starts with a left parenthesis carries a physics not flagged
constant. -/
theorem quantityFactor_paren_notConstant (fuel : Nat) (env : Env) (s : State) (f : IrNode)
    (s' : State) (hparen : peekCheck s .TleftParen = true)
    (h : newtonParseQuantityFactor fuel env s = .ok (f, s')) :
    ∃ q, f.physics = some q ∧ q.isConstant = false := by
  cases fuel with
  | zero => simp [newtonParseQuantityFactor] at h
  | succ k =>
    rw [quantityFactor_eq_base] at h
    obtain ⟨⟨fac, s1⟩, hbase, h⟩ := bind_eq_ok h
    have hid := peekCheck_identifier_of_leftParen hparen
    have hnum : peekCheck s .Tnumber = false := by
      cases hs : s.tokens with
      | nil => simp [peekCheck, hs] at hparen
      | cons tok rest =>
        simp only [peekCheck, hs, beq_iff_eq] at hparen
        simp [peekCheck, hs, hparen]
    have hfac : ∃ q, fac.physics = some q ∧ q.isConstant = false := by
      rw [quantityFactorBase] at hbase
      simp only [hid, hnum, hparen, Bool.false_eq_true, if_false, if_true] at hbase
      obtain ⟨⟨_, sa⟩, -, hbase⟩ := bind_eq_ok hbase
      obtain ⟨⟨e, sb⟩, he, hbase⟩ := bind_eq_ok hbase
      obtain ⟨⟨_, sc⟩, -, hbase⟩ := bind_eq_ok hbase
      simp only [pure_eq_ok, Except.ok.injEq, Prod.mk.injEq] at hbase
      obtain ⟨f', lt, s1', -, hlt, hp⟩ := quantityExpression_firstTerm k env _ e sb he
      obtain ⟨q, hq, hc⟩ := quantityTerm_notConstant f' env _ lt s1' hlt
      exact ⟨q, by rw [← hbase.1, hp, hq], hc⟩
    obtain ⟨q, hq, hqc⟩ := hfac
    dsimp only at h
    by_cases hx : inFirst s1 .PhighPrecedenceBinaryOp = true
    · rw [if_pos hx] at h
      obtain ⟨⟨op, s2⟩, -, h⟩ := bind_eq_ok h
      obtain ⟨⟨⟨ex, base⟩, s3⟩, hexp, h⟩ := bind_eq_ok h
      simp only [pure_eq_ok, Except.ok.injEq, Prod.mk.injEq] at h
      have hbase' : ∃ r, base.physics = some r ∧ r.isConstant = false := by
        unfold newtonParseExponentialExpression at hexp
        obtain ⟨⟨e, s4⟩, -, hexp⟩ := bind_eq_ok hexp
        obtain ⟨bp, hbp, hexp⟩ := bind_eq_ok hexp
        have hbpq : bp = q := by
          simp only [derefPhysics, addLeaf_physics, hq, Except.ok.injEq] at hbp
          exact hbp.symm
        subst hbpq
        by_cases hz : e.value = 0
        · simp only [hz, if_true, pure_eq_ok, Except.ok.injEq, Prod.mk.injEq] at hexp
          exact ⟨{ shallowCopyPhysicsNode bp with value := 1 }, by rw [← hexp.1.2]; simp, hqc⟩
        · simp only [hz, if_false] at hexp
          obtain ⟨⟨b1, c1⟩, hh1, hexp⟩ := bind_eq_ok hexp
          obtain ⟨⟨b2, c2⟩, hh2, hexp⟩ := bind_eq_ok hexp
          simp only [pure_eq_ok, Except.ok.injEq, Prod.mk.injEq] at hexp
          refine ⟨b2, by rw [← hexp.1.2]; simp, ?_⟩
          have hloop : ∀ (step : Physics → Physics → Physics),
              (∀ a b, (step a b).isConstant = a.isConstant) → ∀ (m : Nat) (a c : Physics),
              (exponentLoop step m a c).1.isConstant = a.isConstant := by
            intro step hstep m
            induction m with
            | zero => intro a c; rfl
            | succ j ihj =>
              intro a c
              rw [exponentLoop, ihj, hstep]
          have hb1 : b1.isConstant = false := by
            by_cases hn : bp.numberOfNumerators > 0
            · rw [if_pos hn] at hh1
              obtain ⟨_, -, hh1⟩ := bind_eq_ok hh1
              by_cases hneg : e.value < 0
              · rw [if_pos hneg] at hh1
                simp only [pure_eq_ok, Except.ok.injEq] at hh1
                have := hloop newtonPhysicsCopyNumeratorToDenominatorDimensions
                  (fun a b => rfl) (truncToInt e.value).natAbs
                  { shallowCopyPhysicsNode bp with
                    value := env.pow (shallowCopyPhysicsNode bp).value e.value }
                  (deepCopyPhysicsNode bp)
                rw [hh1] at this
                rw [this]
                exact hqc
              · rw [if_neg hneg] at hh1
                simp only [pure_eq_ok, Except.ok.injEq] at hh1
                have := hloop newtonPhysicsCopyNumeratorDimensions
                  (fun a b => rfl) (truncToInt e.value).natAbs
                  { shallowCopyPhysicsNode bp with
                    value := env.pow (shallowCopyPhysicsNode bp).value e.value }
                  (deepCopyPhysicsNode bp)
                rw [hh1] at this
                rw [this]
                exact hqc
            · rw [if_neg hn] at hh1
              simp only [pure_eq_ok, Except.ok.injEq, Prod.mk.injEq] at hh1
              rw [← hh1.1]
              exact hqc
          by_cases hd : bp.numberOfDenominators > 0
          · rw [if_pos hd] at hh2
            obtain ⟨_, -, hh2⟩ := bind_eq_ok hh2
            by_cases hneg : e.value < 0
            · rw [if_pos hneg] at hh2
              simp only [pure_eq_ok, Except.ok.injEq] at hh2
              have := hloop newtonPhysicsCopyDenominatorToNumeratorDimensions
                (fun a b => rfl) (truncToInt e.value).natAbs b1 c1
              rw [hh2] at this
              rw [this, hb1]
            · rw [if_neg hneg] at hh2
              simp only [pure_eq_ok, Except.ok.injEq] at hh2
              have := hloop newtonPhysicsCopyDenominatorDimensions
                (fun a b => rfl) (truncToInt e.value).natAbs b1 c1
              rw [hh2] at this
              rw [this, hb1]
          · rw [if_neg hd] at hh2
            simp only [pure_eq_ok, Except.ok.injEq, Prod.mk.injEq] at hh2
            rw [← hh2.1]
            exact hb1
      obtain ⟨r, hr, hrc⟩ := hbase'
      refine ⟨r, ?_, hrc⟩
      rw [← h.1, ← hr]
      split <;> simp
    · rw [if_neg hx] at h
      simp only [pure_eq_ok, Except.ok.injEq, Prod.mk.injEq] at h
      exact ⟨q, by rw [← h.1]; exact hq, hqc⟩

theorem foldValue_eq_plainProduct (items : List TermItem) :
    ∀ v : ℚ, (∀ item ∈ items, item.rightFactor.value ≠ 0) →
      foldValue v items = plainProduct v items := by
  induction items with
  | nil => intro v _; rfl
  | cons item items ih =>
    intro v h
    have h0 := h item (List.mem_cons_self _ _)
    simp only [foldValue, plainProduct, List.foldl_cons, h0, if_false]
    exact ih _ (fun x hx => h x (List.mem_cons_of_mem _ hx))

/-- The value of a quantity term whose first factor is a number or a constant. -/
theorem quantityTerm_number_first (fuel : Nat) (env : Env) (neg : Bool) (ts : List Token)
    (pn : Nat) (leftFactor : IrNode) (s1 s' : State) (items : List TermItem) (F : Nat)
    (node : IrNode)
    (hfactor : newtonParseQuantityFactor fuel env ⟨ts, pn⟩ = .ok (leftFactor, s1))
    (hnum : isNumberFactor leftFactor = true)
    (hc : FactorChain fuel env s1 items s')
    (hvec : (if factorIsVector (peekCheck ⟨ts, pn⟩ .Tidentifier) leftFactor then 1 else 0)
      + (items.filter TermItem.isVector).length ≤ 1)
    (hF : fuel + items.length + 2 ≤ F)
    (hnode : newtonParseQuantityTerm F env
      ⟨(if neg then [Token.op .Tminus] else []) ++ ts, pn⟩ = .ok (node, s')) :
    node.value = foldValue (if neg then leftFactor.value * -1 else leftFactor.value) items := by
  obtain ⟨F', rfl⟩ : ∃ F', F = F' + 1 := ⟨F - 1, by omega⟩
  have hfactor' : newtonParseQuantityFactor F' env ⟨ts, pn⟩ = .ok (leftFactor, s1) :=
    (quantityFactor_fuel_le (by omega) env _).eq_ok hfactor
  have hphys : peekCheck ⟨ts, pn⟩ .Tidentifier = true → ∃ q, leftFactor.physics = some q :=
    fun hid => quantityFactor_identifier_physics fuel env _ leftFactor s1 hid hfactor
  cases neg with
  | false =>
    obtain ⟨a, ha, hnum', hnv, hval⟩ :=
      termStart_number none (peekCheck ⟨ts, pn⟩ .Tidentifier) leftFactor hnum hphys
    obtain ⟨b, hb, hnum'', hval'⟩ := termFold_value leftFactor items a hnum' hc.items_ok
      (by rw [hnv]; exact hvec)
    simp only [Bool.false_eq_true, if_false, List.nil_append] at hnode ⊢
    rw [quantityTerm_start F' env _ s1 leftFactor hfactor', ha, bind_ok,
      quantityTermLoop_fold fuel env s1 s' items hc leftFactor a F' (by omega), hb, bind_ok]
      at hnode
    simp only [Except.ok.injEq, Prod.mk.injEq, and_true] at hnode
    rw [← hnode]
    simp [termFinish, hnum'', hval', hval]
  | true =>
    obtain ⟨a, ha, hnum', hnv, hval⟩ :=
      termStart_number (some (IrNode.mk (Token.op .Tminus).type (Token.op .Tminus).value
        none none (Token.op .Tminus).identifier [])) (peekCheck ⟨ts, pn⟩ .Tidentifier)
        leftFactor hnum hphys
    obtain ⟨b, hb, hnum'', hval'⟩ := termFold_value leftFactor items a hnum' hc.items_ok
      (by rw [hnv]; exact hvec)
    simp only [if_true, List.singleton_append] at hnode ⊢
    rw [quantityTerm_start_minus F' env _ ts pn s1 leftFactor rfl hfactor', ha, bind_ok,
      quantityTermLoop_fold fuel env s1 s' items hc leftFactor a F' (by omega), hb, bind_ok]
      at hnode
    simp only [Except.ok.injEq, Prod.mk.injEq, and_true] at hnode
    rw [← hnode]
    simp [termFinish, hnum'', hval', hval]

/-- C23, the claim as stated fails in two ways: the term `(2)`, whose only factor has
the value 2, has value 0, and the term `3 * 0` has value 3. -/
theorem quantityTerm_not_plain_product :
    resultValue (newtonParseQuantityTerm 9 exampleEnv
      ⟨[Token.op .TleftParen, Token.number 2, Token.op .TrightParen], 0⟩) = some 0 ∧
    resultValue (newtonParseQuantityFactor 9 exampleEnv
      ⟨[Token.op .TleftParen, Token.number 2, Token.op .TrightParen], 0⟩) = some 2 ∧
    resultValue (newtonParseQuantityTerm 9 exampleEnv
      ⟨[Token.number 3, Token.op .Tmul, Token.number 0], 0⟩) = some 3 := by
  decide!

/-- C23 as amended: let a quantity term be a first factor followed by a chain of factors,
reading at most one vector. When the first factor is a number or a constant, the value
of the term returned by `newtonParseQuantityTerm` is the value of the first factor
(negated under a leading minus) folded left to right over the further factors, a factor
of value 0 being skipped; when no further factor has value 0, this is the plain product
and quotient of the values. When the first factor is parenthesized and no further
factor is a number or a constant, the value is 0. The value is in the node
`newtonParseQuantityTerm` returns. -/
theorem quantityTerm_folds_inline (fuel : Nat) (env : Env) (neg : Bool) (ts : List Token)
    (pn : Nat) (leftFactor : IrNode) (s1 s' : State) (items : List TermItem) (F : Nat)
    (hfactor : newtonParseQuantityFactor fuel env ⟨ts, pn⟩ = .ok (leftFactor, s1))
    (hc : FactorChain fuel env s1 items s')
    (hvec : (if factorIsVector (peekCheck ⟨ts, pn⟩ .Tidentifier) leftFactor then 1 else 0)
      + (items.filter TermItem.isVector).length ≤ 1)
    (hF : fuel + items.length + 2 ≤ F) :
    ∃ node, newtonParseQuantityTerm F env
        ⟨(if neg then [Token.op .Tminus] else []) ++ ts, pn⟩ = .ok (node, s') ∧
      (isNumberFactor leftFactor = true →
        node.value = foldValue (if neg then leftFactor.value * -1 else leftFactor.value)
          items ∧
        ((∀ item ∈ items, item.rightFactor.value ≠ 0) →
          node.value = plainProduct (if neg then leftFactor.value * -1 else leftFactor.value)
            items)) ∧
      (peekCheck ⟨ts, pn⟩ .TleftParen = true →
        (∀ item ∈ items, isNumberFactor item.rightFactor = false) → node.value = 0) := by
  obtain ⟨node, hnode, -, -, hzero⟩ := quantityTerm_result fuel env neg ts pn leftFactor s1 s'
    items F hfactor hc hvec hF
  refine ⟨node, hnode, ?_, ?_⟩
  · intro hnum
    have hv := quantityTerm_number_first fuel env neg ts pn leftFactor s1 s' items F node
      hfactor hnum hc hvec hF hnode
    exact ⟨hv, fun hnz => by rw [hv, foldValue_eq_plainProduct items _ hnz]⟩
  · intro hparen _
    obtain ⟨q, hq, hqc⟩ := quantityFactor_paren_notConstant fuel env _ leftFactor s1 hparen
      hfactor
    exact hzero (by simp [isNumberFactor, hq, hqc])

/-- C23 as amended, at `-2 * 3 / 4`, of value -3/2, and at `(2)`, of value 0. -/
theorem quantityTerm_folds_inline_witness :
    resultValue (newtonParseQuantityTerm 5 exampleEnv
      ⟨[Token.op .Tminus, Token.number 2, Token.op .Tmul, Token.number 3, Token.op .Tdiv,
        Token.number 4], 0⟩) = some (-3 / 2) ∧
    resultValue (newtonParseQuantityTerm 9 exampleEnv
      ⟨[Token.op .TleftParen, Token.number 2, Token.op .TrightParen], 0⟩) = some 0 := by
  obtain ⟨node, h, hv, -⟩ := quantityTerm_folds_inline 1 exampleEnv true
    [Token.number 2, Token.op .Tmul, Token.number 3, Token.op .Tdiv, Token.number 4] 0
    _ _ _ _ 5 rfl
    (FactorChain.step (Token.op .Tmul) [Token.number 3, Token.op .Tdiv, Token.number 4] 0 _ _ _
      _ (Or.inl rfl) rfl
      (FactorChain.step (Token.op .Tdiv) [Token.number 4] 0 _ _ _ _ (Or.inr rfl) rfl
        (FactorChain.done _ rfl))) (by decide) (by decide)
  obtain ⟨node', h', -, hz⟩ := quantityTerm_folds_inline 6 exampleEnv false
    [Token.op .TleftParen, Token.number 2, Token.op .TrightParen] 0 _ _ _ _ 9 rfl
    (FactorChain.done _ rfl) (by decide) (by decide)
  have e : ∀ a : List Token, ([] : List Token) ++ a = a := fun a => rfl
  have e' : ∀ a : List Token, [Token.op .Tminus] ++ a = Token.op .Tminus :: a := fun a => rfl
  simp only [Bool.false_eq_true, if_false, if_true, e, e'] at h h'
  rw [h, h']
  simp only [resultValue, (hv rfl).1, hz rfl (fun _ hmem => nomatch hmem)]
  simp [foldValue, Token.number, Token.op]
  norm_num

/-! ## Dimensions of a term of identifiers and numbers -/

/-- The tokens of `(op factor)*` are read as a chain of factors. -/
theorem factorChain_simple (env : Env) (rest : List Token)
    (hrest : LookaheadNotIn rest [.Tmul, .Tdiv, .Texponent])
    (chain : List (MidOp × SimpleFactor)) :
    ∀ pn : Nat, (∀ x ∈ chain, x.2.Bound env) →
      ∃ items pn', FactorChain 1 env ⟨chainTokens chain ++ rest, pn⟩ items ⟨rest, pn'⟩ ∧
        List.Forall₂ (TermItem.Reads env) items chain := by
  induction chain with
  | nil =>
    intro pn _
    exact ⟨[], pn, FactorChain.done _
      (inFirst_eq_false_of_lookahead rest pn _ _ hrest (by simp [gNewtonFirsts])),
      List.Forall₂.nil⟩
  | cons x chain ih =>
    intro pn hb
    obtain ⟨op, f⟩ := x
    have hmore : LookaheadNotIn (chainTokens chain ++ rest) [.Texponent] :=
      lookahead_chainTokens chain rest (hrest.mono (by simp))
    obtain ⟨nf, pn1, hf, hpf, hidf⟩ := quantityFactor_simple 0 env f (chainTokens chain ++ rest)
      pn (hb (op, f) (List.mem_cons_self _ _)) hmore
    obtain ⟨items, pn', hc, hall⟩ := ih pn1 (fun y hy => hb y (List.mem_cons_of_mem _ hy))
    have hop : op.token.type = .Tmul ∨ op.token.type = .Tdiv := by
      cases op
      · exact Or.inl rfl
      · exact Or.inr rfl
    refine ⟨_, pn', FactorChain.step op.token (f.token :: (chainTokens chain ++ rest)) pn nf
      ⟨chainTokens chain ++ rest, pn1⟩ ⟨rest, pn'⟩ items hop hf hc, ?_⟩
    exact List.Forall₂.cons ⟨rfl, rfl, hidf, hpf⟩ hall

theorem copyInto_numerator (p : Physics) (item : TermItem)
    (hop : item.binOp.type = .Tmul ∨ item.binOp.type = .Tdiv) :
    (item.copyInto p).numeratorDimensions = p.numeratorDimensions ++ item.numerator ∧
    (item.copyInto p).denominatorDimensions = p.denominatorDimensions ++ item.denominator := by
  have hne : ∀ h : item.binOp.type = .Tdiv, ¬ item.binOp.type = .Tmul := by
    intro h h'
    rw [h] at h'
    cases h'
  unfold TermItem.copyInto TermItem.numerator TermItem.denominator
  cases hid : item.isPhysics with
  | false => simp
  | true =>
    cases hq : item.rightFactor.physics with
    | none => simp
    | some q =>
      rcases hop with h | h
      · by_cases hv : q.isVector = true <;>
          simp [h, hv, newtonPhysicsCopyNumeratorDimensions,
            newtonPhysicsCopyDenominatorDimensions]
      · by_cases hv : q.isVector = true <;>
          simp [h, hne h, hv, newtonPhysicsCopyNumeratorToDenominatorDimensions,
            newtonPhysicsCopyDenominatorToNumeratorDimensions]

theorem copyInto_inSync (p : Physics) (item : TermItem) (hp : p.InSync) :
    (item.copyInto p).InSync := by
  unfold TermItem.copyInto
  cases item.isPhysics with
  | false => exact hp
  | true =>
    cases item.rightFactor.physics with
    | none => exact hp
    | some q =>
      simp only []
      apply Physics.InSync.branch
      · exact Physics.InSync.setIsVector (Physics.InSync.branch
          ((hp.copyNumerator q).copyDenominator q)
          (Physics.InSync.branch
            ((hp.copyNumeratorToDenominator q).copyDenominatorToNumerator q) hp)) true
      · exact Physics.InSync.branch ((hp.copyNumerator q).copyDenominator q)
          (Physics.InSync.branch
            ((hp.copyNumeratorToDenominator q).copyDenominatorToNumerator q) hp)

theorem foldl_copyInto_inSync (items : List TermItem) :
    ∀ p : Physics, p.InSync → (items.foldl TermItem.copyInto p).InSync := by
  induction items with
  | nil => intro p hp; exact hp
  | cons item items ih => intro p hp; exact ih _ (copyInto_inSync p item hp)

theorem MidOp.token_type (op : MidOp) :
    op.token.type = .Tmul ∨ op.token.type = .Tdiv := by
  cases op
  · exact Or.inl rfl
  · exact Or.inr rfl

theorem chainNumerator_cons (env : Env) (x : MidOp × SimpleFactor)
    (chain : List (MidOp × SimpleFactor)) :
    chainNumerator env (x :: chain) = chainNumerator env [x] ++ chainNumerator env chain ∧
    chainDenominator env (x :: chain)
      = chainDenominator env [x] ++ chainDenominator env chain := by
  obtain ⟨op, f⟩ := x
  cases op <;> simp [chainNumerator, chainDenominator]

/-- The dimensions an item read for `op factor` adds. -/
theorem TermItem.Reads.lists {env : Env} {item : TermItem} {x : MidOp × SimpleFactor}
    (h : item.Reads env x) :
    item.numerator = chainNumerator env [x] ∧ item.denominator = chainDenominator env [x] := by
  obtain ⟨op, f⟩ := x
  obtain ⟨h1, -, h3, h4⟩ := h
  have h3' : item.isPhysics = (f.binding env).isSome := h3
  have h4' : item.rightFactor.physics = f.binding env := h4
  have h1' : item.binOp.type = op.token.type := h1
  cases hb : f.binding env with
  | none =>
    rw [hb] at h3' h4'
    simp only [Option.isSome_none] at h3'
    cases op <;>
      simp [TermItem.numerator, TermItem.denominator, SimpleFactor.numerator,
        SimpleFactor.denominator, chainNumerator, chainDenominator, hb, h3', h4']
  | some q =>
    rw [hb] at h3' h4'
    simp only [Option.isSome_some] at h3'
    cases op <;>
      simp [TermItem.numerator, TermItem.denominator, SimpleFactor.numerator,
        SimpleFactor.denominator, chainNumerator, chainDenominator, hb, h3', h4', h1',
        MidOp.token, Token.op]

/-- The physics folded over the items read for `(op factor)*`. -/
theorem foldl_copyInto_simple (env : Env) (items : List TermItem)
    (chain : List (MidOp × SimpleFactor)) (h : List.Forall₂ (TermItem.Reads env) items chain) :
    ∀ p : Physics,
      (items.foldl TermItem.copyInto p).numeratorDimensions
        = p.numeratorDimensions ++ chainNumerator env chain ∧
      (items.foldl TermItem.copyInto p).denominatorDimensions
        = p.denominatorDimensions ++ chainDenominator env chain := by
  induction h with
  | nil => intro p; simp [chainNumerator, chainDenominator]
  | @cons item x items chain hx _ ih =>
    intro p
    have hop : item.binOp.type = .Tmul ∨ item.binOp.type = .Tdiv := by
      rw [hx.1]
      exact MidOp.token_type x.1
    obtain ⟨hn, hd⟩ := copyInto_numerator p item hop
    obtain ⟨hn', hd'⟩ := ih (item.copyInto p)
    simp only [List.foldl_cons]
    rw [hn', hd', hn, hd, hx.lists.1, hx.lists.2, (chainNumerator_cons env x chain).1,
      (chainNumerator_cons env x chain).2]
    simp

/-- The vectors among the items read for `(op factor)*`. -/
theorem filter_isVector_simple (env : Env) (items : List TermItem)
    (chain : List (MidOp × SimpleFactor)) (h : List.Forall₂ (TermItem.Reads env) items chain) :
    (items.filter TermItem.isVector).length
      = ((chain.map Prod.snd).filter (SimpleFactor.isVector env)).length := by
  induction h with
  | nil => rfl
  | @cons item x items chain hx _ ih =>
    obtain ⟨h1, h2, h3, h4⟩ := hx
    have hv : item.isVector = x.2.isVector env := by
      unfold TermItem.isVector factorIsVector SimpleFactor.isVector
      rw [h3, h4]
      cases x.2.binding env <;> simp
    simp only [List.filter_cons, List.map_cons, hv]
    split <;> simp [ih]

/-- The physics of the nodes read for `(op factor)*`. -/
theorem nodes_physics_simple (env : Env) (items : List TermItem)
    (chain : List (MidOp × SimpleFactor)) (h : List.Forall₂ (TermItem.Reads env) items chain) :
    (items.flatMap TermItem.nodes).map IrNode.physics = chainPhysics env chain := by
  induction h with
  | nil => rfl
  | @cons item x items chain hx _ ih =>
    obtain ⟨op, f⟩ := x
    obtain ⟨h1, h2, h3, h4⟩ := hx
    simp only [List.flatMap_cons, List.map_append, ih, TermItem.nodes, List.map_cons,
      List.map_nil, h2, chainPhysics]
    have h4' : item.rightFactor.physics = f.binding env := h4
    rw [h4']
    rfl


/-- Under in-sync bindings the prime products of `(op factor)*` are the products of the
primes of the dimensions it adds. -/
theorem chainProduct_sync (env : Env) (hsync : BindingsInSync env)
    (chain : List (MidOp × SimpleFactor)) :
    primeProduct (chainNumerator env chain) = chainNumeratorProduct env chain ∧
    primeProduct (chainDenominator env chain) = chainDenominatorProduct env chain := by
  have hf : ∀ f : SimpleFactor,
      primeProduct (f.numerator env) = f.numeratorPrimeProduct env ∧
      primeProduct (f.denominator env) = f.denominatorPrimeProduct env := by
    intro f
    cases f with
    | identifier name =>
      unfold SimpleFactor.numerator SimpleFactor.denominator
        SimpleFactor.numeratorPrimeProduct SimpleFactor.denominatorPrimeProduct
      cases hb : SimpleFactor.binding env (.identifier name) with
      | none => simp [primeProduct]
      | some p =>
        have hp := hsync name p hb
        exact ⟨hp.1.symm, hp.2.symm⟩
    | number v =>
      simp [SimpleFactor.numerator, SimpleFactor.denominator,
        SimpleFactor.numeratorPrimeProduct, SimpleFactor.denominatorPrimeProduct,
        SimpleFactor.binding, primeProduct]
  induction chain with
  | nil => simp [chainNumerator, chainDenominator, chainNumeratorProduct,
      chainDenominatorProduct, primeProduct]
  | cons x chain ih =>
    obtain ⟨op, f⟩ := x
    cases op <;>
      simp [chainNumerator, chainDenominator, chainNumeratorProduct,
        chainDenominatorProduct, primeProduct_append, ih.1, ih.2, (hf f).1, (hf f).2]

/-- C22: a quantity term `[-] f1 op2 f2 ... opk fk` of bound identifiers (and numbers),
with at most one vector among them and bindings whose prime products are in sync,
parses to a term whose physics has numerator prime product `num(f1)` times `num(fi)` for
every `fi` joined by `*` times `den(fi)` for every `fi` joined by `/`, and denominator
prime product `den(f1)` times `den(fi)` for every `fi` joined by `*` times `num(fi)` for
every `fi` joined by `/` (the dimension lists are the corresponding concatenations); the
factor nodes of the term still carry the physics bound to their identifiers. -/
theorem quantityTerm_prime_products (env : Env) (neg : Bool) (f1 : SimpleFactor)
    (chain : List (MidOp × SimpleFactor)) (rest : List Token) (pn F : Nat)
    (hsync : BindingsInSync env)
    (hb1 : f1.Bound env) (hb : ∀ x ∈ chain, x.2.Bound env)
    (hrest : LookaheadNotIn rest [.Tmul, .Tdiv, .Texponent])
    (hcount : vectorCount env f1 chain ≤ 1)
    (hF : chain.length + 3 ≤ F) :
    ∃ node pn' q,
      newtonParseQuantityTerm F env ⟨simpleTermTokens neg f1 chain ++ rest, pn⟩
        = .ok (node, ⟨rest, pn'⟩) ∧
      node.physics = some q ∧
      q.numeratorPrimeProduct
        = f1.numeratorPrimeProduct env * chainNumeratorProduct env chain ∧
      q.denominatorPrimeProduct
        = f1.denominatorPrimeProduct env * chainDenominatorProduct env chain ∧
      q.numeratorDimensions = f1.numerator env ++ chainNumerator env chain ∧
      q.denominatorDimensions = f1.denominator env ++ chainDenominator env chain ∧
      node.children.map IrNode.physics
        = (if neg then [none] else []) ++ f1.binding env :: chainPhysics env chain := by
  have hmore : LookaheadNotIn (chainTokens chain ++ rest) [.Texponent] :=
    lookahead_chainTokens chain rest (hrest.mono (by simp))
  obtain ⟨n1, pn1, hf1, hp1, hid1⟩ :=
    quantityFactor_simple 0 env f1 (chainTokens chain ++ rest) pn hb1 hmore
  obtain ⟨items, pn', hc, hall⟩ := factorChain_simple env rest hrest chain pn1 hb
  have hlen : items.length = chain.length := hall.length_eq
  have hread : (firstItem (peekCheck ⟨f1.token :: (chainTokens chain ++ rest), pn⟩
      .Tidentifier) n1).Reads env (.mul, f1) := ⟨rfl, rfl, hid1, hp1⟩
  have hall1 := List.Forall₂.cons hread hall
  have hv1 : factorIsVector (peekCheck ⟨f1.token :: (chainTokens chain ++ rest), pn⟩
      .Tidentifier) n1 = f1.isVector env := by
    unfold factorIsVector SimpleFactor.isVector
    rw [hid1, hp1]
    cases f1.binding env <;> simp
  have hvec : (if factorIsVector (peekCheck ⟨f1.token :: (chainTokens chain ++ rest), pn⟩
      .Tidentifier) n1 then 1 else 0) + (items.filter TermItem.isVector).length ≤ 1 := by
    rw [hv1, filter_isVector_simple env items chain hall]
    simp only [vectorCount, List.filter_cons] at hcount
    cases hv : f1.isVector env
    · rw [hv] at hcount
      simpa using hcount
    · rw [hv] at hcount
      simp only [if_true, List.length_cons] at hcount ⊢
      omega
  have hfuel : 0 + 1 + items.length + 2 ≤ F := by omega
  obtain ⟨node, hparse, hphys, hch, -⟩ := quantityTerm_result (0 + 1) env neg
    (f1.token :: (chainTokens chain ++ rest)) pn n1 ⟨chainTokens chain ++ rest, pn1⟩
    ⟨rest, pn'⟩ items F hf1 hc hvec hfuel
  have hfold := foldl_copyInto_simple env _ _ hall1 callocPhysics
  simp only [List.foldl_cons] at hfold
  have hq := foldl_copyInto_inSync items
    ((firstItem (peekCheck ⟨f1.token :: (chainTokens chain ++ rest), pn⟩ .Tidentifier)
      n1).copyInto callocPhysics)
    (copyInto_inSync callocPhysics
      (firstItem (peekCheck ⟨f1.token :: (chainTokens chain ++ rest), pn⟩ .Tidentifier) n1)
      Physics.InSync.calloc)
  obtain ⟨hcn, hcd⟩ := chainProduct_sync env hsync ((.mul, f1) :: chain)
  refine ⟨node, pn', _, ?_, hphys, ?_, ?_, ?_, ?_, ?_⟩
  · simpa [simpleTermTokens] using hparse
  · rw [hq.1, hfold.1, primeProduct_append, hcn]
    simp [callocPhysics, primeProduct, chainNumeratorProduct]
  · rw [hq.2, hfold.2, primeProduct_append, hcd]
    simp [callocPhysics, primeProduct, chainDenominatorProduct]
  · rw [hfold.1]
    simp [callocPhysics, chainNumerator]
  · rw [hfold.2]
    simp [callocPhysics, chainDenominator]
  · rw [hch, List.map_append, List.map_cons, nodes_physics_simple env items chain hall, hp1]
    cases neg <;> simp

theorem quantityTerm_prime_products_witness :
    ∃ node pn' q,
      newtonParseQuantityTerm 5 exampleEnv
        ⟨simpleTermTokens false (.identifier "mass")
          [(.mul, .identifier "m"), (.div, .identifier "velocity")] ++ [], 0⟩
        = .ok (node, ⟨[], pn'⟩) ∧
      node.physics = some q ∧
      q.numeratorPrimeProduct
        = SimpleFactor.numeratorPrimeProduct exampleEnv (.identifier "mass") *
          chainNumeratorProduct exampleEnv
            [(.mul, .identifier "m"), (.div, .identifier "velocity")] ∧
      q.denominatorPrimeProduct
        = SimpleFactor.denominatorPrimeProduct exampleEnv (.identifier "mass") *
          chainDenominatorProduct exampleEnv
            [(.mul, .identifier "m"), (.div, .identifier "velocity")] ∧
      q.numeratorDimensions = SimpleFactor.numerator exampleEnv (.identifier "mass") ++
        chainNumerator exampleEnv [(.mul, .identifier "m"), (.div, .identifier "velocity")] ∧
      q.denominatorDimensions = SimpleFactor.denominator exampleEnv (.identifier "mass") ++
        chainDenominator exampleEnv
          [(.mul, .identifier "m"), (.div, .identifier "velocity")] ∧
      node.children.map IrNode.physics
        = (if false then [none] else []) ++
          SimpleFactor.binding exampleEnv (.identifier "mass") ::
            chainPhysics exampleEnv [(.mul, .identifier "m"), (.div, .identifier "velocity")] :=
  quantityTerm_prime_products exampleEnv false (.identifier "mass")
    [(.mul, .identifier "m"), (.div, .identifier "velocity")] [] 0 5
    exampleEnv_bindingsInSync (by simp [SimpleFactor.Bound, exampleEnv, exampleScope])
    (by simp [SimpleFactor.Bound, exampleEnv, exampleScope]) (by decide) (by decide) (by decide)

/-! ## Integer powers of an identifier -/

/-- The factor `x ** n` (or `x ** -n`), `1 ≤ n < 2^31`: the node returned carries a physics
with the lists of `x` repeated `n` times (crossed for `-n`) and the vector flag of `x`. -/
theorem quantityFactor_power (fuel : Nat) (env : Env) (x : String) (p : Physics) (neg : Bool)
    (n : ℕ) (rest : List Token) (pn : Nat)
    (hx : env.currentScope.physicsForIdentifier x = some p) (hn : 1 ≤ n)
    (hrange : n < 2147483648) :
    ∃ node pn' q,
      newtonParseQuantityFactor (fuel + 1) env ⟨powerTokens x neg n ++ rest, pn⟩
        = .ok (node, ⟨rest, pn'⟩) ∧
      node.physics = some q ∧ q.isVector = p.isVector ∧
      (if neg then q.denominatorDimensions else q.numeratorDimensions)
        = (if 0 < p.numberOfNumerators then (List.replicate n p.numeratorDimensions).flatten
          else []) ∧
      (if neg then q.numeratorDimensions else q.denominatorDimensions)
        = (if 0 < p.numberOfDenominators then (List.replicate n p.denominatorDimensions).flatten
          else []) ∧
      (if neg then q.denominatorPrimeProduct else q.numeratorPrimeProduct)
        = (if 0 < p.numberOfNumerators then primeProduct p.numeratorDimensions ^ n else 1) ∧
      (if neg then q.numeratorPrimeProduct else q.denominatorPrimeProduct)
        = (if 0 < p.numberOfDenominators then primeProduct p.denominatorDimensions ^ n
          else 1) := by
  have hn0 : (n : ℚ) ≠ 0 := by
    have : (0 : ℚ) < n := by exact_mod_cast hn
    exact ne_of_gt this
  obtain ⟨base, pn', hb, -, heq⟩ :=
    quantityFactor_identifier_exponent fuel env x p (integerTokens neg n ++ rest) pn hx
  cases neg with
  | false =>
    obtain ⟨e, hint, hval⟩ := newtonParseInteger_number n rest pn' hn0
    have hexp : (if peekCheck ⟨Token.number n :: rest, pn'⟩ .TleftParen
        then newtonParseNumericExpression fuel env ⟨Token.number n :: rest, pn'⟩
        else newtonParseInteger ⟨Token.number n :: rest, pn'⟩)
        = .ok (e, ⟨rest, pn'⟩) := by
      rw [if_neg (by simp [peekCheck, Token.number])]
      exact hint
    obtain ⟨q, hq, h1, h2, h3, h4, h5, -⟩ :=
      exponentialExpression_of_positive fuel env p _ _ e n hexp hval hn hrange
    have hres := heq
    simp only [integerTokens, Bool.false_eq_true, if_false, List.nil_append,
      List.cons_append] at hres
    rw [hq base hb] at hres
    simp only [bind_ok] at hres
    exact ⟨_, pn', q, hres, by split <;> simp, h5, h1, h2, h3, h4⟩
  | true =>
    obtain ⟨e, hint, hval⟩ := newtonParseInteger_minus_number n rest pn' hn0
    have hexp : (if peekCheck ⟨Token.op .Tminus :: Token.number n :: rest, pn'⟩ .TleftParen
        then newtonParseNumericExpression fuel env
          ⟨Token.op .Tminus :: Token.number n :: rest, pn'⟩
        else newtonParseInteger ⟨Token.op .Tminus :: Token.number n :: rest, pn'⟩)
        = .ok (e, ⟨rest, pn'⟩) := by
      rw [if_neg (by simp [peekCheck, Token.op])]
      exact hint
    obtain ⟨q, hq, h1, h2, h3, h4, h5, -⟩ :=
      exponentialExpression_of_negative fuel env p _ _ e n hexp hval hn (by omega)
    have hres := heq
    simp only [integerTokens, if_true, List.cons_append, List.nil_append,
      List.singleton_append] at hres
    rw [hq base hb] at hres
    simp only [bind_ok] at hres
    exact ⟨_, pn', q, hres, by split <;> simp, h5, h1, h2, h3, h4⟩

/-! ## Powers and repeated products -/

theorem primeProduct_flatten_replicate (n : ℕ) (ds : List Dimension) :
    primeProduct (List.replicate n ds).flatten = primeProduct ds ^ n := by
  induction n with
  | zero => simp [primeProduct]
  | succ k ih => simp [List.replicate_succ, primeProduct_append, ih, pow_succ, Nat.mul_comm]

/-- The products of a chain that repeats one operator and one factor. -/
theorem chainProduct_replicate (env : Env) (op : MidOp) (f : SimpleFactor) (k : ℕ) :
    chainNumeratorProduct env (List.replicate k (op, f))
      = (match op with
        | .mul => f.numeratorPrimeProduct env
        | .div => f.denominatorPrimeProduct env) ^ k ∧
    chainDenominatorProduct env (List.replicate k (op, f))
      = (match op with
        | .mul => f.denominatorPrimeProduct env
        | .div => f.numeratorPrimeProduct env) ^ k := by
  induction k with
  | zero => simp [chainNumeratorProduct, chainDenominatorProduct]
  | succ k ih =>
    cases op <;>
      simp_all [List.replicate_succ, chainNumeratorProduct, chainDenominatorProduct, pow_succ,
        Nat.mul_comm]

/-- The term that is the single factor `x ** n` (or `x ** -n`), `1 ≤ n < 2^31`, for `x` bound to
a well-formed physics: its lists are those of `x` repeated `n` times and its prime
products are those of `x` to the power `n`, crossed for `-n`. -/
theorem quantityTerm_power (env : Env) (x : String) (p : Physics) (neg : Bool) (n : ℕ)
    (rest : List Token) (pn F : Nat)
    (hx : env.currentScope.physicsForIdentifier x = some p) (hwf : WellFormed p)
    (hn : 1 ≤ n) (hrange : n < 2147483648)
    (hrest : LookaheadNotIn rest [.Tmul, .Tdiv, .Texponent]) (hF : 3 ≤ F) :
    ∃ node pn' q,
      newtonParseQuantityTerm F env ⟨powerTokens x neg n ++ rest, pn⟩
        = .ok (node, ⟨rest, pn'⟩) ∧
      node.physics = some q ∧
      (if neg then q.denominatorDimensions else q.numeratorDimensions)
        = (List.replicate n p.numeratorDimensions).flatten ∧
      (if neg then q.numeratorDimensions else q.denominatorDimensions)
        = (List.replicate n p.denominatorDimensions).flatten ∧
      (if neg then q.denominatorPrimeProduct else q.numeratorPrimeProduct)
        = p.numeratorPrimeProduct ^ n ∧
      (if neg then q.numeratorPrimeProduct else q.denominatorPrimeProduct)
        = p.denominatorPrimeProduct ^ n := by
  obtain ⟨n1, pn1, q, hf1, hp1, -, hq1, hq2, -, -⟩ :=
    quantityFactor_power 0 env x p neg n rest pn hx hn hrange
  have hnum : (if 0 < p.numberOfNumerators then
      (List.replicate n p.numeratorDimensions).flatten else [])
      = (List.replicate n p.numeratorDimensions).flatten := by
    split
    · rfl
    · have h0 : p.numeratorDimensions = [] := by
        apply List.eq_nil_of_length_eq_zero
        have := hwf.numeratorCount
        omega
      simp [h0]
  have hden : (if 0 < p.numberOfDenominators then
      (List.replicate n p.denominatorDimensions).flatten else [])
      = (List.replicate n p.denominatorDimensions).flatten := by
    split
    · rfl
    · have h0 : p.denominatorDimensions = [] := by
        apply List.eq_nil_of_length_eq_zero
        have := hwf.denominatorCount
        omega
      simp [h0]
  rw [hnum] at hq1
  rw [hden] at hq2
  have hdone : FactorChain (0 + 1) env ⟨rest, pn1⟩ [] ⟨rest, pn1⟩ :=
    FactorChain.done _ (inFirst_eq_false_of_lookahead rest pn1 _ _ hrest
      (by simp [gNewtonFirsts]))
  have hid1 : peekCheck ⟨powerTokens x neg n ++ rest, pn⟩ .Tidentifier = true := by
    simp [peekCheck, powerTokens, Token.ident]
  obtain ⟨node, hparse, hphys, -, -⟩ := quantityTerm_result (0 + 1) env false
    (powerTokens x neg n ++ rest) pn n1 _ _ [] F hf1 hdone
    (by split <;> simp) (by simp only [List.length_nil]; omega)
  rw [hid1] at hphys
  simp only [List.foldl_nil] at hphys
  have hop : (firstItem true n1).binOp.type = .Tmul ∨ (firstItem true n1).binOp.type = .Tdiv :=
    Or.inl rfl
  obtain ⟨hl1, hl2⟩ := copyInto_numerator callocPhysics (firstItem true n1) hop
  have hs := copyInto_inSync callocPhysics (firstItem true n1) Physics.InSync.calloc
  have hin : (firstItem true n1).numerator = q.numeratorDimensions := by
    simp [TermItem.numerator, firstItem, hp1, genIrNode]
  have hid : (firstItem true n1).denominator = q.denominatorDimensions := by
    simp [TermItem.denominator, firstItem, hp1, genIrNode]
  rw [hin] at hl1
  rw [hid] at hl2
  have hc1 : callocPhysics.numeratorDimensions ++ q.numeratorDimensions
      = q.numeratorDimensions := rfl
  have hc2 : callocPhysics.denominatorDimensions ++ q.denominatorDimensions
      = q.denominatorDimensions := rfl
  rw [hc1] at hl1
  rw [hc2] at hl2
  refine ⟨node, pn1, _, by simpa using hparse, hphys, ?_, ?_, ?_, ?_⟩
  · cases neg
    · simpa [hl1] using hq1
    · simpa [hl2] using hq1
  · cases neg
    · simpa [hl2] using hq2
    · simpa [hl1] using hq2
  · cases neg
    · simp only [Bool.false_eq_true, if_false] at hq1 ⊢
      rw [hs.1, hl1, hq1, primeProduct_flatten_replicate, hwf.numeratorSync]
    · simp only [if_true] at hq1 ⊢
      rw [hs.2, hl2, hq1, primeProduct_flatten_replicate, hwf.numeratorSync]
  · cases neg
    · simp only [Bool.false_eq_true, if_false] at hq2 ⊢
      rw [hs.2, hl2, hq2, primeProduct_flatten_replicate, hwf.denominatorSync]
    · simp only [if_true] at hq2 ⊢
      rw [hs.1, hl1, hq2, primeProduct_flatten_replicate, hwf.denominatorSync]


/-- C28 (counterexample): `velocity` is bound to the vector meter per second. The term
`velocity ** 2` parses, with prime products 9 and 25, but the term `velocity * velocity`
is rejected by the assertion that a term holds at most one vector: there is no term to
agree with. -/
theorem quantityTerm_power_of_vector :
    exampleScope.physicsForIdentifier "velocity"
      = some (Physics.ofDimensions [meter] [second] true false 0) ∧
    (resultPhysics (newtonParseQuantityTerm 5 exampleEnv
      ⟨powerTokens "velocity" false 2, 0⟩)).map
        (fun q => (q.numeratorPrimeProduct, q.denominatorPrimeProduct)) = some (9, 25) ∧
    newtonParseQuantityTerm 5 exampleEnv
      ⟨simpleTermTokens false (.identifier "velocity") [(.mul, .identifier "velocity")], 0⟩
      = .error .assertionFailure := by
  decide!

/-- The terms `x ** n` and `x * x * ... * x`, and `x ** -n` and `1 / x / ... / x`, for `x`
not a vector unless `n = 1`: all four parse, with the prime products of `x` to the power
`n`. -/
theorem power_agrees_in_range (env : Env) (x : String) (p : Physics) (n : ℕ)
    (rest : List Token) (pn F : Nat)
    (hx : env.currentScope.physicsForIdentifier x = some p)
    (hsync : BindingsInSync env) (hwf : WellFormed p)
    (hn : 1 ≤ n) (hrange : n < 2147483648) (hvec : p.isVector = true → n = 1)
    (hrest : LookaheadNotIn rest [.Tmul, .Tdiv, .Texponent])
    (hF : n + 3 ≤ F) :
    ∃ a b c d,
      resultPhysics (newtonParseQuantityTerm F env ⟨powerTokens x false n ++ rest, pn⟩)
        = some a ∧
      resultPhysics (newtonParseQuantityTerm F env
        ⟨simpleTermTokens false (.identifier x)
          (List.replicate (n - 1) (.mul, .identifier x)) ++ rest, pn⟩) = some b ∧
      a.numeratorPrimeProduct = b.numeratorPrimeProduct ∧
      a.denominatorPrimeProduct = b.denominatorPrimeProduct ∧
      a.numeratorPrimeProduct = p.numeratorPrimeProduct ^ n ∧
      a.denominatorPrimeProduct = p.denominatorPrimeProduct ^ n ∧
      resultPhysics (newtonParseQuantityTerm F env ⟨powerTokens x true n ++ rest, pn⟩)
        = some c ∧
      resultPhysics (newtonParseQuantityTerm F env
        ⟨simpleTermTokens false (.number 1)
          (List.replicate n (.div, .identifier x)) ++ rest, pn⟩) = some d ∧
      c.numeratorPrimeProduct = d.numeratorPrimeProduct ∧
      c.denominatorPrimeProduct = d.denominatorPrimeProduct ∧
      c.numeratorPrimeProduct = p.denominatorPrimeProduct ^ n ∧
      c.denominatorPrimeProduct = p.numeratorPrimeProduct ^ n ∧
      (n = 1 → a.numeratorDimensions = p.numeratorDimensions ∧
        a.denominatorDimensions = p.denominatorDimensions) := by
  have hbx : SimpleFactor.Bound env (.identifier x) := ⟨p, hx⟩
  have hvx : SimpleFactor.isVector env (.identifier x) = p.isVector := by
    simp [SimpleFactor.isVector, SimpleFactor.binding, hx]
  have hnx : SimpleFactor.numeratorPrimeProduct env (.identifier x)
      = p.numeratorPrimeProduct := by
    simp [SimpleFactor.numeratorPrimeProduct, SimpleFactor.binding, hx]
  have hdx : SimpleFactor.denominatorPrimeProduct env (.identifier x)
      = p.denominatorPrimeProduct := by
    simp [SimpleFactor.denominatorPrimeProduct, SimpleFactor.binding, hx]
  obtain ⟨na, pa, a, hpa, hqa, ha1, ha2, ha3, ha4⟩ :=
    quantityTerm_power env x p false n rest pn F hx hwf hn hrange hrest (by omega)
  obtain ⟨nc, pc, c, hpc, hqc, hc1, hc2, hc3, hc4⟩ :=
    quantityTerm_power env x p true n rest pn F hx hwf hn hrange hrest (by omega)
  simp only [Bool.false_eq_true, if_false] at ha1 ha2 ha3 ha4
  simp only [if_true] at hc1 hc2 hc3 hc4
  have hcountb : vectorCount env (.identifier x)
      (List.replicate (n - 1) (.mul, .identifier x)) ≤ 1 := by
    cases hv : p.isVector with
    | false =>
      simp [vectorCount, List.filter_cons, hvx, hv, List.map_replicate, List.filter_replicate]
    | true =>
      have h1 := hvec hv
      subst h1
      simp [vectorCount, List.filter_cons, hvx, hv]
  have hcountd : vectorCount env (.number 1) (List.replicate n (.div, .identifier x)) ≤ 1 := by
    have hv1 : SimpleFactor.isVector env (.number 1) = false := by
      simp [SimpleFactor.isVector, SimpleFactor.binding]
    cases hv : p.isVector with
    | false =>
      simp [vectorCount, List.filter_cons, hvx, hv, hv1, List.map_replicate,
        List.filter_replicate]
    | true =>
      have h1 := hvec hv
      subst h1
      simp [vectorCount, List.filter_cons, hvx, hv, hv1]
  obtain ⟨nb, pb, b, hpb, hqb, hb1, hb2, -, -, -⟩ :=
    quantityTerm_prime_products env false (.identifier x)
      (List.replicate (n - 1) (.mul, .identifier x)) rest pn F hsync hbx
      (fun y hy => by rw [List.eq_of_mem_replicate hy]; exact hbx) hrest hcountb
      (by simp only [List.length_replicate]; omega)
  obtain ⟨nd, pd, d, hpd, hqd, hd1, hd2, -, -, -⟩ :=
    quantityTerm_prime_products env false (.number 1)
      (List.replicate n (.div, .identifier x)) rest pn F hsync trivial
      (fun y hy => by rw [List.eq_of_mem_replicate hy]; exact hbx) hrest hcountd
      (by simp only [List.length_replicate]; omega)
  have hpow : ∀ v : ℕ, v * v ^ (n - 1) = v ^ n := by
    intro v
    obtain ⟨k, rfl⟩ : ∃ k, n = k + 1 := ⟨n - 1, by omega⟩
    simp [pow_succ, Nat.mul_comm]
  rw [(chainProduct_replicate env .mul (.identifier x) (n - 1)).1, hnx, hpow] at hb1
  rw [(chainProduct_replicate env .mul (.identifier x) (n - 1)).2, hdx, hpow] at hb2
  rw [(chainProduct_replicate env .div (.identifier x) n).1, hdx] at hd1
  rw [(chainProduct_replicate env .div (.identifier x) n).2, hnx] at hd2
  have hn1 : SimpleFactor.numeratorPrimeProduct env (.number 1) = 1 := by
    simp [SimpleFactor.numeratorPrimeProduct, SimpleFactor.binding]
  have hd1' : SimpleFactor.denominatorPrimeProduct env (.number 1) = 1 := by
    simp [SimpleFactor.denominatorPrimeProduct, SimpleFactor.binding]
  rw [hn1, Nat.one_mul] at hd1
  rw [hd1', Nat.one_mul] at hd2
  refine ⟨a, b, c, d, by rw [hpa]; exact hqa, by rw [hpb]; exact hqb, by rw [ha3, hb1],
    by rw [ha4, hb2], ha3, ha4, by rw [hpc]; exact hqc, by rw [hpd]; exact hqd,
    by rw [hc4, hd1], by rw [hc3, hd2], hc4, hc3, ?_⟩
  intro h1
  subst h1
  simpa using And.intro ha1 ha2

/-- The terms `x * x * ...` with two factors or more and `1 / x / x / ...` with two
divisions or more, for a vector `x`: the second vector ends the parse in the assertion
failure. -/
theorem repeated_product_of_vector_fails (env : Env) (x : String) (p : Physics) (n : ℕ)
    (rest : List Token) (pn F : Nat)
    (hx : env.currentScope.physicsForIdentifier x = some p) (hv : p.isVector = true)
    (hn : 2 ≤ n) (hrest : LookaheadNotIn rest [.Tmul, .Tdiv, .Texponent]) (hF : 5 ≤ F) :
    newtonParseQuantityTerm F env
      ⟨simpleTermTokens false (.identifier x)
        (List.replicate (n - 1) (.mul, .identifier x)) ++ rest, pn⟩
      = .error .assertionFailure ∧
    newtonParseQuantityTerm F env
      ⟨simpleTermTokens false (.number 1)
        (List.replicate n (.div, .identifier x)) ++ rest, pn⟩
      = .error .assertionFailure := by
  have hbx : SimpleFactor.Bound env (.identifier x) := ⟨p, hx⟩
  have hvx : SimpleFactor.isVector env (.identifier x) = true := by
    simp [SimpleFactor.isVector, SimpleFactor.binding, hx, hv]
  have hv1 : SimpleFactor.isVector env (.number 1) = false := by
    simp [SimpleFactor.isVector, SimpleFactor.binding]
  obtain ⟨k, rfl⟩ : ∃ k, n = k + 2 := ⟨n - 2, by omega⟩
  obtain ⟨G, rfl⟩ : ∃ G, F = G + 5 := ⟨F - 5, by omega⟩
  have hmore : ∀ (op : MidOp) (m : ℕ), LookaheadNotIn
      (chainTokens (List.replicate m (op, SimpleFactor.identifier x)) ++ rest) [.Texponent] :=
    fun op m => lookahead_chainTokens _ rest (hrest.mono (by simp))
  constructor
  · have hk : k + 2 - 1 = k + 1 := by omega
    rw [hk]
    simp only [simpleTermTokens, Bool.false_eq_true, if_false, List.nil_append,
      List.replicate_succ, chainTokens, List.cons_append]
    obtain ⟨l, i, ph, hn', pn1, -, h1⟩ := quantityTerm_simple_first (G + 3) env false
      (.identifier x)
      (MidOp.mul.token :: (SimpleFactor.identifier x).token ::
        (chainTokens (List.replicate k (MidOp.mul, SimpleFactor.identifier x)) ++ rest)) pn hbx
      (by
        intro tok htok
        simp only [List.head?_cons, Option.mem_def, Option.some.injEq] at htok
        subst htok
        simp [MidOp.token, Token.op])
    simp only [Bool.false_eq_true, if_false, List.nil_append] at h1
    rw [h1]
    obtain ⟨i', ph', hn'', pn2, -, h2⟩ := quantityTermLoop_step_simple (G + 2) env l i ph hn'
      (if SimpleFactor.isVector env (.identifier x) = true then 1 else 0) .mul (.identifier x)
      (chainTokens (List.replicate k (MidOp.mul, SimpleFactor.identifier x)) ++ rest) pn1 hbx
      (hmore .mul k)
    rw [h2]
    simp [hvx]
  · simp only [simpleTermTokens, Bool.false_eq_true, if_false, List.nil_append,
      List.replicate_succ, chainTokens, List.cons_append]
    obtain ⟨l, i, ph, hn', pn1, -, h1⟩ := quantityTerm_simple_first (G + 3) env false
      (.number 1)
      (MidOp.div.token :: (SimpleFactor.identifier x).token ::
        MidOp.div.token :: (SimpleFactor.identifier x).token ::
        (chainTokens (List.replicate k (MidOp.div, SimpleFactor.identifier x)) ++ rest)) pn
      trivial
      (by
        intro tok htok
        simp only [List.head?_cons, Option.mem_def, Option.some.injEq] at htok
        subst htok
        simp [MidOp.token, Token.op])
    simp only [Bool.false_eq_true, if_false, List.nil_append] at h1
    rw [h1]
    obtain ⟨i', ph', hn'', pn2, -, h2⟩ := quantityTermLoop_step_simple (G + 2) env l i ph hn'
      (if SimpleFactor.isVector env (.number 1) = true then 1 else 0) .div (.identifier x)
      (MidOp.div.token :: (SimpleFactor.identifier x).token ::
        (chainTokens (List.replicate k (MidOp.div, SimpleFactor.identifier x)) ++ rest)) pn1 hbx
      (by
        intro tok htok
        simp only [List.head?_cons, Option.mem_def, Option.some.injEq] at htok
        subst htok
        simp [MidOp.token, Token.op])
    rw [h2]
    simp only [hvx, hv1, Bool.false_eq_true, if_false, if_true, true_and]
    rw [if_neg (by omega)]
    obtain ⟨i'', ph'', hn''', pn3, -, h3⟩ := quantityTermLoop_step_simple (G + 1) env l i' ph'
      hn'' (0 + 1) .div (.identifier x)
      (chainTokens (List.replicate k (MidOp.div, SimpleFactor.identifier x)) ++ rest) pn2 hbx
      (hmore .div k)
    rw [h3]
    simp [hvx]

/-- C28 (amended): let `x` be bound to a well-formed physics `p` in a scope whose bindings
are in sync, and `1 ≤ n < 2^31`. The terms `x ** n` and `x ** -n` parse, with the prime
products of `x` to the power `n` (sides exchanged for `-n`), and `x ** 1` has exactly the
numerator and denominator dimensions of `x`. When `x` is not a vector, or `n = 1`, the
terms `x * x * ... * x` with `n` factors and `1 / x / ... / x` with `n` divisions parse
too, and have the same prime products as `x ** n` and as `x ** -n`. When `x` is a vector
and `n ≥ 2`, these two terms end in the assertion failure. -/
theorem power_agrees_with_repeated_product (env : Env) (x : String) (p : Physics) (n : ℕ)
    (rest : List Token) (pn F : Nat)
    (hx : env.currentScope.physicsForIdentifier x = some p)
    (hsync : BindingsInSync env) (hwf : WellFormed p)
    (hn : 1 ≤ n) (hrange : n < 2147483648)
    (hrest : LookaheadNotIn rest [.Tmul, .Tdiv, .Texponent])
    (hF : n + 3 ≤ F) :
    (∃ a c,
      resultPhysics (newtonParseQuantityTerm F env ⟨powerTokens x false n ++ rest, pn⟩)
        = some a ∧
      a.numeratorPrimeProduct = p.numeratorPrimeProduct ^ n ∧
      a.denominatorPrimeProduct = p.denominatorPrimeProduct ^ n ∧
      resultPhysics (newtonParseQuantityTerm F env ⟨powerTokens x true n ++ rest, pn⟩)
        = some c ∧
      c.numeratorPrimeProduct = p.denominatorPrimeProduct ^ n ∧
      c.denominatorPrimeProduct = p.numeratorPrimeProduct ^ n ∧
      (n = 1 → a.numeratorDimensions = p.numeratorDimensions ∧
        a.denominatorDimensions = p.denominatorDimensions)) ∧
    ((p.isVector = true → n = 1) →
      ∃ a b c d,
        resultPhysics (newtonParseQuantityTerm F env ⟨powerTokens x false n ++ rest, pn⟩)
          = some a ∧
        resultPhysics (newtonParseQuantityTerm F env
          ⟨simpleTermTokens false (.identifier x)
            (List.replicate (n - 1) (.mul, .identifier x)) ++ rest, pn⟩) = some b ∧
        a.numeratorPrimeProduct = b.numeratorPrimeProduct ∧
        a.denominatorPrimeProduct = b.denominatorPrimeProduct ∧
        resultPhysics (newtonParseQuantityTerm F env ⟨powerTokens x true n ++ rest, pn⟩)
          = some c ∧
        resultPhysics (newtonParseQuantityTerm F env
          ⟨simpleTermTokens false (.number 1)
            (List.replicate n (.div, .identifier x)) ++ rest, pn⟩) = some d ∧
        c.numeratorPrimeProduct = d.numeratorPrimeProduct ∧
        c.denominatorPrimeProduct = d.denominatorPrimeProduct) ∧
    (p.isVector = true → 2 ≤ n →
      newtonParseQuantityTerm F env
        ⟨simpleTermTokens false (.identifier x)
          (List.replicate (n - 1) (.mul, .identifier x)) ++ rest, pn⟩
        = .error .assertionFailure ∧
      newtonParseQuantityTerm F env
        ⟨simpleTermTokens false (.number 1)
          (List.replicate n (.div, .identifier x)) ++ rest, pn⟩
        = .error .assertionFailure) := by
  refine ⟨?_, ?_, ?_⟩
  · obtain ⟨na, pa, a, hpa, hqa, ha1, ha2, ha3, ha4⟩ :=
      quantityTerm_power env x p false n rest pn F hx hwf hn hrange hrest (by omega)
    obtain ⟨nc, pc, c, hpc, hqc, -, -, hc3, hc4⟩ :=
      quantityTerm_power env x p true n rest pn F hx hwf hn hrange hrest (by omega)
    simp only [Bool.false_eq_true, if_false] at ha1 ha2 ha3 ha4
    simp only [if_true] at hc3 hc4
    refine ⟨a, c, by rw [hpa]; exact hqa, ha3, ha4, by rw [hpc]; exact hqc, hc4, hc3, ?_⟩
    intro h1
    subst h1
    simpa using And.intro ha1 ha2
  · intro hvec
    obtain ⟨a, b, c, d, h1, h2, h3, h4, -, -, h7, h8, h9, h10, -⟩ :=
      power_agrees_in_range env x p n rest pn F hx hsync hwf hn hrange hvec hrest hF
    exact ⟨a, b, c, d, h1, h2, h3, h4, h7, h8, h9, h10⟩
  · intro hv h2
    exact repeated_product_of_vector_fails env x p n rest pn F hx hv h2 hrest (by omega)

/-- C28 as amended, at `mass ** 3` against `mass * mass * mass` and `mass ** -3` against
`1 / mass / mass / mass`, mass being bound to kilogram (prime 2) and not a vector. -/
theorem power_agrees_with_repeated_product_witness :
    ∃ a b c d,
      resultPhysics (newtonParseQuantityTerm 6 exampleEnv ⟨powerTokens "mass" false 3 ++ [], 0⟩)
        = some a ∧
      resultPhysics (newtonParseQuantityTerm 6 exampleEnv
        ⟨simpleTermTokens false (.identifier "mass")
          (List.replicate (3 - 1) (.mul, .identifier "mass")) ++ [], 0⟩) = some b ∧
      a.numeratorPrimeProduct = b.numeratorPrimeProduct ∧
      a.denominatorPrimeProduct = b.denominatorPrimeProduct ∧
      resultPhysics (newtonParseQuantityTerm 6 exampleEnv ⟨powerTokens "mass" true 3 ++ [], 0⟩)
        = some c ∧
      resultPhysics (newtonParseQuantityTerm 6 exampleEnv
        ⟨simpleTermTokens false (.number 1)
          (List.replicate 3 (.div, .identifier "mass")) ++ [], 0⟩) = some d ∧
      c.numeratorPrimeProduct = d.numeratorPrimeProduct ∧
      c.denominatorPrimeProduct = d.denominatorPrimeProduct :=
  (power_agrees_with_repeated_product exampleEnv "mass"
    (Physics.ofDimensions [kilogram] [] false false 0) 3 [] 0 6 rfl
    exampleEnv_bindingsInSync
    ⟨by decide, by decide, by decide, by decide⟩ (by decide) (by decide) (by decide)
    (by decide)).2.1 (by decide)

/-! ## Termination -/

theorem halts_mono {α : Type} {n n' : Nat} {r : Except Err (α × State)} (h : Halts n r)
    (hle : n ≤ n') : Halts n' r := by
  cases r with
  | error e => exact h
  | ok a =>
    obtain ⟨a, s⟩ := a
    exact Nat.lt_of_lt_of_le h hle

theorem halts_bind {α β : Type} {n n' : Nat} {x : Except Err (α × State)}
    {k : α × State → Except Err (β × State)} (hx : Halts n x)
    (hk : ∀ a s, s.tokens.length < n → Halts n' (k (a, s))) : Halts n' (x >>= k) := by
  cases x with
  | error e => exact hx
  | ok a =>
    obtain ⟨a, s⟩ := a
    exact hk a s hx

/-- A step that reads no token and needs no fuel. -/
theorem halts_bind_plain {γ β : Type} {n : Nat} {x : Except Err γ}
    {k : γ → Except Err (β × State)} (hx : x ≠ .error .outOfFuel)
    (hk : ∀ a, Halts n (k a)) : Halts n (x >>= k) := by
  cases x with
  | error e =>
    intro h
    exact hx (by rw [h])
  | ok a => exact hk a

theorem halts_ok {α : Type} {n : Nat} {a : α} {s : State} (h : s.tokens.length < n) :
    Halts n (.ok (a, s) : Except Err (α × State)) := h

theorem halts_error {α : Type} {n : Nat} {e : Err} (h : e ≠ .outOfFuel) :
    Halts n (.error e : Except Err (α × State)) := h

theorem halts_ne_outOfFuel {α : Type} {n : Nat} {r : Except Err (α × State)} (h : Halts n r) :
    r ≠ .error .outOfFuel := by
  intro hr
  rw [hr] at h
  exact h rfl

theorem halts_length_lt {α : Type} {n : Nat} {r : Except Err (α × State)} {a : α} {s : State}
    (h : Halts n r) (hr : r = .ok (a, s)) : s.tokens.length < n := by
  rw [hr] at h
  exact h

theorem derefPhysics_ne_outOfFuel (node : IrNode) : derefPhysics node ≠ .error .outOfFuel := by
  unfold derefPhysics
  split <;> simp

theorem assert_ne_outOfFuel (c : Prop) [Decidable c] : Newton.assert c ≠ .error .outOfFuel := by
  unfold Newton.assert
  split <;> simp

theorem halts_terminal (t : IrNodeType) (s : State) :
    Halts s.tokens.length (newtonParseTerminal t s) := by
  unfold newtonParseTerminal
  cases hs : s.tokens with
  | nil => simp [Halts]
  | cons tok rest =>
    simp only []
    split <;> simp [Halts]

theorem halts_identifierUsage (env : Env) (s : State) :
    Halts s.tokens.length (newtonParseIdentifierUsageTerminal env s) := by
  unfold newtonParseIdentifierUsageTerminal
  cases hs : s.tokens with
  | nil => simp [Halts]
  | cons tok rest =>
    simp only []
    split
    · split
      · simp [Halts]
      · split <;> simp [Halts]
    · simp [Halts]

theorem halts_unaryOp (s : State) : Halts s.tokens.length (newtonParseUnaryOp s) := by
  unfold newtonParseUnaryOp
  split
  · exact halts_terminal _ _
  · simp [Halts]

theorem halts_midPrecedenceBinaryOp (s : State) :
    Halts s.tokens.length (newtonParseMidPrecedenceBinaryOp s) := by
  unfold newtonParseMidPrecedenceBinaryOp
  split
  · exact halts_terminal _ _
  · split
    · exact halts_terminal _ _
    · simp [Halts]

theorem halts_map {α β : Type} {n : Nat} {r : Except Err (α × State)} (f : α × State → β)
    (h : Halts n r) : Halts n (r.map (fun x => (f x, x.2))) := by
  cases r with
  | error e => exact h
  | ok a =>
    obtain ⟨a, s⟩ := a
    exact h

theorem halts_highPrecedenceBinaryOp (s : State) :
    Halts s.tokens.length (newtonParseHighPrecedenceBinaryOp s) := by
  unfold newtonParseHighPrecedenceBinaryOp
  simp only []
  split
  · exact halts_map (fun r => addLeaf (genIrNode .PhighPrecedenceBinaryOp) r.1)
      (halts_terminal _ _)
  · simp [Halts]

/-- In the first set of the operator, `newtonParseLowPrecedenceBinaryOp` reads a token. -/
theorem halts_lowPrecedenceBinaryOp (s : State)
    (h : inFirst s .PlowPrecedenceBinaryOp = true) :
    Halts s.tokens.length (newtonParseLowPrecedenceBinaryOp s) := by
  unfold newtonParseLowPrecedenceBinaryOp
  split
  · exact halts_map (fun r => some r.1) (halts_terminal _ _)
  · split
    · exact halts_map (fun r => some r.1) (halts_terminal _ _)
    · rename_i h1 h2
      cases hs : s.tokens with
      | nil => simp [inFirst, hs] at h
      | cons tok rest =>
        simp [inFirst, peekCheck, hs, gNewtonFirsts] at h h1 h2
        rcases h with h | h
        · exact absurd h h1
        · exact absurd h h2

theorem halts_integer (s : State) : Halts s.tokens.length (newtonParseInteger s) := by
  unfold newtonParseInteger
  simp only []
  have hfirst : Halts (s.tokens.length + 1) (if inFirst s .PunaryOp = true then
      (do
        let (u, s) ← newtonParseUnaryOp s
        pure ((addLeaf (genIrNode .Pinteger) u).setValue (-1), s))
      else (pure (genIrNode .Pinteger, s) : Except Err (IrNode × State))) := by
    split
    · refine halts_bind (halts_unaryOp s) ?_
      intro a s1 h1
      exact halts_ok (by omega)
    · exact halts_ok (by omega)
  refine halts_bind hfirst ?_
  intro node s1 h1
  refine halts_bind (halts_terminal _ s1) ?_
  intro number s2 h2
  refine halts_bind_plain (assert_ne_outOfFuel _) ?_
  intro _
  exact halts_ok (by dsimp only; omega)


/-- With three units of fuel a token (and up to three more) the numeric parse functions
do not stop for lack of fuel, and each of them that returns has read a token (a loop:
has not added one). -/
theorem numeric_halts (fuel : Nat) :
    (∀ env s, 3 * s.tokens.length + 3 ≤ fuel →
      Halts s.tokens.length (newtonParseNumericExpression fuel env s)) ∧
    (∀ env l s, 3 * s.tokens.length + 1 ≤ fuel →
      Halts (s.tokens.length + 1) (numericExpressionLoop fuel env l s)) ∧
    (∀ env s, 3 * s.tokens.length + 2 ≤ fuel →
      Halts s.tokens.length (newtonParseNumericTerm fuel env s)) ∧
    (∀ env i s, 3 * s.tokens.length + 1 ≤ fuel →
      Halts (s.tokens.length + 1) (numericTermLoop fuel env i s)) ∧
    (∀ env s, 3 * s.tokens.length + 1 ≤ fuel →
      Halts s.tokens.length (newtonParseNumericFactor fuel env s)) := by
  induction fuel with
  | zero =>
    refine ⟨?_, ?_, ?_, ?_, ?_⟩ <;> intros <;> omega
  | succ f ih =>
    obtain ⟨ihE, ihEL, ihT, ihTL, ihF⟩ := ih
    refine ⟨?_, ?_, ?_, ?_, ?_⟩
    · intro env s hf
      rw [newtonParseNumericExpression]
      split
      · refine halts_bind (ihT env s (by omega)) ?_
        intro leftTerm s1 h1
        exact halts_mono (ihEL env leftTerm s1 (by omega)) (by omega)
      · exact halts_error (by simp)
    · intro env l s hf
      rw [numericExpressionLoop]
      split
      · rename_i hin
        refine halts_bind (halts_lowPrecedenceBinaryOp s hin) ?_
        intro b s1 h1
        dsimp only
        cases b with
        | none => exact halts_error (by simp)
        | some binOp =>
          dsimp only
          refine halts_bind (ihT env s1 (by omega)) ?_
          intro rightTerm s2 h2
          exact halts_mono (ihEL env _ s2 (by omega)) (by omega)
      · exact halts_ok (by omega)
    · intro env s hf
      rw [newtonParseNumericTerm]
      dsimp only
      refine halts_bind (n := s.tokens.length + 1) ?_ ?_
      · split
        · refine halts_bind (halts_unaryOp s) ?_
          intro u s1 h1
          exact halts_ok (by dsimp only; omega)
        · exact halts_ok (by omega)
      · intro intermediate s1 h1
        dsimp only
        refine halts_bind (ihF env s1 (by omega)) ?_
        intro leftFactor s2 h2
        exact halts_mono (ihTL env _ s2 (by omega)) (by omega)
    · intro env i s hf
      rw [numericTermLoop]
      split
      · refine halts_bind (halts_midPrecedenceBinaryOp s) ?_
        intro binOp s1 h1
        dsimp only
        refine halts_bind (ihF env s1 (by omega)) ?_
        intro rightFactor s2 h2
        exact halts_mono (ihTL env _ s2 (by omega)) (by omega)
      · exact halts_ok (by omega)
    · intro env s hf
      rw [newtonParseNumericFactor]
      refine halts_bind (n := s.tokens.length) ?_ ?_
      · split
        · refine halts_bind (halts_identifierUsage env s) ?_
          intro node s1 h1
          dsimp only
          split
          · exact halts_error (by simp)
          · refine halts_bind_plain (assert_ne_outOfFuel _) ?_
            intro _
            exact halts_ok h1
        · split
          · refine halts_bind (halts_terminal _ s) ?_
            intro node s1 h1
            dsimp only
            refine halts_bind_plain (assert_ne_outOfFuel _) ?_
            intro _
            exact halts_ok h1
          · split
            · refine halts_bind (halts_terminal _ s) ?_
              intro lp s1 h1
              dsimp only
              refine halts_bind (ihE env s1 (by omega)) ?_
              intro node s2 h2
              dsimp only
              refine halts_bind (halts_terminal _ s2) ?_
              intro rp s3 h3
              exact halts_ok (by dsimp only; omega)
            · exact halts_error (by simp)
      · intro node s1 h1
        dsimp only
        split
        · refine halts_bind (halts_highPrecedenceBinaryOp s1) ?_
          intro op s2 h2
          dsimp only
          refine halts_bind (n := s2.tokens.length) ?_ ?_
          · split
            · exact ihE env s2 (by omega)
            · exact halts_integer s2
          · intro e s3 h3
            dsimp only
            refine halts_bind_plain (assert_ne_outOfFuel _) ?_
            intro _
            exact halts_ok (by omega)
        · exact halts_ok h1


theorem bind_ne_outOfFuel {α β : Type} {x : Except Err α} {k : α → Except Err β}
    (hx : x ≠ .error .outOfFuel) (hk : ∀ a, k a ≠ .error .outOfFuel) :
    (x >>= k) ≠ .error .outOfFuel := by
  cases x with
  | error e =>
    intro h
    apply hx
    cases h
    rfl
  | ok a => exact hk a

theorem ok_ne_outOfFuel {α : Type} (a : α) :
    (.ok a : Except Err α) ≠ .error .outOfFuel := by
  simp

/-- The parse of an exponent does not stop for lack of fuel and reads a token when it
returns. -/
theorem halts_exponential (fuel : Nat) (env : Env) (baseNode : IrNode) (s : State)
    (hf : 3 * s.tokens.length + 3 ≤ fuel) :
    Halts s.tokens.length (newtonParseExponentialExpression fuel env baseNode s) := by
  unfold newtonParseExponentialExpression
  refine halts_bind (n := s.tokens.length) ?_ ?_
  · split
    · exact (numeric_halts fuel).1 env s hf
    · exact halts_integer s
  · intro exponent s1 h1
    dsimp only
    refine halts_bind_plain (derefPhysics_ne_outOfFuel _) ?_
    intro basePhysics
    split
    · exact halts_ok h1
    · refine halts_bind_plain ?_ ?_
      · simp only [Newton.assert]
        split_ifs <;> simp
      · intro x
        refine halts_bind_plain ?_ ?_
        · simp only [Newton.assert]
          split_ifs <;> simp
        · intro y
          exact halts_ok h1

/-- With three units of fuel a token (and up to three more) the quantity parse functions
do not stop for lack of fuel, and each of them that returns has read a token (a loop:
has not added one). -/
theorem quantity_halts (fuel : Nat) :
    (∀ env s, 3 * s.tokens.length + 3 ≤ fuel →
      Halts s.tokens.length (newtonParseQuantityExpression fuel env s)) ∧
    (∀ env e l s, 3 * s.tokens.length + 1 ≤ fuel →
      Halts (s.tokens.length + 1) (quantityExpressionLoop fuel env e l s)) ∧
    (∀ env s, 3 * s.tokens.length + 2 ≤ fuel →
      Halts s.tokens.length (newtonParseQuantityTerm fuel env s)) ∧
    (∀ env l i p b k s, 3 * s.tokens.length + 1 ≤ fuel →
      Halts (s.tokens.length + 1) (quantityTermLoop fuel env l i p b k s)) ∧
    (∀ env s, 3 * s.tokens.length + 1 ≤ fuel →
      Halts s.tokens.length (newtonParseQuantityFactor fuel env s)) := by
  induction fuel with
  | zero =>
    refine ⟨?_, ?_, ?_, ?_, ?_⟩ <;> intros <;> omega
  | succ f ih =>
    obtain ⟨ihE, ihEL, ihT, ihTL, ihF⟩ := ih
    refine ⟨?_, ?_, ?_, ?_, ?_⟩
    · intro env s hf
      rw [newtonParseQuantityExpression]
      dsimp only
      split
      · refine halts_bind (ihT env ⟨s.tokens, 0⟩ (by dsimp only; omega)) ?_
        intro leftTerm s1 h1
        exact halts_mono (ihEL env _ leftTerm s1 (by dsimp only at h1; omega))
          (by dsimp only at h1; omega)
      · exact halts_error (by simp)
    · intro env e l s hf
      rw [quantityExpressionLoop]
      split
      · rename_i hin
        refine halts_bind (halts_lowPrecedenceBinaryOp s hin) ?_
        intro b s1 h1
        dsimp only
        refine halts_bind (ihT env s1 (by omega)) ?_
        intro rightTerm s2 h2
        dsimp only
        refine halts_bind_plain (derefPhysics_ne_outOfFuel _) ?_
        intro lp
        refine halts_bind_plain (derefPhysics_ne_outOfFuel _) ?_
        intro rp
        refine halts_bind_plain (assert_ne_outOfFuel _) ?_
        intro _
        refine halts_bind_plain (assert_ne_outOfFuel _) ?_
        intro _
        exact halts_mono (ihEL env _ _ s2 (by omega)) (by omega)
      · exact halts_ok (by omega)
    · intro env s hf
      rw [newtonParseQuantityTerm]
      dsimp only
      by_cases hun : inFirst s .PunaryOp = true
      · simp only [hun, if_true, bind_assoc, pure_bind]
        refine halts_bind (halts_unaryOp s) ?_
        intro u s1 h1
        dsimp only
        refine halts_bind (ihF env s1 (by omega)) ?_
        intro leftFactor s2 h2
        dsimp only
        refine halts_bind_plain ?_ ?_
        · split
          · refine bind_ne_outOfFuel (derefPhysics_ne_outOfFuel _) ?_
            intro lp
            dsimp only
            split <;> exact ok_ne_outOfFuel _
          · exact ok_ne_outOfFuel _
        · intro x
          exact halts_mono (ihTL env _ _ _ _ _ s2 (by omega)) (by omega)
      · simp only [hun, if_false, pure_bind, Bool.false_eq_true]
        refine halts_bind (ihF env s (by omega)) ?_
        intro leftFactor s2 h2
        dsimp only
        refine halts_bind_plain ?_ ?_
        · split
          · refine bind_ne_outOfFuel (derefPhysics_ne_outOfFuel _) ?_
            intro lp
            dsimp only
            split <;> exact ok_ne_outOfFuel _
          · exact ok_ne_outOfFuel _
        · intro x
          exact halts_mono (ihTL env _ _ _ _ _ s2 (by omega)) (by omega)
    · intro env l i p b k s hf
      rw [quantityTermLoop]
      split
      · refine halts_bind (halts_midPrecedenceBinaryOp s) ?_
        intro binOp s1 h1
        dsimp only
        refine halts_bind (ihF env s1 (by omega)) ?_
        intro rightFactor s2 h2
        dsimp only
        refine halts_bind_plain ?_ ?_
        · split
          · refine bind_ne_outOfFuel (derefPhysics_ne_outOfFuel _) ?_
            intro rp
            dsimp only
            split
            · refine bind_ne_outOfFuel (assert_ne_outOfFuel _) ?_
              intro _
              exact ok_ne_outOfFuel _
            · exact ok_ne_outOfFuel _
          · exact ok_ne_outOfFuel _
        · intro x
          refine halts_bind_plain ?_ ?_
          · split
            · refine bind_ne_outOfFuel (derefPhysics_ne_outOfFuel _) ?_
              intro rp
              exact ok_ne_outOfFuel _
            · split
              · refine bind_ne_outOfFuel (derefPhysics_ne_outOfFuel _) ?_
                intro rp
                exact ok_ne_outOfFuel _
              · exact ok_ne_outOfFuel _
          · intro y
            exact halts_mono (ihTL env _ _ _ _ _ s2 (by omega)) (by omega)
      · exact halts_ok (by omega)
    · intro env s hf
      rw [newtonParseQuantityFactor]
      refine halts_bind (n := s.tokens.length) ?_ ?_
      · split
        · refine halts_bind (halts_identifierUsage env s) ?_
          intro node s1 h1
          dsimp only
          refine halts_bind_plain (derefPhysics_ne_outOfFuel _) ?_
          intro physics
          split
          · exact halts_error (by simp)
          · split
            · exact halts_ok (by dsimp only; omega)
            · exact halts_ok h1
        · split
          · exact halts_terminal _ s
          · split
            · refine halts_bind (halts_terminal _ s) ?_
              intro lp s1 h1
              dsimp only
              refine halts_bind (ihE env s1 (by omega)) ?_
              intro node s2 h2
              dsimp only
              refine halts_bind (halts_terminal _ s2) ?_
              intro rp s3 h3
              exact halts_ok (by dsimp only; omega)
            · exact halts_error (by simp)
      · intro factor s1 h1
        dsimp only
        split
        · refine halts_bind (halts_highPrecedenceBinaryOp s1) ?_
          intro op s2 h2
          dsimp only
          refine halts_bind (halts_exponential f env _ s2 (by omega)) ?_
          intro e s3 h3
          exact halts_ok (by dsimp only; omega)
        · exact halts_ok h1


/-- The upward `for` loop on the natural number `N`, from `power = k`. -/
theorem exponentForLoop_up (step : Physics → Physics → Physics) (N : ℕ) :
    ∀ (d k passes : ℕ) (b c : Physics) (fuel : ℕ), k + d = N → d < fuel →
      exponentForLoop step (N : ℚ) false fuel (k : ℤ) passes b c
        = some (passes + d, exponentLoop step d b c) := by
  intro d
  induction d with
  | zero =>
    intro k passes b c fuel hk hf
    obtain ⟨f, rfl⟩ : ∃ f, fuel = f + 1 := ⟨fuel - 1, by omega⟩
    have hkN : k = N := by omega
    subst hkN
    simp [exponentForLoop, exponentLoop]
  | succ d ih =>
    intro k passes b c fuel hk hf
    obtain ⟨f, rfl⟩ : ∃ f, fuel = f + 1 := ⟨fuel - 1, by omega⟩
    have hlt : ((k : ℤ) : ℚ) < (N : ℚ) := by
      have : k < N := by omega
      exact_mod_cast this
    have h := ih (k + 1) (passes + 1) (step b c) (deepCopyPhysicsNode c) f (by omega)
      (by omega)
    rw [exponentForLoop]
    simp only [Bool.false_eq_true, if_false, hlt, if_true]
    have hcast : ((k : ℤ) + 1) = ((k + 1 : ℕ) : ℤ) := by push_cast; rfl
    rw [hcast, h, exponentLoop]
    congr 2
    omega

/-- The downward `for` loop on `-N`, from `power = -k`. -/
theorem exponentForLoop_down (step : Physics → Physics → Physics) (N : ℕ) :
    ∀ (d k passes : ℕ) (b c : Physics) (fuel : ℕ), k + d = N → d < fuel →
      exponentForLoop step (-(N : ℚ)) true fuel (-(k : ℤ)) passes b c
        = some (passes + d, exponentLoop step d b c) := by
  intro d
  induction d with
  | zero =>
    intro k passes b c fuel hk hf
    obtain ⟨f, rfl⟩ : ∃ f, fuel = f + 1 := ⟨fuel - 1, by omega⟩
    have hkN : k = N := by omega
    subst hkN
    simp [exponentForLoop, exponentLoop]
  | succ d ih =>
    intro k passes b c fuel hk hf
    obtain ⟨f, rfl⟩ : ∃ f, fuel = f + 1 := ⟨fuel - 1, by omega⟩
    have hlt : ((-(k : ℤ) : ℤ) : ℚ) > -(N : ℚ) := by
      have : (k : ℚ) < (N : ℚ) := by
        have : k < N := by omega
        exact_mod_cast this
      push_cast
      linarith
    have h := ih (k + 1) (passes + 1) (step b c) (deepCopyPhysicsNode c) f (by omega)
      (by omega)
    rw [exponentForLoop]
    simp only [if_true, hlt]
    have hcast : (-(k : ℤ) - 1) = -((k + 1 : ℕ) : ℤ) := by push_cast; ring
    rw [hcast, h, exponentLoop]
    congr 2
    omega

/-- On an integer exponent `n` the `for` loop of `newtonParseExponentialExpression` makes
exactly `|n|` passes and leaves what `exponentLoop` computes. -/
theorem exponentForLoop_integer (step : Physics → Physics → Physics) (n : ℤ) (b c : Physics)
    (fuel : ℕ) (hf : n.natAbs < fuel) :
    exponentForLoop step (n : ℚ) (decide ((n : ℚ) < 0)) fuel 0 0 b c
      = some (n.natAbs, exponentLoop step (truncToInt (n : ℚ)).natAbs b c) := by
  rw [truncToInt_intCast]
  by_cases hn : 0 ≤ n
  · obtain ⟨N, rfl⟩ := Int.eq_ofNat_of_zero_le hn
    have hneg : ¬ (((N : ℤ) : ℚ) < 0) := by simp
    have h := exponentForLoop_up step N N 0 0 b c fuel (by omega) (by simpa using hf)
    rw [decide_eq_false hneg]
    simpa using h
  · obtain ⟨N, hN⟩ : ∃ N : ℕ, n = -(N : ℤ) := ⟨n.natAbs, by omega⟩
    subst hN
    have hneg : ((-(N : ℤ) : ℤ) : ℚ) < 0 := by
      have : (-(N : ℤ)) < 0 := by omega
      exact_mod_cast this
    have h := exponentForLoop_down step N N 0 0 b c fuel (by omega) (by simpa using hf)
    rw [decide_eq_true hneg]
    simpa using h


/-- C31: on every token sequence `s`, with fuel at least three units a token and three
more, `newtonParseQuantityExpression` and `newtonParseNumericExpression` come to an end:
they return a node or end in a fatal error, never stop for lack of fuel, and give the
same result with any larger fuel. Every pass of the `+`/`-` and `*`/`/` loops and every
descent reads at least one token: the operator a loop sees in its first set, the left
parenthesis and the `**` are read by productions that leave fewer tokens, and so do the
term, factor and exponent parsers and the expression parsers themselves when they
return. On an integer exponent `n` each `for` loop of `newtonParseExponentialExpression`
makes exactly `|n|` passes and leaves what the embedding computes with `exponentLoop`. -/
theorem expression_parsers_terminate (env : Env) (s : State) (fuel : Nat)
    (hfuel : 3 * s.tokens.length + 3 ≤ fuel) :
    (newtonParseQuantityExpression fuel env s ≠ .error .outOfFuel ∧
      (∀ fuel', fuel ≤ fuel' →
        newtonParseQuantityExpression fuel' env s = newtonParseQuantityExpression fuel env s) ∧
      (∀ node s', newtonParseQuantityExpression fuel env s = .ok (node, s') →
        s'.tokens.length < s.tokens.length)) ∧
    (newtonParseNumericExpression fuel env s ≠ .error .outOfFuel ∧
      (∀ fuel', fuel ≤ fuel' →
        newtonParseNumericExpression fuel' env s = newtonParseNumericExpression fuel env s) ∧
      (∀ node s', newtonParseNumericExpression fuel env s = .ok (node, s') →
        s'.tokens.length < s.tokens.length)) ∧
    ((inFirst s .PlowPrecedenceBinaryOp = true →
        Halts s.tokens.length (newtonParseLowPrecedenceBinaryOp s)) ∧
      Halts s.tokens.length (newtonParseMidPrecedenceBinaryOp s) ∧
      Halts s.tokens.length (newtonParseTerminal .TleftParen s) ∧
      Halts s.tokens.length (newtonParseHighPrecedenceBinaryOp s) ∧
      Halts s.tokens.length (newtonParseQuantityTerm fuel env s) ∧
      Halts s.tokens.length (newtonParseQuantityFactor fuel env s) ∧
      Halts s.tokens.length (newtonParseNumericTerm fuel env s) ∧
      Halts s.tokens.length (newtonParseNumericFactor fuel env s) ∧
      (∀ baseNode, Halts s.tokens.length
        (newtonParseExponentialExpression fuel env baseNode s))) ∧
    (∀ (step : Physics → Physics → Physics) (n : ℤ) (b c : Physics) (k : ℕ), n.natAbs < k →
      exponentForLoop step (n : ℚ) (decide ((n : ℚ) < 0)) k 0 0 b c
        = some (n.natAbs, exponentLoop step (truncToInt (n : ℚ)).natAbs b c)) := by
  obtain ⟨hQE, -, hQT, -, hQF⟩ := quantity_halts fuel
  obtain ⟨hNE, -, hNT, -, hNF⟩ := numeric_halts fuel
  have hq := hQE env s hfuel
  have hn := hNE env s hfuel
  refine ⟨⟨halts_ne_outOfFuel hq, ?_, ?_⟩, ⟨halts_ne_outOfFuel hn, ?_, ?_⟩, ?_, ?_⟩
  · intro fuel' hle
    exact (quantityExpression_fuel_le hle env s).eq_of_ne (halts_ne_outOfFuel hq)
  · intro node s' h
    exact halts_length_lt hq h
  · intro fuel' hle
    exact (numericExpression_fuel_le hle env s).eq_of_ne (halts_ne_outOfFuel hn)
  · intro node s' h
    exact halts_length_lt hn h
  · exact ⟨halts_lowPrecedenceBinaryOp s, halts_midPrecedenceBinaryOp s, halts_terminal _ s,
      halts_highPrecedenceBinaryOp s, hQT env s (by omega), hQF env s (by omega),
      hNT env s (by omega), hNF env s (by omega),
      fun baseNode => halts_exponential fuel env baseNode s hfuel⟩
  · intro step n b c k hk
    exact exponentForLoop_integer step n b c k hk

/-- C31 at `2 + 3` followed by the end-of-input token, with fuel 15. -/
theorem expression_parsers_terminate_witness :
    newtonParseQuantityExpression 15 exampleEnv
        ⟨[Token.number 2, Token.op .Tplus, Token.number 3, Token.op .Zeof], 0⟩
      ≠ .error .outOfFuel ∧
    newtonParseNumericExpression 15 exampleEnv
        ⟨[Token.number 2, Token.op .Tplus, Token.number 3, Token.op .Zeof], 0⟩
      ≠ .error .outOfFuel :=
  ⟨(expression_parsers_terminate exampleEnv
      ⟨[Token.number 2, Token.op .Tplus, Token.number 3, Token.op .Zeof], 0⟩ 15
      (by decide)).1.1,
   (expression_parsers_terminate exampleEnv
      ⟨[Token.number 2, Token.op .Tplus, Token.number 3, Token.op .Zeof], 0⟩ 15
      (by decide)).2.1.1⟩


/-! ## The vector flag of a vector operator -/

/-- The node `newtonParseVectorOp` returns carries a physics that is not flagged a
vector. -/
theorem vectorOp_isVector (fuel : Nat) (env : Env) (s : State) (node : IrNode) (s' : State)
    (h : newtonParseVectorOp fuel env s = .ok (node, s')) :
    ∃ q, node.physics = some q ∧ q.isVector = false := by
  unfold newtonParseVectorOp at h
  obtain ⟨⟨i, a, s1⟩, -, h⟩ := bind_eq_ok h
  obtain ⟨⟨_, s2⟩, -, h⟩ := bind_eq_ok h
  obtain ⟨⟨left, s3⟩, -, h⟩ := bind_eq_ok h
  obtain ⟨lp, -, h⟩ := bind_eq_ok h
  obtain ⟨⟨_, s4⟩, -, h⟩ := bind_eq_ok h
  obtain ⟨⟨right, s5⟩, -, h⟩ := bind_eq_ok h
  obtain ⟨rp, -, h⟩ := bind_eq_ok h
  obtain ⟨_, -, h⟩ := bind_eq_ok h
  obtain ⟨ph, hph, h⟩ := bind_eq_ok h
  obtain ⟨⟨_, s6⟩, -, h⟩ := bind_eq_ok h
  simp only [pure_eq_ok, Except.ok.injEq, Prod.mk.injEq] at h
  refine ⟨ph, by rw [← h.1]; simp, ?_⟩
  by_cases ha : a = true
  · rw [if_pos ha] at hph
    cases hrad : env.currentScope.dimensionForIdentifier "rad" with
    | none =>
      rw [hrad] at hph
      cases hph
    | some angle =>
      rw [hrad] at hph
      simp only [pure_eq_ok, Except.ok.injEq] at hph
      rw [← hph]
      simp [newtonPhysicsAddDenominatorDimension, callocPhysics]
  · rw [if_neg ha] at hph
    simp only [pure_eq_ok, Except.ok.injEq] at hph
    rw [← hph]
    simp [callocPhysics]

/-- C32: on `dot(l, r)` and on `cross(l, r)` with both operand expressions vectors (and
`rad` in the dimension table for `cross`), `newtonParseVectorOp` returns a node whose
physics has the vector flag clear, so that the test a quantity term applies to a factor,
`isPhysics && physics->isVector`, does not count it as a vector. More generally, whatever
the input, a node `newtonParseVectorOp` returns has a physics with the vector flag
clear. -/
theorem vectorOp_result_not_vector (fuel : Nat) (env : Env) (op lp comma rp : Token)
    (ts ts2 rest : List Token) (pn n1 n2 : Nat) (left right : IrNode) (l r : Physics)
    (angle : Dimension)
    (hop : op.type = .Tdot ∨ op.type = .Tcross) (hlp : lp.type = .TleftParen)
    (hcomma : comma.type = .Tcomma) (hrp : rp.type = .TrightParen)
    (hleft : newtonParseQuantityExpression fuel env ⟨ts, pn⟩ = .ok (left, ⟨comma :: ts2, n1⟩))
    (hright : newtonParseQuantityExpression fuel env ⟨ts2, n1⟩
      = .ok (right, ⟨rp :: rest, n2⟩))
    (hl : left.physics = some l) (hr : right.physics = some r)
    (hvec : l.isVector = true ∧ r.isVector = true)
    (hrad : op.type = .Tcross → env.currentScope.dimensionForIdentifier "rad" = some angle) :
    (∃ node q, newtonParseVectorOp fuel env ⟨op :: lp :: ts, pn⟩ = .ok (node, ⟨rest, n2⟩) ∧
      node.physics = some q ∧ q.isVector = false ∧
      (∀ isPhysics, factorIsVector isPhysics node = false)) ∧
    (∀ (s : State) (node : IrNode) (s' : State),
      newtonParseVectorOp fuel env s = .ok (node, s') →
      ∃ q, node.physics = some q ∧ q.isVector = false) := by
  refine ⟨?_, fun s node s' h => vectorOp_isVector fuel env s node s' h⟩
  obtain ⟨i, hi⟩ := vectorOp_unfold fuel env op lp comma ts ts2 pn n1 left right _ l r hop hlp
    hcomma hleft hright hl hr
  rw [if_pos hvec] at hi
  have hret : ∃ node, newtonParseVectorOp fuel env ⟨op :: lp :: ts, pn⟩
      = .ok (node, ⟨rest, n2⟩) := by
    by_cases hc : op.type = .Tcross
    · rw [if_pos hc, hrad hc] at hi
      rw [hi]
      simp [newtonParseTerminal, hrp]
    · rw [if_neg hc] at hi
      rw [hi]
      simp [newtonParseTerminal, hrp]
  obtain ⟨node, hnode⟩ := hret
  obtain ⟨q, hq, hqv⟩ := vectorOp_isVector fuel env _ node _ hnode
  refine ⟨node, q, hnode, hq, hqv, ?_⟩
  intro isPhysics
  simp [factorIsVector, hq, hqv]

/-- C32 at `cross(velocity, velocity)`, `velocity` being a vector. -/
theorem vectorOp_result_not_vector_witness :
    ∃ node q, newtonParseVectorOp 4 vectorEnv
        ⟨[Token.op .Tcross, Token.op .TleftParen, Token.ident "velocity", Token.op .Tcomma,
          Token.ident "velocity", Token.op .TrightParen], 0⟩ = .ok (node, ⟨[], 1⟩) ∧
      node.physics = some q ∧ q.isVector = false ∧
      (∀ isPhysics, factorIsVector isPhysics node = false) :=
  (vectorOp_result_not_vector 4 vectorEnv (Token.op .Tcross) (Token.op .TleftParen)
    (Token.op .Tcomma) (Token.op .TrightParen)
    [Token.ident "velocity", Token.op .Tcomma, Token.ident "velocity", Token.op .TrightParen]
    [Token.ident "velocity", Token.op .TrightParen] [] 0 _ _ _ _ _ _ radian
    (Or.inr rfl) rfl rfl rfl rfl rfl rfl rfl ⟨rfl, rfl⟩ (fun _ => rfl)).1


/-! ## Exponents on a dimensionless base -/

/-- C33: let the physics `p` of the base node have no numerator and no denominator
dimension, its counts agreeing with its empty lists, and let the exponent operand parse
to a value `v` other than 0, integer or not. Then `newtonParseExponentialExpression`
returns without a fatal error: the base node gets a physics without dimensions (both
prime products 1) whose value is `pow(p.value, v)`, the flags being those of `p`. -/
theorem exponentialExpression_dimensionless (fuel : Nat) (env : Env) (baseNode : IrNode)
    (p : Physics) (s : State) (v : ℚ)
    (hbase : baseNode.physics = some p)
    (hnum : p.numeratorDimensions = []) (hden : p.denominatorDimensions = [])
    (hcn : p.numberOfNumerators ≤ p.numeratorDimensions.length)
    (hcd : p.numberOfDenominators ≤ p.denominatorDimensions.length)
    (hexp : resultValue (if peekCheck s .TleftParen then newtonParseNumericExpression fuel env s
      else newtonParseInteger s) = some v)
    (hne : v ≠ 0) :
    ∃ exponent q s',
      newtonParseExponentialExpression fuel env baseNode s
        = .ok ((exponent, baseNode.setPhysics (some q)), s') ∧
      exponent.value = v ∧
      q.numeratorDimensions = [] ∧ q.denominatorDimensions = [] ∧
      q.numeratorPrimeProduct = 1 ∧ q.denominatorPrimeProduct = 1 ∧
      q.value = env.pow p.value v ∧ q.isVector = p.isVector ∧ q.isConstant = p.isConstant := by
  obtain ⟨exponent, s', hparse, hval⟩ := resultValue_eq_some hexp
  have h1 : p.numberOfNumerators = 0 := by
    rw [hnum] at hcn
    simpa using hcn
  have h2 : p.numberOfDenominators = 0 := by
    rw [hden] at hcd
    simpa using hcd
  refine ⟨exponent, { shallowCopyPhysicsNode p with value := env.pow p.value v }, s', ?_, hval,
    rfl, rfl, rfl, rfl, rfl, rfl, rfl⟩
  unfold newtonParseExponentialExpression
  rw [hparse]
  simp [derefPhysics, hbase, h1, h2, shallowCopyPhysicsNode, hval, hne]

/-- C33 at the exponent `(1 / 2)` on a dimensionless constant of value 2. -/
theorem exponentialExpression_dimensionless_witness :
    ∃ exponent q s',
      newtonParseExponentialExpression 8 exampleEnv
        ((genIrNode .Tidentifier).setPhysics (some (Physics.ofDimensions [] [] false true 2)))
        ⟨[Token.op .TleftParen, Token.number 1, Token.op .Tdiv, Token.number 2,
          Token.op .TrightParen], 0⟩
        = .ok ((exponent, ((genIrNode .Tidentifier).setPhysics
            (some (Physics.ofDimensions [] [] false true 2))).setPhysics (some q)), s') ∧
      exponent.value = 1 / 2 ∧
      q.numeratorDimensions = [] ∧ q.denominatorDimensions = [] ∧
      q.numeratorPrimeProduct = 1 ∧ q.denominatorPrimeProduct = 1 ∧
      q.value = exampleEnv.pow (Physics.ofDimensions [] [] false true 2).value (1 / 2) ∧
      q.isVector = (Physics.ofDimensions [] [] false true 2).isVector ∧
      q.isConstant = (Physics.ofDimensions [] [] false true 2).isConstant :=
  exponentialExpression_dimensionless 8 exampleEnv _
    (Physics.ofDimensions [] [] false true 2) _ (1 / 2) rfl rfl rfl (by decide) (by decide)
    (by decide!) (by norm_num)

/-! ## The store -/

theorem store_readPhysics_some (m : Store.Machine) (a : Nat) (p : Physics)
    (h : m.heap[a]? = some p) : Store.readPhysics m (some a) = .ok p := by
  simp [Store.readPhysics, h]

@[simp] theorem storeNode_value_mk (t v p n s c) : (Store.Node.mk t v p n s c).value = v := rfl

@[simp] theorem storeNode_addLeaf_physics (a b : Store.Node) :
    (Store.addLeaf a b).physics = a.physics := by
  cases a; rfl

@[simp] theorem storeNode_addLeaf_value (a b : Store.Node) :
    (Store.addLeaf a b).value = a.value := by
  cases a; rfl

@[simp] theorem storeNode_addLeafWithChainingSeq_physics (a b : Store.Node) :
    (Store.addLeafWithChainingSeq a b).physics = a.physics := by
  cases a; rfl

@[simp] theorem storeNode_addLeafWithChainingSeq_value (a b : Store.Node) :
    (Store.addLeafWithChainingSeq a b).value = a.value := by
  cases a; rfl

@[simp] theorem storeNode_setValue_physics (a : Store.Node) (v : ℚ) :
    (a.setValue v).physics = a.physics := by
  cases a; rfl

@[simp] theorem storeNode_setValue_value (a : Store.Node) (v : ℚ) :
    (a.setValue v).value = v := by
  cases a; rfl

@[simp] theorem storeNode_setPhysics_value (a : Store.Node) (p : Option Nat) :
    (a.setPhysics p).value = a.value := by
  cases a; rfl

@[simp] theorem storeNode_setParameterNumber_physics (a : Store.Node) (k : Nat) :
    (a.setParameterNumber k).physics = a.physics := by
  cases a; rfl

@[simp] theorem storeNode_setParameterNumber_value (a : Store.Node) (k : Nat) :
    (a.setParameterNumber k).value = a.value := by
  cases a; rfl

@[simp] theorem storeNode_children_mk (t v p n s c) :
    (Store.Node.mk t v p n s c).children = c := rfl

@[simp] theorem storeNode_addLeaf_children (a b : Store.Node) :
    (Store.addLeaf a b).children = a.children ++ [b] := by
  cases a; rfl

@[simp] theorem storeNode_addLeafWithChainingSeq_children (a b : Store.Node) :
    (Store.addLeafWithChainingSeq a b).children = a.children ++ [b] := by
  cases a; rfl

@[simp] theorem storeNode_setValue_children (a : Store.Node) (v : ℚ) :
    (a.setValue v).children = a.children := by
  cases a; rfl

@[simp] theorem storeNode_setPhysics_children (a : Store.Node) (p : Option Nat) :
    (a.setPhysics p).children = a.children := by
  cases a; rfl

end Newton
